import Mathlib

/-!
# Plan-to-behavior-tree compiler of `plansys2_executor`

A shallow embedding of `BTBuilder.cpp` (namespace `plansys2`) and of the parts of
`plansys2_pddl_parser/Tree.h` (namespace `parser::pddl::tree`) that it uses, together with the
text form of a predicate (`Predicate::toString`, `Predicate::fromString`) and the collectors
`getPredicates` of the node classes.

Conventions of the embedding.

* C++ `int` values (level times, unit times) are `Int`; the plan never makes them overflow
  unless an item time is outside the range of `int`, which is undefined behaviour of the
  cast `static_cast<int>(item.time)` and is outside the model.
* A `float`/`double` value is a rational number (`ℚ`); only the truncating cast to `int` is
  ever applied to one.
* `std::shared_ptr` links between action units, requirements and effects are positions in the
  level vector: a unit is `(level index, index in the level)`, a requirement or an effect is a
  unit together with an index in its `reqs` / `effects` vector.  The back pointer `action` of a
  requirement or effect is the unit component of its position.
* Reading through a null pointer or past the end of a vector is `none` (`Option`).
* The recursion of `get_flow_tree` is driven by fuel; `none` stands for a recursion that did
  not finish within the fuel.
-/

namespace parser.pddl.tree

/-- The node kinds, `NodeType` of `Tree.h`. -/
inductive NodeType where
  | AND | OR | NOT | ACTION | PREDICATE | FUNCTION | EXPRESSION | FUNCTION_MODIFIER
  | NUMBER | UNKNOWN
  deriving DecidableEq, Repr

/-- The expression kinds, `ExprType` of `Tree.h`. -/
inductive ExprType where
  | COMP_GE | COMP_GT | COMP_LE | COMP_LT | ARITH_MULT | ARITH_DIV | UNKNOWN_EXPR_TYPE
  deriving DecidableEq, Repr

/-- The function modifier kinds, `FunModType` of `Tree.h`. -/
inductive FunModType where
  | ASSIGN | INCREASE | DECREASE | SCALE_UP | SCALE_DOWN | UNKNOWN_FUN_MOD_TYPE
  deriving DecidableEq, Repr

/-- A parameter: `struct Param`. -/
structure Param where
  name : String
  type : String
  subTypes : List String
  deriving DecidableEq, Repr

/-- A PDDL predicate: `class Predicate` (data members). -/
structure Predicate where
  name : String
  parameters : List Param
  deriving DecidableEq, Repr

/-- A PDDL function: `class Function` (data members). -/
structure Function where
  name : String
  parameters : List Param
  value : ℚ
  deriving DecidableEq, Repr

/-- The tree nodes: the subclasses of `TreeNode` declared in `Tree.h`.  The member `type_` is
fixed by the constructor of each subclass, so it is a function of the constructor here
(`TreeNode.type_`).  Child pointers are taken to be non-null. -/
inductive TreeNode where
  | AndNode (ops : List TreeNode)
  | OrNode (ops : List TreeNode)
  | NotNode (op : TreeNode)
  | ActionNode (pre : List TreeNode) (eff : List TreeNode)
  | PredicateNode (predicate_ : Predicate)
  | FunctionNode (function_ : Function)
  | ExpressionNode (expr_type : ExprType) (ops : List TreeNode)
  | FunctionModifierNode (modifier_type : FunModType) (ops : List TreeNode)
  | NumberNode (value_ : ℚ)

/-- The member `type_`, as set by the constructor of each node class. -/
def TreeNode.type_ : TreeNode → NodeType
  | .AndNode _ => .AND
  | .OrNode _ => .OR
  | .NotNode _ => .NOT
  | .ActionNode _ _ => .ACTION
  | .PredicateNode _ => .PREDICATE
  | .FunctionNode _ => .FUNCTION
  | .ExpressionNode _ _ => .EXPRESSION
  | .FunctionModifierNode _ _ => .FUNCTION_MODIFIER
  | .NumberNode _ => .NUMBER

/-- A `PredicateTree`: the pointer `root_`, null for the empty tree. -/
structure PredicateTree where
  root_ : Option TreeNode

/-- A temporal action: `struct DurativeAction`. -/
structure DurativeAction where
  name : String
  parameters : List Param
  at_start_requirements : PredicateTree
  over_all_requirements : PredicateTree
  at_end_requirements : PredicateTree
  at_start_effects : PredicateTree
  at_end_effects : PredicateTree

mutual
/-- The virtual method `getPredicates(predicates, only_positives)` of the node classes: the
vector `predicates` after the call. -/
def TreeNode.getPredicates : TreeNode → List Predicate → Bool → List Predicate
  | .AndNode ops, predicates, only_positives =>
    getPredicates_loop ops predicates only_positives
  | .OrNode ops, predicates, only_positives =>
    getPredicates_loop ops predicates only_positives
  | .NotNode op, predicates, only_positives => op.getPredicates predicates only_positives
  | .ActionNode pre eff, predicates, only_positives =>
    getPredicates_loop eff (getPredicates_loop pre predicates only_positives) only_positives
  | .PredicateNode predicate_, predicates, _ => predicates ++ [predicate_]
  | .FunctionNode _, predicates, _ => predicates
  | .ExpressionNode _ _, predicates, _ => predicates
  | .FunctionModifierNode _ _, predicates, _ => predicates
  | .NumberNode _, predicates, _ => predicates
/-- The loop `for (auto op : ops) op->getPredicates(predicates, only_positives)`. -/
def getPredicates_loop : List TreeNode → List Predicate → Bool → List Predicate
  | [], predicates, _ => predicates
  | op :: ops, predicates, only_positives =>
    getPredicates_loop ops (op.getPredicates predicates only_positives) only_positives
end

/-- The method `PredicateTree::getPredicates`: nothing is appended for the empty tree. -/
def PredicateTree.getPredicates (tree : PredicateTree) (predicates : List Predicate)
    (only_positives : Bool) : List Predicate :=
  match tree.root_ with
  | some root => root.getPredicates predicates only_positives
  | none => predicates

/-- The method `Predicate::toString`. -/
def Predicate.toString (p : Predicate) : String :=
  let ret := "(" ++ p.name
  let ret := p.parameters.foldl (fun ret param => ret ++ (" " ++ param.name)) ret
  ret ++ ")"

/-- The index of the first occurrence of a character in a list, if there is one. -/
def find_char (c : Char) : List Char → Option Nat
  | [] => none
  | x :: xs => if x = c then some 0 else (find_char c xs).map (fun i => i + 1)

/-- The call `s.find(" ", pos)` of `std::string`, on the characters of `s`: the index of the
first space at or after `pos`; `none` stands for `npos`. -/
def find (s : List Char) (pos : Nat) : Option Nat :=
  (find_char ' ' (s.drop pos)).map (fun i => pos + i)

/-- The loop of `Predicate::fromString` that cuts the text at the spaces: the vector `tokens`
at the end of the loop.  The first argument is the fuel, one unit per iteration. -/
def fromString_loop (predicate : List Char) :
    Nat → Nat → List (List Char) → Option (List (List Char))
  | 0, _, _ => none
  | fuel + 1, start, tokens =>
    match find predicate start with
    | none => some (tokens ++ [predicate.drop start])
    | some pos_end =>
      fromString_loop predicate fuel (pos_end + 1)
        (tokens ++ [(predicate.drop start).take (pos_end - start)])

/-- The statement `tokens.back().pop_back()`: `none` when the vector or its last string is
empty. -/
def pop_back_last : List (List Char) → Option (List (List Char))
  | [] => none
  | [token] => if token = [] then none else some [token.dropLast]
  | token :: tokens => (pop_back_last tokens).map (fun rest => token :: rest)

/-- The method `Predicate::fromString` applied to the object `self`: the object after the
call.  The loop gets one unit of fuel per character and one more. -/
def Predicate.fromString (self : Predicate) (predicate : String) : Option Predicate :=
  match fromString_loop predicate.data (predicate.data.length + 1) 0 [] with
  | some (first :: rest) =>
    let first := first.drop 1
    let name := String.mk first
    match pop_back_last (first :: rest) with
    | some tokens =>
      some
        { name := name
          parameters := self.parameters ++
            (tokens.drop 1).map (fun token => { name := String.mk token, type := "", subTypes := [] }) }
    | none => none
  | _ => none

/-- The constructor `Predicate(const std::string &)`: `fromString` on a fresh object. -/
def Predicate.ofString (predicate : String) : Option Predicate :=
  Predicate.fromString { name := "", parameters := [] } predicate

end parser.pddl.tree

namespace plansys2

open parser.pddl.tree

/-- The decimal text of an `int`, `std::to_string(int)`. -/
def to_string : Int → String
  | Int.ofNat n => Nat.repr n
  | Int.negSucc n => "-" ++ Nat.repr (n + 1)

/-- Indentation, `BTBuilder::t`: the loop appends two spaces `level` times. -/
def t : Nat → String
  | 0 => ""
  | n + 1 => t n ++ "  "

/-- The execution block of one action, `BTBuilder::execution_block`. -/
def execution_block (action : String) (plan_time : Int) (l : Nat) : String :=
  let ret := ""
  let ret := ret ++ t l ++ "<Sequence name=\"" ++ action ++ ":" ++
    to_string plan_time ++ "\">\n"
  let ret := ret ++ t (l + 1) ++ "<WaitAtStartReq action=\"" ++ action ++ ":" ++
    to_string plan_time ++ "\"/>\n"
  let ret := ret ++ t (l + 1) ++ "<ApplyAtStartEffect action=\"" ++ action ++ ":" ++
    to_string plan_time ++ "\"/>\n"
  let ret := ret ++ t (l + 1) ++ "<Parallel success_threshold=\"2\" failure_threshold=\"1\">\n"
  let ret := ret ++ t (l + 2) ++ "<CheckOverAllReq action=\"" ++ action ++ ":" ++
    to_string plan_time ++ "\"/>\n"
  let ret := ret ++ t (l + 2) ++ "<ExecuteAction action=\"" ++ action ++ ":" ++
    to_string plan_time ++ "\"/>\n"
  let ret := ret ++ t (l + 1) ++ "</Parallel>\n"
  let ret := ret ++ t (l + 1) ++ "<CheckAtEndReq action=\"" ++ action ++ ":" ++
    to_string plan_time ++ "\"/>\n"
  let ret := ret ++ t (l + 1) ++ "<ApplyAtEndEffect action=\"" ++ action ++ ":" ++
    to_string plan_time ++ "\"/>\n"
  let ret := ret ++ t l ++ "</Sequence>\n"
  ret

/-! ## The working structures of `BTBuilder` -/

/-- One item of the plan: `(time, action, duration)`. -/
structure PlanItem where
  time : ℚ
  action : String
  duration : ℚ

/-- A plan: the ordered sequence of its items. -/
abbrev Plan := List PlanItem

/-- A pointer to an action unit: the index of its level and its index in the level. -/
structure UnitRef where
  level : Nat
  index : Nat
  deriving DecidableEq, Repr

/-- A pointer to a requirement: its unit (the member `action`) and its index in `reqs`. -/
structure ReqRef where
  action : UnitRef
  index : Nat
  deriving DecidableEq, Repr

/-- A pointer to an effect: its unit (the member `action`) and its index in `effects`. -/
structure EffRef where
  action : UnitRef
  index : Nat
  deriving DecidableEq, Repr

/-- A requirement of a unit: `struct RequirementConnection`. -/
structure RequirementConnection where
  requirement : TreeNode
  satisfied : Bool
  effect_connections : List EffRef

/-- An effect of a unit: `struct EffectConnection`. -/
structure EffectConnection where
  effect : TreeNode
  requirement_connections : List ReqRef

/-- One scheduled action: `struct ActionUnit`. -/
structure ActionUnit where
  action : String
  time : Int
  reqs : List RequirementConnection
  effects : List EffectConnection

/-- A time level: `struct ExecutionLevel`. -/
structure ExecutionLevel where
  time : Int
  action_units : List ActionUnit

/-- The vector of levels that `get_tree` works on. -/
abbrev Levels := List ExecutionLevel

/-- The code called by `BTBuilder` whose definition lies outside `BTBuilder.cpp` and `Tree.h`:
the two comparison operators that `Tree.h` declares as friends, and the two knowledge-source
queries (`get_action_from_string` through `domain_client_`, which yields a null pointer for an
action it does not know, and `check` through `problem_client_`). -/
structure Env where
  predicate_eq : Predicate → Predicate → Bool
  function_eq : Function → Function → Bool
  get_action_from_string : String → Option DurativeAction
  check : TreeNode → Bool × ℚ

/-- The unit a pointer refers to, if the position exists. -/
def get_unit (levels : Levels) (u : UnitRef) : Option ActionUnit :=
  match levels[u.level]? with
  | some lv => lv.action_units[u.index]?
  | none => none

/-- The requirement a pointer refers to, if the position exists. -/
def get_req (levels : Levels) (r : ReqRef) : Option RequirementConnection :=
  match get_unit levels r.action with
  | some unit => unit.reqs[r.index]?
  | none => none

/-- The effect a pointer refers to, if the position exists. -/
def get_effect (levels : Levels) (e : EffRef) : Option EffectConnection :=
  match get_unit levels e.action with
  | some unit => unit.effects[e.index]?
  | none => none

/-- In-place update of the unit at a position. -/
def modify_unit (levels : Levels) (u : UnitRef) (f : ActionUnit → ActionUnit) : Levels :=
  List.modify (fun lv => { lv with action_units := List.modify f u.index lv.action_units })
    u.level levels

/-- In-place update of the requirement at a position. -/
def modify_req (levels : Levels) (r : ReqRef)
    (f : RequirementConnection → RequirementConnection) : Levels :=
  modify_unit levels r.action (fun unit => { unit with reqs := List.modify f r.index unit.reqs })

/-- In-place update of the effect at a position. -/
def modify_effect (levels : Levels) (e : EffRef)
    (f : EffectConnection → EffectConnection) : Levels :=
  modify_unit levels e.action
    (fun unit => { unit with effects := List.modify f e.index unit.effects })

/-- The unit behind a pointer held in a set or a connection list.  Such a pointer always refers
to a unit of the level vector; a position outside it stands for no object of the program and
reads as a unit with empty name, time 0 and no requirement or effect. -/
def unit_at (levels : Levels) (u : UnitRef) : ActionUnit :=
  (get_unit levels u).getD { action := "", time := 0, reqs := [], effects := [] }

/-! ## Ordering of action units and `std::set` -/

/-- The text `action + ":" + std::to_string(time)` built by `operator<`. -/
def ActionUnit.key (unit : ActionUnit) : String :=
  unit.action ++ ":" ++ to_string unit.time

/-- Comparison of `std::string`: lexicographic on the characters. -/
def string_lt (a b : String) : Bool :=
  decide (a.data < b.data)

/-- The `operator<` on `ActionUnit::Ptr`. -/
def unit_lt (levels : Levels) (op1 op2 : UnitRef) : Bool :=
  let op1_str := (unit_at levels op1).action ++ ":" ++ to_string (unit_at levels op1).time
  let op2_str := (unit_at levels op2).action ++ ":" ++ to_string (unit_at levels op2).time
  string_lt op1_str op2_str

/-- Insertion into a `std::set`, held as the list of its elements in increasing order: an
element equivalent to one already present (neither less than the other) is not inserted. -/
def set_insert {α : Type} (lt : α → α → Bool) : List α → α → List α
  | [], x => [x]
  | y :: ys, x =>
    if lt x y then x :: y :: ys
    else if lt y x then y :: set_insert lt ys x
    else y :: ys

/-! ## Graph accessors -/

/-- The predecessors of a unit, `BTBuilder::pred`. -/
def pred (levels : Levels) (action_unit : UnitRef) : List UnitRef :=
  (unit_at levels action_unit).reqs.foldl
    (fun deps req =>
      req.effect_connections.foldl
        (fun deps effect_con => set_insert (unit_lt levels) deps effect_con.action) deps)
    []

/-- The successors of a unit, `BTBuilder::succ`. -/
def succ (levels : Levels) (action_unit : UnitRef) : List UnitRef :=
  (unit_at levels action_unit).effects.foldl
    (fun deps effect =>
      effect.requirement_connections.foldl
        (fun deps req_con => set_insert (unit_lt levels) deps req_con.action) deps)
    []

/-- The fan-in of a unit, `BTBuilder::in_cardinality`. -/
def in_cardinality (levels : Levels) (action_unit : UnitRef) : Nat :=
  (pred levels action_unit).length

/-- The fan-out of a unit, `BTBuilder::out_cardinality`. -/
def out_cardinality (levels : Levels) (action_unit : UnitRef) : Nat :=
  (succ levels action_unit).length

/-! ## The dependency resolver -/

/-- The cast `std::dynamic_pointer_cast<FunctionNode>(ops[0])` followed by the read of
`function_`: `none` when `ops` is empty or its first element is not a function node. -/
def first_function (ops : List TreeNode) : Option Function :=
  match ops[0]? with
  | some (TreeNode.FunctionNode function_) => some function_
  | _ => none

/-- The operands of a node seen through `dynamic_pointer_cast<ExpressionNode>`. -/
def as_expression_node : TreeNode → Option (List TreeNode)
  | TreeNode.ExpressionNode _ ops => some ops
  | _ => none

/-- The operands of a node seen through `dynamic_pointer_cast<FunctionModifierNode>`. -/
def as_function_modifier_node : TreeNode → Option (List TreeNode)
  | TreeNode.FunctionModifierNode _ ops => some ops
  | _ => none

/-- The predicate of a node seen through `dynamic_pointer_cast<PredicateNode>`. -/
def as_predicate_node : TreeNode → Option Predicate
  | TreeNode.PredicateNode predicate_ => some predicate_
  | _ => none

/-- The test made by `check_connections` on one requirement and one effect (the two branches
of the innermost `if`): `some true` when the pair is to be linked, `none` when the test reads a
missing operand or a failed cast. -/
def connects (E : Env) (requirement effect : TreeNode) : Option Bool :=
  if requirement.type_ = NodeType.EXPRESSION ∧ effect.type_ = NodeType.FUNCTION_MODIFIER then
    match as_expression_node requirement, as_function_modifier_node effect with
    | some req_ops, some eff_ops =>
      match first_function req_ops, first_function eff_ops with
      | some req_function, some eff_function => some (E.function_eq req_function eff_function)
      | _, _ => none
    | _, _ => none
  else if requirement.type_ = NodeType.PREDICATE ∧ effect.type_ = NodeType.PREDICATE then
    match as_predicate_node requirement, as_predicate_node effect with
    | some req_predicate, some eff_predicate => some (E.predicate_eq req_predicate eff_predicate)
    | _, _ => none
  else
    some false

/-- The three statements run on a match: `req->satisfied = true`, the effect is appended to
`req->effect_connections`, the requirement to `effect->requirement_connections`. -/
def connect (levels : Levels) (req : ReqRef) (effect : EffRef) : Levels :=
  let levels := modify_req levels req (fun r => { r with satisfied := true })
  let levels := modify_req levels req
    (fun r => { r with effect_connections := r.effect_connections ++ [effect] })
  modify_effect levels effect
    (fun e => { e with requirement_connections := e.requirement_connections ++ [req] })

/-- The body of the innermost loop of `check_connections` for one requirement and one effect. -/
def check_effect (E : Env) (req : ReqRef) (levels : Levels) (effect : EffRef) :
    Option Levels :=
  match get_req levels req, get_effect levels effect with
  | some r, some e =>
    match connects E r.requirement e.effect with
    | some true => some (connect levels req effect)
    | some false => some levels
    | none => none
  | _, _ => none

/-- The loop over the effects of one unit of the upper level. -/
def check_up_unit (E : Env) (req : ReqRef) (levels : Levels) (up_action_unit : UnitRef) :
    Option Levels :=
  match get_unit levels up_action_unit with
  | some unit =>
    (List.range unit.effects.length).foldlM
      (fun levels i => check_effect E req levels ⟨up_action_unit, i⟩) levels
  | none => none

/-- The body of the loop over the requirements of the lower level: a requirement that is not
satisfied is tested against every effect of every unit of the upper level. -/
def check_req (E : Env) (up : Nat) (levels : Levels) (req : ReqRef) : Option Levels :=
  match get_req levels req, levels[up]? with
  | some r, some up_level =>
    if !r.satisfied then
      (List.range up_level.action_units.length).foldlM
        (fun levels i => check_up_unit E req levels ⟨up, i⟩) levels
    else
      some levels
  | _, _ => none

/-- The loop over the requirements of one unit of the lower level. -/
def check_down_unit (E : Env) (up : Nat) (levels : Levels) (down_action_unit : UnitRef) :
    Option Levels :=
  match get_unit levels down_action_unit with
  | some unit =>
    (List.range unit.reqs.length).foldlM
      (fun levels i => check_req E up levels ⟨down_action_unit, i⟩) levels
  | none => none

/-- The resolver step `BTBuilder::check_connections(levels[up], levels[down])`. -/
def check_connections (E : Env) (levels : Levels) (up down : Nat) : Option Levels :=
  match levels[down]? with
  | some down_level =>
    (List.range down_level.action_units.length).foldlM
      (fun levels i => check_down_unit E up levels ⟨down, i⟩) levels
  | none => none

/-- Whether every requirement of a level is satisfied, `BTBuilder::level_satisfied`. -/
def level_satisfied (level : ExecutionLevel) : Bool :=
  level.action_units.foldl
    (fun ret action_unit => action_unit.reqs.foldl (fun ret req => ret && req.satisfied) ret)
    true

/-- The `while` loop of `get_tree` for the level `i`; the counter is `level_comp + 1`, so the
loop ends at counter 0 (`level_comp < 0`) or when the level is satisfied. -/
def sweep_level (E : Env) (i : Nat) : Nat → Levels → Option Levels
  | 0, levels => some levels
  | level_comp + 1, levels =>
    match levels[i]? with
    | some level =>
      if !level_satisfied level then
        match check_connections E levels level_comp i with
        | some levels => sweep_level E i level_comp levels
        | none => none
      else
        some levels
    | none => none

/-- The first loop of `get_tree`, over the indices `i = 1, ..., levels.size() - 1`. -/
def sweep (E : Env) (levels : Levels) : Option Levels :=
  (List.range (levels.length - 1)).foldlM
    (fun levels k => sweep_level E (k + 1) (k + 1) levels) levels

/-- The fallback on one requirement: one not satisfied is given the first component of
`check`.  The second component lists the requirement the knowledge source was asked about. -/
def fallback_req (E : Env) (req : RequirementConnection) :
    RequirementConnection × List TreeNode :=
  if !req.satisfied then
    ({ req with satisfied := (E.check req.requirement).1 }, [req.requirement])
  else
    (req, [])

/-- The fallback loop over the requirements of one unit, with the queries made. -/
def fallback_reqs (E : Env) :
    List RequirementConnection → List RequirementConnection × List TreeNode
  | [] => ([], [])
  | req :: rest =>
    let r := fallback_req E req
    let rs := fallback_reqs E rest
    (r.1 :: rs.1, r.2 ++ rs.2)

/-- The fallback loop over the units of one level, with the queries made. -/
def fallback_units (E : Env) : List ActionUnit → List ActionUnit × List TreeNode
  | [] => ([], [])
  | action_unit :: rest =>
    let r := fallback_reqs E action_unit.reqs
    let rs := fallback_units E rest
    ({ action_unit with reqs := r.1 } :: rs.1, r.2 ++ rs.2)

/-- The second loop of `get_tree`: the levels after the fallback, and the requirements the
knowledge source was asked about, in the order of the calls. -/
def fallback (E : Env) : Levels → Levels × List TreeNode
  | [] => ([], [])
  | level :: rest =>
    let r := fallback_units E level.action_units
    let rs := fallback E rest
    ({ level with action_units := r.1 } :: rs.1, r.2 ++ rs.2)

/-! ## The tree synthesizer -/

/-- The loop that appends one `WaitAction` line per element of `pred(root_flow)`. -/
def wait_actions (levels : Levels) (l : Nat) (ret : String) (preds : List UnitRef) : String :=
  preds.foldl
    (fun ret action =>
      ret ++ t (l + 1) ++ "<WaitAction action=\"" ++ (unit_at levels action).action ++ ":" ++
        to_string (unit_at levels action).time ++ "\"/>\n")
    ret

/-- The recursive emission `BTBuilder::get_flow_tree(root_flow, used_actions, level)`: the text
and the set `used_actions` after the call.  The first argument is the fuel: each nested call
uses one unit of it, and `none` is a recursion deeper than the fuel. -/
def get_flow_tree (levels : Levels) :
    Nat → UnitRef → List UnitRef → Nat → Option (String × List UnitRef)
  | 0, _, _, _ => none
  | fuel + 1, root_flow, used_actions, level =>
    let l := level
    let unit := unit_at levels root_flow
    let ret := ""
    let used_actions := set_insert (unit_lt levels) used_actions root_flow
    let ret :=
      if out_cardinality levels root_flow = 0 then
        if in_cardinality levels root_flow > 1 then
          let ret := t l ++ "<Sequence name=\"" ++ unit.action ++ ":" ++
            to_string unit.time ++ "\">\n"
          let ret := wait_actions levels l ret (pred levels root_flow)
          ret ++ execution_block unit.action unit.time (l + 1) ++ t l ++ "</Sequence>\n"
        else
          execution_block unit.action unit.time l
      else ret
    let second : Option (String × List UnitRef) :=
      if out_cardinality levels root_flow = 1 then
        let ret := t l ++ "<Sequence name=\"" ++ unit.action ++ ":" ++
          to_string unit.time ++ "\">\n"
        let ret :=
          if in_cardinality levels root_flow > 1 then
            wait_actions levels l ret (pred levels root_flow)
          else ret
        match (succ levels root_flow).head? with
        | some first =>
          match get_flow_tree levels fuel first used_actions (l + 1) with
          | some sub =>
            some (ret ++ execution_block unit.action unit.time (l + 1) ++ sub.1 ++
              t l ++ "</Sequence>\n", sub.2)
          | none => none
        | none => none
      else some (ret, used_actions)
    match second with
    | none => none
    | some (ret, used_actions) =>
      if out_cardinality levels root_flow > 1 then
        let ret := t l ++ "<Sequence name=\"" ++ unit.action ++ ":" ++
          to_string unit.time ++ "\">\n"
        let ret :=
          if in_cardinality levels root_flow > 1 then
            wait_actions levels l ret (pred levels root_flow)
          else ret
        let ret := ret ++ execution_block unit.action unit.time (l + 1) ++
          t (l + 1) ++ "<Parallel success_threshold=\"" ++
          to_string ((succ levels root_flow).length : Nat) ++
          "\"  failure_threshold=\"1\">\n"
        match (succ levels root_flow).foldlM
            (fun (acc : String × List UnitRef) action =>
              (get_flow_tree levels fuel action acc.2 (l + 2)).map
                (fun sub => (acc.1 ++ sub.1, sub.2)))
            (ret, used_actions) with
        | some (ret, used_actions) =>
          let ret := ret ++ t (l + 1) ++ "</Parallel>\n"
          let ret := ret ++ t l ++ "</Sequence>\n"
          some (ret, used_actions)
        | none => none
      else some (ret, used_actions)

/-! ## The level builder -/

/-- The cast `static_cast<int>(item.time)`: truncation toward zero. -/
def static_cast_int (x : ℚ) : Int :=
  Int.tdiv x.num x.den

/-- The operands read through `std::dynamic_pointer_cast<AndNode>(tree.root_)`: `none` when the
cast yields a null pointer (the root is null or is not an `AndNode`). -/
def and_node_ops (tree : PredicateTree) : Option (List TreeNode) :=
  match tree.root_ with
  | some (TreeNode.AndNode ops) => some ops
  | _ => none

/-- The `std::copy` guarded by `if (node)`: the operands are appended when the cast succeeded. -/
def copy_ops (node : Option (List TreeNode)) (out : List TreeNode) : List TreeNode :=
  match node with
  | some ops => out ++ ops
  | none => out

/-- The action unit built for one plan item in the body of the loop of `get_plan_actions`;
`none` when `get_action_from_string` yields a null pointer, which the code dereferences.  The
members `satisfied` start as `false`. -/
def make_action_unit (E : Env) (item : PlanItem) (time : Int) : Option ActionUnit :=
  match E.get_action_from_string item.action with
  | none => none
  | some dur_action =>
    let at_start_requirements := and_node_ops dur_action.at_start_requirements
    let over_all_requirements := and_node_ops dur_action.over_all_requirements
    let at_end_requirements := and_node_ops dur_action.at_end_requirements
    let requirements : List TreeNode := []
    let requirements := copy_ops at_start_requirements requirements
    let requirements := copy_ops over_all_requirements requirements
    let requirements := copy_ops at_end_requirements requirements
    let at_start_effects := and_node_ops dur_action.at_start_effects
    let at_end_effects := and_node_ops dur_action.at_end_effects
    let effects : List TreeNode := []
    let effects := copy_ops at_start_effects effects
    let effects := copy_ops at_end_effects effects
    some
      { action := item.action
        time := time
        reqs := requirements.map
          (fun requirement =>
            { requirement := requirement, satisfied := false, effect_connections := [] })
        effects := effects.map
          (fun effect => { effect := effect, requirement_connections := [] }) }

/-- The variables of the loop of `get_plan_actions`: the vector `ret` is `front` followed by
the level `current_level` points to, which is always its last element. -/
structure PlanLoop where
  front : Levels
  current_level : ExecutionLevel
  last_time : Int

/-- One iteration of the loop of `get_plan_actions`. -/
def plan_step (E : Env) (st : PlanLoop) (item : PlanItem) : Option PlanLoop :=
  let time := static_cast_int item.time
  let st : PlanLoop :=
    if time > st.last_time then
      { front := st.front ++ [st.current_level]
        current_level := { time := time, action_units := [] }
        last_time := time }
    else st
  match make_action_unit E item st.current_level.time with
  | some action_unit =>
    some { st with
      current_level :=
        { st.current_level with
          action_units := st.current_level.action_units ++ [action_unit] } }
  | none => none

/-- The level builder `BTBuilder::get_plan_actions`.  The first level is created before the
loop and its time is 0. -/
def get_plan_actions (E : Env) (plan : Plan) : Option Levels :=
  match plan.foldlM (plan_step E)
      { front := [], current_level := { time := 0, action_units := [] }, last_time := 0 } with
  | some st => some (st.front ++ [st.current_level])
  | none => none

/-! ## `get_tree` -/

/-- The pointers to all units, level by level and in the order of each level: the order in
which the nested loops of `get_tree` visit them. -/
def unit_refs (levels : Levels) : List UnitRef :=
  (List.range levels.length).flatMap
    (fun i =>
      match levels[i]? with
      | some level => (List.range level.action_units.length).map (fun k => ⟨i, k⟩)
      | none => [])

/-- The counter `root_counters` of `get_tree`: the number of units with fan-in 0. -/
def root_counters (levels : Levels) : Nat :=
  (unit_refs levels).foldl
    (fun counter action_unit =>
      if in_cardinality levels action_unit = 0 then counter + 1 else counter)
    0

/-- The loop of `get_tree` that appends `get_flow_tree(action_unit, used_actions, level)`, with
a fresh empty set `used_actions`, for each unit with fan-in 0. -/
def flow_roots (levels : Levels) (fuel level : Nat) (bt_plan : String) : Option String :=
  (unit_refs levels).foldlM
    (fun bt_plan action_unit =>
      if in_cardinality levels action_unit = 0 then
        (get_flow_tree levels fuel action_unit [] level).map (fun sub => bt_plan ++ sub.1)
      else some bt_plan)
    bt_plan

/-- The last part of `get_tree`: the text for resolved levels.  The recursion of
`get_flow_tree` gets as much fuel as there are levels. -/
def build_tree (levels : Levels) : Option String :=
  if root_counters levels > 1 then
    let bt_plan := "<root main_tree_to_execute=\"MainTree\">\n" ++
      t 1 ++ "<BehaviorTree ID=\"MainTree\">\n" ++
      t 2 ++ "<Parallel success_threshold=\"" ++ to_string (root_counters levels : Nat) ++
      "\" failure_threshold=\"1\">\n"
    match flow_roots levels levels.length 3 bt_plan with
    | some bt_plan =>
      some (bt_plan ++ t 2 ++ "</Parallel>\n" ++ t 1 ++ "</BehaviorTree>\n</root>\n")
    | none => none
  else
    let bt_plan := "<root main_tree_to_execute=\"MainTree\">\n" ++
      t 1 ++ "<BehaviorTree ID=\"MainTree\">\n"
    match flow_roots levels levels.length 2 bt_plan with
    | some bt_plan => some (bt_plan ++ t 1 ++ "</BehaviorTree>\n</root>\n")
    | none => none

/-- The levels at the end of the two resolution passes of `get_tree`, with the list of the
requirements the knowledge source was asked to evaluate. -/
def resolve (E : Env) (current_plan : Plan) : Option (Levels × List TreeNode) :=
  match get_plan_actions E current_plan with
  | some levels =>
    match sweep E levels with
    | some levels => some (fallback E levels)
    | none => none
  | none => none

/-- The compiler `BTBuilder::get_tree`. -/
def get_tree (E : Env) (current_plan : Plan) : Option String :=
  match resolve E current_plan with
  | some resolved => build_tree resolved.1
  | none => none

/-! ## Vocabulary of the statements

Read-only views of the level vector, used to state and prove the properties below.  None of
them is part of the program. -/

/-- The condition node of the requirement behind a pointer. -/
def req_node (levels : Levels) (r : ReqRef) : Option TreeNode :=
  (get_req levels r).map (fun req => req.requirement)

/-- The node of the effect behind a pointer. -/
def effect_node (levels : Levels) (e : EffRef) : Option TreeNode :=
  (get_effect levels e).map (fun effect => effect.effect)

/-- The time and the number of units of a level. -/
def level_shape (levels : Levels) (i : Nat) : Option (Int × Nat) :=
  levels[i]?.map (fun level => (level.time, level.action_units.length))

/-- The name, the time and the numbers of requirements and effects of a unit. -/
def unit_shape (levels : Levels) (u : UnitRef) : Option (String × Int × Nat × Nat) :=
  (get_unit levels u).map
    (fun unit => (unit.action, unit.time, unit.reqs.length, unit.effects.length))

/-- Two level vectors hold the same units with the same conditions: they differ at most in the
members changed by the resolver (`satisfied` and the two connection lists). -/
structure SameShape (L L' : Levels) : Prop where
  length : L.length = L'.length
  level : ∀ i, level_shape L i = level_shape L' i
  unit : ∀ u, unit_shape L u = unit_shape L' u
  req : ∀ r, req_node L r = req_node L' r
  effect : ∀ e, effect_node L e = effect_node L' e

/-- The number of units of the level `i` (0 when there is no such level). -/
def n_units (levels : Levels) (i : Nat) : Nat :=
  match level_shape levels i with
  | some s => s.2
  | none => 0

/-- The number of requirements of a unit (0 when there is no such unit). -/
def n_reqs (levels : Levels) (u : UnitRef) : Nat :=
  match unit_shape levels u with
  | some s => s.2.2.1
  | none => 0

/-- The number of effects of a unit (0 when there is no such unit). -/
def n_effects (levels : Levels) (u : UnitRef) : Nat :=
  match unit_shape levels u with
  | some s => s.2.2.2
  | none => 0

/-- The pointers to the units of the level `i`, in the order of the level. -/
def level_units (levels : Levels) (i : Nat) : List UnitRef :=
  (List.range (n_units levels i)).map (fun k => ⟨i, k⟩)

/-- The pointers to the requirements of a unit, in order. -/
def unit_reqs (levels : Levels) (u : UnitRef) : List ReqRef :=
  (List.range (n_reqs levels u)).map (fun m => ⟨u, m⟩)

/-- The pointers to the effects of a unit, in order. -/
def unit_effects (levels : Levels) (u : UnitRef) : List EffRef :=
  (List.range (n_effects levels u)).map (fun m => ⟨u, m⟩)

/-- The pointers to the requirements of the level `i`: unit by unit, in order. -/
def req_refs (levels : Levels) (i : Nat) : List ReqRef :=
  (level_units levels i).flatMap (unit_reqs levels)

/-- The pointers to the effects of the level `i`: unit by unit, in order. -/
def eff_refs (levels : Levels) (i : Nat) : List EffRef :=
  (level_units levels i).flatMap (unit_effects levels)

/-- The test of `check_connections` on the requirement and the effect behind two pointers. -/
def links (E : Env) (levels : Levels) (r : ReqRef) (e : EffRef) : Option Bool :=
  match req_node levels r, effect_node levels e with
  | some requirement, some effect => connects E requirement effect
  | _, _ => none

/-- The effects of a list that the test links to a requirement, in the order of the list;
`none` when one of the tests has no result. -/
def select_links (E : Env) (levels : Levels) (r : ReqRef) : List EffRef → Option (List EffRef)
  | [] => some []
  | e :: es =>
    match links E levels r e, select_links E levels r es with
    | some b, some rest => some (if b then e :: rest else rest)
    | _, _ => none

/-- The pairs linked by one call `check_connections(levels[up], ...)` for a list of requirements
of the lower level: each requirement not yet satisfied with each effect of the upper level that
the test links to it, in the order in which the loops meet them. -/
def conn_pairs (E : Env) (levels : Levels) (up : Nat) :
    List ReqRef → Option (List (ReqRef × EffRef))
  | [] => some []
  | r :: rs =>
    match get_req levels r with
    | none => none
    | some req =>
      if req.satisfied then conn_pairs E levels up rs
      else
        match select_links E levels r (eff_refs levels up), conn_pairs E levels up rs with
        | some es, some rest => some (es.map (fun e => (r, e)) ++ rest)
        | _, _ => none

/-- The level vector after linking a list of pairs one after the other. -/
def connect_all (levels : Levels) (pairs : List (ReqRef × EffRef)) : Levels :=
  pairs.foldl (fun levels p => connect levels p.1 p.2) levels

/-- The matching rule between the requirement and the effect behind two pointers: the test of
`check_connections` has a result and the result is to link them. -/
def linked (E : Env) (levels : Levels) (r : ReqRef) (e : EffRef) : Bool :=
  match links E levels r e with
  | some b => b
  | none => false

/-- The effects of the level `j` that match a requirement, in the order of the level. -/
def level_links (E : Env) (levels : Levels) (r : ReqRef) (j : Nat) : List EffRef :=
  (eff_refs levels j).filter (linked E levels r)

/-- Whether a pointer refers to a requirement whose member `satisfied` is false. -/
def unsat (levels : Levels) (r : ReqRef) : Bool :=
  match get_req levels r with
  | some req => !req.satisfied
  | none => false

/-- The matching effects of the nearest level that has one, among the levels `c, ..., k - 1`
searched downward from `k - 1`; empty when none of these levels has a matching effect. -/
def nearest_from (E : Env) (levels : Levels) (r : ReqRef) (c : Nat) : Nat → List EffRef
  | 0 => []
  | j + 1 =>
    if j < c then []
    else if (level_links E levels r j).isEmpty then nearest_from E levels r c j
    else level_links E levels r j

/-- The matching effects of the nearest earlier level that has one. -/
def nearest (E : Env) (levels : Levels) (r : ReqRef) : List EffRef :=
  nearest_from E levels r 0 r.action.level

/-- A level vector as `get_plan_actions` builds it: no requirement is satisfied and no
connection list has an element. -/
def Fresh (L : Levels) : Prop :=
  (∀ r q, get_req L r = some q → q.satisfied = false ∧ q.effect_connections = []) ∧
  (∀ e x, get_effect L e = some x → x.requirement_connections = [])

/-- The level vector `L` is the fresh vector `L0` with the producer list `prod r` written in
every requirement `r` (satisfied exactly when the list is not empty) and the consumer list
`cons e` written in every effect `e`. -/
structure Resolved (L0 L : Levels) (prod : ReqRef → List EffRef)
    (cons : EffRef → List ReqRef) : Prop where
  shape : SameShape L0 L
  req : ∀ r, get_req L r = (get_req L0 r).map (fun q =>
    { q with satisfied := !(prod r).isEmpty, effect_connections := prod r })
  effect : ∀ e, get_effect L e = (get_effect L0 e).map (fun x =>
    { x with requirement_connections := cons e })

/-- The producer list of a requirement while the sweep is at the level `i` with the levels
`c, ..., i - 1` already compared with it. -/
def prod_at (E : Env) (L : Levels) (i c : Nat) (r : ReqRef) : List EffRef :=
  if r.action.level < i then nearest E L r
  else if r.action.level = i then nearest_from E L r c i
  else []

/-- The requirements of the levels below `i` that have the effect `e` among their nearest
matching effects, level by level and in the order of each level. -/
def consumers_upto (E : Env) (L : Levels) (e : EffRef) (i : Nat) : List ReqRef :=
  (List.range i).flatMap
    (fun k => (req_refs L k).filter (fun r => decide (e ∈ nearest E L r)))

/-- The consumer list of an effect while the sweep is at the level `i` with the levels
`c, ..., i - 1` already compared with it. -/
def cons_at (E : Env) (L : Levels) (i c : Nat) (e : EffRef) : List ReqRef :=
  consumers_upto E L e i ++
    (req_refs L i).filter (fun r => decide (e ∈ nearest_from E L r c i))

/-- The requirements that have the effect `e` among their nearest matching effects. -/
def consumers_of (E : Env) (L : Levels) (e : EffRef) : List ReqRef :=
  consumers_upto E L e L.length

/-- Every test that `check_connections` can make on a requirement and an effect of the level
vector has a result: none reads a missing operand or a failed cast. -/
def Defined (E : Env) (L : Levels) : Prop :=
  ∀ r e, (get_req L r).isSome → (get_effect L e).isSome → (links E L r e).isSome

/-! ## The output format in the words of the specification -/

/-- Indentation of two spaces per nesting depth. -/
def spec_indent (d : Nat) : String :=
  String.mk (List.replicate (2 * d) ' ')

/-- One line of the document at the depth `d`, ended by a newline. -/
def spec_line (d : Nat) (text : String) : String :=
  spec_indent d ++ text ++ "\n"

/-- The identity `"<action>:<time>"` of an action, with the time as a plain integer. -/
def spec_key (a : String) (T : Int) : String :=
  a ++ ":" ++ to_string T

/-- The ten lines of the execution block of the action `a` at the time `T` and the depth `l`,
as the specification lists them. -/
def spec_execution_block (a : String) (T : Int) (l : Nat) : String :=
  String.join
    [ spec_line l ("<Sequence name=\"" ++ spec_key a T ++ "\">"),
      spec_line (l + 1) ("<WaitAtStartReq action=\"" ++ spec_key a T ++ "\"/>"),
      spec_line (l + 1) ("<ApplyAtStartEffect action=\"" ++ spec_key a T ++ "\"/>"),
      spec_line (l + 1) "<Parallel success_threshold=\"2\" failure_threshold=\"1\">",
      spec_line (l + 2) ("<CheckOverAllReq action=\"" ++ spec_key a T ++ "\"/>"),
      spec_line (l + 2) ("<ExecuteAction action=\"" ++ spec_key a T ++ "\"/>"),
      spec_line (l + 1) "</Parallel>",
      spec_line (l + 1) ("<CheckAtEndReq action=\"" ++ spec_key a T ++ "\"/>"),
      spec_line (l + 1) ("<ApplyAtEndEffect action=\"" ++ spec_key a T ++ "\"/>"),
      spec_line l "</Sequence>" ]

/-- The identity `"<action>:<time>"` of the unit behind a pointer. -/
def unit_key (levels : Levels) (u : UnitRef) : String :=
  spec_key (unit_at levels u).action (unit_at levels u).time

/-- The line that opens the sequence of a unit. -/
def spec_sequence_open (levels : Levels) (n : UnitRef) (l : Nat) : String :=
  spec_line l ("<Sequence name=\"" ++ unit_key levels n ++ "\">")

/-- One `WaitAction` line per unit of a list, in the order of the list. -/
def spec_wait_lines (levels : Levels) (preds : List UnitRef) (l : Nat) : String :=
  String.join
    (preds.map (fun p => spec_line l ("<WaitAction action=\"" ++ unit_key levels p ++ "\"/>")))

/-- The execution block of the unit behind a pointer. -/
def unit_block (levels : Levels) (n : UnitRef) (l : Nat) : String :=
  spec_execution_block (unit_at levels n).action (unit_at levels n).time l

/-- Modelled from the spec: `operator==(const Predicate &, const Predicate &)`, which `Tree.h`
declares as a friend of `Predicate` and which is defined outside the sources.  The spec gives
the predicate name as the key that the matching rule compares. -/
def predicate_key_eq (op1 op2 : Predicate) : Bool :=
  decide (op1.name = op2.name)

/-- Modelled from the spec: `operator==(const Function &, const Function &)`, which `Tree.h`
declares as a friend of `Function` and which is defined outside the sources.  The spec gives
the function name as the key that the matching rule compares. -/
def function_key_eq (op1 op2 : Function) : Bool :=
  decide (op1.name = op2.name)

/-- The environment whose comparison operators are the ones modelled from the spec. -/
def key_env (get_action_from_string : String → Option DurativeAction)
    (check : TreeNode → Bool × ℚ) : Env :=
  { predicate_eq := predicate_key_eq
    function_eq := function_key_eq
    get_action_from_string := get_action_from_string
    check := check }

/-- The identifying key of a condition in the words of the spec: the predicate name of a
predicate, the name of the function a numeric comparison or a function modifier works on. -/
def node_key : TreeNode → Option String
  | TreeNode.PredicateNode predicate_ => some predicate_.name
  | TreeNode.ExpressionNode _ ops => (first_function ops).map (fun f => f.name)
  | TreeNode.FunctionModifierNode _ ops => (first_function ops).map (fun f => f.name)
  | _ => none

/-- The vector `ret` of `get_plan_actions` in a state of its loop. -/
def plan_levels (st : PlanLoop) : Levels :=
  st.front ++ [st.current_level]

/-- The running maximum of the truncated times of the items `0, ..., k` of a list, starting
from `t0`: the time of the level that the item `k` is placed in. -/
def run_time (t0 : Int) (items : List PlanItem) (k : Nat) : Int :=
  ((items.take (k + 1)).map (fun item => static_cast_int item.time)).foldl max t0

/-- A level vector as the level builder makes it: every unit is the one `make_action_unit`
builds for its action name at the time of its level, and the level times increase strictly. -/
def Built (E : Env) (L : Levels) : Prop :=
  (∀ (i : Nat) (lv : ExecutionLevel), L[i]? = some lv → ∀ x ∈ lv.action_units,
    make_action_unit E { time := 0, action := x.action, duration := 0 } lv.time = some x) ∧
  L.Pairwise (fun a b => a.time < b.time)

/-- The facts kept by the loop of `get_plan_actions`: the time of the current level is
`last_time`, and the vector built so far is as the level builder makes it. -/
structure PlanInv (E : Env) (st : PlanLoop) : Prop where
  time_eq : st.current_level.time = st.last_time
  built : Built E (plan_levels st)

/-- The conditions of the requirements whose member `satisfied` is false, level by level, unit
by unit and in the order of each unit. -/
def unsatisfied_conditions (L : Levels) : List TreeNode :=
  L.flatMap (fun level =>
    level.action_units.flatMap (fun action_unit =>
      (action_unit.reqs.filter (fun req => !req.satisfied)).map (fun req => req.requirement)))

/-- The value of a decimal digit character. -/
def digit_value (c : Char) : Nat :=
  c.toNat - 48

/-- The number that a list of decimal digits writes. -/
def decode_digits (cs : List Char) : Nat :=
  cs.foldl (fun acc c => 10 * acc + digit_value c) 0

/-- Edge symmetry: an effect occurs in the producer list of a requirement exactly as often as
the requirement occurs in the consumer list of the effect, and at most once. -/
def EdgeSymmetric (L : Levels) : Prop :=
  ∀ r e q x, get_req L r = some q → get_effect L e = some x →
    q.effect_connections.count e = x.requirement_connections.count r ∧
      q.effect_connections.count e ≤ 1

/-- A requirement that is not satisfied has no producer. -/
def UnsatisfiedUnlinked (L : Levels) : Prop :=
  ∀ r q, get_req L r = some q → q.satisfied = false → q.effect_connections = []

/-- The level vector at the end of the two resolution passes for some plan: the fallback of a
swept vector of the level builder. -/
structure Final (E : Env) (L : Levels) : Prop where
  fresh : ∃ L0 Ls, Built E L0 ∧ L0 ≠ [] ∧ Resolved L0 Ls (nearest E L0) (consumers_of E L0) ∧
    L = (fallback E Ls).1

/-- Membership in a `std::set` of units: the set holds an element equivalent to the unit, that
is, one with the same identity `action:time`. -/
def in_set (L : Levels) (A : UnitRef) (s : List UnitRef) : Prop :=
  ∃ A' ∈ s, unit_key L A' = unit_key L A

/-- The text of `get_flow_tree(n, used_actions, l)` for a fresh empty set `used_actions`, as
`get_tree` calls it on each root. -/
def flow_text (L : Levels) (fuel : Nat) (n : UnitRef) (l : Nat) : Option String :=
  (get_flow_tree L fuel n [] l).map Prod.fst

/-- The line that opens the parallel block of the successors of a unit, as the code writes it
(with two spaces before `failure_threshold`). -/
def successors_open (N l : Nat) : String :=
  t l ++ "<Parallel success_threshold=\"" ++ to_string (N : Nat) ++
    "\"  failure_threshold=\"1\">\n"

/-- The text emitted for a unit before the texts of its successors, when it has at least one:
the opening `Sequence` line, the `WaitAction` lines when the fan-in exceeds 1, and the
execution block one level deeper. -/
def flow_head (L : Levels) (n : UnitRef) (l : Nat) : String :=
  spec_sequence_open L n l ++
    (if in_cardinality L n > 1 then spec_wait_lines L (pred L n) (l + 1) else "") ++
    execution_block (unit_at L n).action (unit_at L n).time (l + 1)

/-- A text that is empty or ends with a newline. -/
def LineEnd (s : String) : Prop :=
  s = "" ∨ ∃ p, s = p ++ "\n"

/-- The text `part` occurs in `text` and starts at the beginning of a line. -/
def Sub (part text : String) : Prop :=
  ∃ pre post, text = pre ++ part ++ post ∧ LineEnd pre

/-- The text has a line `<ExecuteAction action="k"/>` at some depth. -/
def HasExec (text k : String) : Prop :=
  ∃ d, Sub (spec_line d ("<ExecuteAction action=\"" ++ k ++ "\"/>")) text

/-- The identity `k` is the one of the unit `n` or of a unit reached from `n` by following
elements of `succ`. -/
inductive Reaches (L : Levels) : UnitRef → String → Prop where
  | self (n : UnitRef) : Reaches L n (unit_key L n)
  | step (n s : UnitRef) (k : String) : s ∈ succ L n → Reaches L s k → Reaches L n k

/-- The units with fan-in 0, in the order in which `get_tree` visits them. -/
def roots (L : Levels) : List UnitRef :=
  (unit_refs L).filter (fun u => decide (in_cardinality L u = 0))

/-- The document that the specification describes for `K` roots whose subtrees have the texts
`subs`: two header lines, the subtrees (inside one `Parallel` block at depth 2 when `K > 1`),
and the closing lines. -/
def spec_document (K : Nat) (subs : List String) : String :=
  spec_line 0 "<root main_tree_to_execute=\"MainTree\">" ++
    spec_line 1 "<BehaviorTree ID=\"MainTree\">" ++
    (if K > 1 then
      spec_line 2 ("<Parallel success_threshold=\"" ++ to_string (K : Nat) ++
        "\" failure_threshold=\"1\">") ++ String.join subs ++ spec_line 2 "</Parallel>"
    else String.join subs) ++
    spec_line 1 "</BehaviorTree>" ++ spec_line 0 "</root>"

/-- The depth at which `get_tree` emits the roots when there are `K` of them. -/
def root_depth (K : Nat) : Nat :=
  if K > 1 then 3 else 2

/-- The action units of a level vector, level by level and in the order of each level. -/
def all_units (L : Levels) : List ActionUnit :=
  L.flatMap (fun level => level.action_units)

/-- The running maximum, initially 0, of the truncated times of the items of a list. -/
def running_max (items : List PlanItem) : Int :=
  (items.map (fun item => static_cast_int item.time)).foldl max 0

/-- Every test that the sweep can make has a result: the tests on a requirement and an effect
of an earlier level. -/
def DefinedBelow (E : Env) (L : Levels) : Prop :=
  ∀ r e, (get_req L r).isSome → (get_effect L e).isSome →
    e.action.level < r.action.level → (links E L r e).isSome

/-- No requirement matches an effect of an earlier level. -/
def NoLinks (E : Env) (L : Levels) : Prop :=
  ∀ r e, (get_req L r).isSome → (get_effect L e).isSome →
    e.action.level < r.action.level → linked E L r e = false

/-- The text that opens the `Sequence` of the unit `n` when its predecessors are `p` and `q`, in
this order: the `Sequence` line at the depth `l`, the two `WaitAction` lines and the execution
block of `n` one level deeper. -/
def join_head (L : Levels) (n p q : UnitRef) (l : Nat) : String :=
  spec_line l ("<Sequence name=\"" ++ unit_key L n ++ "\">") ++
    spec_line (l + 1) ("<WaitAction action=\"" ++ unit_key L p ++ "\"/>") ++
    spec_line (l + 1) ("<WaitAction action=\"" ++ unit_key L q ++ "\"/>") ++
    execution_block (unit_at L n).action (unit_at L n).time (l + 1)

/-- The shape of the level list of the level builder: a first level with the time 0, followed
by levels that hold at least one unit each. -/
def LevelsShape (L : Levels) : Prop :=
  ∃ first rest, L = first :: rest ∧ first.time = 0 ∧ ∀ lv ∈ rest, lv.action_units ≠ []

/-- The identities `action:time` of the units that own the effects in the producer lists of
the requirements of a unit, in the order of the lists. -/
def producer_keys (L : Levels) (u : UnitRef) : List String :=
  (unit_at L u).reqs.flatMap (fun q => q.effect_connections.map (fun e => unit_key L e.action))

/-- The identities `action:time` of the units that own the requirements in the consumer lists
of the effects of a unit, in the order of the lists. -/
def consumer_keys (L : Levels) (u : UnitRef) : List String :=
  (unit_at L u).effects.flatMap
    (fun x => x.requirement_connections.map (fun r => unit_key L r.action))

/-- The conditions that a condition tree holds: the operands of the conjunction at its root,
the root itself when it is not a conjunction, nothing for the empty tree. -/
def tree_conditions (tree : PredicateTree) : List TreeNode :=
  match tree.root_ with
  | none => []
  | some (TreeNode.AndNode ops) => ops
  | some node => [node]

/-- Whether a condition tree is empty or has a conjunction at its root. -/
def is_conjunction (tree : PredicateTree) : Bool :=
  match tree.root_ with
  | none => true
  | some (TreeNode.AndNode _) => true
  | some _ => false

/-- The effects that were appended to the producer list of a requirement between the level
vectors `L` and `L'`. -/
def added_producers (L L' : Levels) (r : ReqRef) : List EffRef :=
  match get_req L r, get_req L' r with
  | some q, some q' => q'.effect_connections.drop q.effect_connections.length
  | _, _ => []

/-- The requirements that were appended to the consumer list of an effect between the level
vectors `L` and `L'`. -/
def added_consumers (L L' : Levels) (e : EffRef) : List ReqRef :=
  match get_effect L e, get_effect L' e with
  | some x, some x' => x'.requirement_connections.drop x.requirement_connections.length
  | _, _ => []

/-- The level vector `L2` holds, in the level `down`, the requirements of the level `down` of
`L1` in another arrangement, and in the level `up` the effects of the level `up` of `L1` in
another arrangement: `ρ` and `ε` send each requirement and each effect to its place in `L2`,
where it has the same condition (and the same flag `satisfied`). -/
structure Rearranged (L1 L2 : Levels) (up down : Nat) (ρ : ReqRef → ReqRef)
    (ε : EffRef → EffRef) : Prop where
  length : L2.length = L1.length
  reqs : ((req_refs L1 down).map ρ).Perm (req_refs L2 down)
  effects : ((eff_refs L1 up).map ε).Perm (eff_refs L2 up)
  req_node : ∀ r ∈ req_refs L1 down, req_node L2 (ρ r) = req_node L1 r
  req_unsat : ∀ r ∈ req_refs L1 down, unsat L2 (ρ r) = unsat L1 r
  effect_node : ∀ e ∈ eff_refs L1 up, effect_node L2 (ε e) = effect_node L1 e

/-- The tags of the lines that open no block. -/
def leaf_tags : List String :=
  ["WaitAction", "WaitAtStartReq", "ApplyAtStartEffect", "CheckOverAllReq", "ExecuteAction",
    "CheckAtEndReq", "ApplyAtEndEffect"]

/-- The text of one element of the document at the nesting depth `d`, over the identities `K`:
a self-closing leaf line, or the opening line of a `Sequence` or of a `Parallel`, the texts of
its children, each an element at the depth `d + 1`, and the closing line of the same tag; every
line is indented by `2 * d` spaces (`spec_line`). -/
inductive Element (K : String → Prop) : Nat → String → Prop where
  | leaf (d : Nat) (tag k : String) (htag : tag ∈ leaf_tags) (hk : K k) :
      Element K d (spec_line d ("<" ++ tag ++ " action=\"" ++ k ++ "\"/>"))
  | sequence (d : Nat) (k : String) (children : List String) (hk : K k)
      (h : ∀ c ∈ children, Element K (d + 1) c) :
      Element K d (spec_line d ("<Sequence name=\"" ++ k ++ "\">") ++ String.join children ++
        spec_line d "</Sequence>")
  | parallel (d n : Nat) (gap : String) (children : List String)
      (hgap : gap = " " ∨ gap = "  ") (h : ∀ c ∈ children, Element K (d + 1) c) :
      Element K d (spec_line d ("<Parallel success_threshold=\"" ++ to_string (n : Nat) ++
        "\"" ++ gap ++ "failure_threshold=\"1\">") ++ String.join children ++
        spec_line d "</Parallel>")

/-- A well nested document: the `root` block at the depth 0 holds the `BehaviorTree` block at
the depth 1, which holds elements at the depth 2. -/
def WellNested (K : String → Prop) (text : String) : Prop :=
  ∃ children : List String, (∀ c ∈ children, Element K 2 c) ∧
    text = spec_line 0 "<root main_tree_to_execute=\"MainTree\">" ++
      spec_line 1 "<BehaviorTree ID=\"MainTree\">" ++ String.join children ++
      spec_line 1 "</BehaviorTree>" ++ spec_line 0 "</root>"

/-- The identities `"<action>:<integer>"` over the action names of a plan. -/
def plan_key (plan : Plan) (k : String) : Prop :=
  ∃ item ∈ plan, ∃ T : Int, k = spec_key item.action T

/-- Whether a list of operands has a first element and that element is a function node. -/
def starts_with_function : List TreeNode → Bool
  | TreeNode.FunctionNode _ :: _ => true
  | _ => false

/-- The precondition on a requirement: a numeric expression has a function node as its first
operand. -/
def requirement_operand_ok : TreeNode → Bool
  | TreeNode.ExpressionNode _ ops => starts_with_function ops
  | _ => true

/-- The precondition on an effect: a function modifier has a function node as its first
operand. -/
def effect_operand_ok : TreeNode → Bool
  | TreeNode.FunctionModifierNode _ ops => starts_with_function ops
  | _ => true

/-- The precondition on a level vector: every numeric-expression requirement and every
function-modifier effect of every unit has a function node as its first operand. -/
def operands_present (L : Levels) : Bool :=
  L.all (fun level =>
    level.action_units.all (fun unit =>
      unit.reqs.all (fun req => requirement_operand_ok req.requirement) &&
        unit.effects.all (fun effect => effect_operand_ok effect.effect)))

/-- The text of one element of the document at the nesting depth `d` in which every `Parallel`
block announces the number of its children: as `Element`, with the attribute
`success_threshold` of a `Parallel` line equal to the number of the child elements between the
line and its closing line. -/
inductive Counted (K : String → Prop) : Nat → String → Prop where
  | leaf (d : Nat) (tag k : String) (htag : tag ∈ leaf_tags) (hk : K k) :
      Counted K d (spec_line d ("<" ++ tag ++ " action=\"" ++ k ++ "\"/>"))
  | sequence (d : Nat) (k : String) (children : List String) (hk : K k)
      (h : ∀ c ∈ children, Counted K (d + 1) c) :
      Counted K d (spec_line d ("<Sequence name=\"" ++ k ++ "\">") ++ String.join children ++
        spec_line d "</Sequence>")
  | parallel (d : Nat) (gap : String) (children : List String)
      (hgap : gap = " " ∨ gap = "  ") (h : ∀ c ∈ children, Counted K (d + 1) c) :
      Counted K d (spec_line d ("<Parallel success_threshold=\"" ++
        to_string (children.length : Nat) ++ "\"" ++ gap ++ "failure_threshold=\"1\">") ++
        String.join children ++ spec_line d "</Parallel>")

/-- A document in which every `Parallel` block announces the number of its children: the
`root` block holds the `BehaviorTree` block, which holds such elements at the depth 2. -/
def WellCounted (K : String → Prop) (text : String) : Prop :=
  ∃ children : List String, (∀ c ∈ children, Counted K 2 c) ∧
    text = spec_line 0 "<root main_tree_to_execute=\"MainTree\">" ++
      spec_line 1 "<BehaviorTree ID=\"MainTree\">" ++ String.join children ++
      spec_line 1 "</BehaviorTree>" ++ spec_line 0 "</root>"

/-- One `WaitAction` line per identity of a list, at the depth `l`. -/
def wait_lines (ws : List String) (l : Nat) : String :=
  String.join (ws.map (fun k => spec_line l ("<WaitAction action=\"" ++ k ++ "\"/>")))

/-- The texts in which every execution block comes after its producers.  `Guarded L done l text`
reads: `text` is the subtree of a unit `n` at the depth `l`, placed inside sequences in which the
execution blocks of the identities `done` come before it.  The subtree is the execution block of
`n` alone (`bare`), or a `Sequence` that holds `WaitAction` lines for the identities `ws`, then
the execution block of `n`, then nothing (`last`), one subtree (`one`) or a `Parallel` block of
subtrees (`many`), each guarded with the identity of `n` added to `done`.  In every case each
identity of a producer of `n` (`producer_keys`) is in `done` or, when there are `WaitAction`
lines, in `ws`. -/
inductive Guarded (L : Levels) : List String → Nat → String → Prop where
  | bare (done : List String) (n : UnitRef) (l : Nat)
      (hcover : ∀ k ∈ producer_keys L n, k ∈ done) :
      Guarded L done l (execution_block (unit_at L n).action (unit_at L n).time l)
  | last (done : List String) (n : UnitRef) (l : Nat) (ws : List String)
      (hcover : ∀ k ∈ producer_keys L n, k ∈ done ∨ k ∈ ws) :
      Guarded L done l
        (spec_sequence_open L n l ++ wait_lines ws (l + 1) ++
          execution_block (unit_at L n).action (unit_at L n).time (l + 1) ++
          spec_line l "</Sequence>")
  | one (done : List String) (n : UnitRef) (l : Nat) (ws : List String) (sub : String)
      (hcover : ∀ k ∈ producer_keys L n, k ∈ done ∨ k ∈ ws)
      (hsub : Guarded L (unit_key L n :: done) (l + 1) sub) :
      Guarded L done l
        (spec_sequence_open L n l ++ wait_lines ws (l + 1) ++
          execution_block (unit_at L n).action (unit_at L n).time (l + 1) ++ sub ++
          spec_line l "</Sequence>")
  | many (done : List String) (n : UnitRef) (l : Nat) (ws : List String) (N : Nat)
      (subs : List String) (hcover : ∀ k ∈ producer_keys L n, k ∈ done ∨ k ∈ ws)
      (hsubs : ∀ c ∈ subs, Guarded L (unit_key L n :: done) (l + 2) c) :
      Guarded L done l
        (spec_sequence_open L n l ++ wait_lines ws (l + 1) ++
          execution_block (unit_at L n).action (unit_at L n).time (l + 1) ++
          successors_open N (l + 1) ++ String.join subs ++ spec_line (l + 1) "</Parallel>" ++
          spec_line l "</Sequence>")

/-- The pieces of a text between its spaces, in order: the words of the specification of
`Predicate::fromString`. -/
def split_spaces : List Char → List (List Char)
  | [] => [[]]
  | c :: cs =>
    if c = ' ' then [] :: split_spaces cs
    else
      match split_spaces cs with
      | [] => [[c]]
      | token :: tokens => (c :: token) :: tokens

/-- The predicate that the round trip is expected to give back: the same name and the same
parameter names, each parameter with an empty type. -/
def untyped (p : Predicate) : Predicate :=
  { name := p.name
    parameters := p.parameters.map (fun q => { name := q.name, type := "", subTypes := [] }) }

/-! ## Example level vectors -/

/-- Two levels: the unit `a` at time 0 has one effect, consumed by the only requirement of the
unit `b` at time 1. -/
def example_chain : Levels :=
  [ { time := 0
      action_units :=
        [ { action := "a", time := 0, reqs := []
            effects :=
              [ { effect := TreeNode.PredicateNode ⟨"p", []⟩
                  requirement_connections := [⟨⟨1, 0⟩, 0⟩] } ] } ] },
    { time := 1
      action_units :=
        [ { action := "b", time := 1
            reqs :=
              [ { requirement := TreeNode.PredicateNode ⟨"p", []⟩
                  satisfied := true
                  effect_connections := [⟨⟨0, 0⟩, 0⟩] } ]
            effects := [] } ] } ]

/-- A durative action whose at-start requirements and at-end effects are the given lists. -/
def example_action (reqs effs : List TreeNode) : DurativeAction :=
  { name := "", parameters := []
    at_start_requirements := ⟨some (TreeNode.AndNode reqs)⟩
    over_all_requirements := ⟨some (TreeNode.AndNode [])⟩
    at_end_requirements := ⟨none⟩
    at_start_effects := ⟨some (TreeNode.AndNode [])⟩
    at_end_effects := ⟨some (TreeNode.AndNode effs)⟩ }

/-- A knowledge source with two actions: `a` produces the predicate `p`, `b` requires it. -/
def example_domain (s : String) : Option DurativeAction :=
  if s = "a" then some (example_action [] [TreeNode.PredicateNode ⟨"p", []⟩])
  else if s = "b" then some (example_action [TreeNode.PredicateNode ⟨"p", []⟩] [])
  else none

/-- The environment of the examples: no requirement holds in the world state. -/
def example_env : Env :=
  key_env example_domain (fun _ => (false, 0))

/-- The plan `a` at time 0, `b` at time 1. -/
def example_plan : Plan :=
  [⟨0, "a", 1⟩, ⟨1, "b", 1⟩]

/-- The level vector that `get_plan_actions` builds for `example_plan`. -/
def example_fresh : Levels :=
  [ { time := 0
      action_units :=
        [ { action := "a", time := 0, reqs := []
            effects :=
              [ { effect := TreeNode.PredicateNode ⟨"p", []⟩
                  requirement_connections := [] } ] } ] },
    { time := 1
      action_units :=
        [ { action := "b", time := 1
            reqs :=
              [ { requirement := TreeNode.PredicateNode ⟨"p", []⟩
                  satisfied := false
                  effect_connections := [] } ]
            effects := [] } ] } ]

/-- A knowledge source with four actions: `a` produces `p1` and `p2`, `b` requires `p1` and
produces `q1`, `c` requires `p2` and produces `q2`, `d` requires `q1` and `q2`. -/
def diamond_domain (s : String) : Option DurativeAction :=
  if s = "a" then
    some (example_action [] [TreeNode.PredicateNode ⟨"p1", []⟩, TreeNode.PredicateNode ⟨"p2", []⟩])
  else if s = "b" then
    some (example_action [TreeNode.PredicateNode ⟨"p1", []⟩] [TreeNode.PredicateNode ⟨"q1", []⟩])
  else if s = "c" then
    some (example_action [TreeNode.PredicateNode ⟨"p2", []⟩] [TreeNode.PredicateNode ⟨"q2", []⟩])
  else if s = "d" then
    some (example_action [TreeNode.PredicateNode ⟨"q1", []⟩, TreeNode.PredicateNode ⟨"q2", []⟩] [])
  else none

/-- The environment of the diamond: no requirement holds in the world state. -/
def diamond_env : Env :=
  key_env diamond_domain (fun _ => (false, 0))

/-- The plan `a` at 0, `b` and `c` at 1: a fork. -/
def fork_plan : Plan :=
  [⟨0, "a", 1⟩, ⟨1, "b", 1⟩, ⟨1, "c", 1⟩]

/-- The plan `a` at 0, `b` and `c` at 1, `d` at 2: a diamond. -/
def diamond_plan : Plan :=
  [⟨0, "a", 1⟩, ⟨1, "b", 1⟩, ⟨1, "c", 1⟩, ⟨2, "d", 1⟩]

/-- The resolved levels of a plan in the environment of the diamond (empty when the resolution
has no result). -/
def diamond_levels (plan : Plan) : Levels :=
  match resolve diamond_env plan with
  | some r => r.1
  | none => []

/-- The text that `get_flow_tree` emits at depth 5 for the unit `d` of the diamond: its two
`WaitAction` lines and its execution block inside a `Sequence`. -/
def diamond_join : String :=
  spec_line 5 "<Sequence name=\"d:2\">" ++
    spec_line 6 "<WaitAction action=\"b:1\"/>" ++
    spec_line 6 "<WaitAction action=\"c:1\"/>" ++
    execution_block "d" 2 6 ++
    spec_line 5 "</Sequence>"

/-- Two levels with the same action `a`: at the time 2 and at the time 10. -/
def example_times : Levels :=
  [ { time := 2, action_units := [{ action := "a", time := 2, reqs := [], effects := [] }] },
    { time := 10, action_units := [{ action := "a", time := 10, reqs := [], effects := [] }] } ]

/-- A knowledge source with two actions: `a` produces the predicate `p`, `n` requires its
negation. -/
def negation_domain (s : String) : Option DurativeAction :=
  if s = "a" then some (example_action [] [TreeNode.PredicateNode ⟨"p", []⟩])
  else if s = "n" then
    some (example_action [TreeNode.NotNode (TreeNode.PredicateNode ⟨"p", []⟩)] [])
  else none

/-- The environment of the negation example: no requirement holds in the world state. -/
def negation_env : Env :=
  key_env negation_domain (fun _ => (false, 0))

/-- The resolved levels of the plan `a` at 0, `n` at 1 in the negation example. -/
def negation_levels : Levels :=
  [ { time := 0
      action_units :=
        [ { action := "a", time := 0, reqs := []
            effects :=
              [ { effect := TreeNode.PredicateNode ⟨"p", []⟩
                  requirement_connections := [] } ] } ] },
    { time := 1
      action_units :=
        [ { action := "n", time := 1
            reqs :=
              [ { requirement := TreeNode.NotNode (TreeNode.PredicateNode ⟨"p", []⟩)
                  satisfied := false
                  effect_connections := [] } ]
            effects := [] } ] } ]

/-- An action whose at-start requirement is the single predicate `p`, not wrapped in a
conjunction. -/
def single_action : DurativeAction :=
  { name := "", parameters := []
    at_start_requirements := ⟨some (TreeNode.PredicateNode ⟨"p", []⟩)⟩
    over_all_requirements := ⟨some (TreeNode.AndNode [])⟩
    at_end_requirements := ⟨some (TreeNode.AndNode [])⟩
    at_start_effects := ⟨some (TreeNode.AndNode [])⟩
    at_end_effects := ⟨some (TreeNode.AndNode [])⟩ }

/-- A knowledge source that knows the action `s` only. -/
def single_env : Env :=
  key_env (fun s => if s = "s" then some single_action else none) (fun _ => (false, 0))

/-- The level vector that `get_plan_actions` builds for `fork_plan` in the environment of the
diamond. -/
def fork_fresh : Levels :=
  [ { time := 0
      action_units :=
        [ { action := "a", time := 0, reqs := []
            effects :=
              [ { effect := TreeNode.PredicateNode ⟨"p1", []⟩, requirement_connections := [] },
                { effect := TreeNode.PredicateNode ⟨"p2", []⟩,
                  requirement_connections := [] } ] } ] },
    { time := 1
      action_units :=
        [ { action := "b", time := 1
            reqs :=
              [ { requirement := TreeNode.PredicateNode ⟨"p1", []⟩, satisfied := false
                  effect_connections := [] } ]
            effects :=
              [ { effect := TreeNode.PredicateNode ⟨"q1", []⟩,
                  requirement_connections := [] } ] },
          { action := "c", time := 1
            reqs :=
              [ { requirement := TreeNode.PredicateNode ⟨"p2", []⟩, satisfied := false
                  effect_connections := [] } ]
            effects :=
              [ { effect := TreeNode.PredicateNode ⟨"q2", []⟩,
                  requirement_connections := [] } ] } ] } ]

/-- The level vector `fork_fresh` with the two effects of `a` exchanged and the two units of the
level 1 exchanged. -/
def fork_exchanged : Levels :=
  [ { time := 0
      action_units :=
        [ { action := "a", time := 0, reqs := []
            effects :=
              [ { effect := TreeNode.PredicateNode ⟨"p2", []⟩, requirement_connections := [] },
                { effect := TreeNode.PredicateNode ⟨"p1", []⟩,
                  requirement_connections := [] } ] } ] },
    { time := 1
      action_units :=
        [ { action := "c", time := 1
            reqs :=
              [ { requirement := TreeNode.PredicateNode ⟨"p2", []⟩, satisfied := false
                  effect_connections := [] } ]
            effects :=
              [ { effect := TreeNode.PredicateNode ⟨"q2", []⟩,
                  requirement_connections := [] } ] },
          { action := "b", time := 1
            reqs :=
              [ { requirement := TreeNode.PredicateNode ⟨"p1", []⟩, satisfied := false
                  effect_connections := [] } ]
            effects :=
              [ { effect := TreeNode.PredicateNode ⟨"q1", []⟩,
                  requirement_connections := [] } ] } ] } ]

/-- The level vector after `check_connections(levels[0], levels[1])` on `fork_fresh` (empty
when the call has no result). -/
def fork_linked : Levels :=
  (check_connections diamond_env fork_fresh 0 1).getD []

/-- The place in `fork_exchanged` of a requirement of the level 1 of `fork_fresh`. -/
def exchange_units (r : ReqRef) : ReqRef :=
  ⟨⟨r.action.level, 1 - r.action.index⟩, r.index⟩

/-- The place in `fork_exchanged` of an effect of the level 0 of `fork_fresh`. -/
def exchange_entries (e : EffRef) : EffRef :=
  ⟨e.action, 1 - e.index⟩

/-- Two levels with numeric conditions: the unit `charge` increases the function `battery`, the
unit `move` requires `battery` to be at least 5. -/
def numeric_levels : Levels :=
  [ { time := 0
      action_units :=
        [ { action := "charge", time := 0, reqs := []
            effects :=
              [ { effect := TreeNode.FunctionModifierNode FunModType.INCREASE
                    [TreeNode.FunctionNode ⟨"battery", [], 0⟩, TreeNode.NumberNode 10]
                  requirement_connections := [] } ] } ] },
    { time := 1
      action_units :=
        [ { action := "move", time := 1
            reqs :=
              [ { requirement := TreeNode.ExpressionNode ExprType.COMP_GE
                    [TreeNode.FunctionNode ⟨"battery", [], 0⟩, TreeNode.NumberNode 5]
                  satisfied := false
                  effect_connections := [] } ]
            effects := [] } ] } ]

/-- The plan `a` at 0, `a` at 1, `b` at 2 in the environment of the diamond: two producers of
`p1` in different levels before its consumer. -/
def repeated_plan : Plan :=
  [⟨0, "a", 1⟩, ⟨1, "a", 1⟩, ⟨2, "b", 1⟩]

end plansys2

/-! # Properties -/

namespace plansys2

open parser.pddl.tree

/-! ## Reading and writing through pointers -/

theorem get_unit_modify_unit (L : Levels) (u u' : UnitRef) (f : ActionUnit → ActionUnit) :
    get_unit (modify_unit L u f) u' =
      if u = u' then (get_unit L u').map f else get_unit L u' := by
  obtain ⟨i, k⟩ := u
  obtain ⟨i', k'⟩ := u'
  simp only [get_unit, modify_unit, List.getElem?_modify, UnitRef.mk.injEq]
  cases h : L[i']? with
  | none => simp
  | some lv =>
    by_cases hi : i = i'
    · subst hi
      simp only [Option.map_eq_map, Option.map_some', if_true, true_and, List.getElem?_modify]
      by_cases hk : k = k'
      · simp [hk]
      · simp [hk]
    · simp [hi]

theorem get_req_modify_req (L : Levels) (r r' : ReqRef)
    (f : RequirementConnection → RequirementConnection) :
    get_req (modify_req L r f) r' =
      if r = r' then (get_req L r').map f else get_req L r' := by
  obtain ⟨u, m⟩ := r
  obtain ⟨u', m'⟩ := r'
  simp only [get_req, modify_req, get_unit_modify_unit, ReqRef.mk.injEq]
  by_cases hu : u = u'
  · subst hu
    cases h : get_unit L u with
    | none => simp
    | some unit =>
      simp only [if_true, Option.map_some', true_and, List.getElem?_modify]
      by_cases hm : m = m'
      · simp [hm]
      · simp [hm]
  · simp [hu]

theorem get_effect_modify_req (L : Levels) (r : ReqRef) (e : EffRef)
    (f : RequirementConnection → RequirementConnection) :
    get_effect (modify_req L r f) e = get_effect L e := by
  obtain ⟨u, m⟩ := r
  obtain ⟨u', m'⟩ := e
  simp only [get_effect, modify_req, get_unit_modify_unit]
  by_cases hu : u = u'
  · subst hu
    cases h : get_unit L u with
    | none => simp
    | some unit => simp
  · simp [hu]

theorem get_effect_modify_effect (L : Levels) (e e' : EffRef)
    (f : EffectConnection → EffectConnection) :
    get_effect (modify_effect L e f) e' =
      if e = e' then (get_effect L e').map f else get_effect L e' := by
  obtain ⟨u, m⟩ := e
  obtain ⟨u', m'⟩ := e'
  simp only [get_effect, modify_effect, get_unit_modify_unit, EffRef.mk.injEq]
  by_cases hu : u = u'
  · subst hu
    cases h : get_unit L u with
    | none => simp
    | some unit =>
      simp only [if_true, Option.map_some', true_and, List.getElem?_modify]
      by_cases hm : m = m'
      · simp [hm]
      · simp [hm]
  · simp [hu]

theorem get_req_modify_effect (L : Levels) (e : EffRef) (r : ReqRef)
    (f : EffectConnection → EffectConnection) :
    get_req (modify_effect L e f) r = get_req L r := by
  obtain ⟨u, m⟩ := e
  obtain ⟨u', m'⟩ := r
  simp only [get_req, modify_effect, get_unit_modify_unit]
  by_cases hu : u = u'
  · subst hu
    cases h : get_unit L u with
    | none => simp
    | some unit => simp
  · simp [hu]

theorem SameShape.refl (L : Levels) : SameShape L L :=
  ⟨rfl, fun _ => rfl, fun _ => rfl, fun _ => rfl, fun _ => rfl⟩

theorem SameShape.symm {L L' : Levels} (h : SameShape L L') : SameShape L' L :=
  ⟨h.length.symm, fun i => (h.level i).symm, fun u => (h.unit u).symm,
    fun r => (h.req r).symm, fun e => (h.effect e).symm⟩

theorem SameShape.trans {L L' L'' : Levels} (h : SameShape L L') (h' : SameShape L' L'') :
    SameShape L L'' :=
  ⟨h.length.trans h'.length, fun i => (h.level i).trans (h'.level i),
    fun u => (h.unit u).trans (h'.unit u), fun r => (h.req r).trans (h'.req r),
    fun e => (h.effect e).trans (h'.effect e)⟩

theorem sameShape_modify_unit (L : Levels) (u : UnitRef) (f : ActionUnit → ActionUnit)
    (hf : ∀ x, (f x).action = x.action ∧ (f x).time = x.time ∧
      (f x).reqs.length = x.reqs.length ∧ (f x).effects.length = x.effects.length)
    (hr : ∀ r, req_node (modify_unit L u f) r = req_node L r)
    (he : ∀ e, effect_node (modify_unit L u f) e = effect_node L e) :
    SameShape L (modify_unit L u f) := by
  refine ⟨?_, ?_, ?_, fun r => (hr r).symm, fun e => (he e).symm⟩
  · simp [modify_unit]
  · intro i
    simp only [level_shape, modify_unit, List.getElem?_modify]
    cases h : L[i]? with
    | none => simp
    | some lv =>
      by_cases hi : u.level = i
      · simp [hi]
      · simp [hi]
  · intro u'
    simp only [unit_shape, get_unit_modify_unit]
    by_cases hu : u = u'
    · cases h : get_unit L u' with
      | none => simp
      | some x =>
        obtain ⟨h1, h2, h3, h4⟩ := hf x
        simp [hu, h1, h2, h3, h4]
    · simp [hu]

theorem sameShape_modify_req (L : Levels) (r : ReqRef)
    (f : RequirementConnection → RequirementConnection)
    (hf : ∀ x, (f x).requirement = x.requirement) :
    SameShape L (modify_req L r f) := by
  apply sameShape_modify_unit
  · intro x; simp
  · intro r'
    have := get_req_modify_req L r r' f
    unfold modify_req at this
    simp only [req_node, this]
    by_cases h : r = r'
    · cases h' : get_req L r' with
      | none => simp
      | some x => simp [h, hf]
    · simp [h]
  · intro e
    have := get_effect_modify_req L r e f
    unfold modify_req at this
    simp only [effect_node, this]

theorem sameShape_modify_effect (L : Levels) (e : EffRef)
    (f : EffectConnection → EffectConnection)
    (hf : ∀ x, (f x).effect = x.effect) :
    SameShape L (modify_effect L e f) := by
  apply sameShape_modify_unit
  · intro x; simp
  · intro r
    have := get_req_modify_effect L e r f
    unfold modify_effect at this
    simp only [req_node, this]
  · intro e'
    have := get_effect_modify_effect L e e' f
    unfold modify_effect at this
    simp only [effect_node, this]
    by_cases h : e = e'
    · cases h' : get_effect L e' with
      | none => simp
      | some x => simp [h, hf]
    · simp [h]

theorem sameShape_connect (L : Levels) (r : ReqRef) (e : EffRef) :
    SameShape L (connect L r e) := by
  unfold connect
  exact ((sameShape_modify_req L r (fun q => { q with satisfied := true }) (fun _ => rfl)).trans
    (sameShape_modify_req _ r
      (fun q => { q with effect_connections := q.effect_connections ++ [e] })
      (fun _ => rfl))).trans
    (sameShape_modify_effect _ e
      (fun x => { x with requirement_connections := x.requirement_connections ++ [r] })
      (fun _ => rfl))

theorem get_req_connect (L : Levels) (r r' : ReqRef) (e : EffRef) :
    get_req (connect L r e) r' =
      if r = r' then
        (get_req L r').map (fun q =>
          { q with satisfied := true, effect_connections := q.effect_connections ++ [e] })
      else get_req L r' := by
  simp only [connect, get_req_modify_effect, get_req_modify_req]
  by_cases h : r = r'
  · cases h' : get_req L r' with
    | none => simp
    | some x => simp [h]
  · simp [h]

theorem get_effect_connect (L : Levels) (r : ReqRef) (e e' : EffRef) :
    get_effect (connect L r e) e' =
      if e = e' then
        (get_effect L e').map (fun x =>
          { x with requirement_connections := x.requirement_connections ++ [r] })
      else get_effect L e' := by
  simp only [connect, get_effect_modify_effect, get_effect_modify_req]

theorem sameShape_connect_all (L : Levels) (ps : List (ReqRef × EffRef)) :
    SameShape L (connect_all L ps) := by
  induction ps generalizing L with
  | nil => exact SameShape.refl L
  | cons p ps ih =>
    exact (sameShape_connect L p.1 p.2).trans (ih _)

theorem get_req_connect_all (L : Levels) (ps : List (ReqRef × EffRef)) (r : ReqRef) :
    get_req (connect_all L ps) r =
      (get_req L r).map (fun q =>
        { q with
          satisfied := q.satisfied || ps.any (fun p => decide (p.1 = r))
          effect_connections :=
            q.effect_connections ++ (ps.filter (fun p => decide (p.1 = r))).map (fun p => p.2) })
      := by
  induction ps generalizing L with
  | nil =>
    cases h : get_req L r with
    | none => simp [connect_all, h]
    | some q => simp [connect_all, h]
  | cons p ps ih =>
    have := ih (connect L p.1 p.2)
    simp only [connect_all, List.foldl_cons] at this ⊢
    rw [this, get_req_connect]
    by_cases h : p.1 = r
    · cases h' : get_req L r with
      | none => simp
      | some q => simp [h]
    · cases h' : get_req L r with
      | none => simp
      | some q => simp [h]

theorem get_effect_connect_all (L : Levels) (ps : List (ReqRef × EffRef)) (e : EffRef) :
    get_effect (connect_all L ps) e =
      (get_effect L e).map (fun x =>
        { x with
          requirement_connections :=
            x.requirement_connections ++
              (ps.filter (fun p => decide (p.2 = e))).map (fun p => p.1) }) := by
  induction ps generalizing L with
  | nil =>
    cases h : get_effect L e with
    | none => simp [connect_all, h]
    | some q => simp [connect_all, h]
  | cons p ps ih =>
    have := ih (connect L p.1 p.2)
    simp only [connect_all, List.foldl_cons] at this ⊢
    rw [this, get_effect_connect]
    by_cases h : p.2 = e
    · cases h' : get_effect L e with
      | none => simp
      | some q => simp [h]
    · cases h' : get_effect L e with
      | none => simp
      | some q => simp [h]



theorem foldlM_congr_inv {α β : Type} (Inv : β → Prop) (f g : β → α → Option β) (l : List α)
    (hpres : ∀ b a b', a ∈ l → Inv b → f b a = some b' → Inv b')
    (heq : ∀ b a, a ∈ l → Inv b → f b a = g b a) (b : β) (hb : Inv b) :
    l.foldlM f b = l.foldlM g b := by
  induction l generalizing b with
  | nil => rfl
  | cons a l ih =>
    simp only [List.foldlM_cons]
    rw [← heq b a (List.mem_cons_self _ _) hb]
    cases h : f b a with
    | none => rfl
    | some b' =>
      simp only [Option.bind_eq_bind, Option.some_bind]
      exact ih (fun b a b' ha => hpres b a b' (List.mem_cons_of_mem _ ha))
        (fun b a ha => heq b a (List.mem_cons_of_mem _ ha)) b'
        (hpres b a b' (List.mem_cons_self _ _) hb h)

theorem foldlM_inv {α β : Type} (Inv : β → Prop) (f : β → α → Option β) (l : List α)
    (hpres : ∀ b a b', a ∈ l → Inv b → f b a = some b' → Inv b')
    (b b' : β) (hb : Inv b) (h : l.foldlM f b = some b') : Inv b' := by
  induction l generalizing b with
  | nil => simp at h; exact h ▸ hb
  | cons a l ih =>
    simp only [List.foldlM_cons] at h
    cases h1 : f b a with
    | none => simp [h1] at h
    | some b1 =>
      simp only [h1, Option.bind_eq_bind, Option.some_bind] at h
      exact ih (fun b a b' ha => hpres b a b' (List.mem_cons_of_mem _ ha)) b1
        (hpres b a b1 (List.mem_cons_self _ _) hb h1) h

theorem foldlM_flatMap {α β γ : Type} (f : β → γ → Option β) (h : α → List γ) (l : List α)
    (b : β) :
    (l.flatMap h).foldlM f b = l.foldlM (fun b a => (h a).foldlM f b) b := by
  induction l generalizing b with
  | nil => rfl
  | cons a l ih =>
    simp only [List.flatMap_cons, List.foldlM_append, List.foldlM_cons]
    cases (h a).foldlM f b with
    | none => rfl
    | some b' => exact ih b'

theorem foldlM_map_ref {α β γ : Type} (f : β → γ → Option β) (h : α → γ) (l : List α) (b : β) :
    (l.map h).foldlM f b = l.foldlM (fun b a => f b (h a)) b := by
  induction l generalizing b with
  | nil => rfl
  | cons a l ih =>
    simp only [List.map_cons, List.foldlM_cons]
    cases f b (h a) with
    | none => rfl
    | some b' => exact ih b'

theorem check_effect_eq (E : Env) (r : ReqRef) (L : Levels) (e : EffRef) :
    check_effect E r L e =
      match links E L r e with
      | some true => some (connect L r e)
      | some false => some L
      | none => none := by
  unfold check_effect links req_node effect_node
  cases get_req L r with
  | none => rfl
  | some q =>
    cases get_effect L e with
    | none => rfl
    | some x => rfl

theorem links_congr (E : Env) {L0 L : Levels} (h : SameShape L0 L) (r : ReqRef) (e : EffRef) :
    links E L r e = links E L0 r e := by
  unfold links
  rw [h.req, h.effect]

theorem select_links_congr (E : Env) {L0 L : Levels} (h : SameShape L0 L) (r : ReqRef)
    (es : List EffRef) : select_links E L r es = select_links E L0 r es := by
  induction es with
  | nil => rfl
  | cons e es ih => simp only [select_links, ih, links_congr E h]

theorem n_units_congr {L0 L : Levels} (h : SameShape L0 L) (i : Nat) :
    n_units L i = n_units L0 i := by
  unfold n_units; rw [h.level]

theorem n_reqs_congr {L0 L : Levels} (h : SameShape L0 L) (u : UnitRef) :
    n_reqs L u = n_reqs L0 u := by
  unfold n_reqs; rw [h.unit]

theorem n_effects_congr {L0 L : Levels} (h : SameShape L0 L) (u : UnitRef) :
    n_effects L u = n_effects L0 u := by
  unfold n_effects; rw [h.unit]

theorem level_units_congr {L0 L : Levels} (h : SameShape L0 L) (i : Nat) :
    level_units L i = level_units L0 i := by
  unfold level_units; rw [n_units_congr h]

theorem unit_reqs_congr {L0 L : Levels} (h : SameShape L0 L) (u : UnitRef) :
    unit_reqs L u = unit_reqs L0 u := by
  unfold unit_reqs; rw [n_reqs_congr h]

theorem unit_effects_congr {L0 L : Levels} (h : SameShape L0 L) (u : UnitRef) :
    unit_effects L u = unit_effects L0 u := by
  unfold unit_effects; rw [n_effects_congr h]

theorem req_refs_congr {L0 L : Levels} (h : SameShape L0 L) (i : Nat) :
    req_refs L i = req_refs L0 i := by
  unfold req_refs
  rw [level_units_congr h, (funext (unit_reqs_congr h) : unit_reqs L = unit_reqs L0)]

theorem eff_refs_congr {L0 L : Levels} (h : SameShape L0 L) (i : Nat) :
    eff_refs L i = eff_refs L0 i := by
  unfold eff_refs
  rw [level_units_congr h, (funext (unit_effects_congr h) : unit_effects L = unit_effects L0)]

/-- The loop over a list of effects, for one requirement. -/
theorem effects_loop (E : Env) (r : ReqRef) (es : List EffRef) (L : Levels) :
    es.foldlM (check_effect E r) L =
      (select_links E L r es).map
        (fun sel => connect_all L (sel.map (fun e => (r, e)))) := by
  induction es generalizing L with
  | nil => rfl
  | cons e es ih =>
    simp only [List.foldlM_cons, check_effect_eq, select_links]
    cases hl : links E L r e with
    | none => rfl
    | some b =>
      cases b with
      | false =>
        simp only [Option.bind_eq_bind, Option.some_bind, ih]
        cases select_links E L r es <;> simp
      | true =>
        simp only [Option.bind_eq_bind, Option.some_bind, ih,
          select_links_congr E (sameShape_connect L r e)]
        cases select_links E L r es <;> simp [connect_all]



theorem get_unit_isSome (L : Levels) (u : UnitRef) :
    (get_unit L u).isSome = decide (u.index < n_units L u.level) := by
  unfold get_unit n_units level_shape
  cases h : L[u.level]? with
  | none => simp
  | some lv =>
    simp only [Option.map_some']
    by_cases hk : u.index < lv.action_units.length
    · simp [hk]
    · simp [hk, List.getElem?_eq_none (Nat.le_of_not_lt hk)]

theorem get_unit_some_of_lt (L : Levels) (u : UnitRef) (h : u.index < n_units L u.level) :
    ∃ unit, get_unit L u = some unit := by
  have := get_unit_isSome L u
  simp only [h, decide_True] at this
  exact Option.isSome_iff_exists.mp this

theorem n_reqs_of_get_unit {L : Levels} {u : UnitRef} {unit : ActionUnit}
    (h : get_unit L u = some unit) : n_reqs L u = unit.reqs.length := by
  simp [n_reqs, unit_shape, h]

theorem n_effects_of_get_unit {L : Levels} {u : UnitRef} {unit : ActionUnit}
    (h : get_unit L u = some unit) : n_effects L u = unit.effects.length := by
  simp [n_effects, unit_shape, h]

theorem n_units_of_getElem {L : Levels} {i : Nat} {lv : ExecutionLevel}
    (h : L[i]? = some lv) : n_units L i = lv.action_units.length := by
  simp [n_units, level_shape, h]

theorem mem_level_units {L : Levels} {i : Nat} {u : UnitRef} :
    u ∈ level_units L i ↔ u.level = i ∧ u.index < n_units L i := by
  unfold level_units
  simp only [List.mem_map, List.mem_range]
  constructor
  · rintro ⟨k, hk, rfl⟩; exact ⟨rfl, hk⟩
  · rintro ⟨rfl, hk⟩; exact ⟨u.index, hk, rfl⟩

theorem mem_unit_reqs {L : Levels} {u : UnitRef} {r : ReqRef} :
    r ∈ unit_reqs L u ↔ r.action = u ∧ r.index < n_reqs L u := by
  unfold unit_reqs
  simp only [List.mem_map, List.mem_range]
  constructor
  · rintro ⟨k, hk, rfl⟩; exact ⟨rfl, hk⟩
  · rintro ⟨rfl, hk⟩; exact ⟨r.index, hk, rfl⟩

theorem mem_unit_effects {L : Levels} {u : UnitRef} {e : EffRef} :
    e ∈ unit_effects L u ↔ e.action = u ∧ e.index < n_effects L u := by
  unfold unit_effects
  simp only [List.mem_map, List.mem_range]
  constructor
  · rintro ⟨k, hk, rfl⟩; exact ⟨rfl, hk⟩
  · rintro ⟨rfl, hk⟩; exact ⟨e.index, hk, rfl⟩

theorem mem_req_refs {L : Levels} {i : Nat} {r : ReqRef} :
    r ∈ req_refs L i ↔
      r.action.level = i ∧ r.action.index < n_units L i ∧ r.index < n_reqs L r.action := by
  unfold req_refs
  simp only [List.mem_flatMap, mem_level_units, mem_unit_reqs]
  constructor
  · rintro ⟨u, ⟨h1, h2⟩, rfl, h4⟩; exact ⟨h1, h2, h4⟩
  · rintro ⟨h1, h2, h3⟩; exact ⟨r.action, ⟨h1, h2⟩, rfl, h3⟩

theorem mem_eff_refs {L : Levels} {i : Nat} {e : EffRef} :
    e ∈ eff_refs L i ↔
      e.action.level = i ∧ e.action.index < n_units L i ∧ e.index < n_effects L e.action := by
  unfold eff_refs
  simp only [List.mem_flatMap, mem_level_units, mem_unit_effects]
  constructor
  · rintro ⟨u, ⟨h1, h2⟩, rfl, h4⟩; exact ⟨h1, h2, h4⟩
  · rintro ⟨h1, h2, h3⟩; exact ⟨e.action, ⟨h1, h2⟩, rfl, h3⟩

theorem nodup_level_units (L : Levels) (i : Nat) : (level_units L i).Nodup := by
  unfold level_units
  apply List.Nodup.map _ (List.nodup_range _)
  intro a b h
  simpa using h

theorem nodup_unit_reqs (L : Levels) (u : UnitRef) : (unit_reqs L u).Nodup := by
  unfold unit_reqs
  apply List.Nodup.map _ (List.nodup_range _)
  intro a b h
  simpa using h

theorem nodup_unit_effects (L : Levels) (u : UnitRef) : (unit_effects L u).Nodup := by
  unfold unit_effects
  apply List.Nodup.map _ (List.nodup_range _)
  intro a b h
  simpa using h

theorem nodup_req_refs (L : Levels) (i : Nat) : (req_refs L i).Nodup := by
  unfold req_refs
  rw [List.nodup_flatMap]
  refine ⟨fun u _ => nodup_unit_reqs L u, ?_⟩
  apply (nodup_level_units L i).pairwise_of_forall_ne
  intro a _ b _ hab
  simp only [Function.onFun, List.Disjoint]
  intro r h1 h2
  rw [mem_unit_reqs] at h1 h2
  exact hab (h1.1.symm.trans h2.1)

theorem nodup_eff_refs (L : Levels) (i : Nat) : (eff_refs L i).Nodup := by
  unfold eff_refs
  rw [List.nodup_flatMap]
  refine ⟨fun u _ => nodup_unit_effects L u, ?_⟩
  apply (nodup_level_units L i).pairwise_of_forall_ne
  intro a _ b _ hab
  simp only [Function.onFun, List.Disjoint]
  intro r h1 h2
  rw [mem_unit_effects] at h1 h2
  exact hab (h1.1.symm.trans h2.1)

theorem check_up_unit_eq (E : Env) (r : ReqRef) (L : Levels) (uu : UnitRef)
    (h : uu.index < n_units L uu.level) :
    check_up_unit E r L uu = (unit_effects L uu).foldlM (check_effect E r) L := by
  obtain ⟨unit, hu⟩ := get_unit_some_of_lt L uu h
  unfold check_up_unit unit_effects
  rw [hu, foldlM_map_ref, n_effects_of_get_unit hu]

theorem sameShape_of_effects_loop (E : Env) (r : ReqRef) (es : List EffRef) (L L' : Levels)
    (h : es.foldlM (check_effect E r) L = some L') : SameShape L L' := by
  rw [effects_loop] at h
  cases hs : select_links E L r es with
  | none => simp [hs] at h
  | some sel =>
    simp only [hs, Option.map_some', Option.some.injEq] at h
    exact h ▸ sameShape_connect_all L _

theorem check_req_eq (E : Env) (up : Nat) (L : Levels) (r : ReqRef) (hup : up < L.length) :
    check_req E up L r =
      match get_req L r with
      | none => none
      | some q =>
        if q.satisfied then some L
        else (select_links E L r (eff_refs L up)).map
          (fun sel => connect_all L (sel.map (fun e => (r, e)))) := by
  unfold check_req
  cases hq : get_req L r with
  | none => rfl
  | some q =>
    have hlv : L[up]? = some L[up] := List.getElem?_eq_getElem hup
    rw [hlv]
    simp only
    cases hs : q.satisfied with
    | true => simp
    | false =>
      simp only [Bool.not_false, if_true, Bool.false_eq_true, if_false]
      rw [← effects_loop, eff_refs, foldlM_flatMap, level_units, foldlM_map_ref,
        n_units_of_getElem hlv]
      apply foldlM_congr_inv (SameShape L)
      · intro b a b' ha hb hstep
        rw [List.mem_range] at ha
        rw [check_up_unit_eq] at hstep
        · exact hb.trans (sameShape_of_effects_loop E r _ b b' hstep)
        · rw [n_units_congr hb, n_units_of_getElem hlv]; exact ha
      · intro b a ha hb
        rw [List.mem_range] at ha
        rw [check_up_unit_eq, unit_effects_congr hb]
        rw [n_units_congr hb, n_units_of_getElem hlv]; exact ha
      · exact SameShape.refl L



theorem connect_all_append (L : Levels) (a b : List (ReqRef × EffRef)) :
    connect_all (connect_all L a) b = connect_all L (a ++ b) := by
  simp [connect_all, List.foldl_append]

theorem get_req_connect_all_of_not_mem (L : Levels) (ps : List (ReqRef × EffRef)) (r : ReqRef)
    (h : ∀ p ∈ ps, p.1 ≠ r) : get_req (connect_all L ps) r = get_req L r := by
  rw [get_req_connect_all]
  have h1 : ps.any (fun p => decide (p.1 = r)) = false := by
    rw [List.any_eq_false]
    intro p hp
    simpa using h p hp
  have h2 : ps.filter (fun p => decide (p.1 = r)) = [] := by
    rw [List.filter_eq_nil_iff]
    intro p hp
    simpa using h p hp
  rw [h1, h2]
  cases get_req L r with
  | none => rfl
  | some q => simp

theorem get_effect_connect_all_of_not_mem (L : Levels) (ps : List (ReqRef × EffRef))
    (e : EffRef) (h : ∀ p ∈ ps, p.2 ≠ e) : get_effect (connect_all L ps) e = get_effect L e := by
  rw [get_effect_connect_all]
  have h2 : ps.filter (fun p => decide (p.2 = e)) = [] := by
    rw [List.filter_eq_nil_iff]
    intro p hp
    simpa using h p hp
  rw [h2]
  cases get_effect L e with
  | none => rfl
  | some q => simp

theorem check_req_sameShape (E : Env) (up : Nat) (L L' : Levels) (r : ReqRef)
    (hup : up < L.length) (h : check_req E up L r = some L') : SameShape L L' := by
  rw [check_req_eq E up L r hup] at h
  cases hq : get_req L r with
  | none => simp [hq] at h
  | some q =>
    simp only [hq] at h
    cases hs : q.satisfied with
    | true =>
      simp only [hs, if_true, Option.some.injEq] at h
      exact h ▸ SameShape.refl L
    | false =>
      simp only [hs, Bool.false_eq_true, if_false] at h
      cases hsel : select_links E L r (eff_refs L up) with
      | none => simp [hsel] at h
      | some sel =>
        simp only [hsel, Option.map_some', Option.some.injEq] at h
        exact h ▸ sameShape_connect_all L _

theorem reqs_loop (E : Env) (up : Nat) (L0 : Levels) (hup : up < L0.length)
    (rs : List ReqRef) (hnd : rs.Nodup) (L : Levels) (hs : SameShape L0 L)
    (hreq : ∀ r ∈ rs, get_req L r = get_req L0 r) :
    rs.foldlM (check_req E up) L = (conn_pairs E L0 up rs).map (connect_all L) := by
  induction rs generalizing L with
  | nil => rfl
  | cons r rs ih =>
    have hupL : up < L.length := hs.length ▸ hup
    have hnd' := List.nodup_cons.mp hnd
    simp only [List.foldlM_cons, conn_pairs]
    rw [check_req_eq E up L r hupL, hreq r (List.mem_cons_self _ _)]
    cases hq : get_req L0 r with
    | none => rfl
    | some q =>
      simp only
      cases hsat : q.satisfied with
      | true =>
        simp only [if_true, Option.bind_eq_bind, Option.some_bind]
        exact ih hnd'.2 L hs (fun r' hr' => hreq r' (List.mem_cons_of_mem _ hr'))
      | false =>
        simp only [Bool.false_eq_true, if_false]
        rw [select_links_congr E hs, eff_refs_congr hs]
        cases hsel : select_links E L0 r (eff_refs L0 up) with
        | none => rfl
        | some sel =>
          simp only [Option.map_some', Option.bind_eq_bind, Option.some_bind]
          rw [ih hnd'.2 _ (hs.trans (sameShape_connect_all L _))]
          · cases conn_pairs E L0 up rs with
            | none => rfl
            | some rest => simp [connect_all_append]
          · intro r' hr'
            rw [get_req_connect_all_of_not_mem]
            · exact hreq r' (List.mem_cons_of_mem _ hr')
            · intro p hp
              rw [List.mem_map] at hp
              obtain ⟨e, _, rfl⟩ := hp
              intro heq
              have heq' : r = r' := heq
              exact hnd'.1 (heq' ▸ hr')

theorem check_down_unit_eq (E : Env) (up : Nat) (L : Levels) (du : UnitRef)
    (h : du.index < n_units L du.level) :
    check_down_unit E up L du = (unit_reqs L du).foldlM (check_req E up) L := by
  obtain ⟨unit, hu⟩ := get_unit_some_of_lt L du h
  unfold check_down_unit unit_reqs
  rw [hu, foldlM_map_ref, n_reqs_of_get_unit hu]

theorem sameShape_of_reqs_loop (E : Env) (up : Nat) (rs : List ReqRef) (L L' : Levels)
    (hup : up < L.length) (h : rs.foldlM (check_req E up) L = some L') : SameShape L L' := by
  apply foldlM_inv (SameShape L) (check_req E up) rs _ L L' (SameShape.refl L) h
  intro b a b' _ hb hstep
  exact hb.trans (check_req_sameShape E up b b' a (hb.length ▸ hup) hstep)

/-- One call of `check_connections` links, in order, the pairs listed by `conn_pairs`. -/
theorem check_connections_eq (E : Env) (L : Levels) (up down : Nat) (hup : up < L.length)
    (hdown : down < L.length) :
    check_connections E L up down =
      (conn_pairs E L up (req_refs L down)).map (connect_all L) := by
  have hlv : L[down]? = some L[down] := List.getElem?_eq_getElem hdown
  rw [← reqs_loop E up L hup (req_refs L down) (nodup_req_refs L down) L (SameShape.refl L)
    (fun _ _ => rfl)]
  unfold check_connections
  rw [hlv]
  simp only
  rw [req_refs, foldlM_flatMap, level_units, foldlM_map_ref, n_units_of_getElem hlv]
  apply foldlM_congr_inv (SameShape L)
  · intro b a b' ha hb hstep
    rw [List.mem_range] at ha
    rw [check_down_unit_eq] at hstep
    · exact hb.trans (sameShape_of_reqs_loop E up _ b b' (hb.length ▸ hup) hstep)
    · rw [n_units_congr hb, n_units_of_getElem hlv]; exact ha
  · intro b a ha hb
    rw [List.mem_range] at ha
    rw [check_down_unit_eq, unit_reqs_congr hb]
    rw [n_units_congr hb, n_units_of_getElem hlv]; exact ha
  · exact SameShape.refl L



theorem select_links_eq_filter (E : Env) (L : Levels) (r : ReqRef) (es sel : List EffRef)
    (h : select_links E L r es = some sel) : sel = es.filter (linked E L r) := by
  induction es generalizing sel with
  | nil => simp [select_links] at h; simp [h]
  | cons e es ih =>
    simp only [select_links] at h
    cases hl : links E L r e with
    | none => simp [hl] at h
    | some b =>
      cases hs : select_links E L r es with
      | none => simp [hl, hs] at h
      | some rest =>
        simp only [hl, hs, Option.some.injEq] at h
        have := ih rest hs
        cases b with
        | true => simp [← h, this, List.filter_cons, linked, hl]
        | false => simp [← h, this, List.filter_cons, linked, hl]

theorem select_links_isSome_iff (E : Env) (L : Levels) (r : ReqRef) (es : List EffRef) :
    (select_links E L r es).isSome ↔ ∀ e ∈ es, (links E L r e).isSome := by
  induction es with
  | nil => simp [select_links]
  | cons e es ih =>
    simp only [select_links, List.mem_cons, forall_eq_or_imp, ← ih]
    cases links E L r e <;> cases select_links E L r es <;> simp

theorem unsat_eq_true_iff {L : Levels} {r : ReqRef} :
    unsat L r = true ↔ ∃ q, get_req L r = some q ∧ q.satisfied = false := by
  unfold unsat
  cases get_req L r with
  | none => simp
  | some q => simp

theorem filter_fst_map_pair (r0 r : ReqRef) (sel : List EffRef) :
    ((sel.map (fun e => (r0, e))).filter (fun p => decide (p.1 = r))).map (fun p => p.2) =
      if r0 = r then sel else [] := by
  by_cases h : r0 = r
  · simp only [h, if_true]
    induction sel with
    | nil => rfl
    | cons e sel ih => simp [List.filter_cons, ih]
  · simp only [h, if_false]
    induction sel with
    | nil => rfl
    | cons e sel ih => simp [List.filter_cons, h, ih]

theorem filter_snd_map_pair (r0 : ReqRef) (e : EffRef) (sel : List EffRef) (hnd : sel.Nodup) :
    ((sel.map (fun x => (r0, x))).filter (fun p => decide (p.2 = e))).map (fun p => p.1) =
      if e ∈ sel then [r0] else [] := by
  induction sel with
  | nil => rfl
  | cons x sel ih =>
    have hnd' := List.nodup_cons.mp hnd
    simp only [List.map_cons, List.filter_cons, List.mem_cons]
    by_cases hx : x = e
    · subst hx
      simp only [decide_True, if_true, List.map_cons, true_or]
      rw [ih hnd'.2]
      simp [hnd'.1]
    · simp only [hx, decide_False, Bool.false_eq_true, if_false]
      rw [ih hnd'.2]
      have : (e = x ∨ e ∈ sel) ↔ e ∈ sel := by
        constructor
        · rintro (h | h)
          · exact absurd h.symm hx
          · exact h
        · exact Or.inr
      simp only [this]

theorem nodup_level_links (E : Env) (L : Levels) (r : ReqRef) (j : Nat) :
    (level_links E L r j).Nodup :=
  (nodup_eff_refs L j).filter _

theorem conn_pairs_fst (E : Env) (L : Levels) (up : Nat) (rs : List ReqRef)
    (ps : List (ReqRef × EffRef)) (h : conn_pairs E L up rs = some ps) (r : ReqRef) :
    (ps.filter (fun p => decide (p.1 = r))).map (fun p => p.2) =
      (rs.filter (fun r' => decide (r' = r) && unsat L r')).flatMap
        (fun r' => level_links E L r' up) := by
  induction rs generalizing ps with
  | nil => simp [conn_pairs] at h; simp [h]
  | cons r0 rs ih =>
    simp only [conn_pairs] at h
    cases hq : get_req L r0 with
    | none => simp [hq] at h
    | some q =>
      simp only [hq] at h
      cases hsat : q.satisfied with
      | true =>
        simp only [hsat, if_true] at h
        have hu : unsat L r0 = false := by simp [unsat, hq, hsat]
        rw [ih ps h]
        simp [List.filter_cons, hu]
      | false =>
        simp only [hsat, Bool.false_eq_true, if_false] at h
        have hu : unsat L r0 = true := by simp [unsat, hq, hsat]
        cases hsel : select_links E L r0 (eff_refs L up) with
        | none => simp [hsel] at h
        | some sel =>
          cases hrest : conn_pairs E L up rs with
          | none => simp [hsel, hrest] at h
          | some rest =>
            simp only [hsel, hrest, Option.some.injEq] at h
            subst h
            rw [List.filter_append, List.map_append, ih rest hrest, filter_fst_map_pair]
            have hsel' := select_links_eq_filter E L r0 _ sel hsel
            by_cases h0 : r0 = r
            · simp [List.filter_cons, h0, hu, hsel', level_links] at *
              simp [hu]
            · simp [List.filter_cons, h0]

theorem conn_pairs_snd (E : Env) (L : Levels) (up : Nat) (rs : List ReqRef)
    (ps : List (ReqRef × EffRef)) (h : conn_pairs E L up rs = some ps) (e : EffRef) :
    (ps.filter (fun p => decide (p.2 = e))).map (fun p => p.1) =
      rs.filter (fun r => unsat L r && decide (e ∈ level_links E L r up)) := by
  induction rs generalizing ps with
  | nil => simp [conn_pairs] at h; simp [h]
  | cons r0 rs ih =>
    simp only [conn_pairs] at h
    cases hq : get_req L r0 with
    | none => simp [hq] at h
    | some q =>
      simp only [hq] at h
      cases hsat : q.satisfied with
      | true =>
        simp only [hsat, if_true] at h
        have hu : unsat L r0 = false := by simp [unsat, hq, hsat]
        rw [ih ps h]
        simp [List.filter_cons, hu]
      | false =>
        simp only [hsat, Bool.false_eq_true, if_false] at h
        have hu : unsat L r0 = true := by simp [unsat, hq, hsat]
        cases hsel : select_links E L r0 (eff_refs L up) with
        | none => simp [hsel] at h
        | some sel =>
          cases hrest : conn_pairs E L up rs with
          | none => simp [hsel, hrest] at h
          | some rest =>
            simp only [hsel, hrest, Option.some.injEq] at h
            subst h
            have hsel' := select_links_eq_filter E L r0 _ sel hsel
            have hnd : sel.Nodup := hsel' ▸ nodup_level_links E L r0 up
            rw [List.filter_append, List.map_append, ih rest hrest,
              filter_snd_map_pair r0 e sel hnd]
            have hlv : level_links E L r0 up = sel := hsel'.symm
            by_cases he : e ∈ sel
            · simp [List.filter_cons, hu, hlv, he]
            · simp [List.filter_cons, hu, hlv, he]



theorem get_req_isSome (L : Levels) (r : ReqRef) :
    (get_req L r).isSome = decide (r.index < n_reqs L r.action) := by
  unfold get_req n_reqs unit_shape
  cases h : get_unit L r.action with
  | none => simp
  | some unit =>
    simp only [Option.map_some']
    by_cases hk : r.index < unit.reqs.length
    · simp [hk]
    · simp [hk, List.getElem?_eq_none (Nat.le_of_not_lt hk)]

theorem get_effect_isSome (L : Levels) (e : EffRef) :
    (get_effect L e).isSome = decide (e.index < n_effects L e.action) := by
  unfold get_effect n_effects unit_shape
  cases h : get_unit L e.action with
  | none => simp
  | some unit =>
    simp only [Option.map_some']
    by_cases hk : e.index < unit.effects.length
    · simp [hk]
    · simp [hk, List.getElem?_eq_none (Nat.le_of_not_lt hk)]

theorem get_req_some_of_mem {L : Levels} {i : Nat} {r : ReqRef} (h : r ∈ req_refs L i) :
    ∃ q, get_req L r = some q := by
  rw [mem_req_refs] at h
  have := get_req_isSome L r
  simp only [h.2.2, decide_True] at this
  exact Option.isSome_iff_exists.mp this

theorem get_effect_some_of_mem {L : Levels} {i : Nat} {e : EffRef} (h : e ∈ eff_refs L i) :
    ∃ x, get_effect L e = some x := by
  rw [mem_eff_refs] at h
  have := get_effect_isSome L e
  simp only [h.2.2, decide_True] at this
  exact Option.isSome_iff_exists.mp this

theorem mem_req_refs_of_get_req {L : Levels} {r : ReqRef} {q : RequirementConnection}
    (h : get_req L r = some q) : r ∈ req_refs L r.action.level := by
  rw [mem_req_refs]
  have h1 := get_req_isSome L r
  rw [h] at h1
  have h1' : r.index < n_reqs L r.action := by simpa using h1.symm
  refine ⟨rfl, ?_, h1'⟩
  have h2 := get_unit_isSome L r.action
  cases hu : get_unit L r.action with
  | none => simp [get_req, hu] at h
  | some unit =>
    rw [hu] at h2
    simpa using h2.symm

theorem mem_eff_refs_of_get_effect {L : Levels} {e : EffRef} {x : EffectConnection}
    (h : get_effect L e = some x) : e ∈ eff_refs L e.action.level := by
  rw [mem_eff_refs]
  have h1 := get_effect_isSome L e
  rw [h] at h1
  have h1' : e.index < n_effects L e.action := by simpa using h1.symm
  refine ⟨rfl, ?_, h1'⟩
  have h2 := get_unit_isSome L e.action
  cases hu : get_unit L e.action with
  | none => simp [get_effect, hu] at h
  | some unit =>
    rw [hu] at h2
    simpa using h2.symm

theorem filter_eq_and (rs : List ReqRef) (hnd : rs.Nodup) (r : ReqRef) (c : ReqRef → Bool) :
    rs.filter (fun r' => decide (r' = r) && c r') = if r ∈ rs ∧ c r = true then [r] else [] := by
  induction rs with
  | nil => simp
  | cons r0 rs ih =>
    have hnd' := List.nodup_cons.mp hnd
    rw [List.filter_cons, ih hnd'.2]
    by_cases h0 : r0 = r
    · subst h0
      by_cases hc : c r0 = true
      · simp [hc, hnd'.1]
      · simp [hc]
    · have : (r ∈ r0 :: rs) ↔ r ∈ rs := by
        simp only [List.mem_cons]
        constructor
        · rintro (h | h)
          · exact absurd h.symm h0
          · exact h
        · exact Or.inr
      simp [h0, this]

theorem any_eq_not_isEmpty_filter {α : Type} (l : List α) (p : α → Bool) :
    l.any p = !(l.filter p).isEmpty := by
  induction l with
  | nil => rfl
  | cons a l ih =>
    rw [List.any_cons, List.filter_cons, ih]
    cases p a <;> simp

theorem mem_level_links {E : Env} {L : Levels} {r : ReqRef} {j : Nat} {e : EffRef} :
    e ∈ level_links E L r j ↔ e ∈ eff_refs L j ∧ linked E L r e = true := by
  simp [level_links, List.mem_filter]

theorem level_links_congr (E : Env) {L0 L : Levels} (h : SameShape L0 L) (r : ReqRef) (j : Nat) :
    level_links E L r j = level_links E L0 r j := by
  unfold level_links
  rw [eff_refs_congr h]
  congr 1
  funext e
  simp only [linked, links_congr E h]

/-- What one call of `check_connections` does to every requirement and every effect. -/
theorem check_connections_spec (E : Env) (L L' : Levels) (up down : Nat) (hup : up < L.length)
    (hdown : down < L.length) (h : check_connections E L up down = some L') :
    SameShape L L' ∧
    (∀ r, get_req L' r = (get_req L r).map (fun q =>
      if r ∈ req_refs L down ∧ q.satisfied = false then
        { q with
          satisfied := !(level_links E L r up).isEmpty
          effect_connections := q.effect_connections ++ level_links E L r up }
      else q)) ∧
    (∀ e, get_effect L' e = (get_effect L e).map (fun x =>
      { x with
        requirement_connections := x.requirement_connections ++
          (req_refs L down).filter
            (fun r => unsat L r && decide (e ∈ level_links E L r up)) })) := by
  rw [check_connections_eq E L up down hup hdown] at h
  cases hps : conn_pairs E L up (req_refs L down) with
  | none => simp [hps] at h
  | some ps =>
    simp only [hps, Option.map_some', Option.some.injEq] at h
    subst h
    refine ⟨sameShape_connect_all L ps, ?_, ?_⟩
    · intro r
      rw [get_req_connect_all]
      cases hq : get_req L r with
      | none => rfl
      | some q =>
        simp only [Option.map_some', Option.some.injEq]
        have hfst := conn_pairs_fst E L up _ ps hps r
        rw [filter_eq_and _ (nodup_req_refs L down)] at hfst
        have hany : ps.any (fun p => decide (p.1 = r)) =
            !((ps.filter (fun p => decide (p.1 = r))).map (fun p => p.2)).isEmpty := by
          rw [any_eq_not_isEmpty_filter]
          cases ps.filter (fun p => decide (p.1 = r)) <;> rfl
        rw [hany, hfst]
        have hu : unsat L r = !q.satisfied := by simp [unsat, hq]
        obtain ⟨n, s, ec⟩ := q
        simp only at hu ⊢
        by_cases hm : r ∈ req_refs L down
        · cases s with
          | true => simp [hm, hu]
          | false => simp [hm, hu]
        · cases s <;> simp [hm]
    · intro e
      rw [get_effect_connect_all, conn_pairs_snd E L up _ ps hps e]



theorem nearest_from_step (E : Env) (L : Levels) (r : ReqRef) (c k : Nat) (hck : c < k) :
    nearest_from E L r c k =
      if (nearest_from E L r (c + 1) k).isEmpty then level_links E L r c
      else nearest_from E L r (c + 1) k := by
  induction k with
  | zero => omega
  | succ j ih =>
    simp only [nearest_from]
    have h1 : ¬ j < c := by omega
    simp only [h1, if_false]
    by_cases hjc : j = c
    · subst hjc
      simp only [Nat.lt_succ_self, if_true, List.isEmpty_nil]
      by_cases hl : (level_links E L r j).isEmpty
      · simp only [hl, if_true]
        have : ∀ m, m ≤ j → nearest_from E L r j m = [] := by
          intro m hm
          induction m with
          | zero => rfl
          | succ m _ => simp only [nearest_from]; rw [if_pos (by omega)]
        rw [this j (le_refl j)]
        simpa using hl
      · simp [hl]
    · have h2 : ¬ j < c + 1 := by omega
      simp only [h2, if_false]
      by_cases hl : (level_links E L r j).isEmpty
      · simp only [hl, if_true]
        exact ih (by omega)
      · simp [hl]

theorem nearest_from_level (E : Env) (L : Levels) (r : ReqRef) (c k : Nat) (e : EffRef)
    (h : e ∈ nearest_from E L r c k) :
    c ≤ e.action.level ∧ e.action.level < k ∧ linked E L r e = true ∧
      e ∈ eff_refs L e.action.level := by
  induction k with
  | zero => simp [nearest_from] at h
  | succ j ih =>
    simp only [nearest_from] at h
    by_cases hjc : j < c
    · simp [hjc] at h
    · simp only [hjc, if_false] at h
      by_cases hl : (level_links E L r j).isEmpty
      · simp only [hl, if_true] at h
        have := ih h
        exact ⟨this.1, by omega, this.2.2⟩
      · simp only [hl, Bool.false_eq_true, if_false] at h
        rw [mem_level_links] at h
        have hlev := (mem_eff_refs.mp h.1).1
        exact ⟨by omega, by omega, h.2, hlev ▸ h.1⟩

theorem nearest_from_stable (E : Env) (L : Levels) (r : ReqRef) (c k : Nat)
    (h : (nearest_from E L r c k).isEmpty = false) :
    nearest_from E L r 0 k = nearest_from E L r c k := by
  induction c with
  | zero => rfl
  | succ c ih =>
    by_cases hck : c < k
    · have := nearest_from_step E L r c k hck
      rw [h] at this
      simp only [Bool.false_eq_true, if_false] at this
      rw [← this]
      exact ih (this ▸ h)
    · have : nearest_from E L r (c + 1) k = [] := by
        cases k with
        | zero => rfl
        | succ j => simp only [nearest_from]; rw [if_pos (by omega)]
      rw [this] at h
      simp at h

theorem nearest_from_self (E : Env) (L : Levels) (r : ReqRef) (c k : Nat) (h : k ≤ c) :
    nearest_from E L r c k = [] := by
  cases k with
  | zero => rfl
  | succ j => simp only [nearest_from]; rw [if_pos (by omega)]

theorem Resolved.congr {L0 L : Levels} {prod prod' : ReqRef → List EffRef}
    {cons cons' : EffRef → List ReqRef} (h : Resolved L0 L prod cons)
    (hp : ∀ r q, get_req L0 r = some q → prod r = prod' r)
    (hc : ∀ e x, get_effect L0 e = some x → cons e = cons' e) :
    Resolved L0 L prod' cons' := by
  refine ⟨h.shape, ?_, ?_⟩
  · intro r
    rw [h.req]
    cases hq : get_req L0 r with
    | none => rfl
    | some q => simp [hp r q hq]
  · intro e
    rw [h.effect]
    cases hx : get_effect L0 e with
    | none => rfl
    | some x => simp [hc e x hx]

theorem Resolved.unsat {L0 L : Levels} {prod : ReqRef → List EffRef}
    {cons : EffRef → List ReqRef} (h : Resolved L0 L prod cons) (r : ReqRef)
    (q : RequirementConnection) (hq : get_req L0 r = some q) :
    unsat L r = (prod r).isEmpty := by
  unfold plansys2.unsat
  rw [h.req, hq]
  simp

theorem mem_req_refs_iff_level {L : Levels} {r : ReqRef} {q : RequirementConnection}
    (hq : get_req L r = some q) (i : Nat) : r ∈ req_refs L i ↔ r.action.level = i := by
  constructor
  · intro h; exact (mem_req_refs.mp h).1
  · intro h; exact h ▸ mem_req_refs_of_get_req hq

theorem sweep_step (E : Env) (L0 L L' : Levels) (i c : Nat) (hci : c < i)
    (hi : i < L0.length)
    (hR : Resolved L0 L (prod_at E L0 i (c + 1)) (cons_at E L0 i (c + 1)))
    (h : check_connections E L c i = some L') :
    Resolved L0 L' (prod_at E L0 i c) (cons_at E L0 i c) := by
  have hlen := hR.shape.length
  obtain ⟨hs, hreq, heff⟩ :=
    check_connections_spec E L L' c i (by omega) (by omega) h
  refine ⟨hR.shape.trans hs, ?_, ?_⟩
  · intro r
    rw [hreq r, hR.req r]
    cases hq : get_req L0 r with
    | none => rfl
    | some q =>
      simp only [Option.map_some', Option.some.injEq]
      simp only [req_refs_congr hR.shape, mem_req_refs_iff_level hq,
        level_links_congr E hR.shape]
      by_cases hl : r.action.level = i
      · have h1 : prod_at E L0 i (c + 1) r = nearest_from E L0 r (c + 1) i := by
          simp [prod_at, hl]
        have h2 : prod_at E L0 i c r = nearest_from E L0 r c i := by
          simp [prod_at, hl]
        rw [h1, h2, nearest_from_step E L0 r c i hci]
        cases hn : nearest_from E L0 r (c + 1) i with
        | nil => simp [hl]
        | cons a l => simp [hl]
      · have h1 : prod_at E L0 i c r = prod_at E L0 i (c + 1) r := by
          simp [prod_at, hl]
        simp [hl, h1]
  · intro e
    rw [heff e, hR.effect e]
    cases hx : get_effect L0 e with
    | none => rfl
    | some x =>
      simp only [Option.map_some', Option.some.injEq]
      congr 1
      simp only [cons_at, List.append_assoc]
      congr 1
      rw [req_refs_congr hR.shape]
      by_cases hl : e.action.level = c
      · have h1 : (req_refs L0 i).filter
            (fun r => decide (e ∈ nearest_from E L0 r (c + 1) i)) = [] := by
          rw [List.filter_eq_nil_iff]
          intro r _
          simp only [decide_eq_true_eq]
          intro hmem
          have := (nearest_from_level E L0 r (c + 1) i e hmem).1
          omega
        rw [h1, List.nil_append]
        apply List.filter_congr
        intro r hr
        obtain ⟨q, hq⟩ := get_req_some_of_mem hr
        have hlr := (mem_req_refs.mp hr).1
        have hu := hR.unsat r q hq
        have h2 : prod_at E L0 i (c + 1) r = nearest_from E L0 r (c + 1) i := by
          simp [prod_at, hlr]
        rw [hu, h2, nearest_from_step E L0 r c i hci, level_links_congr E hR.shape]
        cases hn : nearest_from E L0 r (c + 1) i with
        | nil => simp
        | cons a l =>
          simp only [List.isEmpty_cons, Bool.false_and, Bool.false_eq_true, if_false]
          symm
          rw [decide_eq_false_iff_not]
          intro hmem
          have := (nearest_from_level E L0 r (c + 1) i e (hn ▸ hmem)).1
          omega
      · have h1 : (req_refs L0 i).filter
            (fun r => unsat L r && decide (e ∈ level_links E L r c)) = [] := by
          rw [List.filter_eq_nil_iff]
          intro r _
          simp only [Bool.and_eq_true, decide_eq_true_eq, not_and]
          intro _ hmem
          exact hl (mem_eff_refs.mp (mem_level_links.mp hmem).1).1
        rw [h1, List.append_nil]
        apply List.filter_congr
        intro r _
        rw [nearest_from_step E L0 r c i hci]
        cases hn : nearest_from E L0 r (c + 1) i with
        | nil =>
          simp only [List.isEmpty_nil, if_true, List.not_mem_nil, decide_False]
          symm
          rw [decide_eq_false_iff_not]
          intro hmem
          exact hl (mem_eff_refs.mp (mem_level_links.mp hmem).1).1
        | cons a l => simp



theorem foldl_and_satisfied (reqs : List RequirementConnection) (ret : Bool) :
    reqs.foldl (fun ret req => ret && req.satisfied) ret =
      (ret && reqs.all (fun req => req.satisfied)) := by
  induction reqs generalizing ret with
  | nil => simp
  | cons q reqs ih => simp [List.foldl_cons, ih, Bool.and_assoc]

theorem level_satisfied_eq_all (level : ExecutionLevel) :
    level_satisfied level =
      level.action_units.all (fun u => u.reqs.all (fun req => req.satisfied)) := by
  unfold level_satisfied
  have : ∀ (us : List ActionUnit) (ret : Bool),
      us.foldl (fun ret action_unit =>
        action_unit.reqs.foldl (fun ret req => ret && req.satisfied) ret) ret =
        (ret && us.all (fun u => u.reqs.all (fun req => req.satisfied))) := by
    intro us
    induction us with
    | nil => simp
    | cons u us ih =>
      intro ret
      rw [List.foldl_cons, ih, foldl_and_satisfied, List.all_cons, Bool.and_assoc]
  rw [this]
  simp

theorem unsat_of_level_satisfied (L : Levels) (i : Nat) (level : ExecutionLevel)
    (hlv : L[i]? = some level) (h : level_satisfied level = true) (r : ReqRef)
    (hr : r ∈ req_refs L i) : unsat L r = false := by
  obtain ⟨q, hq⟩ := get_req_some_of_mem hr
  have hl := (mem_req_refs.mp hr).1
  rw [level_satisfied_eq_all, List.all_eq_true] at h
  unfold plansys2.unsat
  rw [hq]
  unfold get_req get_unit at hq
  rw [hl, hlv] at hq
  simp only at hq
  cases hu : level.action_units[r.action.index]? with
  | none => simp [hu] at hq
  | some unit =>
    simp only [hu] at hq
    have h1 := h unit (List.getElem?_mem hu)
    rw [List.all_eq_true] at h1
    have h2 := h1 q (List.getElem?_mem hq)
    simp [h2]

theorem sweep_level_resolved (E : Env) (L0 : Levels) (i : Nat) (hi : i < L0.length) (c : Nat)
    (hci : c ≤ i) (L L' : Levels)
    (hR : Resolved L0 L (prod_at E L0 i c) (cons_at E L0 i c))
    (h : sweep_level E i c L = some L') :
    Resolved L0 L' (prod_at E L0 i 0) (cons_at E L0 i 0) := by
  induction c generalizing L with
  | zero =>
    simp only [sweep_level, Option.some.injEq] at h
    exact h ▸ hR
  | succ c ih =>
    have hlen := hR.shape.length
    have hlv : L[i]? = some L[i] := List.getElem?_eq_getElem (by omega)
    simp only [sweep_level, hlv] at h
    cases hsat : level_satisfied L[i] with
    | false =>
      simp only [hsat, Bool.not_false, if_true] at h
      cases hcc : check_connections E L c i with
      | none => simp [hcc] at h
      | some L1 =>
        simp only [hcc] at h
        exact ih (by omega) L1 (sweep_step E L0 L L1 i c (by omega) hi hR hcc) h
    | true =>
      simp only [hsat, Bool.not_true, Bool.false_eq_true, if_false, Option.some.injEq] at h
      subst h
      have key : ∀ r q, get_req L0 r = some q → r.action.level = i →
          nearest_from E L0 r 0 i = nearest_from E L0 r (c + 1) i := by
        intro r q hq hl
        apply nearest_from_stable
        have hr : r ∈ req_refs L i := by
          rw [req_refs_congr hR.shape]; exact (mem_req_refs_iff_level hq i).mpr hl
        have hu := unsat_of_level_satisfied L i _ hlv hsat r hr
        rw [hR.unsat r q hq] at hu
        simpa [prod_at, hl] using hu
      apply hR.congr
      · intro r q hq
        by_cases hl : r.action.level = i
        · simp [prod_at, hl, key r q hq hl]
        · simp [prod_at, hl]
      · intro e x _
        simp only [cons_at]
        congr 1
        apply List.filter_congr
        intro r hr
        obtain ⟨q, hq⟩ := get_req_some_of_mem hr
        rw [key r q hq (mem_req_refs.mp hr).1]



theorem level_lt_of_get_req {L : Levels} {r : ReqRef} {q : RequirementConnection}
    (hq : get_req L r = some q) : r.action.level < L.length := by
  unfold get_req get_unit at hq
  cases h : L[r.action.level]? with
  | none => simp [h] at hq
  | some lv => exact (List.getElem?_eq_some.mp h).1

theorem level_lt_of_get_effect {L : Levels} {e : EffRef} {x : EffectConnection}
    (hx : get_effect L e = some x) : e.action.level < L.length := by
  unfold get_effect get_unit at hx
  cases h : L[e.action.level]? with
  | none => simp [h] at hx
  | some lv => exact (List.getElem?_eq_some.mp h).1

theorem req_refs_eq_nil_of_le (L : Levels) (i : Nat) (h : L.length ≤ i) : req_refs L i = [] := by
  simp [req_refs, level_units, n_units, level_shape, List.getElem?_eq_none h]

theorem resolved_fresh (E : Env) (L0 : Levels) (hF : Fresh L0) :
    Resolved L0 L0 (prod_at E L0 1 1) (cons_at E L0 1 1) := by
  refine ⟨SameShape.refl L0, ?_, ?_⟩
  · intro r
    cases hq : get_req L0 r with
    | none => rfl
    | some q =>
      have hp : prod_at E L0 1 1 r = [] := by
        unfold prod_at
        by_cases h1 : r.action.level < 1
        · have h0 : r.action.level = 0 := by omega
          simp [h1, nearest, h0, nearest_from]
        · by_cases h2 : r.action.level = 1
          · simp [h2, nearest_from_self]
          · simp [h1, h2]
      obtain ⟨hs, hec⟩ := hF.1 r q hq
      obtain ⟨n, s, ec⟩ := q
      simp only at hs hec
      simp [hp, hs, hec]
  · intro e
    cases hx : get_effect L0 e with
    | none => rfl
    | some x =>
      have hc : cons_at E L0 1 1 e = [] := by
        unfold cons_at consumers_upto
        have hr1 : List.range 1 = [0] := rfl
        rw [hr1]
        simp only [List.flatMap_cons, List.flatMap_nil, List.append_nil,
          List.append_eq_nil, List.filter_eq_nil_iff, decide_eq_true_eq]
        constructor
        · intro r hr
          have h0 := (mem_req_refs.mp hr).1
          simp [nearest, h0, nearest_from]
        · intro r _
          simp [nearest_from_self]
      have hrc := hF.2 e x hx
      obtain ⟨n, rc⟩ := x
      simp only at hrc
      simp [hc, hrc]

theorem sweep_prefix_resolved (E : Env) (L0 : Levels) (hF : Fresh L0) (m : Nat)
    (hm : m + 1 ≤ L0.length) (L : Levels)
    (h : (List.range m).foldlM (fun L k => sweep_level E (k + 1) (k + 1) L) L0 = some L) :
    Resolved L0 L (prod_at E L0 (m + 1) (m + 1)) (cons_at E L0 (m + 1) (m + 1)) := by
  induction m generalizing L with
  | zero =>
    simp only [List.range_zero, List.foldlM_nil, pure, Option.some.injEq] at h
    exact h ▸ resolved_fresh E L0 hF
  | succ m ih =>
    rw [List.range_succ, List.foldlM_append] at h
    cases h1 : (List.range m).foldlM (fun L k => sweep_level E (k + 1) (k + 1) L) L0 with
    | none => simp [h1] at h
    | some L1 =>
      simp only [h1, Option.bind_eq_bind, Option.some_bind, List.foldlM_cons, List.foldlM_nil]
        at h
      have h2 : sweep_level E (m + 1) (m + 1) L1 = some L := by
        cases h3 : sweep_level E (m + 1) (m + 1) L1 with
        | none => simp [h3] at h
        | some L2 => simpa [h3] using h
      have hR := sweep_level_resolved E L0 (m + 1) (by omega) (m + 1) (le_refl _) L1 L
        (ih (by omega) L1 h1) h2
      apply hR.congr
      · intro r q _
        unfold prod_at
        by_cases h1 : r.action.level < m + 1
        · have : r.action.level < m + 1 + 1 := by omega
          simp [h1, this]
        · by_cases h2 : r.action.level = m + 1
          · simp [h2, nearest]
          · have : ¬ r.action.level < m + 1 + 1 := by omega
            by_cases h3 : r.action.level = m + 1 + 1
            · simp [h3, nearest_from_self]
            · simp [h1, h2, this, h3]
      · intro e x _
        unfold cons_at consumers_upto
        rw [List.range_succ (m + 1), List.flatMap_append]
        simp only [List.flatMap_cons, List.flatMap_nil, List.append_nil]
        have h3 : (req_refs L0 (m + 1 + 1)).filter
            (fun r => decide (e ∈ nearest_from E L0 r (m + 1 + 1) (m + 1 + 1))) = [] := by
          rw [List.filter_eq_nil_iff]
          intro r _
          simp [nearest_from_self]
        rw [h3, List.append_nil]
        congr 1
        apply List.filter_congr
        intro r hr
        have h0 := (mem_req_refs.mp hr).1
        simp [nearest, h0]

/-- The closed form of the level sweep: every requirement holds the matching effects of the
nearest earlier level that has one, every effect the requirements that chose it. -/
theorem sweep_resolved (E : Env) (L0 L : Levels) (hF : Fresh L0) (h : sweep E L0 = some L) :
    Resolved L0 L (nearest E L0) (consumers_of E L0) := by
  unfold sweep at h
  cases hn : L0.length with
  | zero =>
    have h0 : L0 = [] := List.length_eq_zero.mp hn
    subst h0
    simp at h
    subst h
    exact ⟨SameShape.refl _, fun r => by simp [get_req, get_unit],
      fun e => by simp [get_effect, get_unit]⟩
  | succ m =>
    rw [hn] at h
    simp only [Nat.add_sub_cancel] at h
    have hR := sweep_prefix_resolved E L0 hF m (by omega) L h
    apply hR.congr
    · intro r q hq
      have := level_lt_of_get_req hq
      simp [prod_at, hn ▸ this]
    · intro e x _
      unfold cons_at consumers_of
      rw [req_refs_eq_nil_of_le L0 (m + 1) (by omega), hn]
      simp

theorem Defined.of_sameShape {E : Env} {L0 L : Levels} (hD : Defined E L0) (hs : SameShape L0 L) :
    Defined E L := by
  intro r e hr he
  rw [links_congr E hs]
  apply hD
  · have := hs.req r
    unfold req_node at this
    cases h : get_req L0 r with
    | none => rw [h] at this; cases h' : get_req L r with
      | none => rw [h'] at hr; exact absurd hr (by simp)
      | some q => rw [h'] at this; simp at this
    | some q => rfl
  · have := hs.effect e
    unfold effect_node at this
    cases h : get_effect L0 e with
    | none => rw [h] at this; cases h' : get_effect L e with
      | none => rw [h'] at he; exact absurd he (by simp)
      | some q => rw [h'] at this; simp at this
    | some q => rfl

theorem conn_pairs_isSome (E : Env) (L : Levels) (up : Nat) (hD : Defined E L)
    (rs : List ReqRef) (hrs : ∀ r ∈ rs, (get_req L r).isSome) :
    (conn_pairs E L up rs).isSome := by
  induction rs with
  | nil => rfl
  | cons r rs ih =>
    have hr := hrs r (List.mem_cons_self _ _)
    have ih' := ih (fun r' hr' => hrs r' (List.mem_cons_of_mem _ hr'))
    simp only [conn_pairs]
    cases hq : get_req L r with
    | none => rw [hq] at hr; exact absurd hr (by simp)
    | some q =>
      simp only
      cases q.satisfied with
      | true => simpa using ih'
      | false =>
        simp only [Bool.false_eq_true, if_false]
        have hsel : (select_links E L r (eff_refs L up)).isSome := by
          rw [select_links_isSome_iff]
          intro e he
          obtain ⟨x, hx⟩ := get_effect_some_of_mem he
          exact hD r e hr (by simp [hx])
        obtain ⟨sel, hsel'⟩ := Option.isSome_iff_exists.mp hsel
        obtain ⟨rest, hrest⟩ := Option.isSome_iff_exists.mp ih'
        simp [hsel', hrest]

theorem check_connections_isSome (E : Env) (L : Levels) (up down : Nat) (hD : Defined E L)
    (hup : up < L.length) (hdown : down < L.length) :
    ∃ L', check_connections E L up down = some L' := by
  rw [check_connections_eq E L up down hup hdown]
  have := conn_pairs_isSome E L up hD (req_refs L down) (fun r hr => by
    obtain ⟨q, hq⟩ := get_req_some_of_mem hr
    simp [hq])
  obtain ⟨ps, hps⟩ := Option.isSome_iff_exists.mp this
  exact ⟨connect_all L ps, by rw [hps]; rfl⟩

theorem sweep_level_sameShape (E : Env) (i c : Nat) (L L' : Levels) (hci : c ≤ i)
    (hi : i < L.length) (h : sweep_level E i c L = some L') : SameShape L L' := by
  induction c generalizing L with
  | zero =>
    simp only [sweep_level, Option.some.injEq] at h
    exact h ▸ SameShape.refl L
  | succ c ih =>
    have hlv : L[i]? = some L[i] := List.getElem?_eq_getElem hi
    simp only [sweep_level, hlv] at h
    cases hsat : level_satisfied L[i] with
    | false =>
      simp only [hsat, Bool.not_false, if_true] at h
      cases hcc : check_connections E L c i with
      | none => simp [hcc] at h
      | some L1 =>
        simp only [hcc] at h
        have hs := (check_connections_spec E L L1 c i (by omega) hi hcc).1
        exact hs.trans (ih L1 (by omega) (hs.length ▸ hi) h)
    | true =>
      simp only [hsat, Bool.not_true, Bool.false_eq_true, if_false, Option.some.injEq] at h
      exact h ▸ SameShape.refl L

theorem sweep_level_isSome (E : Env) (i c : Nat) (L : Levels) (hD : Defined E L) (hci : c ≤ i)
    (hi : i < L.length) : ∃ L', sweep_level E i c L = some L' := by
  induction c generalizing L with
  | zero => exact ⟨L, rfl⟩
  | succ c ih =>
    have hlv : L[i]? = some L[i] := List.getElem?_eq_getElem hi
    simp only [sweep_level, hlv]
    cases hsat : level_satisfied L[i] with
    | false =>
      simp only [Bool.not_false, if_true]
      obtain ⟨L1, hcc⟩ := check_connections_isSome E L c i hD (by omega) hi
      have hs := (check_connections_spec E L L1 c i (by omega) hi hcc).1
      simp only [hcc]
      exact ih L1 (hD.of_sameShape hs) (by omega) (hs.length ▸ hi)
    | true => exact ⟨L, by simp⟩

theorem sweep_prefix_sameShape (E : Env) (L0 : Levels) (m : Nat) (hm : m + 1 ≤ L0.length)
    (L : Levels)
    (h : (List.range m).foldlM (fun L k => sweep_level E (k + 1) (k + 1) L) L0 = some L) :
    SameShape L0 L := by
  apply foldlM_inv (SameShape L0) _ (List.range m) _ L0 L (SameShape.refl L0) h
  intro b a b' ha hb hstep
  rw [List.mem_range] at ha
  exact hb.trans (sweep_level_sameShape E (a + 1) (a + 1) b b' (le_refl _)
    (by rw [← hb.length]; omega) hstep)

theorem sweep_sameShape (E : Env) (L0 L : Levels) (h : sweep E L0 = some L) :
    SameShape L0 L := by
  unfold sweep at h
  cases hn : L0.length with
  | zero =>
    rw [hn] at h
    simp at h
    exact h ▸ SameShape.refl L0
  | succ m =>
    rw [hn] at h
    simp only [Nat.add_sub_cancel] at h
    exact sweep_prefix_sameShape E L0 m (by omega) L h

/-- The level sweep returns when every test it can make has a result. -/
theorem sweep_isSome (E : Env) (L0 : Levels) (hD : Defined E L0) :
    ∃ L, sweep E L0 = some L := by
  unfold sweep
  have : ∀ m, m + 1 ≤ L0.length →
      ∃ L, (List.range m).foldlM (fun L k => sweep_level E (k + 1) (k + 1) L) L0 = some L := by
    intro m
    induction m with
    | zero => intro _; exact ⟨L0, rfl⟩
    | succ m ih =>
      intro hm
      obtain ⟨L1, h1⟩ := ih (by omega)
      have hs := sweep_prefix_sameShape E L0 m (by omega) L1 h1
      obtain ⟨L2, h2⟩ := sweep_level_isSome E (m + 1) (m + 1) L1 (hD.of_sameShape hs) (le_refl _)
        (by rw [← hs.length]; omega)
      refine ⟨L2, ?_⟩
      rw [List.range_succ, List.foldlM_append, h1]
      simp [h2]
  cases hn : L0.length with
  | zero => exact ⟨L0, rfl⟩
  | succ m =>
    simp only [Nat.add_sub_cancel]
    exact this m (by omega)

/-! ## The output format -/

theorem t_eq_spec_indent (l : Nat) : t l = spec_indent l := by
  induction l with
  | zero => rfl
  | succ n ih =>
    rw [t, ih]
    unfold spec_indent
    apply String.ext
    simp only [String.data_append]
    have : 2 * (n + 1) = 2 * n + 2 := by ring
    rw [this, List.replicate_add]
    rfl

theorem string_empty_append (s : String) : "" ++ s = s := by
  apply String.ext; simp

theorem string_append_empty (s : String) : s ++ "" = s := by
  apply String.ext; simp

theorem lit_nl (x y s : String) (h : x ++ "\n" = y) : x ++ ("\n" ++ s) = y ++ s := by
  rw [← String.append_assoc, h]

theorem execution_block_eq_spec (a : String) (T : Int) (l : Nat) :
    execution_block a T l = spec_execution_block a T l := by
  simp only [execution_block, spec_execution_block, spec_line, spec_key, t_eq_spec_indent,
    String.join, List.foldl, String.append_assoc, string_empty_append]
  rw [lit_nl "\">" "\">\n" _ rfl, lit_nl "\"/>" "\"/>\n" _ rfl,
    lit_nl "\"/>" "\"/>\n" _ rfl,
    lit_nl "<Parallel success_threshold=\"2\" failure_threshold=\"1\">"
      "<Parallel success_threshold=\"2\" failure_threshold=\"1\">\n" _ rfl,
    lit_nl "\"/>" "\"/>\n" _ rfl, lit_nl "\"/>" "\"/>\n" _ rfl,
    lit_nl "</Parallel>" "</Parallel>\n" _ rfl,
    lit_nl "\"/>" "\"/>\n" _ rfl, lit_nl "\"/>" "\"/>\n" _ rfl]
  rfl

theorem string_join_cons (s : String) (l : List String) :
    String.join (s :: l) = s ++ String.join l := by
  have : ∀ (l : List String) (acc : String),
      l.foldl (fun r s => r ++ s) acc = acc ++ l.foldl (fun r s => r ++ s) "" := by
    intro l
    induction l with
    | nil => intro acc; simp [string_append_empty]
    | cons a l ih =>
      intro acc
      rw [List.foldl_cons, ih, List.foldl_cons, ih ("" ++ a), string_empty_append,
        String.append_assoc]
  unfold String.join
  rw [List.foldl_cons, this, string_empty_append]

theorem wait_actions_eq (L : Levels) (l : Nat) (ret : String) (preds : List UnitRef) :
    wait_actions L l ret preds = ret ++ spec_wait_lines L preds (l + 1) := by
  unfold wait_actions spec_wait_lines
  induction preds generalizing ret with
  | nil => simp [String.join, string_append_empty]
  | cons p preds ih =>
    rw [List.foldl_cons, ih, List.map_cons, string_join_cons]
    simp only [spec_line, unit_key, spec_key, t_eq_spec_indent, String.append_assoc]
    rw [lit_nl "\"/>" "\"/>\n" _ rfl]

theorem sequence_open_eq (L : Levels) (n : UnitRef) (l : Nat) :
    t l ++ "<Sequence name=\"" ++ (unit_at L n).action ++ ":" ++
      to_string (unit_at L n).time ++ "\">\n" = spec_sequence_open L n l := by
  simp only [spec_sequence_open, spec_line, unit_key, spec_key, t_eq_spec_indent,
    String.append_assoc]
  rfl

theorem sequence_close_eq (l : Nat) : t l ++ "</Sequence>\n" = spec_line l "</Sequence>" := by
  simp only [spec_line, t_eq_spec_indent, String.append_assoc]
  rfl



theorem set_insert_mem {α : Type} (lt : α → α → Bool) (s : List α) (x y : α)
    (h : y ∈ set_insert lt s x) : y ∈ s ∨ y = x := by
  induction s with
  | nil => simp [set_insert] at h; exact Or.inr h
  | cons z s ih =>
    simp only [set_insert] at h
    by_cases h1 : lt x z = true
    · simp only [h1, if_true, List.mem_cons] at h
      rcases h with h | h | h
      · exact Or.inr h
      · exact Or.inl (h ▸ List.mem_cons_self _ _)
      · exact Or.inl (List.mem_cons_of_mem _ h)
    · simp only [h1, Bool.false_eq_true, if_false] at h
      by_cases h2 : lt z x = true
      · simp only [h2, if_true, List.mem_cons] at h
        rcases h with h | h
        · exact Or.inl (h ▸ List.mem_cons_self _ _)
        · rcases ih h with h | h
          · exact Or.inl (List.mem_cons_of_mem _ h)
          · exact Or.inr h
      · simp only [h2, Bool.false_eq_true, if_false] at h
        exact Or.inl h

theorem set_insert_pairwise {α : Type} (lt : α → α → Bool)
    (htrans : ∀ a b c, lt a b = true → lt b c = true → lt a c = true) (s : List α) (x : α)
    (hs : s.Pairwise (fun a b => lt a b = true)) :
    (set_insert lt s x).Pairwise (fun a b => lt a b = true) := by
  induction s with
  | nil => simp [set_insert]
  | cons z s ih =>
    have hz := List.pairwise_cons.mp hs
    simp only [set_insert]
    by_cases h1 : lt x z = true
    · simp only [h1, if_true]
      refine List.pairwise_cons.mpr ⟨?_, hs⟩
      intro w hw
      rcases List.mem_cons.mp hw with hw | hw
      · exact hw ▸ h1
      · exact htrans x z w h1 (hz.1 w hw)
    · simp only [h1, Bool.false_eq_true, if_false]
      by_cases h2 : lt z x = true
      · simp only [h2, if_true]
        refine List.pairwise_cons.mpr ⟨?_, ih hz.2⟩
        intro w hw
        rcases set_insert_mem lt s x w hw with hw | hw
        · exact hz.1 w hw
        · exact hw ▸ h2
      · simp only [h2, Bool.false_eq_true, if_false]
        exact hs

theorem string_lt_trans (a b c : String) (h1 : string_lt a b = true)
    (h2 : string_lt b c = true) : string_lt a c = true := by
  unfold string_lt at *
  simp only [decide_eq_true_eq] at *
  exact lt_trans h1 h2

theorem unit_lt_eq (L : Levels) (a b : UnitRef) :
    unit_lt L a b = string_lt (unit_key L a) (unit_key L b) := rfl

theorem unit_lt_trans (L : Levels) (a b c : UnitRef) (h1 : unit_lt L a b = true)
    (h2 : unit_lt L b c = true) : unit_lt L a c = true := by
  rw [unit_lt_eq] at *
  exact string_lt_trans _ _ _ h1 h2

theorem foldl_set_insert_pairwise {α β : Type} (lt : α → α → Bool)
    (htrans : ∀ a b c, lt a b = true → lt b c = true → lt a c = true) (f : β → α)
    (xs : List β) (s : List α) (hs : s.Pairwise (fun a b => lt a b = true)) :
    (xs.foldl (fun deps x => set_insert lt deps (f x)) s).Pairwise
      (fun a b => lt a b = true) := by
  induction xs generalizing s with
  | nil => exact hs
  | cons x xs ih => exact ih _ (set_insert_pairwise lt htrans s (f x) hs)

theorem pred_pairwise (L : Levels) (n : UnitRef) :
    (pred L n).Pairwise (fun a b => unit_lt L a b = true) := by
  unfold pred
  have : ∀ (reqs : List RequirementConnection) (s : List UnitRef),
      s.Pairwise (fun a b => unit_lt L a b = true) →
      (reqs.foldl (fun deps req =>
        req.effect_connections.foldl
          (fun deps effect_con => set_insert (unit_lt L) deps effect_con.action) deps) s).Pairwise
        (fun a b => unit_lt L a b = true) := by
    intro reqs
    induction reqs with
    | nil => intro s hs; exact hs
    | cons q reqs ih =>
      intro s hs
      exact ih _ (foldl_set_insert_pairwise _ (unit_lt_trans L) _ _ s hs)
  exact this _ [] List.Pairwise.nil

theorem succ_pairwise (L : Levels) (n : UnitRef) :
    (succ L n).Pairwise (fun a b => unit_lt L a b = true) := by
  unfold succ
  have : ∀ (effs : List EffectConnection) (s : List UnitRef),
      s.Pairwise (fun a b => unit_lt L a b = true) →
      (effs.foldl (fun deps effect =>
        effect.requirement_connections.foldl
          (fun deps req_con => set_insert (unit_lt L) deps req_con.action) deps) s).Pairwise
        (fun a b => unit_lt L a b = true) := by
    intro effs
    induction effs with
    | nil => intro s hs; exact hs
    | cons q effs ih =>
      intro s hs
      exact ih _ (foldl_set_insert_pairwise _ (unit_lt_trans L) _ _ s hs)
  exact this _ [] List.Pairwise.nil


/-! ## The level builder -/

theorem make_action_unit_action (E : Env) (item : PlanItem) (T : Int) (x : ActionUnit)
    (h : make_action_unit E item T = some x) :
    x.action = item.action ∧ x.time = T ∧
      (∀ q ∈ x.reqs, q.satisfied = false ∧ q.effect_connections = []) ∧
      (∀ e ∈ x.effects, e.requirement_connections = []) := by
  unfold make_action_unit at h
  cases hg : E.get_action_from_string item.action with
  | none => simp [hg] at h
  | some da =>
    simp only [hg, Option.some.injEq] at h
    subst h
    refine ⟨rfl, rfl, ?_, ?_⟩
    · intro q hq
      simp only [List.mem_map] at hq
      obtain ⟨n, _, rfl⟩ := hq
      exact ⟨rfl, rfl⟩
    · intro e he
      simp only [List.mem_map] at he
      obtain ⟨n, _, rfl⟩ := he
      rfl

theorem make_action_unit_congr (E : Env) (item item' : PlanItem) (T : Int)
    (h : item.action = item'.action) :
    make_action_unit E item T = make_action_unit E item' T := by
  unfold make_action_unit
  rw [h]

theorem make_action_unit_self (E : Env) (item : PlanItem) (T : Int) (x : ActionUnit)
    (h : make_action_unit E item T = some x) :
    make_action_unit E { time := 0, action := x.action, duration := 0 } T = some x := by
  rw [← h]
  exact make_action_unit_congr E _ _ T (make_action_unit_action E item T x h).1

theorem get_unit_append_left (L L' : Levels) (u : UnitRef) (x : ActionUnit)
    (h : get_unit L u = some x) : get_unit (L ++ L') u = some x := by
  unfold get_unit at *
  cases hl : L[u.level]? with
  | none => simp [hl] at h
  | some lv =>
    have hlt := (List.getElem?_eq_some.mp hl).1
    rw [List.getElem?_append_left hlt, hl]
    simpa [hl] using h


theorem planInv_init (E : Env) :
    PlanInv E ⟨[], ⟨0, []⟩, 0⟩ := by
  refine ⟨rfl, ?_, ?_⟩
  · intro i lv hlv x hx
    simp only [plan_levels, List.nil_append] at hlv
    cases i with
    | zero => simp at hlv; subst hlv; simp at hx
    | succ i => simp at hlv
  · simp [plan_levels]



theorem getElem?_append_singleton {α : Type} (F : List α) (c : α) (i : Nat) (lv : α)
    (h : (F ++ [c])[i]? = some lv) : (i < F.length ∧ F[i]? = some lv) ∨ (i = F.length ∧ lv = c) := by
  by_cases hi : i < F.length
  · rw [List.getElem?_append_left hi] at h
    exact Or.inl ⟨hi, h⟩
  · have hi' : F.length ≤ i := Nat.le_of_not_lt hi
    rw [List.getElem?_append_right hi'] at h
    cases hk : i - F.length with
    | zero =>
      rw [hk] at h
      simp at h
      exact Or.inr ⟨by omega, h.symm⟩
    | succ k => rw [hk] at h; simp at h

theorem built_push_level (E : Env) (F : Levels) (c : ExecutionLevel) (T : Int)
    (hB : Built E (F ++ [c])) (hT : c.time < T) :
    Built E ((F ++ [c]) ++ [⟨T, []⟩]) := by
  refine ⟨?_, ?_⟩
  · intro i lv hlv x hx
    rcases getElem?_append_singleton _ _ i lv hlv with ⟨_, h⟩ | ⟨_, h⟩
    · exact hB.1 i lv h x hx
    · subst h; simp at hx
  · rw [List.pairwise_append]
    refine ⟨hB.2, List.pairwise_singleton _ _, ?_⟩
    intro a ha b hb
    simp only [List.mem_singleton] at hb
    subst hb
    simp only
    have hp := List.pairwise_append.mp hB.2
    rcases List.mem_append.mp ha with ha | ha
    · have := hp.2.2 a ha c (List.mem_singleton_self c)
      omega
    · simp only [List.mem_singleton] at ha
      subst ha
      exact hT

theorem built_push_unit (E : Env) (F : Levels) (c : ExecutionLevel) (item : PlanItem)
    (x : ActionUnit) (hB : Built E (F ++ [c])) (hx : make_action_unit E item c.time = some x) :
    Built E (F ++ [{ c with action_units := c.action_units ++ [x] }]) := by
  refine ⟨?_, ?_⟩
  · intro i lv hlv y hy
    rcases getElem?_append_singleton _ _ i lv hlv with ⟨hi, h⟩ | ⟨hi, h⟩
    · exact hB.1 i lv (by rw [List.getElem?_append_left hi]; exact h) y hy
    · subst h
      simp only [List.mem_append, List.mem_singleton] at hy
      rcases hy with hy | hy
      · have hc : (F ++ [c])[i]? = some c := by
          rw [hi, List.getElem?_append_right (le_refl _)]; simp
        exact hB.1 i c hc y hy
      · subst hy
        exact make_action_unit_self E item c.time y hx
  · have hp := List.pairwise_append.mp hB.2
    rw [List.pairwise_append]
    refine ⟨hp.1, List.pairwise_singleton _ _, ?_⟩
    intro a ha b hb
    simp only [List.mem_singleton] at hb
    subst hb
    exact hp.2.2 a ha c (List.mem_singleton_self c)

theorem get_unit_push_unit_old (F : Levels) (c : ExecutionLevel) (x : ActionUnit) (u : UnitRef)
    (y : ActionUnit) (h : get_unit (F ++ [c]) u = some y) :
    get_unit (F ++ [{ c with action_units := c.action_units ++ [x] }]) u = some y := by
  unfold get_unit at *
  by_cases hi : u.level < F.length
  · rw [List.getElem?_append_left hi] at h ⊢
    exact h
  · have hi' : F.length ≤ u.level := Nat.le_of_not_lt hi
    rw [List.getElem?_append_right hi'] at h ⊢
    cases hk : u.level - F.length with
    | zero =>
      rw [hk] at h
      simp only [List.getElem?_cons_zero] at h ⊢
      have hlt := (List.getElem?_eq_some.mp h).1
      rw [List.getElem?_append_left hlt]
      exact h
    | succ k => rw [hk] at h; simp at h

theorem get_unit_push_unit_new (F : Levels) (c : ExecutionLevel) (x : ActionUnit) :
    get_unit (F ++ [{ c with action_units := c.action_units ++ [x] }])
      ⟨F.length, c.action_units.length⟩ = some x := by
  unfold get_unit
  simp

theorem run_time_zero (t0 : Int) (item : PlanItem) (items : List PlanItem) :
    run_time t0 (item :: items) 0 = max t0 (static_cast_int item.time) := by
  simp [run_time]

theorem run_time_succ (t0 : Int) (item : PlanItem) (items : List PlanItem) (k : Nat) :
    run_time t0 (item :: items) (k + 1) =
      run_time (max t0 (static_cast_int item.time)) items k := by
  simp [run_time]

theorem plan_step_spec (E : Env) (st st' : PlanLoop) (item : PlanItem) (hI : PlanInv E st)
    (h : plan_step E st item = some st') :
    PlanInv E st' ∧ st'.last_time = max st.last_time (static_cast_int item.time) ∧
      (∀ u y, get_unit (plan_levels st) u = some y → get_unit (plan_levels st') u = some y) ∧
      ∃ u x, get_unit (plan_levels st') u = some x ∧
        make_action_unit E item st'.last_time = some x := by
  unfold plan_step at h
  by_cases hgt : static_cast_int item.time > st.last_time
  · simp only [hgt, if_true] at h
    cases hm : make_action_unit E item (static_cast_int item.time) with
    | none => simp [hm] at h
    | some x =>
      simp only [hm, Option.some.injEq] at h
      subst h
      have hB1 : Built E ((st.front ++ [st.current_level]) ++
          [⟨static_cast_int item.time, []⟩]) :=
        built_push_level E _ _ _ hI.built (by rw [hI.time_eq]; exact hgt)
      refine ⟨⟨rfl, ?_⟩, ?_, ?_, ?_⟩
      · exact built_push_unit E _ ⟨static_cast_int item.time, []⟩ item x hB1 hm
      · simp only; rw [max_eq_right (le_of_lt hgt)]
      · intro u y hy
        apply get_unit_push_unit_old _ ⟨static_cast_int item.time, []⟩
        exact get_unit_append_left _ _ u y hy
      · exact ⟨_, x, get_unit_push_unit_new _ ⟨static_cast_int item.time, []⟩ x, hm⟩
  · simp only [hgt, if_false] at h
    cases hm : make_action_unit E item st.current_level.time with
    | none => simp [hm] at h
    | some x =>
      simp only [hm, Option.some.injEq] at h
      subst h
      refine ⟨⟨hI.time_eq, ?_⟩, ?_, ?_, ?_⟩
      · exact built_push_unit E _ _ item x hI.built hm
      · simp only; rw [max_eq_left (le_of_not_lt hgt)]
      · intro u y hy
        exact get_unit_push_unit_old _ _ x u y hy
      · exact ⟨_, x, get_unit_push_unit_new _ _ x, by simp only; rw [← hI.time_eq]; exact hm⟩

theorem plan_loop_spec (E : Env) (items : List PlanItem) (st st' : PlanLoop)
    (hI : PlanInv E st) (h : items.foldlM (plan_step E) st = some st') :
    PlanInv E st' ∧
      (∀ u y, get_unit (plan_levels st) u = some y → get_unit (plan_levels st') u = some y) ∧
      ∀ k (hk : k < items.length), ∃ u x, get_unit (plan_levels st') u = some x ∧
        make_action_unit E items[k] (run_time st.last_time items k) = some x := by
  induction items generalizing st with
  | nil =>
    simp only [List.foldlM_nil, pure, Option.some.injEq] at h
    subst h
    exact ⟨hI, fun _ _ h => h, fun k hk => absurd hk (by simp)⟩
  | cons item items ih =>
    simp only [List.foldlM_cons] at h
    cases h1 : plan_step E st item with
    | none => simp [h1] at h
    | some st1 =>
      simp only [h1, Option.bind_eq_bind, Option.some_bind] at h
      obtain ⟨hI1, hlast, hold, u0, x0, hu0, hx0⟩ := plan_step_spec E st st1 item hI h1
      obtain ⟨hI', hold', hnew⟩ := ih st1 hI1 h
      refine ⟨hI', fun u y hy => hold' u y (hold u y hy), ?_⟩
      intro k hk
      cases k with
      | zero =>
        refine ⟨u0, x0, hold' u0 x0 hu0, ?_⟩
        rw [run_time_zero, ← hlast]
        exact hx0
      | succ k =>
        have hk' : k < items.length := by simpa using hk
        obtain ⟨u, x, hu, hx⟩ := hnew k hk'
        refine ⟨u, x, hu, ?_⟩
        rw [run_time_succ, ← hlast]
        simpa using hx

/-- What `get_plan_actions` returns: the vector is as the level builder makes it, and every
plan item has its unit, built at the running maximum of the truncated times. -/
theorem get_plan_actions_spec (E : Env) (plan : Plan) (L : Levels)
    (h : get_plan_actions E plan = some L) :
    Built E L ∧ L ≠ [] ∧
      ∀ k (hk : k < plan.length), ∃ u x, get_unit L u = some x ∧
        make_action_unit E plan[k] (run_time 0 plan k) = some x := by
  unfold get_plan_actions at h
  cases hf : List.foldlM (plan_step E) (⟨[], ⟨0, []⟩, 0⟩ : PlanLoop) plan with
  | none => simp [hf] at h
  | some st =>
    simp only [hf, Option.some.injEq] at h
    subst h
    obtain ⟨hI, _, hnew⟩ := plan_loop_spec E plan _ st (planInv_init E) hf
    exact ⟨hI.built, by simp, hnew⟩

/-! ## The fallback pass -/

theorem fallback_reqs_fst (E : Env) (qs : List RequirementConnection) :
    (fallback_reqs E qs).1 = qs.map (fun q => (fallback_req E q).1) := by
  induction qs with
  | nil => rfl
  | cons q qs ih => simp [fallback_reqs, ih]

theorem fallback_units_fst (E : Env) (us : List ActionUnit) :
    (fallback_units E us).1 =
      us.map (fun u => { u with reqs := u.reqs.map (fun q => (fallback_req E q).1) }) := by
  induction us with
  | nil => rfl
  | cons u us ih => simp [fallback_units, ih, fallback_reqs_fst]

theorem fallback_fst (E : Env) (L : Levels) :
    (fallback E L).1 =
      L.map (fun lv =>
        { lv with
          action_units := lv.action_units.map
            (fun u => { u with reqs := u.reqs.map (fun q => (fallback_req E q).1) }) }) := by
  induction L with
  | nil => rfl
  | cons lv L ih => simp [fallback, ih, fallback_units_fst]

theorem get_unit_fallback (E : Env) (L : Levels) (u : UnitRef) :
    get_unit (fallback E L).1 u =
      (get_unit L u).map
        (fun x => { x with reqs := x.reqs.map (fun q => (fallback_req E q).1) }) := by
  rw [fallback_fst]
  unfold get_unit
  rw [List.getElem?_map]
  cases L[u.level]? with
  | none => rfl
  | some lv => simp [List.getElem?_map]

theorem get_req_fallback (E : Env) (L : Levels) (r : ReqRef) :
    get_req (fallback E L).1 r = (get_req L r).map (fun q => (fallback_req E q).1) := by
  unfold get_req
  rw [get_unit_fallback]
  cases get_unit L r.action with
  | none => rfl
  | some x => simp [List.getElem?_map]

theorem get_effect_fallback (E : Env) (L : Levels) (e : EffRef) :
    get_effect (fallback E L).1 e = get_effect L e := by
  unfold get_effect
  rw [get_unit_fallback]
  cases get_unit L e.action with
  | none => rfl
  | some x => rfl

theorem fallback_req_requirement (E : Env) (q : RequirementConnection) :
    (fallback_req E q).1.requirement = q.requirement ∧
      (fallback_req E q).1.effect_connections = q.effect_connections := by
  unfold fallback_req
  cases q.satisfied <;> simp

theorem sameShape_fallback (E : Env) (L : Levels) : SameShape L (fallback E L).1 := by
  refine ⟨?_, ?_, ?_, ?_, ?_⟩
  · rw [fallback_fst]; simp
  · intro i
    unfold level_shape
    rw [fallback_fst, List.getElem?_map]
    cases L[i]? with
    | none => rfl
    | some lv => simp
  · intro u
    unfold unit_shape
    rw [get_unit_fallback]
    cases get_unit L u with
    | none => rfl
    | some x => simp
  · intro r
    unfold req_node
    rw [get_req_fallback]
    cases get_req L r with
    | none => rfl
    | some q => simp [(fallback_req_requirement E q).1]
  · intro e
    unfold effect_node
    rw [get_effect_fallback]

theorem get_req_decompose {L : Levels} {r : ReqRef} {q : RequirementConnection}
    (h : get_req L r = some q) :
    ∃ lv x, L[r.action.level]? = some lv ∧ lv.action_units[r.action.index]? = some x ∧
      x.reqs[r.index]? = some q ∧ get_unit L r.action = some x := by
  unfold get_req at h
  cases hu : get_unit L r.action with
  | none => simp [hu] at h
  | some x =>
    simp only [hu] at h
    unfold get_unit at hu
    cases hl : L[r.action.level]? with
    | none => simp [hl] at hu
    | some lv =>
      simp only [hl] at hu
      exact ⟨lv, x, rfl, hu, h, rfl⟩

theorem get_effect_decompose {L : Levels} {e : EffRef} {y : EffectConnection}
    (h : get_effect L e = some y) :
    ∃ lv x, L[e.action.level]? = some lv ∧ lv.action_units[e.action.index]? = some x ∧
      x.effects[e.index]? = some y ∧ get_unit L e.action = some x := by
  unfold get_effect at h
  cases hu : get_unit L e.action with
  | none => simp [hu] at h
  | some x =>
    simp only [hu] at h
    unfold get_unit at hu
    cases hl : L[e.action.level]? with
    | none => simp [hl] at hu
    | some lv =>
      simp only [hl] at hu
      exact ⟨lv, x, rfl, hu, h, rfl⟩

theorem get_unit_decompose {L : Levels} {u : UnitRef} {x : ActionUnit}
    (h : get_unit L u = some x) :
    ∃ lv, L[u.level]? = some lv ∧ lv.action_units[u.index]? = some x := by
  unfold get_unit at h
  cases hl : L[u.level]? with
  | none => simp [hl] at h
  | some lv =>
    simp only [hl] at h
    exact ⟨lv, rfl, h⟩

theorem fresh_of_built (E : Env) (L : Levels) (hB : Built E L) : Fresh L := by
  constructor
  · intro r q hq
    obtain ⟨lv, x, hlv, hx, hq', _⟩ := get_req_decompose hq
    have := hB.1 _ lv hlv x (List.getElem?_mem hx)
    exact (make_action_unit_action E _ _ x this).2.2.1 q (List.getElem?_mem hq')
  · intro e y hy
    obtain ⟨lv, x, hlv, hx, hy', _⟩ := get_effect_decompose hy
    have := hB.1 _ lv hlv x (List.getElem?_mem hx)
    exact (make_action_unit_action E _ _ x this).2.2.2 y (List.getElem?_mem hy')

theorem make_action_unit_isSome (E : Env) (item : PlanItem) (T : Int)
    (h : (E.get_action_from_string item.action).isSome) :
    ∃ x, make_action_unit E item T = some x := by
  unfold make_action_unit
  obtain ⟨da, hda⟩ := Option.isSome_iff_exists.mp h
  rw [hda]
  exact ⟨_, rfl⟩

theorem plan_step_isSome (E : Env) (st : PlanLoop) (item : PlanItem)
    (h : (E.get_action_from_string item.action).isSome) :
    ∃ st', plan_step E st item = some st' := by
  unfold plan_step
  simp only
  generalize (if static_cast_int item.time > st.last_time then
    ({ front := st.front ++ [st.current_level],
       current_level := { time := static_cast_int item.time, action_units := [] },
       last_time := static_cast_int item.time } : PlanLoop) else st) = st1
  obtain ⟨x, hx⟩ := make_action_unit_isSome E item st1.current_level.time h
  rw [hx]; exact ⟨_, rfl⟩

/-- The level builder returns when the knowledge source knows every action of the plan. -/
theorem get_plan_actions_isSome (E : Env) (plan : Plan)
    (h : ∀ item ∈ plan, (E.get_action_from_string item.action).isSome) :
    ∃ L, get_plan_actions E plan = some L := by
  unfold get_plan_actions
  have : ∀ (items : List PlanItem) (st : PlanLoop),
      (∀ item ∈ items, (E.get_action_from_string item.action).isSome) →
      ∃ st', items.foldlM (plan_step E) st = some st' := by
    intro items
    induction items with
    | nil => intro st _; exact ⟨st, rfl⟩
    | cons item items ih =>
      intro st hitems
      obtain ⟨st1, h1⟩ := plan_step_isSome E st item (hitems item (List.mem_cons_self _ _))
      obtain ⟨st2, h2⟩ := ih st1 (fun i hi => hitems i (List.mem_cons_of_mem _ hi))
      exact ⟨st2, by simp [List.foldlM_cons, h1, h2]⟩
  obtain ⟨st, hst⟩ := this plan _ h
  rw [hst]
  exact ⟨_, rfl⟩

/-! ## Nearest producers -/

theorem nearest_from_ne_nil_iff (E : Env) (L : Levels) (r : ReqRef) (c k : Nat) :
    nearest_from E L r c k ≠ [] ↔ ∃ j, c ≤ j ∧ j < k ∧ level_links E L r j ≠ [] := by
  induction k with
  | zero => simp [nearest_from]
  | succ j ih =>
    simp only [nearest_from]
    by_cases hjc : j < c
    · simp only [hjc, if_true, ne_eq, not_true_eq_false, false_iff, not_exists, not_and]
      intro j' h1 h2
      omega
    · simp only [hjc, if_false]
      by_cases hl : (level_links E L r j).isEmpty
      · simp only [hl, if_true, ih]
        have hl' : level_links E L r j = [] := by simpa using hl
        constructor
        · rintro ⟨j', h1, h2, h3⟩
          exact ⟨j', h1, by omega, h3⟩
        · rintro ⟨j', h1, h2, h3⟩
          have : j' ≠ j := fun h => h3 (h ▸ hl')
          exact ⟨j', h1, by omega, h3⟩
      · simp only [hl, Bool.false_eq_true, if_false]
        have hl' : level_links E L r j ≠ [] := by simpa using hl
        exact ⟨fun _ => ⟨j, by omega, by omega, hl'⟩, fun _ => hl'⟩

theorem linked_congr (E : Env) {L0 L : Levels} (h : SameShape L0 L) (r : ReqRef) (e : EffRef) :
    linked E L r e = linked E L0 r e := by
  unfold linked
  rw [links_congr E h]

theorem get_effect_isSome_congr {L0 L : Levels} (h : SameShape L0 L) (e : EffRef) :
    (get_effect L e).isSome = (get_effect L0 e).isSome := by
  rw [get_effect_isSome, get_effect_isSome, n_effects_congr h]

theorem get_req_isSome_congr {L0 L : Levels} (h : SameShape L0 L) (r : ReqRef) :
    (get_req L r).isSome = (get_req L0 r).isSome := by
  rw [get_req_isSome, get_req_isSome, n_reqs_congr h]

theorem mem_eff_refs_iff (L : Levels) (e : EffRef) (j : Nat) :
    e ∈ eff_refs L j ↔ e.action.level = j ∧ (get_effect L e).isSome = true := by
  constructor
  · intro h
    obtain ⟨x, hx⟩ := get_effect_some_of_mem h
    exact ⟨(mem_eff_refs.mp h).1, by simp [hx]⟩
  · rintro ⟨h1, h2⟩
    obtain ⟨x, hx⟩ := Option.isSome_iff_exists.mp h2
    exact h1 ▸ mem_eff_refs_of_get_effect hx

theorem nearest_ne_nil_iff (E : Env) (L : Levels) (r : ReqRef) :
    nearest E L r ≠ [] ↔
      ∃ e, e.action.level < r.action.level ∧ (get_effect L e).isSome = true ∧
        linked E L r e = true := by
  unfold nearest
  rw [nearest_from_ne_nil_iff]
  constructor
  · rintro ⟨j, _, hj, hne⟩
    obtain ⟨e, he⟩ := List.exists_mem_of_ne_nil _ hne
    rw [mem_level_links, mem_eff_refs_iff] at he
    exact ⟨e, by omega, he.1.2, he.2⟩
  · rintro ⟨e, h1, h2, h3⟩
    refine ⟨e.action.level, Nat.zero_le _, h1, ?_⟩
    apply List.ne_nil_of_mem (a := e)
    rw [mem_level_links, mem_eff_refs_iff]
    exact ⟨⟨rfl, h2⟩, h3⟩


/-! ## The fallback pass and the knowledge source -/

theorem fallback_reqs_snd (E : Env) (qs : List RequirementConnection) :
    (fallback_reqs E qs).2 =
      (qs.filter (fun req => !req.satisfied)).map (fun req => req.requirement) := by
  induction qs with
  | nil => rfl
  | cons q qs ih =>
    simp only [fallback_reqs, ih, fallback_req, List.filter_cons]
    cases q.satisfied <;> simp

theorem fallback_units_snd (E : Env) (us : List ActionUnit) :
    (fallback_units E us).2 =
      us.flatMap (fun action_unit =>
        (action_unit.reqs.filter (fun req => !req.satisfied)).map
          (fun req => req.requirement)) := by
  induction us with
  | nil => rfl
  | cons u us ih => simp [fallback_units, ih, fallback_reqs_snd]

theorem fallback_snd (E : Env) (L : Levels) : (fallback E L).2 = unsatisfied_conditions L := by
  unfold unsatisfied_conditions
  induction L with
  | nil => rfl
  | cons lv L ih => simp [fallback, ih, fallback_units_snd]

theorem get_plan_actions_check (E : Env) (check' : TreeNode → Bool × ℚ) (plan : Plan) :
    get_plan_actions { E with check := check' } plan = get_plan_actions E plan := rfl

theorem connects_check (E : Env) (check' : TreeNode → Bool × ℚ) :
    connects { E with check := check' } = connects E := rfl

theorem check_effect_check (E : Env) (check' : TreeNode → Bool × ℚ) :
    check_effect { E with check := check' } = check_effect E := by
  funext r L e
  unfold check_effect
  rw [connects_check]

theorem check_connections_check (E : Env) (check' : TreeNode → Bool × ℚ) :
    check_connections { E with check := check' } = check_connections E := by
  funext L up down
  unfold check_connections check_down_unit check_req check_up_unit
  rw [check_effect_check]

theorem sweep_level_check (E : Env) (check' : TreeNode → Bool × ℚ) (i c : Nat) (L : Levels) :
    sweep_level { E with check := check' } i c L = sweep_level E i c L := by
  induction c generalizing L with
  | zero => rfl
  | succ c ih =>
    simp only [sweep_level, check_connections_check]
    cases L[i]? with
    | none => rfl
    | some lv =>
      simp only
      split
      · cases check_connections E L c i with
        | none => rfl
        | some L1 => exact ih L1
      · rfl

theorem sweep_check (E : Env) (check' : TreeNode → Bool × ℚ) (L : Levels) :
    sweep { E with check := check' } L = sweep E L := by
  unfold sweep
  congr 1
  funext L k
  exact sweep_level_check E check' (k + 1) (k + 1) L

theorem resolve_eq (E : Env) (plan : Plan) :
    resolve E plan = ((get_plan_actions E plan).bind (sweep E)).map (fallback E) := by
  unfold resolve
  cases get_plan_actions E plan with
  | none => rfl
  | some L0 =>
    simp only [Option.some_bind]
    cases sweep E L0 <;> rfl


theorem unit_at_fallback (E : Env) (L : Levels) (u : UnitRef) :
    unit_at (fallback E L).1 u =
      { unit_at L u with
        reqs := (unit_at L u).reqs.map (fun q => (fallback_req E q).1) } := by
  unfold unit_at
  rw [get_unit_fallback]
  cases get_unit L u with
  | none => rfl
  | some x => rfl

theorem unit_lt_fallback (E : Env) (L : Levels) :
    unit_lt (fallback E L).1 = unit_lt L := by
  funext a b
  simp only [unit_lt, unit_at_fallback]

theorem pred_fallback (E : Env) (L : Levels) (u : UnitRef) :
    pred (fallback E L).1 u = pred L u := by
  unfold pred
  rw [unit_lt_fallback, unit_at_fallback]
  simp only [List.foldl_map, (fallback_req_requirement E _).2]

theorem succ_fallback (E : Env) (L : Levels) (u : UnitRef) :
    succ (fallback E L).1 u = succ L u := by
  unfold succ
  rw [unit_lt_fallback, unit_at_fallback]

theorem pred_eq_nil_of_no_producer (L : Levels) (u : UnitRef)
    (h : ∀ q ∈ (unit_at L u).reqs, q.effect_connections = []) : pred L u = [] := by
  unfold pred
  generalize (unit_at L u).reqs = reqs at h
  induction reqs with
  | nil => rfl
  | cons q reqs ih =>
    rw [List.foldl_cons, h q (List.mem_cons_self _ _)]
    exact ih (fun q' hq' => h q' (List.mem_cons_of_mem _ hq'))


/-! ## The identity `action:time` -/

theorem digit_value_digitChar (k : Nat) (hk : k < 10) : digit_value (Nat.digitChar k) = k := by
  interval_cases k <;> rfl

theorem digitChar_ne (k : Nat) (hk : k < 10) :
    Nat.digitChar k ≠ ':' ∧ Nat.digitChar k ≠ '-' := by
  interval_cases k <;> decide

theorem foldl_decode (cs : List Char) (a : Nat) :
    cs.foldl (fun acc c => 10 * acc + digit_value c) a =
      a * 10 ^ cs.length + decode_digits cs := by
  unfold decode_digits
  induction cs generalizing a with
  | nil => simp
  | cons c cs ih =>
    rw [List.foldl_cons, ih, List.foldl_cons, ih (10 * 0 + digit_value c)]
    simp only [List.length_cons, pow_succ]
    ring

theorem decode_cons (c : Char) (cs : List Char) :
    decode_digits (c :: cs) = digit_value c * 10 ^ cs.length + decode_digits cs := by
  unfold decode_digits
  rw [List.foldl_cons, foldl_decode]
  simp [decode_digits]

theorem decode_toDigitsCore (fuel n : Nat) (ds : List Char) (h : n < fuel) :
    decode_digits (Nat.toDigitsCore 10 fuel n ds) = n * 10 ^ ds.length + decode_digits ds := by
  induction fuel generalizing n ds with
  | zero => omega
  | succ fuel ih =>
    simp only [Nat.toDigitsCore]
    by_cases h0 : n / 10 = 0
    · simp only [h0, if_true]
      rw [decode_cons, digit_value_digitChar _ (Nat.mod_lt _ (by norm_num))]
      have : n < 10 := by omega
      rw [Nat.mod_eq_of_lt this]
    · simp only [h0, if_false]
      rw [ih (n / 10) _ (by omega), decode_cons,
        digit_value_digitChar _ (Nat.mod_lt _ (by norm_num))]
      simp only [List.length_cons, pow_succ]
      have := Nat.div_add_mod n 10
      calc n / 10 * (10 ^ ds.length * 10) + (n % 10 * 10 ^ ds.length + decode_digits ds)
          = (10 * (n / 10) + n % 10) * 10 ^ ds.length + decode_digits ds := by ring
        _ = n * 10 ^ ds.length + decode_digits ds := by rw [this]

theorem decode_toDigits (n : Nat) : decode_digits (Nat.toDigits 10 n) = n := by
  unfold Nat.toDigits
  rw [decode_toDigitsCore _ _ _ (Nat.lt_succ_self n)]
  simp [decode_digits]

theorem toDigitsCore_chars (fuel n : Nat) (ds : List Char) (c : Char)
    (h : c ∈ Nat.toDigitsCore 10 fuel n ds) : c ∈ ds ∨ ∃ k, k < 10 ∧ c = Nat.digitChar k := by
  induction fuel generalizing n ds with
  | zero => exact Or.inl h
  | succ fuel ih =>
    simp only [Nat.toDigitsCore] at h
    by_cases h0 : n / 10 = 0
    · simp only [h0, if_true, List.mem_cons] at h
      rcases h with h | h
      · exact Or.inr ⟨n % 10, Nat.mod_lt _ (by norm_num), h⟩
      · exact Or.inl h
    · simp only [h0, if_false] at h
      rcases ih _ _ h with h | h
      · rcases List.mem_cons.mp h with h | h
        · exact Or.inr ⟨n % 10, Nat.mod_lt _ (by norm_num), h⟩
        · exact Or.inl h
      · exact Or.inr h

theorem toDigits_chars (n : Nat) (c : Char) (h : c ∈ Nat.toDigits 10 n) :
    c ≠ ':' ∧ c ≠ '-' := by
  rcases toDigitsCore_chars _ _ _ c h with h | ⟨k, hk, rfl⟩
  · simp at h
  · exact digitChar_ne k hk

theorem toDigitsCore_ne_nil (fuel n : Nat) (ds : List Char) (h : 0 < fuel) :
    Nat.toDigitsCore 10 fuel n ds ≠ [] := by
  induction fuel generalizing n ds with
  | zero => omega
  | succ fuel ih =>
    simp only [Nat.toDigitsCore]
    by_cases h0 : n / 10 = 0
    · simp [h0]
    · simp only [h0, if_false]
      cases fuel with
      | zero => simp [Nat.toDigitsCore]
      | succ f => exact ih _ _ (Nat.succ_pos f)

theorem repr_data (n : Nat) : (Nat.repr n).data = Nat.toDigits 10 n := rfl

theorem repr_injective (n m : Nat) (h : Nat.repr n = Nat.repr m) : n = m := by
  have := congrArg (fun s => decode_digits s.data) h
  simpa [repr_data, decode_toDigits] using this

theorem to_string_chars (t : Int) (c : Char) (h : c ∈ (to_string t).data) : c ≠ ':' := by
  cases t with
  | ofNat n => exact (toDigits_chars n c h).1
  | negSucc n =>
    simp only [to_string, String.data_append, List.mem_append] at h
    rcases h with h | h
    · have : c = '-' := by simpa using h
      subst this; decide
    · exact (toDigits_chars (n + 1) c h).1

theorem to_string_injective (t t' : Int) (h : to_string t = to_string t') : t = t' := by
  cases t with
  | ofNat n =>
    cases t' with
    | ofNat m => rw [repr_injective n m h]
    | negSucc m =>
      exfalso
      have hd := congrArg String.data h
      simp only [to_string, String.data_append] at hd
      have hne := toDigitsCore_ne_nil (n + 1) n [] (Nat.succ_pos n)
      cases hl : Nat.toDigits 10 n with
      | nil => exact hne hl
      | cons c cs =>
        have hd' : c :: cs = ['-'] ++ Nat.toDigits 10 (m + 1) := by rw [← hl]; exact hd
        have hc : c = '-' := by
          have := List.head_eq_of_cons_eq hd'
          simpa using this
        have := (toDigits_chars n c (by rw [hl]; exact List.mem_cons_self _ _)).2
        exact this hc
  | negSucc n =>
    cases t' with
    | ofNat m =>
      exfalso
      have hd := congrArg String.data h
      simp only [to_string, String.data_append] at hd
      have hne := toDigitsCore_ne_nil (m + 1) m [] (Nat.succ_pos m)
      cases hl : Nat.toDigits 10 m with
      | nil => exact hne hl
      | cons c cs =>
        have hd' : ['-'] ++ Nat.toDigits 10 (n + 1) = c :: cs := by rw [← hl]; exact hd
        have hc : c = '-' := by
          have := List.head_eq_of_cons_eq hd'
          simpa using this.symm
        have := (toDigits_chars m c (by rw [hl]; exact List.mem_cons_self _ _)).2
        exact this hc
    | negSucc m =>
      have hd := congrArg String.data h
      simp only [to_string, String.data_append] at hd
      have hd' : (Nat.repr (n + 1)).data = (Nat.repr (m + 1)).data := by
        simpa using hd
      have := repr_injective (n + 1) (m + 1) (String.ext hd')
      congr 1
      omega

theorem split_at_last {α : Type} (c : α) (l1 l2 r1 r2 : List α) (h1 : c ∉ r1) (h2 : c ∉ r2)
    (h : l1 ++ c :: r1 = l2 ++ c :: r2) : l1 = l2 ∧ r1 = r2 := by
  induction l1 generalizing l2 with
  | nil =>
    cases l2 with
    | nil => simpa using h
    | cons a l2 =>
      exfalso
      simp only [List.nil_append, List.cons_append, List.cons.injEq] at h
      exact h1 (h.2 ▸ by simp)
  | cons a l1 ih =>
    cases l2 with
    | nil =>
      exfalso
      simp only [List.nil_append, List.cons_append, List.cons.injEq] at h
      exact h2 (h.2 ▸ by simp)
    | cons b l2 =>
      simp only [List.cons_append, List.cons.injEq] at h
      obtain ⟨h3, h4⟩ := ih l2 h.2
      exact ⟨by rw [h.1, h3], h4⟩

/-- The identity `action:time` determines the action name and the time. -/
theorem spec_key_injective (a a' : String) (t t' : Int) (h : spec_key a t = spec_key a' t') :
    a = a' ∧ t = t' := by
  have hd := congrArg String.data h
  simp only [spec_key, String.data_append] at hd
  rw [List.append_assoc, List.append_assoc] at hd
  simp only [List.singleton_append] at hd
  obtain ⟨h1, h2⟩ := split_at_last ':' _ _ _ _ (fun h => to_string_chars t ':' h rfl)
    (fun h => to_string_chars t' ':' h rfl) hd
  exact ⟨String.ext h1, to_string_injective t t' (String.ext h2)⟩

/-! ## Units with the same identity -/

theorem mem_nearest_from_iff (E : Env) (L : Levels) (r : ReqRef) (c k : Nat) (e : EffRef) :
    e ∈ nearest_from E L r c k ↔
      e ∈ level_links E L r e.action.level ∧ c ≤ e.action.level ∧ e.action.level < k ∧
        ∀ j, e.action.level < j → j < k → level_links E L r j = [] := by
  induction k with
  | zero => simp [nearest_from]
  | succ j ih =>
    simp only [nearest_from]
    by_cases hjc : j < c
    · simp only [hjc, if_true, List.not_mem_nil, false_iff, not_and]
      intro _ h1 h2
      omega
    · simp only [hjc, if_false]
      by_cases hl : (level_links E L r j).isEmpty
      · have hl' : level_links E L r j = [] := by simpa using hl
        simp only [hl, if_true, ih]
        constructor
        · rintro ⟨h1, h2, h3, h4⟩
          refine ⟨h1, h2, by omega, ?_⟩
          intro j' hj1 hj2
          by_cases hjj : j' = j
          · exact hjj ▸ hl'
          · exact h4 j' hj1 (by omega)
        · rintro ⟨h1, h2, h3, h4⟩
          have hne : e.action.level ≠ j := by
            intro h
            rw [h, hl'] at h1
            simp at h1
          exact ⟨h1, h2, by omega, fun j' hj1 hj2 => h4 j' hj1 (by omega)⟩
      · have hl' : level_links E L r j ≠ [] := by simpa using hl
        simp only [hl, Bool.false_eq_true, if_false]
        constructor
        · intro h
          have hlev : e.action.level = j := (mem_eff_refs.mp (mem_level_links.mp h).1).1
          refine ⟨hlev ▸ h, by omega, by omega, ?_⟩
          intro j' hj1 hj2
          omega
        · rintro ⟨h1, h2, h3, h4⟩
          by_cases hlev : e.action.level = j
          · exact hlev ▸ h1
          · exact absurd (h4 j (by omega) (by omega)) hl'

theorem linked_congr_req (E : Env) (L : Levels) (r r' : ReqRef)
    (h : req_node L r = req_node L r') : linked E L r = linked E L r' := by
  funext e
  unfold linked links
  rw [h]

theorem nearest_congr_req (E : Env) (L : Levels) (r r' : ReqRef)
    (h : req_node L r = req_node L r') (hl : r.action.level = r'.action.level) :
    nearest E L r = nearest E L r' := by
  have hll : ∀ j, level_links E L r j = level_links E L r' j := by
    intro j
    unfold level_links
    rw [linked_congr_req E L r r' h]
  unfold nearest
  rw [hl]
  generalize r'.action.level = k
  induction k with
  | zero => rfl
  | succ j ih => simp only [nearest_from, hll, ih]

theorem linked_congr_effect (E : Env) (L : Levels) (r : ReqRef) (e e' : EffRef)
    (h : effect_node L e = effect_node L e') : linked E L r e = linked E L r e' := by
  unfold linked links
  rw [h]

theorem mem_nearest_congr_effect (E : Env) (L : Levels) (r : ReqRef) (e e' : EffRef)
    (h : effect_node L e = effect_node L e') (hl : e.action.level = e'.action.level)
    (hv : (get_effect L e).isSome = (get_effect L e').isSome) :
    e ∈ nearest E L r ↔ e' ∈ nearest E L r := by
  unfold nearest
  rw [mem_nearest_from_iff, mem_nearest_from_iff, mem_level_links, mem_level_links,
    mem_eff_refs_iff, mem_eff_refs_iff, linked_congr_effect E L r e e' h, hl, hv]

theorem level_index_of_time (L : Levels) (hp : L.Pairwise (fun a b => a.time < b.time))
    (i i' : Nat) (lv lv' : ExecutionLevel) (h : L[i]? = some lv) (h' : L[i']? = some lv')
    (ht : lv.time = lv'.time) : i = i' := by
  obtain ⟨hi, hlv⟩ := List.getElem?_eq_some.mp h
  obtain ⟨hi', hlv'⟩ := List.getElem?_eq_some.mp h'
  rw [List.pairwise_iff_getElem] at hp
  rcases Nat.lt_trichotomy i i' with hlt | heq | hgt
  · have := hp i i' hi hi' hlt
    rw [hlv, hlv'] at this
    omega
  · exact heq
  · have := hp i' i hi' hi hgt
    rw [hlv, hlv'] at this
    omega

/-- Two units of a built vector with the same identity `action:time` lie in the same level and
are the same unit value. -/
theorem built_twin (E : Env) (L0 : Levels) (hB : Built E L0) (u u' : UnitRef)
    (x x' : ActionUnit) (hx : get_unit L0 u = some x) (hx' : get_unit L0 u' = some x')
    (hk : spec_key x.action x.time = spec_key x'.action x'.time) :
    u.level = u'.level ∧ x = x' := by
  obtain ⟨ha, ht⟩ := spec_key_injective _ _ _ _ hk
  obtain ⟨lv, hlv, hxl⟩ := get_unit_decompose hx
  obtain ⟨lv', hlv', hxl'⟩ := get_unit_decompose hx'
  have h1 := hB.1 _ lv hlv x (List.getElem?_mem hxl)
  have h2 := hB.1 _ lv' hlv' x' (List.getElem?_mem hxl')
  have t1 := (make_action_unit_action E _ _ x h1).2.1
  have t2 := (make_action_unit_action E _ _ x' h2).2.1
  have hlt : lv.time = lv'.time := by rw [← t1, ← t2, ht]
  have hi := level_index_of_time L0 hB.2 _ _ lv lv' hlv hlv' hlt
  refine ⟨hi, ?_⟩
  rw [ha, hlt] at h1
  rw [h1] at h2
  exact Option.some.inj h2

theorem get_req_of_get_unit {L : Levels} {u : UnitRef} {x : ActionUnit}
    (h : get_unit L u = some x) (m : Nat) : get_req L ⟨u, m⟩ = x.reqs[m]? := by
  unfold get_req
  rw [h]

theorem get_effect_of_get_unit {L : Levels} {u : UnitRef} {x : ActionUnit}
    (h : get_unit L u = some x) (m : Nat) : get_effect L ⟨u, m⟩ = x.effects[m]? := by
  unfold get_effect
  rw [h]

theorem unit_ext (x x' : ActionUnit) (ha : x.action = x'.action) (ht : x.time = x'.time)
    (hr : ∀ m : Nat, x.reqs[m]? = x'.reqs[m]?)
    (he : ∀ m : Nat, x.effects[m]? = x'.effects[m]?) :
    x = x' := by
  obtain ⟨a, t, rs, es⟩ := x
  obtain ⟨a', t', rs', es'⟩ := x'
  simp only at ha ht hr he
  rw [ha, ht, List.ext_getElem? hr, List.ext_getElem? he]

theorem resolved_twin (E : Env) (L0 Ls : Levels) (hB : Built E L0)
    (hR : Resolved L0 Ls (nearest E L0) (consumers_of E L0)) (u u' : UnitRef)
    (x x' : ActionUnit) (hx : get_unit Ls u = some x) (hx' : get_unit Ls u' = some x')
    (hk : spec_key x.action x.time = spec_key x'.action x'.time) :
    u.level = u'.level ∧ x = x' := by
  -- the units of the fresh vector
  have hs := hR.shape.unit u
  have hs' := hR.shape.unit u'
  unfold unit_shape at hs hs'
  rw [hx] at hs
  rw [hx'] at hs'
  cases h0 : get_unit L0 u with
  | none => rw [h0] at hs; simp at hs
  | some x0 =>
    cases h0' : get_unit L0 u' with
    | none => rw [h0'] at hs'; simp at hs'
    | some x0' =>
      rw [h0] at hs
      rw [h0'] at hs'
      simp only [Option.map_some', Option.some.injEq, Prod.mk.injEq] at hs hs'
      have hk0 : spec_key x0.action x0.time = spec_key x0'.action x0'.time := by
        rw [hs.1, hs.2.1, hs'.1, hs'.2.1]; exact hk
      obtain ⟨hlev, hxx⟩ := built_twin E L0 hB u u' x0 x0' h0 h0' hk0
      refine ⟨hlev, ?_⟩
      apply unit_ext
      · rw [← hs.1, ← hs'.1, hxx]
      · rw [← hs.2.1, ← hs'.2.1, hxx]
      · intro m
        rw [← get_req_of_get_unit hx m, ← get_req_of_get_unit hx' m, hR.req, hR.req]
        have hq : get_req L0 ⟨u, m⟩ = get_req L0 ⟨u', m⟩ := by
          rw [get_req_of_get_unit h0, get_req_of_get_unit h0', hxx]
        have hn : nearest E L0 ⟨u, m⟩ = nearest E L0 ⟨u', m⟩ :=
          nearest_congr_req E L0 _ _ (by unfold req_node; rw [hq]) hlev
        rw [hq, hn]
      · intro m
        rw [← get_effect_of_get_unit hx m, ← get_effect_of_get_unit hx' m, hR.effect,
          hR.effect]
        have hq : get_effect L0 ⟨u, m⟩ = get_effect L0 ⟨u', m⟩ := by
          rw [get_effect_of_get_unit h0, get_effect_of_get_unit h0', hxx]
        have hc : consumers_of E L0 ⟨u, m⟩ = consumers_of E L0 ⟨u', m⟩ := by
          unfold consumers_of consumers_upto
          congr 1
          funext k
          apply List.filter_congr
          intro r _
          have := mem_nearest_congr_effect E L0 r ⟨u, m⟩ ⟨u', m⟩
            (by unfold effect_node; rw [hq]) hlev (by rw [hq])
          simp only [this]
        rw [hq, hc]

/-! ## The lists at the end of the resolution -/

theorem mem_consumers_upto (E : Env) (L : Levels) (e : EffRef) (i : Nat) (r : ReqRef) :
    r ∈ consumers_upto E L e i ↔
      r.action.level < i ∧ r ∈ req_refs L r.action.level ∧ e ∈ nearest E L r := by
  unfold consumers_upto
  simp only [List.mem_flatMap, List.mem_range, List.mem_filter, decide_eq_true_eq]
  constructor
  · rintro ⟨k, hk, hr, he⟩
    have := (mem_req_refs.mp hr).1
    exact ⟨this ▸ hk, this ▸ hr, he⟩
  · rintro ⟨h1, h2, h3⟩
    exact ⟨_, h1, h2, h3⟩

theorem mem_consumers_of (E : Env) (L : Levels) (e : EffRef) (r : ReqRef) :
    r ∈ consumers_of E L e ↔ (get_req L r).isSome = true ∧ e ∈ nearest E L r := by
  unfold consumers_of
  rw [mem_consumers_upto]
  constructor
  · rintro ⟨_, h2, h3⟩
    obtain ⟨q, hq⟩ := get_req_some_of_mem h2
    exact ⟨by simp [hq], h3⟩
  · rintro ⟨h1, h2⟩
    obtain ⟨q, hq⟩ := Option.isSome_iff_exists.mp h1
    exact ⟨level_lt_of_get_req hq, mem_req_refs_of_get_req hq, h2⟩

theorem nodup_nearest_from (E : Env) (L : Levels) (r : ReqRef) (c k : Nat) :
    (nearest_from E L r c k).Nodup := by
  induction k with
  | zero => simp [nearest_from]
  | succ j ih =>
    simp only [nearest_from]
    split
    · exact List.nodup_nil
    · split
      · exact ih
      · exact nodup_level_links E L r j

theorem nodup_consumers_upto (E : Env) (L : Levels) (e : EffRef) (i : Nat) :
    (consumers_upto E L e i).Nodup := by
  unfold consumers_upto
  rw [List.nodup_flatMap]
  refine ⟨fun k _ => (nodup_req_refs L k).filter _, ?_⟩
  apply (List.nodup_range i).pairwise_of_forall_ne
  intro a _ b _ hab
  simp only [Function.onFun, List.Disjoint]
  intro r h1 h2
  have ha := (mem_req_refs.mp (List.mem_filter.mp h1).1).1
  have hb := (mem_req_refs.mp (List.mem_filter.mp h2).1).1
  exact hab (ha.symm.trans hb)

theorem mem_nearest_valid (E : Env) (L : Levels) (r : ReqRef) (e : EffRef)
    (h : e ∈ nearest E L r) :
    (get_effect L e).isSome = true ∧ e.action.level < r.action.level ∧
      linked E L r e = true ∧ (get_req L r).isSome = true := by
  unfold nearest at h
  obtain ⟨_, h2, h3, h4⟩ := nearest_from_level E L r 0 _ e h
  refine ⟨((mem_eff_refs_iff L e _).mp h4).2, h2, h3, ?_⟩
  unfold linked links req_node at h3
  cases hq : get_req L r with
  | none => simp [hq] at h3
  | some q => rfl

/-- The producer and consumer lists at the end of the two resolution passes. -/
theorem final_lists (E : Env) (L : Levels) (hF : Final E L) :
    ∃ L0, Built E L0 ∧ L0 ≠ [] ∧ SameShape L0 L ∧
      (∀ r q, get_req L r = some q → q.effect_connections = nearest E L0 r) ∧
      (∀ e x, get_effect L e = some x → x.requirement_connections = consumers_of E L0 e) ∧
      (∀ u u' x x', get_unit L u = some x → get_unit L u' = some x' →
        spec_key x.action x.time = spec_key x'.action x'.time → u.level = u'.level ∧ x = x') := by
  obtain ⟨L0, Ls, hB, hne, hR, rfl⟩ := hF.fresh
  refine ⟨L0, hB, hne, hR.shape.trans (sameShape_fallback E Ls), ?_, ?_, ?_⟩
  · intro r q hq
    rw [get_req_fallback, hR.req] at hq
    cases hq0 : get_req L0 r with
    | none => simp [hq0] at hq
    | some q0 =>
      simp only [hq0, Option.map_some', Option.some.injEq] at hq
      rw [← hq, (fallback_req_requirement E _).2]
  · intro e x hx
    rw [get_effect_fallback, hR.effect] at hx
    cases hx0 : get_effect L0 e with
    | none => simp [hx0] at hx
    | some x0 =>
      simp only [hx0, Option.map_some', Option.some.injEq] at hx
      rw [← hx]
  · intro u u' x x' hx hx' hk
    rw [get_unit_fallback] at hx hx'
    cases hs : get_unit Ls u with
    | none => simp [hs] at hx
    | some xs =>
      cases hs' : get_unit Ls u' with
      | none => simp [hs'] at hx'
      | some xs' =>
        simp only [hs, hs', Option.map_some', Option.some.injEq] at hx hx'
        have hk' : spec_key xs.action xs.time = spec_key xs'.action xs'.time := by
          rw [← hx, ← hx'] at hk; exact hk
        obtain ⟨hl, hxx⟩ := resolved_twin E L0 Ls hB hR u u' xs xs' hs hs' hk'
        exact ⟨hl, by rw [← hx, ← hx', hxx]⟩

theorem resolve_final (E : Env) (plan : Plan) (L : Levels) (log : List TreeNode)
    (h : resolve E plan = some (L, log)) : Final E L := by
  rw [resolve_eq] at h
  cases h0 : get_plan_actions E plan with
  | none => simp [h0] at h
  | some L0 =>
    cases hs : sweep E L0 with
    | none => simp [h0, hs] at h
    | some Ls =>
      simp only [h0, hs, Option.some_bind, Option.map_some', Option.some.injEq] at h
      have hspec := get_plan_actions_spec E plan L0 h0
      exact ⟨L0, Ls, hspec.1, hspec.2.1,
        sweep_resolved E L0 Ls (fresh_of_built E L0 hspec.1) hs, by rw [h]⟩

/-! ## The sets `pred` and `succ` -/

theorem unit_key_eq_of_not_lt (L : Levels) (a b : UnitRef) (h1 : unit_lt L a b = false)
    (h2 : unit_lt L b a = false) : unit_key L b = unit_key L a := by
  rw [unit_lt_eq] at h1 h2
  unfold string_lt at h1 h2
  simp only [decide_eq_false_iff_not] at h1 h2
  apply String.ext
  rcases lt_trichotomy (unit_key L a).data (unit_key L b).data with h | h | h
  · exact absurd h h1
  · exact h.symm
  · exact absurd h h2

theorem set_insert_keys (L : Levels) (s : List UnitRef) (x : UnitRef) (k : String) :
    (∃ y ∈ set_insert (unit_lt L) s x, unit_key L y = k) ↔
      (∃ y ∈ s, unit_key L y = k) ∨ unit_key L x = k := by
  induction s with
  | nil => simp [set_insert]
  | cons z s ih =>
    simp only [set_insert]
    cases h1 : unit_lt L x z with
    | true =>
      simp only [if_true, List.mem_cons, exists_eq_or_imp]
      generalize (∃ a ∈ s, unit_key L a = k) = P
      tauto
    | false =>
      simp only [Bool.false_eq_true, if_false]
      cases h2 : unit_lt L z x with
      | true =>
        simp only [if_true, List.mem_cons, exists_eq_or_imp, ih]
        generalize (∃ a ∈ s, unit_key L a = k) = P
        tauto
      | false =>
        simp only [Bool.false_eq_true, if_false, List.mem_cons, exists_eq_or_imp]
        have := unit_key_eq_of_not_lt L x z h1 h2
        constructor
        · intro h; exact Or.inl h
        · rintro (h | h)
          · exact h
          · exact Or.inl (this.trans h)

theorem foldl_insert_keys {β : Type} (L : Levels) (f : β → UnitRef) (xs : List β)
    (s : List UnitRef) (k : String) :
    (∃ y ∈ xs.foldl (fun d x => set_insert (unit_lt L) d (f x)) s, unit_key L y = k) ↔
      (∃ y ∈ s, unit_key L y = k) ∨ ∃ x ∈ xs, unit_key L (f x) = k := by
  induction xs generalizing s with
  | nil => simp
  | cons x xs ih =>
    rw [List.foldl_cons, ih, set_insert_keys]
    simp only [List.mem_cons, exists_eq_or_imp]
    generalize (∃ a ∈ s, unit_key L a = k) = P
    generalize (∃ a ∈ xs, unit_key L (f a) = k) = Q
    tauto

theorem foldl_insert_mem {β : Type} (L : Levels) (f : β → UnitRef) (xs : List β)
    (s : List UnitRef) (y : UnitRef)
    (h : y ∈ xs.foldl (fun d x => set_insert (unit_lt L) d (f x)) s) :
    y ∈ s ∨ ∃ x ∈ xs, y = f x := by
  induction xs generalizing s with
  | nil => exact Or.inl h
  | cons x xs ih =>
    rw [List.foldl_cons] at h
    rcases ih _ h with h | ⟨x', hx', rfl⟩
    · rcases set_insert_mem _ s (f x) y h with h | h
      · exact Or.inl h
      · exact Or.inr ⟨x, List.mem_cons_self _ _, h⟩
    · exact Or.inr ⟨x', List.mem_cons_of_mem _ hx', rfl⟩

theorem pred_keys (L : Levels) (B : UnitRef) (k : String) :
    (∃ y ∈ pred L B, unit_key L y = k) ↔
      ∃ q ∈ (unit_at L B).reqs, ∃ e ∈ q.effect_connections, unit_key L e.action = k := by
  unfold pred
  have : ∀ (reqs : List RequirementConnection) (s : List UnitRef),
      (∃ y ∈ reqs.foldl (fun deps req =>
        req.effect_connections.foldl
          (fun deps effect_con => set_insert (unit_lt L) deps effect_con.action) deps) s,
        unit_key L y = k) ↔
      (∃ y ∈ s, unit_key L y = k) ∨
        ∃ q ∈ reqs, ∃ e ∈ q.effect_connections, unit_key L e.action = k := by
    intro reqs
    induction reqs with
    | nil => intro s; simp
    | cons q reqs ih =>
      intro s
      rw [List.foldl_cons, ih, foldl_insert_keys]
      simp only [List.mem_cons, exists_eq_or_imp]
      generalize (∃ y ∈ s, unit_key L y = k) = P
      generalize (∃ x ∈ q.effect_connections, unit_key L x.action = k) = Q
      generalize (∃ a ∈ reqs, ∃ e ∈ a.effect_connections, unit_key L e.action = k) = R
      tauto
  rw [this]
  simp

theorem succ_keys (L : Levels) (A : UnitRef) (k : String) :
    (∃ y ∈ succ L A, unit_key L y = k) ↔
      ∃ x ∈ (unit_at L A).effects, ∃ r ∈ x.requirement_connections,
        unit_key L r.action = k := by
  unfold succ
  have : ∀ (effs : List EffectConnection) (s : List UnitRef),
      (∃ y ∈ effs.foldl (fun deps effect =>
        effect.requirement_connections.foldl
          (fun deps req_con => set_insert (unit_lt L) deps req_con.action) deps) s,
        unit_key L y = k) ↔
      (∃ y ∈ s, unit_key L y = k) ∨
        ∃ x ∈ effs, ∃ r ∈ x.requirement_connections, unit_key L r.action = k := by
    intro effs
    induction effs with
    | nil => intro s; simp
    | cons q effs ih =>
      intro s
      rw [List.foldl_cons, ih, foldl_insert_keys]
      simp only [List.mem_cons, exists_eq_or_imp]
      generalize (∃ y ∈ s, unit_key L y = k) = P
      generalize (∃ x ∈ q.requirement_connections, unit_key L x.action = k) = Q
      generalize (∃ a ∈ effs, ∃ r ∈ a.requirement_connections, unit_key L r.action = k) = R
      tauto
  rw [this]
  simp

theorem pred_mem (L : Levels) (B : UnitRef) (y : UnitRef) (h : y ∈ pred L B) :
    ∃ q ∈ (unit_at L B).reqs, ∃ e ∈ q.effect_connections, y = e.action := by
  unfold pred at h
  have : ∀ (reqs : List RequirementConnection) (s : List UnitRef),
      y ∈ reqs.foldl (fun deps req =>
        req.effect_connections.foldl
          (fun deps effect_con => set_insert (unit_lt L) deps effect_con.action) deps) s →
      y ∈ s ∨ ∃ q ∈ reqs, ∃ e ∈ q.effect_connections, y = e.action := by
    intro reqs
    induction reqs with
    | nil => intro s h; exact Or.inl h
    | cons q reqs ih =>
      intro s h
      rw [List.foldl_cons] at h
      rcases ih _ h with h | ⟨q', hq', e, he, rfl⟩
      · rcases foldl_insert_mem L _ _ s y h with h | ⟨e, he, rfl⟩
        · exact Or.inl h
        · exact Or.inr ⟨q, List.mem_cons_self _ _, e, he, rfl⟩
      · exact Or.inr ⟨q', List.mem_cons_of_mem _ hq', e, he, rfl⟩
  rcases this _ [] h with h | h
  · simp at h
  · exact h

theorem succ_mem (L : Levels) (A : UnitRef) (y : UnitRef) (h : y ∈ succ L A) :
    ∃ x ∈ (unit_at L A).effects, ∃ r ∈ x.requirement_connections, y = r.action := by
  unfold succ at h
  have : ∀ (effs : List EffectConnection) (s : List UnitRef),
      y ∈ effs.foldl (fun deps effect =>
        effect.requirement_connections.foldl
          (fun deps req_con => set_insert (unit_lt L) deps req_con.action) deps) s →
      y ∈ s ∨ ∃ x ∈ effs, ∃ r ∈ x.requirement_connections, y = r.action := by
    intro effs
    induction effs with
    | nil => intro s h; exact Or.inl h
    | cons q effs ih =>
      intro s h
      rw [List.foldl_cons] at h
      rcases ih _ h with h | ⟨q', hq', e, he, rfl⟩
      · rcases foldl_insert_mem L _ _ s y h with h | ⟨e, he, rfl⟩
        · exact Or.inl h
        · exact Or.inr ⟨q, List.mem_cons_self _ _, e, he, rfl⟩
      · exact Or.inr ⟨q', List.mem_cons_of_mem _ hq', e, he, rfl⟩
  rcases this _ [] h with h | h
  · simp at h
  · exact h

theorem unit_at_of_get_unit {L : Levels} {u : UnitRef} {x : ActionUnit}
    (h : get_unit L u = some x) : unit_at L u = x := by
  unfold unit_at; rw [h]; rfl

theorem unit_at_of_none {L : Levels} {u : UnitRef} (h : get_unit L u = none) :
    unit_at L u = { action := "", time := 0, reqs := [], effects := [] } := by
  unfold unit_at; rw [h]; rfl

theorem mem_unit_at_reqs {L : Levels} {u : UnitRef} {q : RequirementConnection}
    (h : q ∈ (unit_at L u).reqs) : ∃ m, get_req L ⟨u, m⟩ = some q := by
  cases hu : get_unit L u with
  | none => rw [unit_at_of_none hu] at h; simp at h
  | some x =>
    rw [unit_at_of_get_unit hu] at h
    obtain ⟨m, hm⟩ := List.mem_iff_getElem?.mp h
    exact ⟨m, by rw [get_req_of_get_unit hu]; exact hm⟩

theorem mem_unit_at_effects {L : Levels} {u : UnitRef} {y : EffectConnection}
    (h : y ∈ (unit_at L u).effects) : ∃ m, get_effect L ⟨u, m⟩ = some y := by
  cases hu : get_unit L u with
  | none => rw [unit_at_of_none hu] at h; simp at h
  | some x =>
    rw [unit_at_of_get_unit hu] at h
    obtain ⟨m, hm⟩ := List.mem_iff_getElem?.mp h
    exact ⟨m, by rw [get_effect_of_get_unit hu]; exact hm⟩

theorem unit_at_reqs_of_get_req {L : Levels} {r : ReqRef} {q : RequirementConnection}
    (h : get_req L r = some q) : q ∈ (unit_at L r.action).reqs := by
  obtain ⟨_, x, _, _, hq, hu⟩ := get_req_decompose h
  rw [unit_at_of_get_unit hu]
  exact List.getElem?_mem hq

theorem unit_at_effects_of_get_effect {L : Levels} {e : EffRef} {y : EffectConnection}
    (h : get_effect L e = some y) : y ∈ (unit_at L e.action).effects := by
  obtain ⟨_, x, _, _, hq, hu⟩ := get_effect_decompose h
  rw [unit_at_of_get_unit hu]
  exact List.getElem?_mem hq

/-! ## Edge symmetry -/

theorem count_nodup {α : Type} [DecidableEq α] (l : List α) (h : l.Nodup) (a : α) :
    l.count a = if a ∈ l then 1 else 0 := by
  by_cases ha : a ∈ l
  · simp only [ha, if_true]
    exact List.count_eq_one_of_mem h ha
  · simp only [ha, if_false]
    exact List.count_eq_zero_of_not_mem ha

theorem edgeSymmetric_of_fresh (L : Levels) (hF : Fresh L) :
    EdgeSymmetric L ∧ UnsatisfiedUnlinked L := by
  constructor
  · intro r e q x hq hx
    rw [(hF.1 r q hq).2, hF.2 e x hx]
    simp
  · intro r q hq _
    exact (hF.1 r q hq).2

theorem edgeSymmetric_check_connections (E : Env) (L L' : Levels) (up down : Nat)
    (hup : up < L.length) (hdown : down < L.length) (hS : EdgeSymmetric L)
    (hU : UnsatisfiedUnlinked L) (h : check_connections E L up down = some L') :
    EdgeSymmetric L' ∧ UnsatisfiedUnlinked L' := by
  obtain ⟨_, hreq, heff⟩ := check_connections_spec E L L' up down hup hdown h
  constructor
  · intro r e q' x' hq' hx'
    rw [hreq r] at hq'
    rw [heff e] at hx'
    cases hq : get_req L r with
    | none => simp [hq] at hq'
    | some q =>
      cases hx : get_effect L e with
      | none => simp [hx] at hx'
      | some x =>
        simp only [hq, hx, Option.map_some', Option.some.injEq] at hq' hx'
        subst hq' hx'
        obtain ⟨hsym, hle⟩ := hS r e q x hq hx
        have hu : unsat L r = !q.satisfied := by simp [unsat, hq]
        by_cases hc : r ∈ req_refs L down ∧ q.satisfied = false
        · have hec := hU r q hq hc.2
          have hrc : x.requirement_connections.count r = 0 := by rw [← hsym, hec]; simp
          simp only [hc, and_self, if_true, List.count_append, hec, List.count_nil, zero_add,
            hrc]
          rw [count_nodup _ (nodup_level_links E L r up),
            count_nodup _ ((nodup_req_refs L down).filter _)]
          simp only [List.mem_filter, hc.1, true_and, hu, hc.2, Bool.not_false, Bool.true_and,
            decide_eq_true_eq]
          split <;> simp
        · simp only [hc, if_false, List.count_append]
          have : ((req_refs L down).filter
              (fun r => unsat L r && decide (e ∈ level_links E L r up))).count r = 0 := by
            apply List.count_eq_zero_of_not_mem
            intro hm
            rw [List.mem_filter] at hm
            apply hc
            refine ⟨hm.1, ?_⟩
            have := hm.2
            simp only [Bool.and_eq_true, hu, Bool.not_eq_true'] at this
            exact this.1
          rw [this]
          exact ⟨by omega, hle⟩
  · intro r q' hq' hs
    rw [hreq r] at hq'
    cases hq : get_req L r with
    | none => simp [hq] at hq'
    | some q =>
      simp only [hq, Option.map_some', Option.some.injEq] at hq'
      subst hq'
      by_cases hc : r ∈ req_refs L down ∧ q.satisfied = false
      · simp only [hc, and_self, if_true] at hs ⊢
        have : level_links E L r up = [] := by simpa using hs
        rw [this, hU r q hq hc.2]
        rfl
      · simp only [hc, if_false] at hs ⊢
        exact hU r q hq hs

theorem edgeSymmetric_final (E : Env) (L : Levels) (hF : Final E L) : EdgeSymmetric L := by
  obtain ⟨L0, _, _, hs, hreq, heff, _⟩ := final_lists E L hF
  intro r e q x hq hx
  have hn1 : (nearest E L0 r).Nodup := nodup_nearest_from E L0 r 0 _
  have hn2 : (consumers_of E L0 e).Nodup := nodup_consumers_upto E L0 e _
  rw [hreq r q hq, heff e x hx, count_nodup _ hn1, count_nodup _ hn2]
  have hv : (get_req L0 r).isSome = true := by
    rw [← get_req_isSome_congr hs, hq]; rfl
  have : r ∈ consumers_of E L0 e ↔ e ∈ nearest E L0 r := by
    rw [mem_consumers_of]
    exact ⟨fun h => h.2, fun h => ⟨hv, h⟩⟩
  simp only [this]
  split <;> simp

theorem unit_key_of_get_unit {L : Levels} {u : UnitRef} {x : ActionUnit}
    (h : get_unit L u = some x) : unit_key L u = spec_key x.action x.time := by
  unfold unit_key; rw [unit_at_of_get_unit h]

theorem get_unit_isSome_congr {L0 L : Levels} (h : SameShape L0 L) (u : UnitRef) :
    (get_unit L u).isSome = (get_unit L0 u).isSome := by
  rw [get_unit_isSome, get_unit_isSome, n_units_congr h]

theorem get_unit_of_get_effect {L : Levels} {e : EffRef} {y : EffectConnection}
    (h : get_effect L e = some y) : ∃ x, get_unit L e.action = some x := by
  obtain ⟨_, x, _, _, _, hu⟩ := get_effect_decompose h
  exact ⟨x, hu⟩

theorem get_unit_of_get_req {L : Levels} {r : ReqRef} {q : RequirementConnection}
    (h : get_req L r = some q) : ∃ x, get_unit L r.action = some x := by
  obtain ⟨_, x, _, _, _, hu⟩ := get_req_decompose h
  exact ⟨x, hu⟩

/-- At the end of the resolution two valid units with the same identity hold the same
value. -/
theorem final_twin (E : Env) (L : Levels) (hF : Final E L) (u u' : UnitRef)
    (hu : (get_unit L u).isSome = true) (hu' : (get_unit L u').isSome = true)
    (hk : unit_key L u = unit_key L u') : u.level = u'.level ∧ unit_at L u = unit_at L u' := by
  obtain ⟨L0, _, _, _, _, _, htw⟩ := final_lists E L hF
  obtain ⟨x, hx⟩ := Option.isSome_iff_exists.mp hu
  obtain ⟨x', hx'⟩ := Option.isSome_iff_exists.mp hu'
  rw [unit_key_of_get_unit hx, unit_key_of_get_unit hx'] at hk
  obtain ⟨h1, h2⟩ := htw u u' x x' hx hx' hk
  exact ⟨h1, by rw [unit_at_of_get_unit hx, unit_at_of_get_unit hx', h2]⟩

theorem pred_succ_final (E : Env) (L : Levels) (hF : Final E L) (A B : UnitRef)
    (hA : (get_unit L A).isSome = true) (hB : (get_unit L B).isSome = true) :
    in_set L A (pred L B) ↔ in_set L B (succ L A) := by
  obtain ⟨L0, _, _, hs, hreq, heff, _⟩ := final_lists E L hF
  unfold in_set
  rw [pred_keys, succ_keys]
  constructor
  · rintro ⟨q, hq, e, he, hk⟩
    obtain ⟨m, hm⟩ := mem_unit_at_reqs hq
    rw [hreq _ q hm] at he
    obtain ⟨hv, _, _, hvr⟩ := mem_nearest_valid E L0 _ e he
    rw [← get_effect_isSome_congr hs] at hv
    obtain ⟨y, hy⟩ := Option.isSome_iff_exists.mp hv
    obtain ⟨x', hx'⟩ := get_unit_of_get_effect hy
    have htw := (final_twin E L hF e.action A (by simp [hx']) hA hk).2
    refine ⟨y, htw ▸ unit_at_effects_of_get_effect hy, ⟨B, m⟩, ?_, rfl⟩
    rw [heff e y hy, mem_consumers_of]
    exact ⟨hvr, he⟩
  · rintro ⟨x, hx, r, hr, hk⟩
    obtain ⟨m, hm⟩ := mem_unit_at_effects hx
    rw [heff _ x hm, mem_consumers_of] at hr
    have hv := hr.1
    rw [← get_req_isSome_congr hs] at hv
    obtain ⟨q, hq⟩ := Option.isSome_iff_exists.mp hv
    obtain ⟨x', hx'⟩ := get_unit_of_get_req hq
    have htw := (final_twin E L hF r.action B (by simp [hx']) hB hk).2
    refine ⟨q, htw ▸ unit_at_reqs_of_get_req hq, ⟨A, m⟩, ?_, rfl⟩
    rw [hreq r q hq]
    exact hr.2


/-! ## The text of `get_flow_tree` -/

theorem flow_zero (L : Levels) (fuel : Nat) (n : UnitRef) (used : List UnitRef) (l : Nat)
    (hout : out_cardinality L n = 0) :
    get_flow_tree L (fuel + 1) n used l =
      some
        (if in_cardinality L n ≤ 1 then execution_block (unit_at L n).action (unit_at L n).time l
          else
            spec_sequence_open L n l ++ spec_wait_lines L (pred L n) (l + 1) ++
              execution_block (unit_at L n).action (unit_at L n).time (l + 1) ++
              spec_line l "</Sequence>",
          set_insert (unit_lt L) used n) := by
  rw [get_flow_tree]
  simp only [hout, if_true, Nat.zero_ne_one, if_false, Nat.lt_irrefl, gt_iff_lt, Nat.not_lt_zero]
  by_cases hin : in_cardinality L n ≤ 1
  · have : ¬ 1 < in_cardinality L n := by omega
    simp [hin, this]
  · have : 1 < in_cardinality L n := by omega
    simp only [hin, this, if_true, if_false, wait_actions_eq, sequence_open_eq]
    simp only [String.append_assoc, sequence_close_eq]

theorem flow_one (L : Levels) (fuel : Nat) (n : UnitRef) (used : List UnitRef) (l : Nat)
    (hout : out_cardinality L n = 1) :
    ∃ s, succ L n = [s] ∧
      get_flow_tree L (fuel + 1) n used l =
        (get_flow_tree L fuel s (set_insert (unit_lt L) used n) (l + 1)).map
          (fun sub =>
            (spec_sequence_open L n l ++
              (if in_cardinality L n > 1 then spec_wait_lines L (pred L n) (l + 1) else "") ++
              execution_block (unit_at L n).action (unit_at L n).time (l + 1) ++
              sub.1 ++ spec_line l "</Sequence>", sub.2)) := by
  have hlen : (succ L n).length = 1 := hout
  obtain ⟨s, hs⟩ := List.length_eq_one.mp hlen
  refine ⟨s, hs, ?_⟩
  rw [get_flow_tree]
  simp only [hout, Nat.one_ne_zero, if_false, if_true, Nat.lt_irrefl, gt_iff_lt, hs,
    List.head?_cons]
  cases hsub : get_flow_tree L fuel s (set_insert (unit_lt L) used n) (l + 1) with
  | none => rfl
  | some sub =>
    simp only [Option.map_some', Option.some.injEq, Prod.mk.injEq, and_true]
    by_cases hin : 1 < in_cardinality L n
    · simp only [hin, if_true, wait_actions_eq, sequence_open_eq]
      simp only [String.append_assoc, sequence_close_eq]
    · simp only [hin, if_false, sequence_open_eq, string_append_empty]
      simp only [String.append_assoc, sequence_close_eq]

theorem flow_many (L : Levels) (fuel : Nat) (n : UnitRef) (used : List UnitRef) (l : Nat)
    (hout : out_cardinality L n > 1) :
    get_flow_tree L (fuel + 1) n used l =
      ((succ L n).foldlM
        (fun (acc : String × List UnitRef) s =>
          (get_flow_tree L fuel s acc.2 (l + 2)).map (fun sub => (acc.1 ++ sub.1, sub.2)))
        (flow_head L n l ++ successors_open (succ L n).length (l + 1),
          set_insert (unit_lt L) used n)).map
        (fun acc => (acc.1 ++ spec_line (l + 1) "</Parallel>" ++ spec_line l "</Sequence>",
          acc.2)) := by
  rw [get_flow_tree]
  have h0 : ¬ out_cardinality L n = 0 := by omega
  have h1 : ¬ out_cardinality L n = 1 := by omega
  simp only [h0, h1, if_false, hout, if_true, gt_iff_lt]
  have hhead : (if 1 < in_cardinality L n then
        wait_actions L l
          (t l ++ "<Sequence name=\"" ++ (unit_at L n).action ++ ":" ++
            to_string (unit_at L n).time ++ "\">\n") (pred L n)
      else t l ++ "<Sequence name=\"" ++ (unit_at L n).action ++ ":" ++
        to_string (unit_at L n).time ++ "\">\n") ++
      execution_block (unit_at L n).action (unit_at L n).time (l + 1) ++ t (l + 1) ++
      "<Parallel success_threshold=\"" ++ to_string ((succ L n).length : Nat) ++
      "\"  failure_threshold=\"1\">\n" =
      flow_head L n l ++ successors_open (succ L n).length (l + 1) := by
    unfold flow_head successors_open
    by_cases hin : 1 < in_cardinality L n
    · simp only [hin, if_true, gt_iff_lt, wait_actions_eq, sequence_open_eq]
      simp only [String.append_assoc]
    · simp only [hin, if_false, gt_iff_lt, sequence_open_eq, string_append_empty]
      simp only [String.append_assoc]
  rw [hhead]
  cases (succ L n).foldlM
      (fun (acc : String × List UnitRef) s =>
        (get_flow_tree L fuel s acc.2 (l + 2)).map (fun sub => (acc.1 ++ sub.1, sub.2)))
      (flow_head L n l ++ successors_open (succ L n).length (l + 1),
        set_insert (unit_lt L) used n) with
  | none => rfl
  | some acc =>
    simp only [Option.map_some', Option.some.injEq, Prod.mk.injEq, and_true]
    have h2 : t (l + 1) ++ "</Parallel>\n" = spec_line (l + 1) "</Parallel>" := by
      simp only [spec_line, t_eq_spec_indent, String.append_assoc]; rfl
    rw [← h2, ← sequence_close_eq]
    simp only [String.append_assoc]



theorem fold_text_aux (L : Levels) (fuel d : Nat) (g : UnitRef → Option String)
    (H : ∀ s used, (get_flow_tree L fuel s used d).map Prod.fst = g s)
    (xs : List UnitRef) (txt : String) (u : List UnitRef) :
    (xs.foldlM
      (fun (acc : String × List UnitRef) s =>
        (get_flow_tree L fuel s acc.2 d).map (fun sub => (acc.1 ++ sub.1, sub.2)))
      (txt, u)).map Prod.fst =
      xs.foldlM (fun txt s => (g s).map (fun sub => txt ++ sub)) txt := by
  induction xs generalizing txt u with
  | nil => rfl
  | cons x xs ih =>
    simp only [List.foldlM_cons]
    rw [← H x u]
    cases get_flow_tree L fuel x u d with
    | none => rfl
    | some a =>
      simp only [Option.map_some', Option.bind_eq_bind, Option.some_bind]
      exact ih _ _

theorem flow_text_indep (L : Levels) (fuel : Nat) (n : UnitRef) (used : List UnitRef)
    (l : Nat) : (get_flow_tree L fuel n used l).map Prod.fst = flow_text L fuel n l := by
  unfold flow_text
  induction fuel generalizing n used l with
  | zero => rfl
  | succ fuel ih =>
    rcases Nat.lt_trichotomy (out_cardinality L n) 1 with h | h | h
    · have h0 : out_cardinality L n = 0 := by omega
      rw [flow_zero L fuel n used l h0, flow_zero L fuel n [] l h0]
      rfl
    · obtain ⟨s, hs, h1⟩ := flow_one L fuel n used l h
      obtain ⟨s', hs', h2⟩ := flow_one L fuel n [] l h
      have hss : s = s' := by
        rw [hs'] at hs
        simpa using hs.symm
      subst hss
      rw [h1, h2, Option.map_map, Option.map_map]
      have e1 := ih s (set_insert (unit_lt L) used n) (l + 1)
      have e2 := ih s (set_insert (unit_lt L) [] n) (l + 1)
      rw [← e2] at e1
      cases ha : get_flow_tree L fuel s (set_insert (unit_lt L) used n) (l + 1) with
      | none =>
        rw [ha] at e1
        cases hb : get_flow_tree L fuel s (set_insert (unit_lt L) [] n) (l + 1) with
        | none => rfl
        | some b => rw [hb] at e1; simp at e1
      | some a =>
        rw [ha] at e1
        cases hb : get_flow_tree L fuel s (set_insert (unit_lt L) [] n) (l + 1) with
        | none => rw [hb] at e1; simp at e1
        | some b =>
          rw [hb] at e1
          simp only [Option.map_some', Option.some.injEq] at e1
          simp [e1]
    · rw [flow_many L fuel n used l h, flow_many L fuel n [] l h, Option.map_map,
        Option.map_map]
      have H : ∀ s used, (get_flow_tree L fuel s used (l + 2)).map Prod.fst =
          (get_flow_tree L fuel s [] (l + 2)).map Prod.fst := fun s used => ih s used (l + 2)
      have k1 := fold_text_aux L fuel (l + 2) _ H (succ L n)
        (flow_head L n l ++ successors_open (succ L n).length (l + 1))
        (set_insert (unit_lt L) used n)
      have k2 := fold_text_aux L fuel (l + 2) _ H (succ L n)
        (flow_head L n l ++ successors_open (succ L n).length (l + 1))
        (set_insert (unit_lt L) [] n)
      rw [← k2] at k1
      revert k1
      cases (succ L n).foldlM
          (fun (acc : String × List UnitRef) s =>
            (get_flow_tree L fuel s acc.2 (l + 2)).map (fun sub => (acc.1 ++ sub.1, sub.2)))
          (flow_head L n l ++ successors_open (succ L n).length (l + 1),
            set_insert (unit_lt L) used n) <;>
        cases (succ L n).foldlM
          (fun (acc : String × List UnitRef) s =>
            (get_flow_tree L fuel s acc.2 (l + 2)).map (fun sub => (acc.1 ++ sub.1, sub.2)))
          (flow_head L n l ++ successors_open (succ L n).length (l + 1),
            set_insert (unit_lt L) [] n) <;>
        intro k1 <;> simp at k1 ⊢
      rw [k1]

/-! ## Lines of the document and reachability -/

theorem lineEnd_append {a b : String} (ha : LineEnd a) (hb : LineEnd b) : LineEnd (a ++ b) := by
  rcases hb with hb | ⟨p, hp⟩
  · subst hb
    rw [string_append_empty]
    exact ha
  · exact Or.inr ⟨a ++ p, by rw [hp, String.append_assoc]⟩

theorem lineEnd_spec_line (d : Nat) (s : String) : LineEnd (spec_line d s) :=
  Or.inr ⟨spec_indent d ++ s, rfl⟩

theorem lineEnd_join (xs : List String) (h : ∀ x ∈ xs, LineEnd x) :
    LineEnd (String.join xs) := by
  induction xs with
  | nil => exact Or.inl rfl
  | cons x xs ih =>
    rw [string_join_cons]
    exact lineEnd_append (h x (List.mem_cons_self _ _))
      (ih (fun y hy => h y (List.mem_cons_of_mem _ hy)))

theorem sub_trans {a b c : String} (h1 : Sub a b) (h2 : Sub b c) : Sub a c := by
  obtain ⟨p1, q1, e1, l1⟩ := h1
  obtain ⟨p2, q2, e2, l2⟩ := h2
  refine ⟨p2 ++ p1, q1 ++ q2, ?_, lineEnd_append l2 l1⟩
  rw [e2, e1]
  simp only [String.append_assoc]

theorem sub_refl (a : String) : Sub a a :=
  ⟨"", "", by rw [string_empty_append, string_append_empty], Or.inl rfl⟩

theorem sub_mid (pre part post : String) (h : LineEnd pre) : Sub part (pre ++ part ++ post) :=
  ⟨pre, post, rfl, h⟩

theorem sub_left (part post : String) : Sub part (part ++ post) :=
  ⟨"", post, by rw [string_empty_append], Or.inl rfl⟩

theorem sub_right (pre part : String) (h : LineEnd pre) : Sub part (pre ++ part) :=
  ⟨pre, "", by rw [string_append_empty], h⟩

theorem hasExec_of_sub {a b k : String} (h : HasExec a k) (hs : Sub a b) : HasExec b k := by
  obtain ⟨d, hd⟩ := h
  exact ⟨d, sub_trans hd hs⟩

theorem lineEnd_block (a : String) (T : Int) (d : Nat) : LineEnd (execution_block a T d) := by
  rw [execution_block_eq_spec]
  unfold spec_execution_block
  apply lineEnd_join
  intro x hx
  simp only [List.mem_cons, List.mem_singleton, List.not_mem_nil, or_false] at hx
  rcases hx with h | h | h | h | h | h | h | h | h | h <;> rw [h] <;>
    exact lineEnd_spec_line _ _

theorem sub_skip {x rest : String} (a : String) (h : LineEnd a) (hs : Sub x rest) :
    Sub x (a ++ rest) :=
  sub_trans hs (sub_right a rest h)

theorem hasExec_block (a : String) (T : Int) (d : Nat) :
    HasExec (execution_block a T d) (spec_key a T) := by
  refine ⟨d + 2, ?_⟩
  rw [execution_block_eq_spec]
  unfold spec_execution_block
  simp only [string_join_cons]
  exact sub_skip _ (lineEnd_spec_line _ _) (sub_skip _ (lineEnd_spec_line _ _)
    (sub_skip _ (lineEnd_spec_line _ _) (sub_skip _ (lineEnd_spec_line _ _)
      (sub_skip _ (lineEnd_spec_line _ _) (sub_left _ _)))))

theorem lineEnd_wait_lines (L : Levels) (ps : List UnitRef) (l : Nat) :
    LineEnd (spec_wait_lines L ps l) := by
  unfold spec_wait_lines
  apply lineEnd_join
  intro x hx
  obtain ⟨p, _, rfl⟩ := List.mem_map.1 hx
  exact lineEnd_spec_line _ _

theorem lineEnd_open (L : Levels) (n : UnitRef) (l : Nat) :
    LineEnd (spec_sequence_open L n l ++
      (if in_cardinality L n > 1 then spec_wait_lines L (pred L n) (l + 1) else "")) := by
  apply lineEnd_append (lineEnd_spec_line _ _)
  split
  · exact lineEnd_wait_lines _ _ _
  · exact Or.inl rfl

theorem hasExec_head (L : Levels) (n : UnitRef) (l : Nat) (post : String) :
    HasExec (flow_head L n l ++ post) (unit_key L n) := by
  unfold flow_head
  exact hasExec_of_sub (hasExec_block _ _ _) (sub_mid _ _ _ (lineEnd_open L n l))

theorem lineEnd_head (L : Levels) (n : UnitRef) (l : Nat) : LineEnd (flow_head L n l) :=
  lineEnd_append (lineEnd_open L n l) (lineEnd_block _ _ _)

theorem lineEnd_successors_open (N l : Nat) : LineEnd (successors_open N l) :=
  Or.inr ⟨t l ++ "<Parallel success_threshold=\"" ++ to_string (N : Nat) ++
    "\"  failure_threshold=\"1\">", by
      unfold successors_open
      simp only [String.append_assoc]
      rfl⟩

theorem forall2_sub {α : Type} (R : α → String → Prop) (xs : List α) (subs : List String)
    (h : List.Forall₂ R xs subs) (hl : ∀ x sub, R x sub → LineEnd sub) (x : α) (hx : x ∈ xs) :
    ∃ sub, R x sub ∧ Sub sub (String.join subs) := by
  induction h with
  | nil => cases hx
  | @cons a b as bs hab _ ih =>
    rw [string_join_cons]
    rcases List.mem_cons.1 hx with rfl | hx
    · exact ⟨b, hab, sub_left _ _⟩
    · obtain ⟨sub, h1, h2⟩ := ih hx
      exact ⟨sub, h1, sub_skip _ (hl _ _ hab) h2⟩

theorem forall2_lineEnd {α : Type} (R : α → String → Prop) (xs : List α) (subs : List String)
    (h : List.Forall₂ R xs subs) (hl : ∀ x sub, R x sub → LineEnd sub) :
    LineEnd (String.join subs) := by
  induction h with
  | nil => exact Or.inl rfl
  | @cons a b as bs hab _ ih =>
    rw [string_join_cons]
    exact lineEnd_append (hl _ _ hab) ih

theorem fold_flow_some (L : Levels) (fuel d : Nat) (xs : List UnitRef) (txt : String)
    (u : List UnitRef) (acc : String × List UnitRef)
    (h : xs.foldlM
      (fun (acc : String × List UnitRef) s =>
        (get_flow_tree L fuel s acc.2 d).map (fun sub => (acc.1 ++ sub.1, sub.2)))
      (txt, u) = some acc) :
    ∃ subs : List String, acc.1 = txt ++ String.join subs ∧
      List.Forall₂ (fun s sub => ∃ used res, get_flow_tree L fuel s used d = some res ∧
        res.1 = sub) xs subs := by
  induction xs generalizing txt u with
  | nil =>
    simp only [List.foldlM_nil, pure, Option.some.injEq] at h
    subst h
    exact ⟨[], by simp [String.join, string_append_empty], List.Forall₂.nil⟩
  | cons x xs ih =>
    simp only [List.foldlM_cons] at h
    cases hx : get_flow_tree L fuel x u d with
    | none => simp [hx] at h
    | some res =>
      simp only [hx, Option.map_some', Option.bind_eq_bind, Option.some_bind] at h
      obtain ⟨subs, h1, h2⟩ := ih _ _ h
      refine ⟨res.1 :: subs, ?_, List.Forall₂.cons ⟨u, res, hx, rfl⟩ h2⟩
      rw [h1, string_join_cons, String.append_assoc]

theorem fold_flow_isSome (L : Levels) (fuel d : Nat) (xs : List UnitRef)
    (hx : ∀ s ∈ xs, ∀ used, (get_flow_tree L fuel s used d).isSome = true) (txt : String)
    (u : List UnitRef) :
    (xs.foldlM
      (fun (acc : String × List UnitRef) s =>
        (get_flow_tree L fuel s acc.2 d).map (fun sub => (acc.1 ++ sub.1, sub.2)))
      (txt, u)).isSome = true := by
  induction xs generalizing txt u with
  | nil => rfl
  | cons x xs ih =>
    simp only [List.foldlM_cons]
    have h := hx x (List.mem_cons_self _ _) u
    cases hg : get_flow_tree L fuel x u d with
    | none => simp [hg] at h
    | some res =>
      simp only [Option.map_some', Option.bind_eq_bind, Option.some_bind]
      exact ih (fun s hs => hx s (List.mem_cons_of_mem _ hs)) _ _

theorem lineEnd_append_line (a : String) (d : Nat) (s : String) :
    LineEnd (a ++ spec_line d s) :=
  Or.inr ⟨a ++ (spec_indent d ++ s), by simp only [spec_line, String.append_assoc]⟩

theorem flow_lineEnd (L : Levels) (fuel : Nat) (n : UnitRef) (used : List UnitRef) (l : Nat)
    (res : String × List UnitRef) (h : get_flow_tree L fuel n used l = some res) :
    LineEnd res.1 := by
  cases fuel with
  | zero => simp [get_flow_tree] at h
  | succ fuel =>
    rcases Nat.lt_trichotomy (out_cardinality L n) 1 with h0 | h1 | h2
    · rw [flow_zero L fuel n used l (by omega)] at h
      simp only [Option.some.injEq] at h
      subst h
      simp only
      split
      · exact lineEnd_block _ _ _
      · exact lineEnd_append (lineEnd_append (lineEnd_append (lineEnd_spec_line _ _)
          (lineEnd_wait_lines _ _ _)) (lineEnd_block _ _ _)) (lineEnd_spec_line _ _)
    · obtain ⟨s, _, hs⟩ := flow_one L fuel n used l h1
      rw [hs] at h
      obtain ⟨sub, _, rfl⟩ := Option.map_eq_some'.1 h
      exact lineEnd_append_line _ _ _
    · rw [flow_many L fuel n used l h2] at h
      obtain ⟨acc, _, rfl⟩ := Option.map_eq_some'.1 h
      exact lineEnd_append_line _ _ _

theorem hasExec_of_reaches (L : Levels) (n : UnitRef) (k : String) (h : Reaches L n k) :
    ∀ fuel used l res, get_flow_tree L fuel n used l = some res → HasExec res.1 k := by
  induction h with
  | self n =>
    intro fuel used l res h
    cases fuel with
    | zero => simp [get_flow_tree] at h
    | succ fuel =>
      rcases Nat.lt_trichotomy (out_cardinality L n) 1 with h0 | h1 | h2
      · rw [flow_zero L fuel n used l (by omega)] at h
        simp only [Option.some.injEq] at h
        subst h
        simp only
        split
        · exact hasExec_block _ _ _
        · have hb := hasExec_block (unit_at L n).action (unit_at L n).time (l + 1)
          refine hasExec_of_sub hb (sub_mid _ _ _ ?_)
          exact lineEnd_append (lineEnd_spec_line _ _) (lineEnd_wait_lines _ _ _)
      · obtain ⟨s, _, hs⟩ := flow_one L fuel n used l h1
        rw [hs] at h
        obtain ⟨sub, _, rfl⟩ := Option.map_eq_some'.1 h
        have hb := hasExec_block (unit_at L n).action (unit_at L n).time (l + 1)
        refine hasExec_of_sub hb ?_
        exact sub_trans (sub_trans (sub_right _ _ (lineEnd_open L n l)) (sub_left _ _))
          (sub_left _ _)
      · rw [flow_many L fuel n used l h2] at h
        obtain ⟨acc, hacc, rfl⟩ := Option.map_eq_some'.1 h
        obtain ⟨subs, h1, _⟩ := fold_flow_some L fuel (l + 2) _ _ _ _ hacc
        simp only [h1, String.append_assoc]
        exact hasExec_head L n l _
  | step n s k hs _ ih =>
    intro fuel used l res h
    cases fuel with
    | zero => simp [get_flow_tree] at h
    | succ fuel =>
      have hpos : 0 < out_cardinality L n := List.length_pos_of_mem hs
      rcases Nat.lt_or_ge 1 (out_cardinality L n) with h2 | h1
      · rw [flow_many L fuel n used l h2] at h
        obtain ⟨acc, hacc, rfl⟩ := Option.map_eq_some'.1 h
        obtain ⟨subs, h1, hall⟩ := fold_flow_some L fuel (l + 2) _ _ _ _ hacc
        obtain ⟨sub, ⟨used', res', hres, rfl⟩, hsub⟩ := forall2_sub _ _ _ hall
          (fun x sub hx => by
            obtain ⟨used', res', hres, rfl⟩ := hx
            exact flow_lineEnd L fuel x used' (l + 2) res' hres) s hs
        refine hasExec_of_sub (ih fuel used' (l + 2) res' hres) ?_
        simp only [h1]
        refine sub_trans hsub ?_
        refine sub_trans (sub_trans (sub_right _ _ ?_) (sub_left _ _)) (sub_left _ _)
        exact lineEnd_append (lineEnd_head L n l) (lineEnd_successors_open _ _)
      · obtain ⟨s', hs', hf⟩ := flow_one L fuel n used l (by omega)
        rw [hs'] at hs
        have : s = s' := by simpa using hs
        subst this
        rw [hf] at h
        obtain ⟨sub, hsub, rfl⟩ := Option.map_eq_some'.1 h
        refine hasExec_of_sub (ih fuel _ (l + 1) sub hsub) ?_
        refine sub_trans (sub_right _ _ ?_) (sub_left _ _)
        exact lineEnd_append (lineEnd_open L n l) (lineEnd_block _ _ _)


theorem final_succ_valid (E : Env) (L : Levels) (hF : Final E L) (u s : UnitRef)
    (hs : s ∈ succ L u) : (get_unit L s).isSome = true ∧ u.level < s.level := by
  obtain ⟨L0, _, _, hS, _, hE, _⟩ := final_lists E L hF
  obtain ⟨x, hx, r, hr, rfl⟩ := succ_mem L u s hs
  obtain ⟨m, hm⟩ := mem_unit_at_effects hx
  rw [hE _ _ hm] at hr
  obtain ⟨hq, hn⟩ := (mem_consumers_of E L0 _ r).1 hr
  obtain ⟨_, hlt, _, _⟩ := mem_nearest_valid E L0 r _ hn
  refine ⟨?_, hlt⟩
  rw [get_unit_isSome_congr hS]
  cases hq0 : get_req L0 r with
  | none => simp [hq0] at hq
  | some q =>
    obtain ⟨y, hy⟩ := get_unit_of_get_req hq0
    simp [hy]

theorem final_pred_valid (E : Env) (L : Levels) (hF : Final E L) (u p : UnitRef)
    (hp : p ∈ pred L u) : (get_unit L p).isSome = true ∧ p.level < u.level := by
  obtain ⟨L0, _, _, hS, hR, _, _⟩ := final_lists E L hF
  obtain ⟨q, hq, e, he, rfl⟩ := pred_mem L u p hp
  obtain ⟨m, hm⟩ := mem_unit_at_reqs hq
  rw [hR _ _ hm] at he
  obtain ⟨hv, hlt, _, _⟩ := mem_nearest_valid E L0 _ e he
  refine ⟨?_, hlt⟩
  rw [get_unit_isSome_congr hS]
  cases he0 : get_effect L0 e with
  | none => simp [he0] at hv
  | some y =>
    obtain ⟨x, hx⟩ := get_unit_of_get_effect he0
    simp [hx]

theorem succ_congr_unit_at (L : Levels) (a b : UnitRef) (h : unit_at L a = unit_at L b) :
    succ L a = succ L b := by
  unfold succ
  rw [h]

theorem reaches_extend (E : Env) (L : Levels) (hF : Final E L) (r : UnitRef) (k : String)
    (h : Reaches L r k) :
    (get_unit L r).isSome = true → ∀ p s, (get_unit L p).isSome = true → k = unit_key L p →
      s ∈ succ L p → Reaches L r (unit_key L s) := by
  induction h with
  | self n =>
    intro hn p s hp hk hs
    have ht := (final_twin E L hF n p hn hp hk).2
    rw [← succ_congr_unit_at L n p ht] at hs
    exact Reaches.step n s _ hs (Reaches.self s)
  | step n s' k hs' _ ih =>
    intro hn p s hp hk hs
    exact Reaches.step n s' _ hs' (ih (final_succ_valid E L hF n s' hs').1 p s hp hk hs)

theorem mem_unit_refs (L : Levels) (u : UnitRef) :
    u ∈ unit_refs L ↔ (get_unit L u).isSome = true := by
  obtain ⟨i, k⟩ := u
  unfold unit_refs get_unit
  simp only [List.mem_flatMap, List.mem_range]
  constructor
  · rintro ⟨j, hj, hm⟩
    cases hl : L[j]? with
    | none => simp [hl] at hm
    | some lv =>
      simp only [hl, List.mem_map, List.mem_range, UnitRef.mk.injEq] at hm
      obtain ⟨a, ha, rfl, rfl⟩ := hm
      simp [hl, ha]
  · intro h
    cases hl : L[i]? with
    | none => simp [hl] at h
    | some lv =>
      simp only [hl, Option.isSome_iff_exists] at h
      obtain ⟨x, hx⟩ := h
      have hk : k < lv.action_units.length := by
        by_contra hc
        simp [List.getElem?_eq_none (not_lt.1 hc)] at hx
      refine ⟨i, ?_, ?_⟩
      · by_contra hc
        simp [List.getElem?_eq_none (not_lt.1 hc)] at hl
      · simp [hl, hk]

theorem mem_roots (L : Levels) (u : UnitRef) :
    u ∈ roots L ↔ (get_unit L u).isSome = true ∧ in_cardinality L u = 0 := by
  unfold roots
  simp [List.mem_filter, mem_unit_refs]

theorem reach_root (E : Env) (L : Levels) (hF : Final E L) (c : Nat) :
    ∀ u, u.level < c → (get_unit L u).isSome = true →
      ∃ r ∈ roots L, Reaches L r (unit_key L u) := by
  induction c with
  | zero => intro u h; omega
  | succ c ih =>
    intro u hlt hu
    by_cases h0 : in_cardinality L u = 0
    · exact ⟨u, (mem_roots L u).2 ⟨hu, h0⟩, Reaches.self u⟩
    · have hne : pred L u ≠ [] := by
        intro hc
        apply h0
        unfold in_cardinality
        rw [hc]
        rfl
      obtain ⟨p, hp⟩ := List.exists_mem_of_ne_nil _ hne
      obtain ⟨hpv, hpl⟩ := final_pred_valid E L hF u p hp
      obtain ⟨r, hr, hreach⟩ := ih p (by omega) hpv
      have hin : in_set L p (pred L u) := ⟨p, hp, rfl⟩
      obtain ⟨u', hu', hk⟩ := (pred_succ_final E L hF p u hpv hu).1 hin
      refine ⟨r, hr, ?_⟩
      rw [← hk]
      exact reaches_extend E L hF r _ hreach ((mem_roots L r).1 hr).1 p u' hpv rfl hu'

theorem flow_isSome (E : Env) (L : Levels) (hF : Final E L) (fuel : Nat) :
    ∀ u used l, 1 ≤ fuel → L.length ≤ fuel + u.level →
      (get_flow_tree L fuel u used l).isSome = true := by
  induction fuel with
  | zero => intro u used l h; omega
  | succ fuel ih =>
    intro u used l _ hlen
    have hsucc : ∀ s ∈ succ L u, ∀ used d, (get_flow_tree L fuel s used d).isSome = true := by
      intro s hs used d
      obtain ⟨hv, hlt⟩ := final_succ_valid E L hF u s hs
      have hsl : s.level < L.length := by
        obtain ⟨i, k⟩ := s
        unfold get_unit at hv
        by_contra hc
        simp [List.getElem?_eq_none (not_lt.1 hc)] at hv
      exact ih s used d (by omega) (by omega)
    rcases Nat.lt_trichotomy (out_cardinality L u) 1 with h0 | h1 | h2
    · rw [flow_zero L fuel u used l (by omega)]
      rfl
    · obtain ⟨s, hs, hf⟩ := flow_one L fuel u used l h1
      rw [hf]
      have := hsucc s (by rw [hs]; exact List.mem_singleton_self s)
        (set_insert (unit_lt L) used u) (l + 1)
      simpa using this
    · rw [flow_many L fuel u used l h2]
      have := fold_flow_isSome L fuel (l + 2) (succ L u) (fun s hs used => hsucc s hs used _)
        (flow_head L u l ++ successors_open (succ L u).length (l + 1))
        (set_insert (unit_lt L) used u)
      simpa using this

theorem root_counters_fold (p : UnitRef → Prop) [DecidablePred p] (xs : List UnitRef)
    (c : Nat) :
    xs.foldl (fun counter u => if p u then counter + 1 else counter) c =
      c + (xs.filter (fun u => decide (p u))).length := by
  induction xs generalizing c with
  | nil => simp
  | cons x xs ih =>
    simp only [List.foldl_cons, List.filter_cons]
    rw [ih]
    by_cases hp : p x
    · simp [hp]
      omega
    · simp [hp]

theorem root_counters_eq (L : Levels) : root_counters L = (roots L).length := by
  unfold root_counters roots
  rw [root_counters_fold (fun u => in_cardinality L u = 0)]
  simp

theorem flow_roots_fold (L : Levels) (fuel d : Nat) (xs : List UnitRef) (subs : List String)
    (h : List.Forall₂ (fun r sub => flow_text L fuel r d = some sub)
      (xs.filter (fun u => decide (in_cardinality L u = 0))) subs) (hdr : String) :
    xs.foldlM
      (fun bt_plan action_unit =>
        if in_cardinality L action_unit = 0 then
          (get_flow_tree L fuel action_unit [] d).map (fun sub => bt_plan ++ sub.1)
        else some bt_plan)
      hdr = some (hdr ++ String.join subs) := by
  induction xs generalizing subs hdr with
  | nil =>
    cases h
    simp [String.join, string_append_empty]
  | cons x xs ih =>
    simp only [List.foldlM_cons]
    by_cases hx : in_cardinality L x = 0
    · simp only [List.filter_cons, hx, decide_True, if_true] at h
      cases h with
      | @cons _ b _ bs hb hrest =>
        unfold flow_text at hb
        obtain ⟨res, hres, rfl⟩ := Option.map_eq_some'.1 hb
        simp only [hx, if_true, hres, Option.map_some', Option.bind_eq_bind, Option.some_bind]
        rw [ih bs hrest, string_join_cons, String.append_assoc]
    · simp only [List.filter_cons, hx, decide_False, Bool.false_eq_true, if_false] at h
      simp only [hx, if_false, Option.bind_eq_bind, Option.some_bind]
      exact ih subs h hdr

theorem flow_roots_eq (L : Levels) (fuel d : Nat) (subs : List String)
    (h : List.Forall₂ (fun r sub => flow_text L fuel r d = some sub) (roots L) subs)
    (hdr : String) : flow_roots L fuel d hdr = some (hdr ++ String.join subs) :=
  flow_roots_fold L fuel d (unit_refs L) subs h hdr

theorem forall2_of_isSome {α β : Type} (g : α → Option β) (xs : List α)
    (h : ∀ x ∈ xs, (g x).isSome = true) :
    ∃ ys, List.Forall₂ (fun x y => g x = some y) xs ys := by
  induction xs with
  | nil => exact ⟨[], List.Forall₂.nil⟩
  | cons x xs ih =>
    obtain ⟨ys, hys⟩ := ih (fun y hy => h y (List.mem_cons_of_mem _ hy))
    obtain ⟨y, hy⟩ := Option.isSome_iff_exists.1 (h x (List.mem_cons_self _ _))
    exact ⟨y :: ys, List.Forall₂.cons hy hys⟩

theorem build_tree_eq (L : Levels) (subs : List String)
    (h : List.Forall₂ (fun r sub => flow_text L L.length r (root_depth (roots L).length) =
      some sub) (roots L) subs) :
    build_tree L = some (spec_document (roots L).length subs) := by
  unfold build_tree spec_document
  rw [root_counters_eq]
  unfold root_depth at h
  by_cases hK : (roots L).length > 1
  · simp only [hK, if_true] at h ⊢
    rw [flow_roots_eq L L.length 3 subs h]
    simp only [spec_line, t_eq_spec_indent, String.append_assoc, Option.some.injEq]
    rfl
  · simp only [hK, if_false] at h ⊢
    rw [flow_roots_eq L L.length 2 subs h]
    simp only [spec_line, t_eq_spec_indent, String.append_assoc, Option.some.injEq]
    rfl

theorem roots_text (E : Env) (L : Levels) (hF : Final E L) (d : Nat) :
    ∃ subs, List.Forall₂ (fun r sub => flow_text L L.length r d = some sub) (roots L) subs := by
  apply forall2_of_isSome
  intro r hr
  have hv := ((mem_roots L r).1 hr).1
  have hlen : 1 ≤ L.length := by
    obtain ⟨i, k⟩ := r
    unfold get_unit at hv
    by_contra hc
    have : L.length ≤ i := by omega
    simp [List.getElem?_eq_none this] at hv
  have := flow_isSome E L hF L.length r [] d hlen (by omega)
  unfold flow_text
  simpa using this

theorem fold_text_mapM (g : UnitRef → Option String) (xs : List UnitRef) (txt : String) :
    xs.foldlM (fun txt s => (g s).map (fun sub => txt ++ sub)) txt =
      (xs.mapM g).map (fun subs => txt ++ String.join subs) := by
  induction xs generalizing txt with
  | nil =>
    rw [List.mapM_nil]
    show some txt = some (txt ++ String.join [])
    rw [show String.join [] = "" from rfl, string_append_empty]
  | cons x xs ih =>
    simp only [List.foldlM_cons, List.mapM_cons]
    cases g x with
    | none => rfl
    | some sub =>
      simp only [Option.map_some', Option.bind_eq_bind, Option.some_bind, ih]
      cases List.mapM g xs with
      | none => rfl
      | some subs =>
        simp only [Option.map_some', Option.some_bind, Option.some.injEq, Option.pure_def,
          string_join_cons, String.append_assoc]

theorem flow_many_text (L : Levels) (fuel : Nat) (n : UnitRef) (used : List UnitRef) (l : Nat)
    (hout : out_cardinality L n > 1) :
    (get_flow_tree L (fuel + 1) n used l).map Prod.fst =
      ((succ L n).mapM (fun s => flow_text L fuel s (l + 2))).map
        (fun subs =>
          flow_head L n l ++ successors_open (succ L n).length (l + 1) ++ String.join subs ++
            spec_line (l + 1) "</Parallel>" ++ spec_line l "</Sequence>") := by
  rw [flow_many L fuel n used l hout, Option.map_map]
  have H : ∀ s used, (get_flow_tree L fuel s used (l + 2)).map Prod.fst =
      flow_text L fuel s (l + 2) := fun s used => flow_text_indep L fuel s used (l + 2)
  have k := fold_text_aux L fuel (l + 2) _ H (succ L n)
    (flow_head L n l ++ successors_open (succ L n).length (l + 1))
    (set_insert (unit_lt L) used n)
  rw [fold_text_mapM] at k
  revert k
  cases (succ L n).foldlM
      (fun (acc : String × List UnitRef) s =>
        (get_flow_tree L fuel s acc.2 (l + 2)).map (fun sub => (acc.1 ++ sub.1, sub.2)))
      (flow_head L n l ++ successors_open (succ L n).length (l + 1),
        set_insert (unit_lt L) used n) <;>
    cases (succ L n).mapM (fun s => flow_text L fuel s (l + 2)) <;>
    intro k <;> simp at k ⊢
  rw [k]

/-! ## Evaluating the synthesizer on given levels -/

theorem flow_text_zero (L : Levels) (fuel : Nat) (n : UnitRef) (l : Nat)
    (hout : succ L n = []) (hin : in_cardinality L n ≤ 1) :
    flow_text L (fuel + 1) n l =
      some (execution_block (unit_at L n).action (unit_at L n).time l) := by
  unfold flow_text
  rw [flow_zero L fuel n [] l (by unfold out_cardinality; rw [hout]; rfl)]
  simp [hin]

theorem flow_text_join (L : Levels) (fuel : Nat) (n : UnitRef) (l : Nat)
    (hout : succ L n = []) (hin : in_cardinality L n > 1) :
    flow_text L (fuel + 1) n l =
      some (spec_sequence_open L n l ++ spec_wait_lines L (pred L n) (l + 1) ++
        execution_block (unit_at L n).action (unit_at L n).time (l + 1) ++
        spec_line l "</Sequence>") := by
  unfold flow_text
  rw [flow_zero L fuel n [] l (by unfold out_cardinality; rw [hout]; rfl)]
  have : ¬ in_cardinality L n ≤ 1 := by omega
  simp [this]

theorem flow_text_one (L : Levels) (fuel : Nat) (n s : UnitRef) (l : Nat)
    (hout : succ L n = [s]) :
    flow_text L (fuel + 1) n l =
      (flow_text L fuel s (l + 1)).map
        (fun sub => flow_head L n l ++ sub ++ spec_line l "</Sequence>") := by
  obtain ⟨s', hs', h⟩ := flow_one L fuel n [] l (by unfold out_cardinality; rw [hout]; rfl)
  have hss : s' = s := by
    rw [hout] at hs'
    simpa using hs'.symm
  subst hss
  have hi := flow_text_indep L fuel s' (set_insert (unit_lt L) [] n) (l + 1)
  unfold flow_text at hi ⊢
  rw [h, Option.map_map, ← hi, Option.map_map]
  rfl

theorem flow_text_many (L : Levels) (fuel : Nat) (n : UnitRef) (l : Nat)
    (hout : out_cardinality L n > 1) :
    flow_text L (fuel + 1) n l =
      ((succ L n).mapM (fun s => flow_text L fuel s (l + 2))).map
        (fun subs =>
          flow_head L n l ++ successors_open (succ L n).length (l + 1) ++ String.join subs ++
            spec_line (l + 1) "</Parallel>" ++ spec_line l "</Sequence>") :=
  flow_many_text L fuel n [] l hout

theorem get_tree_of_resolve (E : Env) (plan : Plan) (L : Levels) (log : List TreeNode)
    (subs : List String) (h : resolve E plan = some (L, log))
    (hsubs : List.Forall₂ (fun r sub => flow_text L L.length r (root_depth (roots L).length) =
      some sub) (roots L) subs) :
    get_tree E plan = some (spec_document (roots L).length subs) := by
  unfold get_tree
  rw [h]
  exact build_tree_eq L subs hsubs

theorem diamond_resolve (plan : Plan) (h : (resolve diamond_env plan).isSome = true) :
    ∃ log, resolve diamond_env plan = some (diamond_levels plan, log) := by
  unfold diamond_levels
  cases hr : resolve diamond_env plan with
  | none => simp [hr] at h
  | some r => exact ⟨r.2, rfl⟩

theorem spec_wait_lines_pair (L : Levels) (p q : UnitRef) (l : Nat) :
    spec_wait_lines L [p, q] l =
      spec_line l ("<WaitAction action=\"" ++ unit_key L p ++ "\"/>") ++
        spec_line l ("<WaitAction action=\"" ++ unit_key L q ++ "\"/>") := by
  unfold spec_wait_lines
  simp only [List.map, string_join_cons]
  rw [show String.join [] = "" from rfl, string_append_empty]

theorem diamond_flow_d :
    flow_text (diamond_levels diamond_plan) 1 ⟨2, 0⟩ 5 = some diamond_join := by
  rw [flow_text_join (diamond_levels diamond_plan) 0 ⟨2, 0⟩ 5 (by decide) (by decide)]
  rw [show pred (diamond_levels diamond_plan) ⟨2, 0⟩ = [⟨1, 0⟩, ⟨1, 1⟩] by decide,
    spec_wait_lines_pair]
  unfold spec_sequence_open diamond_join
  rw [show unit_key (diamond_levels diamond_plan) ⟨2, 0⟩ = "d:2" by decide,
    show unit_key (diamond_levels diamond_plan) ⟨1, 0⟩ = "b:1" by decide,
    show unit_key (diamond_levels diamond_plan) ⟨1, 1⟩ = "c:1" by decide,
    show (unit_at (diamond_levels diamond_plan) ⟨2, 0⟩).action = "d" by decide,
    show (unit_at (diamond_levels diamond_plan) ⟨2, 0⟩).time = 2 by decide]
  simp only [String.append_assoc]
  rfl

theorem diamond_flow_b :
    flow_text (diamond_levels diamond_plan) 2 ⟨1, 0⟩ 4 =
      some (spec_line 4 "<Sequence name=\"b:1\">" ++ execution_block "b" 1 5 ++
        diamond_join ++ spec_line 4 "</Sequence>") := by
  rw [flow_text_one (diamond_levels diamond_plan) 1 ⟨1, 0⟩ ⟨2, 0⟩ 4 (by decide),
    diamond_flow_d]
  unfold flow_head spec_sequence_open
  rw [show unit_key (diamond_levels diamond_plan) ⟨1, 0⟩ = "b:1" by decide,
    show (unit_at (diamond_levels diamond_plan) ⟨1, 0⟩).action = "b" by decide,
    show (unit_at (diamond_levels diamond_plan) ⟨1, 0⟩).time = 1 by decide,
    show in_cardinality (diamond_levels diamond_plan) ⟨1, 0⟩ = 1 by decide]
  simp only [Option.map_some', gt_iff_lt, lt_self_iff_false, if_false, string_append_empty]
  rfl

theorem diamond_flow_c :
    flow_text (diamond_levels diamond_plan) 2 ⟨1, 1⟩ 4 =
      some (spec_line 4 "<Sequence name=\"c:1\">" ++ execution_block "c" 1 5 ++
        diamond_join ++ spec_line 4 "</Sequence>") := by
  rw [flow_text_one (diamond_levels diamond_plan) 1 ⟨1, 1⟩ ⟨2, 0⟩ 4 (by decide),
    diamond_flow_d]
  unfold flow_head spec_sequence_open
  rw [show unit_key (diamond_levels diamond_plan) ⟨1, 1⟩ = "c:1" by decide,
    show (unit_at (diamond_levels diamond_plan) ⟨1, 1⟩).action = "c" by decide,
    show (unit_at (diamond_levels diamond_plan) ⟨1, 1⟩).time = 1 by decide,
    show in_cardinality (diamond_levels diamond_plan) ⟨1, 1⟩ = 1 by decide]
  simp only [Option.map_some', gt_iff_lt, lt_self_iff_false, if_false, string_append_empty]
  rfl

theorem diamond_flow_a :
    flow_text (diamond_levels diamond_plan) 3 ⟨0, 0⟩ 2 =
      some (spec_line 2 "<Sequence name=\"a:0\">" ++
        execution_block "a" 0 3 ++
        spec_line 3 "<Parallel success_threshold=\"2\"  failure_threshold=\"1\">" ++
        (spec_line 4 "<Sequence name=\"b:1\">" ++ execution_block "b" 1 5 ++
          diamond_join ++ spec_line 4 "</Sequence>") ++
        (spec_line 4 "<Sequence name=\"c:1\">" ++ execution_block "c" 1 5 ++
          diamond_join ++ spec_line 4 "</Sequence>") ++
        spec_line 3 "</Parallel>" ++
        spec_line 2 "</Sequence>") := by
  rw [flow_text_many (diamond_levels diamond_plan) 2 ⟨0, 0⟩ 2 (by decide)]
  rw [show succ (diamond_levels diamond_plan) ⟨0, 0⟩ = [⟨1, 0⟩, ⟨1, 1⟩] by decide]
  simp only [Nat.reduceAdd, List.mapM_cons, List.mapM_nil, diamond_flow_b, diamond_flow_c,
    Option.pure_def, Option.bind_eq_bind, Option.some_bind, Option.map_some', string_join_cons]
  unfold flow_head spec_sequence_open
  rw [show unit_key (diamond_levels diamond_plan) ⟨0, 0⟩ = "a:0" by decide,
    show (unit_at (diamond_levels diamond_plan) ⟨0, 0⟩).action = "a" by decide,
    show (unit_at (diamond_levels diamond_plan) ⟨0, 0⟩).time = 0 by decide,
    show in_cardinality (diamond_levels diamond_plan) ⟨0, 0⟩ = 0 by decide,
    show String.join [] = "" from rfl,
    show successors_open [(⟨1, 0⟩ : UnitRef), ⟨1, 1⟩].length 3 =
      spec_line 3 "<Parallel success_threshold=\"2\"  failure_threshold=\"1\">" by decide]
  simp only [gt_iff_lt, Nat.not_lt_zero, if_false, string_append_empty, String.append_assoc]
  rfl

theorem fork_flow_a :
    flow_text (diamond_levels fork_plan) 2 ⟨0, 0⟩ 2 =
      some (spec_line 2 "<Sequence name=\"a:0\">" ++
        execution_block "a" 0 3 ++
        spec_line 3 "<Parallel success_threshold=\"2\"  failure_threshold=\"1\">" ++
        execution_block "b" 1 4 ++
        execution_block "c" 1 4 ++
        spec_line 3 "</Parallel>" ++
        spec_line 2 "</Sequence>") := by
  rw [flow_text_many (diamond_levels fork_plan) 1 ⟨0, 0⟩ 2 (by decide)]
  rw [show succ (diamond_levels fork_plan) ⟨0, 0⟩ = [⟨1, 0⟩, ⟨1, 1⟩] by decide]
  simp only [Nat.reduceAdd, List.mapM_cons, List.mapM_nil,
    flow_text_zero (diamond_levels fork_plan) 0 ⟨1, 0⟩ 4 (by decide) (by decide),
    flow_text_zero (diamond_levels fork_plan) 0 ⟨1, 1⟩ 4 (by decide) (by decide),
    Option.pure_def, Option.bind_eq_bind, Option.some_bind, Option.map_some', string_join_cons]
  unfold flow_head spec_sequence_open
  rw [show unit_key (diamond_levels fork_plan) ⟨0, 0⟩ = "a:0" by decide,
    show (unit_at (diamond_levels fork_plan) ⟨0, 0⟩).action = "a" by decide,
    show (unit_at (diamond_levels fork_plan) ⟨0, 0⟩).time = 0 by decide,
    show (unit_at (diamond_levels fork_plan) ⟨1, 0⟩).action = "b" by decide,
    show (unit_at (diamond_levels fork_plan) ⟨1, 0⟩).time = 1 by decide,
    show (unit_at (diamond_levels fork_plan) ⟨1, 1⟩).action = "c" by decide,
    show (unit_at (diamond_levels fork_plan) ⟨1, 1⟩).time = 1 by decide,
    show in_cardinality (diamond_levels fork_plan) ⟨0, 0⟩ = 0 by decide,
    show String.join [] = "" from rfl,
    show successors_open [(⟨1, 0⟩ : UnitRef), ⟨1, 1⟩].length 3 =
      spec_line 3 "<Parallel success_threshold=\"2\"  failure_threshold=\"1\">" by decide]
  simp only [gt_iff_lt, Nat.not_lt_zero, if_false, string_append_empty, String.append_assoc]
  rfl

theorem get_tree_single_root (E : Env) (plan : Plan) (L : Levels) (log : List TreeNode)
    (r : UnitRef) (sub : String) (h : resolve E plan = some (L, log)) (hr : roots L = [r])
    (hsub : flow_text L L.length r 2 = some sub) :
    get_tree E plan = some (spec_document 1 [sub]) := by
  have := get_tree_of_resolve E plan L log [sub] h (by
    rw [hr]
    exact List.Forall₂.cons hsub List.Forall₂.nil)
  rw [hr] at this
  exact this

/-! ## The levels of a plan, item by item -/

theorem all_units_append (L L' : Levels) : all_units (L ++ L') = all_units L ++ all_units L' := by
  simp [all_units]

theorem all_units_singleton (lv : ExecutionLevel) : all_units [lv] = lv.action_units := by
  simp [all_units]

theorem plan_step_shape (E : Env) (st st' : PlanLoop) (item : PlanItem)
    (htime : st.current_level.time = st.last_time) (h : plan_step E st item = some st') :
    ∃ x, make_action_unit E item (max st.last_time (static_cast_int item.time)) = some x ∧
      (static_cast_int item.time > st.last_time →
        st' = ⟨st.front ++ [st.current_level], ⟨static_cast_int item.time, [x]⟩,
          static_cast_int item.time⟩) ∧
      (¬ static_cast_int item.time > st.last_time →
        st' = ⟨st.front, ⟨st.current_level.time, st.current_level.action_units ++ [x]⟩,
          st.last_time⟩) := by
  unfold plan_step at h
  by_cases hgt : static_cast_int item.time > st.last_time
  · simp only [hgt, if_true] at h
    rw [max_eq_right (le_of_lt hgt)]
    cases hm : make_action_unit E item (static_cast_int item.time) with
    | none => simp [hm] at h
    | some x =>
      simp only [hm, Option.some.injEq] at h
      subst h
      exact ⟨x, rfl, fun _ => by simp, fun hc => absurd hgt hc⟩
  · simp only [hgt, if_false] at h
    have hmx : max st.last_time (static_cast_int item.time) = st.current_level.time := by
      rw [max_eq_left (le_of_not_lt hgt), htime]
    rw [hmx]
    cases hm : make_action_unit E item st.current_level.time with
    | none => simp [hm] at h
    | some x =>
      simp only [hm, Option.some.injEq] at h
      subst h
      exact ⟨x, rfl, fun hc => absurd hc hgt, fun _ => rfl⟩

theorem plan_step_units (E : Env) (st st' : PlanLoop) (item : PlanItem)
    (htime : st.current_level.time = st.last_time) (h : plan_step E st item = some st') :
    ∃ x, make_action_unit E item (max st.last_time (static_cast_int item.time)) = some x ∧
      all_units (plan_levels st') = all_units (plan_levels st) ++ [x] ∧
      st'.last_time = max st.last_time (static_cast_int item.time) ∧
      st'.current_level.time = st'.last_time := by
  obtain ⟨x, hx, h1, h2⟩ := plan_step_shape E st st' item htime h
  refine ⟨x, hx, ?_⟩
  by_cases hgt : static_cast_int item.time > st.last_time
  · rw [h1 hgt]
    refine ⟨?_, (max_eq_right (le_of_lt hgt)).symm, rfl⟩
    simp [plan_levels, all_units]
  · rw [h2 hgt]
    refine ⟨?_, (max_eq_left (le_of_not_lt hgt)).symm, htime⟩
    simp [plan_levels, all_units]

theorem plan_loop_units (E : Env) (items : List PlanItem) (st st' : PlanLoop)
    (htime : st.current_level.time = st.last_time)
    (h : items.foldlM (plan_step E) st = some st') :
    ∃ us : List ActionUnit,
      all_units (plan_levels st') = all_units (plan_levels st) ++ us ∧
      us.length = items.length ∧
      (∀ k (hk : k < items.length),
        us[k]? = make_action_unit E items[k] (run_time st.last_time items k)) ∧
      st'.last_time = (items.map (fun item => static_cast_int item.time)).foldl max
        st.last_time ∧
      st'.current_level.time = st'.last_time := by
  induction items generalizing st with
  | nil =>
    simp only [List.foldlM_nil, pure, Option.some.injEq] at h
    subst h
    exact ⟨[], by simp, rfl, fun k hk => absurd hk (by simp), rfl, htime⟩
  | cons item items ih =>
    simp only [List.foldlM_cons] at h
    cases h1 : plan_step E st item with
    | none => simp [h1] at h
    | some st1 =>
      simp only [h1, Option.bind_eq_bind, Option.some_bind] at h
      obtain ⟨x, hx, hu, hl, ht⟩ := plan_step_units E st st1 item htime h1
      obtain ⟨us, hus, hlen, hk, hlast, htime'⟩ := ih st1 ht h
      refine ⟨x :: us, ?_, by simp [hlen], ?_, ?_, htime'⟩
      · rw [hus, hu, List.append_assoc]
        rfl
      · intro k hk'
        cases k with
        | zero =>
          rw [run_time_zero]
          simpa using hx.symm
        | succ k =>
          have hk2 : k < items.length := by simpa using hk'
          rw [run_time_succ, ← hl]
          simpa using hk k hk2
      · rw [hlast, hl]
        rfl

theorem run_time_eq_running_max (items : List PlanItem) (k : Nat) :
    run_time 0 items k = running_max (items.take (k + 1)) := rfl

theorem get_plan_actions_state (E : Env) (plan : Plan) (L : Levels)
    (h : get_plan_actions E plan = some L) :
    ∃ st, plan.foldlM (plan_step E) (⟨[], ⟨0, []⟩, 0⟩ : PlanLoop) = some st ∧
      L = st.front ++ [st.current_level] ∧ st.last_time = running_max plan ∧
      st.current_level.time = st.last_time := by
  unfold get_plan_actions at h
  cases hf : List.foldlM (plan_step E) (⟨[], ⟨0, []⟩, 0⟩ : PlanLoop) plan with
  | none => simp [hf] at h
  | some st =>
    simp only [hf, Option.some.injEq] at h
    obtain ⟨_, _, _, _, hl, ht⟩ := plan_loop_units E plan _ st rfl hf
    exact ⟨st, rfl, h.symm, hl, ht⟩

/-- The units of the levels of a plan, in order: one per item, built from the item at the
running maximum of the truncated times up to the item. -/
theorem get_plan_actions_units (E : Env) (plan : Plan) (L : Levels)
    (h : get_plan_actions E plan = some L) :
    (all_units L).length = plan.length ∧
      ∀ k (hk : k < plan.length),
        (all_units L)[k]? = make_action_unit E plan[k] (run_time 0 plan k) := by
  obtain ⟨st, hf, hL, _, _⟩ := get_plan_actions_state E plan L h
  obtain ⟨us, hus, hlen, hk, _, _⟩ := plan_loop_units E plan _ st rfl hf
  have : all_units L = us := by
    rw [hL]
    simpa [plan_levels, all_units] using hus
  rw [this]
  exact ⟨hlen, hk⟩

theorem DefinedBelow.of_shape {E : Env} {L0 L : Levels} (hD : DefinedBelow E L0)
    (hs : SameShape L0 L) : DefinedBelow E L := by
  intro r e hr he hlt
  rw [links_congr E hs]
  apply hD _ _ _ _ hlt
  · rw [← get_req_isSome_congr hs]
    exact hr
  · rw [← get_effect_isSome_congr hs]
    exact he

theorem conn_pairs_isSome_of (E : Env) (L : Levels) (up : Nat) (rs : List ReqRef)
    (hD : ∀ r ∈ rs, ∀ e ∈ eff_refs L up, (links E L r e).isSome)
    (hrs : ∀ r ∈ rs, (get_req L r).isSome) :
    (conn_pairs E L up rs).isSome := by
  induction rs with
  | nil => rfl
  | cons r rs ih =>
    have hr := hrs r (List.mem_cons_self _ _)
    have ih' := ih (fun r' hr' => hD r' (List.mem_cons_of_mem _ hr'))
      (fun r' hr' => hrs r' (List.mem_cons_of_mem _ hr'))
    simp only [conn_pairs]
    cases hq : get_req L r with
    | none => rw [hq] at hr; exact absurd hr (by simp)
    | some q =>
      simp only
      cases q.satisfied with
      | true => simpa using ih'
      | false =>
        simp only [Bool.false_eq_true, if_false]
        have hsel : (select_links E L r (eff_refs L up)).isSome := by
          rw [select_links_isSome_iff]
          exact hD r (List.mem_cons_self _ _)
        obtain ⟨sel, hsel'⟩ := Option.isSome_iff_exists.mp hsel
        obtain ⟨rest, hrest⟩ := Option.isSome_iff_exists.mp ih'
        simp [hsel', hrest]

theorem check_connections_isSome_below (E : Env) (L : Levels) (up down : Nat)
    (hD : DefinedBelow E L) (hup : up < down) (hdown : down < L.length) :
    ∃ L', check_connections E L up down = some L' := by
  rw [check_connections_eq E L up down (by omega) hdown]
  have := conn_pairs_isSome_of E L up (req_refs L down)
    (fun r hr e he => by
      obtain ⟨q, hq⟩ := get_req_some_of_mem hr
      obtain ⟨x, hx⟩ := get_effect_some_of_mem he
      apply hD r e (by simp [hq]) (by simp [hx])
      rw [(mem_req_refs.1 hr).1, (mem_eff_refs.1 he).1]
      exact hup)
    (fun r hr => by
      obtain ⟨q, hq⟩ := get_req_some_of_mem hr
      simp [hq])
  obtain ⟨ps, hps⟩ := Option.isSome_iff_exists.mp this
  exact ⟨connect_all L ps, by rw [hps]; rfl⟩

theorem sweep_level_isSome_below (E : Env) (i c : Nat) (L : Levels) (hD : DefinedBelow E L)
    (hci : c ≤ i) (hi : i < L.length) : ∃ L', sweep_level E i c L = some L' := by
  induction c generalizing L with
  | zero => exact ⟨L, rfl⟩
  | succ c ih =>
    have hlv : L[i]? = some L[i] := List.getElem?_eq_getElem hi
    simp only [sweep_level, hlv]
    cases hsat : level_satisfied L[i] with
    | false =>
      simp only [Bool.not_false, if_true]
      obtain ⟨L1, hcc⟩ := check_connections_isSome_below E L c i hD (by omega) hi
      have hs := (check_connections_spec E L L1 c i (by omega) hi hcc).1
      simp only [hcc]
      exact ih L1 (hD.of_shape hs) (by omega) (hs.length ▸ hi)
    | true => exact ⟨L, by simp⟩

/-- The level sweep returns when every test on a requirement and an effect of an earlier level
has a result. -/
theorem sweep_isSome_below (E : Env) (L0 : Levels) (hD : DefinedBelow E L0) :
    ∃ L, sweep E L0 = some L := by
  unfold sweep
  have : ∀ m, m + 1 ≤ L0.length →
      ∃ L, (List.range m).foldlM (fun L k => sweep_level E (k + 1) (k + 1) L) L0 = some L := by
    intro m
    induction m with
    | zero => intro _; exact ⟨L0, rfl⟩
    | succ m ih =>
      intro hm
      obtain ⟨L1, h1⟩ := ih (by omega)
      have hs := sweep_prefix_sameShape E L0 m (by omega) L1 h1
      obtain ⟨L2, h2⟩ := sweep_level_isSome_below E (m + 1) (m + 1) L1 (hD.of_shape hs)
        (le_refl _) (by rw [← hs.length]; omega)
      refine ⟨L2, ?_⟩
      rw [List.range_succ, List.foldlM_append, h1]
      simp [h2]
  cases hn : L0.length with
  | zero => exact ⟨L0, rfl⟩
  | succ m =>
    simp only [Nat.add_sub_cancel]
    exact this m (by omega)

/-- The resolved levels of a plan whose sweep returns: the producer and consumer lists are the
closed forms over the levels of the level builder. -/
theorem resolve_lists (E : Env) (plan : Plan) (L0 Ls : Levels)
    (hplan : get_plan_actions E plan = some L0) (hs : sweep E L0 = some Ls) :
    resolve E plan = some (fallback E Ls) ∧ Final E (fallback E Ls).1 ∧
      SameShape L0 (fallback E Ls).1 ∧
      (∀ r q, get_req (fallback E Ls).1 r = some q → q.effect_connections = nearest E L0 r) ∧
      (∀ e x, get_effect (fallback E Ls).1 e = some x →
        x.requirement_connections = consumers_of E L0 e) := by
  have hres : resolve E plan = some (fallback E Ls) := by
    unfold resolve
    rw [hplan]
    simp only [hs]
  have hspec := get_plan_actions_spec E plan L0 hplan
  have hR := sweep_resolved E L0 Ls (fresh_of_built E L0 hspec.1) hs
  refine ⟨hres, resolve_final E plan _ (fallback E Ls).2 hres,
    hR.shape.trans (sameShape_fallback E Ls), ?_, ?_⟩
  · intro r q hq
    rw [get_req_fallback, hR.req] at hq
    cases hq0 : get_req L0 r with
    | none => simp [hq0] at hq
    | some q0 =>
      simp only [hq0, Option.map_some', Option.some.injEq] at hq
      rw [← hq, (fallback_req_requirement E _).2]
  · intro e x hx
    rw [get_effect_fallback, hR.effect] at hx
    cases hx0 : get_effect L0 e with
    | none => simp [hx0] at hx
    | some x0 =>
      simp only [hx0, Option.map_some', Option.some.injEq] at hx
      rw [← hx]

theorem pred_sources (E : Env) (plan : Plan) (L0 Ls : Levels)
    (hplan : get_plan_actions E plan = some L0) (hs : sweep E L0 = some Ls) (u y : UnitRef)
    (hy : y ∈ pred (fallback E Ls).1 u) :
    ∃ r e, r.action = u ∧ e.action = y ∧ e ∈ nearest E L0 r := by
  obtain ⟨_, _, _, hR, _⟩ := resolve_lists E plan L0 Ls hplan hs
  obtain ⟨q, hq, e, he, rfl⟩ := pred_mem _ u y hy
  obtain ⟨m, hm⟩ := mem_unit_at_reqs hq
  rw [hR _ _ hm] at he
  exact ⟨⟨u, m⟩, e, rfl, rfl, he⟩

theorem succ_targets (E : Env) (plan : Plan) (L0 Ls : Levels)
    (hplan : get_plan_actions E plan = some L0) (hs : sweep E L0 = some Ls) (u y : UnitRef)
    (hy : y ∈ succ (fallback E Ls).1 u) :
    ∃ r e, e.action = u ∧ r.action = y ∧ e ∈ nearest E L0 r := by
  obtain ⟨_, _, _, _, hC⟩ := resolve_lists E plan L0 Ls hplan hs
  obtain ⟨x, hx, r, hr, rfl⟩ := succ_mem _ u y hy
  obtain ⟨m, hm⟩ := mem_unit_at_effects hx
  rw [hC _ _ hm] at hr
  exact ⟨r, ⟨u, m⟩, rfl, rfl, ((mem_consumers_of E L0 _ r).1 hr).2⟩

theorem nearest_eq_nil_of_noLinks (E : Env) (L0 : Levels) (hN : NoLinks E L0) (r : ReqRef) :
    nearest E L0 r = [] := by
  apply List.eq_nil_iff_forall_not_mem.2
  intro e he
  obtain ⟨hv, hlt, hl, hr⟩ := mem_nearest_valid E L0 r e he
  rw [hN r e hr hv hlt] at hl
  exact absurd hl (by simp)

/-- Without a match between a requirement and an effect of an earlier level the resolved
levels have no causal edge. -/
theorem no_edges_of_noLinks (E : Env) (plan : Plan) (L0 Ls : Levels)
    (hplan : get_plan_actions E plan = some L0) (hs : sweep E L0 = some Ls)
    (hN : NoLinks E L0) (u : UnitRef) :
    pred (fallback E Ls).1 u = [] ∧ succ (fallback E Ls).1 u = [] := by
  constructor
  · apply List.eq_nil_iff_forall_not_mem.2
    intro y hy
    obtain ⟨r, e, _, _, he⟩ := pred_sources E plan L0 Ls hplan hs u y hy
    rw [nearest_eq_nil_of_noLinks E L0 hN r] at he
    exact absurd he (List.not_mem_nil _)
  · apply List.eq_nil_iff_forall_not_mem.2
    intro y hy
    obtain ⟨r, e, _, _, he⟩ := succ_targets E plan L0 Ls hplan hs u y hy
    rw [nearest_eq_nil_of_noLinks E L0 hN r] at he
    exact absurd he (List.not_mem_nil _)

theorem flatMap_range_getElem {α β : Type} (L : List α) (h : α → List β) :
    (List.range L.length).flatMap
      (fun i => match L[i]? with
        | some x => h x
        | none => []) = L.flatMap h := by
  induction L using List.reverseRecOn with
  | nil => rfl
  | append_singleton L a ih =>
    rw [List.length_append, List.length_singleton, List.range_succ, List.flatMap_append,
      List.flatMap_append]
    congr 1
    · rw [← ih]
      apply List.flatMap_congr
      intro i hi
      rw [List.mem_range] at hi
      rw [List.getElem?_append_left hi]
    · simp

theorem unit_refs_map_unit_at (L : Levels) : (unit_refs L).map (unit_at L) = all_units L := by
  unfold unit_refs all_units
  rw [List.map_flatMap, ← flatMap_range_getElem L (fun level => level.action_units)]
  apply List.flatMap_congr
  intro i _
  cases hl : L[i]? with
  | none => rfl
  | some lv =>
    simp only [List.map_map]
    apply List.ext_getElem
    · simp
    · intro k h1 h2
      simp only [List.getElem_map, List.getElem_range, Function.comp]
      have hu : get_unit L ⟨i, k⟩ = some lv.action_units[k] := by
        unfold get_unit
        simp only [hl]
        exact List.getElem?_eq_getElem h2
      exact unit_at_of_get_unit hu

theorem forall2_map_of {α β : Type} (R : α → β → Prop) (f : α → β) (xs : List α)
    (h : ∀ x ∈ xs, R x (f x)) : List.Forall₂ R xs (xs.map f) := by
  induction xs with
  | nil => exact List.Forall₂.nil
  | cons x xs ih =>
    exact List.Forall₂.cons (h x (List.mem_cons_self _ _))
      (ih (fun y hy => h y (List.mem_cons_of_mem _ hy)))

theorem unit_refs_congr {L0 L : Levels} (hS : SameShape L0 L) : unit_refs L = unit_refs L0 := by
  unfold unit_refs
  rw [← hS.length]
  apply List.flatMap_congr
  intro i _
  have h := hS.level i
  unfold level_shape at h
  cases h0 : L0[i]? with
  | none =>
    rw [h0] at h
    cases h1 : L[i]? with
    | none => rfl
    | some lv => rw [h1] at h; simp at h
  | some lv0 =>
    rw [h0] at h
    cases h1 : L[i]? with
    | none => rw [h1] at h; simp at h
    | some lv =>
      rw [h1] at h
      simp only [Option.map_some', Option.some.injEq, Prod.mk.injEq] at h
      simp only [h.2]

theorem unit_at_congr {L0 L : Levels} (hS : SameShape L0 L) (u : UnitRef) :
    (unit_at L u).action = (unit_at L0 u).action ∧ (unit_at L u).time = (unit_at L0 u).time := by
  have h := hS.unit u
  unfold unit_shape at h
  cases h0 : get_unit L0 u with
  | none =>
    rw [h0] at h
    cases h1 : get_unit L u with
    | none => rw [unit_at_of_none h0, unit_at_of_none h1]; exact ⟨rfl, rfl⟩
    | some x => rw [h1] at h; simp at h
  | some x0 =>
    rw [h0] at h
    cases h1 : get_unit L u with
    | none => rw [h1] at h; simp at h
    | some x =>
      rw [h1] at h
      simp only [Option.map_some', Option.some.injEq, Prod.mk.injEq] at h
      rw [unit_at_of_get_unit h0, unit_at_of_get_unit h1]
      exact ⟨h.1.symm, h.2.1.symm⟩

theorem unit_key_congr {L0 L : Levels} (hS : SameShape L0 L) (u : UnitRef) :
    unit_key L u = unit_key L0 u := by
  unfold unit_key
  rw [(unit_at_congr hS u).1, (unit_at_congr hS u).2]

/-- The document of levels without causal edge: every unit is a root and its text is its
execution block. -/
theorem build_tree_isolated (L : Levels)
    (h : ∀ u ∈ unit_refs L, pred L u = [] ∧ succ L u = []) :
    roots L = unit_refs L ∧
      build_tree L = some (spec_document (unit_refs L).length
        ((unit_refs L).map (fun u =>
          execution_block (unit_at L u).action (unit_at L u).time
            (root_depth (unit_refs L).length)))) := by
  have hroots : roots L = unit_refs L := by
    unfold roots
    apply List.filter_eq_self.2
    intro u hu
    unfold in_cardinality
    rw [(h u hu).1]
    rfl
  refine ⟨hroots, ?_⟩
  have := build_tree_eq L ((unit_refs L).map (fun u =>
    execution_block (unit_at L u).action (unit_at L u).time
      (root_depth (unit_refs L).length))) (by
    rw [hroots]
    apply forall2_map_of
    intro u hu
    have hv := (mem_unit_refs L u).1 hu
    have hlen : ∃ fuel, L.length = fuel + 1 := by
      obtain ⟨i, k⟩ := u
      unfold get_unit at hv
      cases hL : L with
      | nil => rw [hL] at hv; simp at hv
      | cons a as => exact ⟨as.length, rfl⟩
    obtain ⟨fuel, hf⟩ := hlen
    rw [hf]
    apply flow_text_zero L fuel u _ (h u hu).2
    unfold in_cardinality
    rw [(h u hu).1]
    exact Nat.zero_le _)
  rw [hroots] at this
  exact this

theorem unit_refs_length (E : Env) (plan : Plan) (L0 : Levels)
    (hplan : get_plan_actions E plan = some L0) : (unit_refs L0).length = plan.length := by
  rw [← (get_plan_actions_units E plan L0 hplan).1, ← unit_refs_map_unit_at, List.length_map]

/-- The document of a plan in which no requirement matches an effect of an earlier level: the
execution blocks of the units, level by level, with no causal edge between them. -/
theorem get_tree_isolated (E : Env) (plan : Plan) (L0 : Levels)
    (hplan : get_plan_actions E plan = some L0) (hD : DefinedBelow E L0) (hN : NoLinks E L0) :
    ∃ Ls, sweep E L0 = some Ls ∧
      (∀ u, pred (fallback E Ls).1 u = [] ∧ succ (fallback E Ls).1 u = []) ∧
      get_tree E plan = some (spec_document plan.length
        ((all_units L0).map (fun x =>
          execution_block x.action x.time (root_depth plan.length)))) := by
  obtain ⟨Ls, hs⟩ := sweep_isSome_below E L0 hD
  obtain ⟨hres, _, hS, _, _⟩ := resolve_lists E plan L0 Ls hplan hs
  have hno := no_edges_of_noLinks E plan L0 Ls hplan hs hN
  refine ⟨Ls, hs, hno, ?_⟩
  obtain ⟨_, hb⟩ := build_tree_isolated (fallback E Ls).1 (fun u _ => hno u)
  have hgt : get_tree E plan = build_tree (fallback E Ls).1 := by
    unfold get_tree
    rw [hres]
  have hl : (unit_refs L0).map (fun u =>
      execution_block (unit_at (fallback E Ls).1 u).action (unit_at (fallback E Ls).1 u).time
        (root_depth plan.length)) =
      (all_units L0).map (fun x => execution_block x.action x.time (root_depth plan.length)) := by
    rw [← unit_refs_map_unit_at L0, List.map_map]
    apply List.map_congr_left
    intro u _
    simp only [Function.comp, (unit_at_congr hS u).1, (unit_at_congr hS u).2]
  rw [hgt, hb, unit_refs_congr hS, unit_refs_length E plan L0 hplan, hl]

theorem unit_time_of_plan (E : Env) (plan : Plan) (L0 : Levels) (T : Int)
    (hplan : get_plan_actions E plan = some L0)
    (hT : ∀ k, k < plan.length → run_time 0 plan k = T) :
    ∀ x ∈ all_units L0, x.time = T := by
  intro x hx
  obtain ⟨hlen, hk⟩ := get_plan_actions_units E plan L0 hplan
  obtain ⟨k, hlt, hget⟩ := List.getElem_of_mem hx
  have hkp : k < plan.length := by rw [← hlen]; exact hlt
  have h1 := hk k hkp
  rw [List.getElem?_eq_getElem hlt, hget, hT k hkp] at h1
  exact (make_action_unit_action E _ _ x h1.symm).2.1

theorem mem_all_units_of_get_unit {L : Levels} {u : UnitRef} {x : ActionUnit}
    (h : get_unit L u = some x) :
    ∃ lv, L[u.level]? = some lv ∧ x ∈ lv.action_units ∧ x ∈ all_units L := by
  obtain ⟨i, k⟩ := u
  unfold get_unit at h
  cases hl : L[i]? with
  | none => simp [hl] at h
  | some lv =>
    simp only [hl] at h
    have hm : x ∈ lv.action_units := List.getElem?_mem h
    refine ⟨lv, rfl, hm, ?_⟩
    unfold all_units
    exact List.mem_flatMap.2 ⟨lv, List.getElem?_mem hl, hm⟩

theorem same_level_of_time (E : Env) (plan : Plan) (L0 : Levels) (T : Int)
    (hplan : get_plan_actions E plan = some L0)
    (hT : ∀ k, k < plan.length → run_time 0 plan k = T) (u u' : UnitRef)
    (hu : (get_unit L0 u).isSome) (hu' : (get_unit L0 u').isSome) : u.level = u'.level := by
  obtain ⟨x, hx⟩ := Option.isSome_iff_exists.1 hu
  obtain ⟨x', hx'⟩ := Option.isSome_iff_exists.1 hu'
  obtain ⟨lv, hl, hm, hall⟩ := mem_all_units_of_get_unit hx
  obtain ⟨lv', hl', hm', hall'⟩ := mem_all_units_of_get_unit hx'
  have hB := (get_plan_actions_spec E plan L0 hplan).1
  have ht := unit_time_of_plan E plan L0 T hplan hT
  have h1 := (make_action_unit_action E _ _ x (hB.1 _ lv hl x hm)).2.1
  have h2 := (make_action_unit_action E _ _ x' (hB.1 _ lv' hl' x' hm')).2.1
  exact level_index_of_time L0 hB.2 _ _ lv lv' hl hl' (by rw [← h1, ← h2, ht x hall, ht x' hall'])

theorem flat_of_time (E : Env) (plan : Plan) (L0 : Levels) (T : Int)
    (hplan : get_plan_actions E plan = some L0)
    (hT : ∀ k, k < plan.length → run_time 0 plan k = T) :
    DefinedBelow E L0 ∧ NoLinks E L0 := by
  have key : ∀ (r : ReqRef) (e : EffRef), (get_req L0 r).isSome → (get_effect L0 e).isSome →
      ¬ e.action.level < r.action.level := by
    intro r e hr he hlt
    obtain ⟨q, hq⟩ := Option.isSome_iff_exists.1 hr
    obtain ⟨y, hy⟩ := Option.isSome_iff_exists.1 he
    obtain ⟨x1, h1⟩ := get_unit_of_get_req hq
    obtain ⟨x2, h2⟩ := get_unit_of_get_effect hy
    have := same_level_of_time E plan L0 T hplan hT r.action e.action (by simp [h1])
      (by simp [h2])
    omega
  exact ⟨fun r e hr he hlt => absurd hlt (key r e hr he),
    fun r e hr he hlt => absurd hlt (key r e hr he)⟩

theorem blocks_of_time (E : Env) (plan : Plan) (L0 : Levels) (T : Int) (d : Nat)
    (hplan : get_plan_actions E plan = some L0)
    (hT : ∀ k, k < plan.length → run_time 0 plan k = T) :
    (all_units L0).map (fun x => execution_block x.action x.time d) =
      plan.map (fun item => execution_block item.action T d) := by
  obtain ⟨hlen, hk⟩ := get_plan_actions_units E plan L0 hplan
  apply List.ext_getElem
  · simp [hlen]
  · intro k h1 h2
    have hkp : k < plan.length := by simpa using h2
    have hlt : k < (all_units L0).length := by rw [hlen]; exact hkp
    have h3 := hk k hkp
    rw [List.getElem?_eq_getElem hlt, hT k hkp] at h3
    obtain ⟨ha, ht, _, _⟩ := make_action_unit_action E _ _ _ h3.symm
    simp only [List.getElem_map, ha, ht]

theorem foldl_max_of_le (ts : List Int) (T : Int) (h : ∀ x ∈ ts, x ≤ T) :
    ts.foldl max T = T := by
  induction ts with
  | nil => rfl
  | cons x xs ih =>
    rw [List.foldl_cons, max_eq_left (h x (List.mem_cons_self _ _))]
    exact ih (fun y hy => h y (List.mem_cons_of_mem _ hy))

theorem run_time_of_le (first : PlanItem) (rest : List PlanItem)
    (h : ∀ item ∈ rest, static_cast_int item.time ≤ max 0 (static_cast_int first.time)) :
    ∀ k, k < (first :: rest).length →
      run_time 0 (first :: rest) k = max 0 (static_cast_int first.time) := by
  intro k _
  cases k with
  | zero => exact run_time_zero 0 first rest
  | succ k =>
    rw [run_time_succ]
    unfold run_time
    apply foldl_max_of_le
    intro x hx
    obtain ⟨item, hitem, rfl⟩ := List.mem_map.1 hx
    exact h item (List.mem_of_mem_take hitem)

theorem document_one (block : String) :
    spec_document 1 [block] =
      "<root main_tree_to_execute=\"MainTree\">\n" ++ "  <BehaviorTree ID=\"MainTree\">\n" ++
        block ++ "  </BehaviorTree>\n" ++ "</root>\n" := by
  unfold spec_document
  rw [show spec_line 0 "<root main_tree_to_execute=\"MainTree\">" =
      "<root main_tree_to_execute=\"MainTree\">\n" by decide,
    show spec_line 1 "<BehaviorTree ID=\"MainTree\">" = "  <BehaviorTree ID=\"MainTree\">\n"
      by decide,
    show spec_line 1 "</BehaviorTree>" = "  </BehaviorTree>\n" by decide,
    show spec_line 0 "</root>" = "</root>\n" by decide]
  simp only [gt_iff_lt, lt_self_iff_false, if_false, string_join_cons]
  rw [show String.join [] = "" from rfl, string_append_empty]

theorem document_many (n : Nat) (hn : n > 1) (blocks : List String) :
    spec_document n blocks =
      "<root main_tree_to_execute=\"MainTree\">\n" ++ "  <BehaviorTree ID=\"MainTree\">\n" ++
        ("    <Parallel success_threshold=\"" ++ to_string (n : Nat) ++
          "\" failure_threshold=\"1\">\n") ++
        String.join blocks ++ "    </Parallel>\n" ++ "  </BehaviorTree>\n" ++ "</root>\n" := by
  unfold spec_document
  rw [show spec_line 0 "<root main_tree_to_execute=\"MainTree\">" =
      "<root main_tree_to_execute=\"MainTree\">\n" by decide,
    show spec_line 1 "<BehaviorTree ID=\"MainTree\">" = "  <BehaviorTree ID=\"MainTree\">\n"
      by decide,
    show spec_line 1 "</BehaviorTree>" = "  </BehaviorTree>\n" by decide,
    show spec_line 0 "</root>" = "</root>\n" by decide,
    show spec_line 2 "</Parallel>" = "    </Parallel>\n" by decide]
  simp only [hn, if_true, spec_line, String.append_assoc]
  rw [show spec_indent 2 = "    " by decide,
    lit_nl "\" failure_threshold=\"1\">" "\" failure_threshold=\"1\">\n" _ rfl,
    ← String.append_assoc "    " "<Parallel success_threshold=\"" _,
    show "    " ++ "<Parallel success_threshold=\"" = "    <Parallel success_threshold=\""
      by decide]

/-! ## A plan of two items in two levels -/

theorem string_lt_irrefl (s : String) : string_lt s s = false := by
  unfold string_lt
  simp

theorem eq_singleton_of_pairwise (L : Levels) (l : List UnitRef) (a : UnitRef) (hne : l ≠ [])
    (hall : ∀ y ∈ l, y = a) (hp : l.Pairwise (fun p q => unit_lt L p q = true)) : l = [a] := by
  cases l with
  | nil => exact absurd rfl hne
  | cons x xs =>
    have hx : x = a := hall x (List.mem_cons_self _ _)
    cases xs with
    | nil => rw [hx]
    | cons y ys =>
      have hy : y = a := hall y (List.mem_cons_of_mem _ (List.mem_cons_self _ _))
      have := (List.pairwise_cons.1 hp).1 y (List.mem_cons_self _ _)
      rw [hx, hy, unit_lt_eq, string_lt_irrefl] at this
      exact absurd this (by simp)

theorem two_units (t0 t1 : Int) (x1 x2 : ActionUnit) (u : UnitRef)
    (h : (get_unit [⟨t0, [x1]⟩, ⟨t1, [x2]⟩] u).isSome) : u = ⟨0, 0⟩ ∨ u = ⟨1, 0⟩ := by
  obtain ⟨i, k⟩ := u
  unfold get_unit at h
  match i, k with
  | 0, 0 => exact Or.inl rfl
  | 1, 0 => exact Or.inr rfl
  | 0, k + 1 => simp at h
  | 1, k + 1 => simp at h
  | i + 2, k => simp at h

theorem get_plan_actions_pair (E : Env) (a1 a2 : String) (d1 d2 : ℚ) (x1 x2 : ActionUnit)
    (hx1 : make_action_unit E ⟨0, a1, d1⟩ 0 = some x1)
    (hx2 : make_action_unit E ⟨1, a2, d2⟩ 1 = some x2) :
    get_plan_actions E [⟨0, a1, d1⟩, ⟨1, a2, d2⟩] = some [⟨0, [x1]⟩, ⟨1, [x2]⟩] := by
  have h0 : static_cast_int (0 : ℚ) = 0 := by decide
  have h1 : static_cast_int (1 : ℚ) = 1 := by decide
  simp [get_plan_actions, plan_step, h0, h1, hx1, hx2]

theorem pair_links (E : Env) (t0 t1 : Int) (x1 x2 : ActionUnit) (m n : Nat)
    (q : RequirementConnection) (y : EffectConnection)
    (hq : x2.reqs[m]? = some q) (hy : x1.effects[n]? = some y) :
    links E [⟨t0, [x1]⟩, ⟨t1, [x2]⟩] ⟨⟨1, 0⟩, m⟩ ⟨⟨0, 0⟩, n⟩ =
      connects E q.requirement y.effect := by
  simp [links, req_node, effect_node, get_req, get_effect, get_unit, hq, hy]

theorem pair_definedBelow (E : Env) (t0 t1 : Int) (x1 x2 : ActionUnit)
    (hdef : ∀ q ∈ x2.reqs, ∀ y ∈ x1.effects, (connects E q.requirement y.effect).isSome) :
    DefinedBelow E [⟨t0, [x1]⟩, ⟨t1, [x2]⟩] := by
  intro r e hr he hlt
  obtain ⟨q, hq⟩ := Option.isSome_iff_exists.1 hr
  obtain ⟨y, hy⟩ := Option.isSome_iff_exists.1 he
  obtain ⟨u1, h1⟩ := get_unit_of_get_req hq
  obtain ⟨u2, h2⟩ := get_unit_of_get_effect hy
  obtain ⟨ra, m⟩ := r
  obtain ⟨ea, n⟩ := e
  have hra := two_units t0 t1 x1 x2 ra (by simp [h1])
  have hea := two_units t0 t1 x1 x2 ea (by simp [h2])
  simp only at hlt
  have hra' : ra = ⟨1, 0⟩ := by
    rcases hra with h | h
    · rw [h] at hlt; simp at hlt
    · exact h
  have hea' : ea = ⟨0, 0⟩ := by
    rcases hea with h | h
    · exact h
    · rw [h, hra'] at hlt; simp at hlt
  subst hra' hea'
  have hq' : x2.reqs[m]? = some q := by
    simpa [get_req, get_unit] using hq
  have hy' : x1.effects[n]? = some y := by
    simpa [get_effect, get_unit] using hy
  rw [pair_links E t0 t1 x1 x2 m n q y hq' hy']
  exact hdef q (List.getElem?_mem hq') y (List.getElem?_mem hy')

/-- The causal edges of the resolved levels of two units in two levels, when a requirement of
the second matches an effect of the first: one edge from the first to the second. -/
theorem pair_edges (E : Env) (plan : Plan) (t0 t1 : Int) (x1 x2 : ActionUnit) (Ls : Levels)
    (hplan : get_plan_actions E plan = some [⟨t0, [x1]⟩, ⟨t1, [x2]⟩])
    (hs : sweep E [⟨t0, [x1]⟩, ⟨t1, [x2]⟩] = some Ls)
    (hmatch : ∃ q ∈ x2.reqs, ∃ y ∈ x1.effects, connects E q.requirement y.effect = some true) :
    pred (fallback E Ls).1 ⟨0, 0⟩ = [] ∧ pred (fallback E Ls).1 ⟨1, 0⟩ = [⟨0, 0⟩] ∧
      succ (fallback E Ls).1 ⟨0, 0⟩ = [⟨1, 0⟩] ∧ succ (fallback E Ls).1 ⟨1, 0⟩ = [] := by
  obtain ⟨hres, hF, hS, hR, hC⟩ := resolve_lists E plan _ Ls hplan hs
  have hv0 : (get_unit (fallback E Ls).1 ⟨0, 0⟩).isSome = true := by
    rw [get_unit_isSome_congr hS]; rfl
  have hv1 : (get_unit (fallback E Ls).1 ⟨1, 0⟩).isSome = true := by
    rw [get_unit_isSome_congr hS]; rfl
  have hp0 : pred (fallback E Ls).1 ⟨0, 0⟩ = [] := by
    apply List.eq_nil_iff_forall_not_mem.2
    intro y hy
    have := (final_pred_valid E _ hF ⟨0, 0⟩ y hy).2
    simp at this
  have hs1 : succ (fallback E Ls).1 ⟨1, 0⟩ = [] := by
    apply List.eq_nil_iff_forall_not_mem.2
    intro y hy
    obtain ⟨hv, hlt⟩ := final_succ_valid E _ hF ⟨1, 0⟩ y hy
    rw [get_unit_isSome_congr hS] at hv
    rcases two_units t0 t1 x1 x2 y hv with h | h <;> rw [h] at hlt <;> simp at hlt
  have hp1all : ∀ y ∈ pred (fallback E Ls).1 ⟨1, 0⟩, y = ⟨0, 0⟩ := by
    intro y hy
    obtain ⟨hv, hlt⟩ := final_pred_valid E _ hF ⟨1, 0⟩ y hy
    rw [get_unit_isSome_congr hS] at hv
    rcases two_units t0 t1 x1 x2 y hv with h | h
    · exact h
    · rw [h] at hlt; simp at hlt
  have hs0all : ∀ y ∈ succ (fallback E Ls).1 ⟨0, 0⟩, y = ⟨1, 0⟩ := by
    intro y hy
    obtain ⟨hv, hlt⟩ := final_succ_valid E _ hF ⟨0, 0⟩ y hy
    rw [get_unit_isSome_congr hS] at hv
    rcases two_units t0 t1 x1 x2 y hv with h | h
    · rw [h] at hlt; simp at hlt
    · exact h
  have hp1ne : pred (fallback E Ls).1 ⟨1, 0⟩ ≠ [] := by
    obtain ⟨q, hq, y, hy, hc⟩ := hmatch
    obtain ⟨m, hm, hqm⟩ := List.getElem_of_mem hq
    obtain ⟨n, hn, hyn⟩ := List.getElem_of_mem hy
    have hq' : x2.reqs[m]? = some q := by rw [List.getElem?_eq_getElem hm, hqm]
    have hy' : x1.effects[n]? = some y := by rw [List.getElem?_eq_getElem hn, hyn]
    have hlinked : linked E [⟨t0, [x1]⟩, ⟨t1, [x2]⟩] ⟨⟨1, 0⟩, m⟩ ⟨⟨0, 0⟩, n⟩ = true := by
      unfold linked
      rw [pair_links E t0 t1 x1 x2 m n q y hq' hy', hc]
    have hnear : nearest E [⟨t0, [x1]⟩, ⟨t1, [x2]⟩] ⟨⟨1, 0⟩, m⟩ ≠ [] :=
      (nearest_ne_nil_iff E _ _).2 ⟨⟨⟨0, 0⟩, n⟩, by simp,
        by simp [get_effect, get_unit, hy'], hlinked⟩
    have hrq : (get_req (fallback E Ls).1 ⟨⟨1, 0⟩, m⟩).isSome = true := by
      rw [get_req_isSome_congr hS]
      simp [get_req, get_unit, hq']
    obtain ⟨q2, hq2⟩ := Option.isSome_iff_exists.1 hrq
    have hconn := hR _ _ hq2
    obtain ⟨e', he'⟩ := List.exists_mem_of_ne_nil _ hnear
    have hex : ∃ y ∈ pred (fallback E Ls).1 ⟨1, 0⟩,
        unit_key (fallback E Ls).1 y = unit_key (fallback E Ls).1 e'.action :=
      (pred_keys _ ⟨1, 0⟩ _).2 ⟨q2, unit_at_reqs_of_get_req hq2, e', by rw [hconn]; exact he', rfl⟩
    obtain ⟨y', hy'mem, _⟩ := hex
    exact List.ne_nil_of_mem hy'mem
  have hp1 : pred (fallback E Ls).1 ⟨1, 0⟩ = [⟨0, 0⟩] :=
    eq_singleton_of_pairwise _ _ _ hp1ne hp1all (pred_pairwise _ _)
  have hs0ne : succ (fallback E Ls).1 ⟨0, 0⟩ ≠ [] := by
    have hin : in_set (fallback E Ls).1 ⟨0, 0⟩ (pred (fallback E Ls).1 ⟨1, 0⟩) :=
      ⟨⟨0, 0⟩, by rw [hp1]; exact List.mem_singleton_self _, rfl⟩
    obtain ⟨b, hb, _⟩ := (pred_succ_final E _ hF ⟨0, 0⟩ ⟨1, 0⟩ hv0 hv1).1 hin
    exact List.ne_nil_of_mem hb
  exact ⟨hp0, hp1, eq_singleton_of_pairwise _ _ _ hs0ne hs0all (succ_pairwise _ _), hs1⟩

theorem pred_pair (L : Levels) (n a1 a2 : UnitRef) (hcard : in_cardinality L n = 2)
    (h1 : in_set L a1 (pred L n)) (h2 : in_set L a2 (pred L n))
    (hne : unit_key L a1 ≠ unit_key L a2) :
    ∃ p q, pred L n = [p, q] ∧ string_lt (unit_key L p) (unit_key L q) = true ∧
      ((unit_key L p = unit_key L a1 ∧ unit_key L q = unit_key L a2) ∨
        (unit_key L p = unit_key L a2 ∧ unit_key L q = unit_key L a1)) := by
  unfold in_cardinality at hcard
  have hp := pred_pairwise L n
  cases hl : pred L n with
  | nil => rw [hl] at hcard; simp at hcard
  | cons p t =>
    cases t with
    | nil => rw [hl] at hcard; simp at hcard
    | cons q t2 =>
      cases t2 with
      | cons z zs => rw [hl] at hcard; simp at hcard
      | nil =>
        rw [hl] at hp h1 h2
        refine ⟨p, q, rfl, ?_, ?_⟩
        · have := (List.pairwise_cons.1 hp).1 q (List.mem_singleton_self q)
          rw [unit_lt_eq] at this
          exact this
        · obtain ⟨b1, hb1, hk1⟩ := h1
          obtain ⟨b2, hb2, hk2⟩ := h2
          simp only [List.mem_cons, List.mem_singleton, List.not_mem_nil, or_false] at hb1 hb2
          rcases hb1 with rfl | rfl <;> rcases hb2 with rfl | rfl
          · exact absurd (hk1.symm.trans hk2) hne
          · exact Or.inl ⟨hk1, hk2⟩
          · exact Or.inr ⟨hk2, hk1⟩
          · exact absurd (hk1.symm.trans hk2) hne

theorem flow_head_pair (L : Levels) (n p q : UnitRef) (l : Nat) (hp : pred L n = [p, q]) :
    flow_head L n l = join_head L n p q l := by
  unfold flow_head join_head spec_sequence_open in_cardinality
  rw [hp, spec_wait_lines_pair]
  simp only [List.length_cons, List.length_nil, gt_iff_lt, Nat.reduceAdd, Nat.one_lt_ofNat,
    if_true]
  simp only [String.append_assoc]

/-! ## The shape of the level list -/

theorem plan_step_levelsShape (E : Env) (st st' : PlanLoop) (item : PlanItem)
    (htime : st.current_level.time = st.last_time) (hS : LevelsShape (plan_levels st))
    (h : plan_step E st item = some st') : LevelsShape (plan_levels st') := by
  obtain ⟨x, _, h1, h2⟩ := plan_step_shape E st st' item htime h
  obtain ⟨first, rest, hL, h0, hne⟩ := hS
  unfold plan_levels at hL ⊢
  by_cases hgt : static_cast_int item.time > st.last_time
  · rw [h1 hgt]
    simp only
    rw [hL]
    refine ⟨first, rest ++ [⟨static_cast_int item.time, [x]⟩], List.cons_append _ _ _, h0, ?_⟩
    intro lv hlv
    rcases List.mem_append.1 hlv with h | h
    · exact hne lv h
    · rw [List.mem_singleton.1 h]
      simp
  · rw [h2 hgt]
    simp only
    cases hF : st.front with
    | nil =>
      rw [hF] at hL
      simp only [List.nil_append, List.cons.injEq] at hL
      refine ⟨_, [], rfl, ?_, fun lv hlv => absurd hlv (List.not_mem_nil _)⟩
      simp only
      rw [hL.1]
      exact h0
    | cons f F =>
      rw [hF] at hL
      simp only [List.cons_append, List.cons.injEq] at hL
      refine ⟨f, F ++ [⟨st.current_level.time, st.current_level.action_units ++ [x]⟩],
        List.cons_append _ _ _, by rw [hL.1]; exact h0, ?_⟩
      intro lv hlv
      rcases List.mem_append.1 hlv with h | h
      · exact hne lv (by rw [← hL.2]; exact List.mem_append_left _ h)
      · rw [List.mem_singleton.1 h]
        simp

theorem plan_loop_levelsShape (E : Env) (items : List PlanItem) (st st' : PlanLoop)
    (htime : st.current_level.time = st.last_time) (hS : LevelsShape (plan_levels st))
    (h : items.foldlM (plan_step E) st = some st') : LevelsShape (plan_levels st') := by
  induction items generalizing st with
  | nil =>
    simp only [List.foldlM_nil, pure, Option.some.injEq] at h
    subst h
    exact hS
  | cons item items ih =>
    simp only [List.foldlM_cons] at h
    cases h1 : plan_step E st item with
    | none => simp [h1] at h
    | some st1 =>
      simp only [h1, Option.bind_eq_bind, Option.some_bind] at h
      obtain ⟨_, _, _, _, ht⟩ := plan_step_units E st st1 item htime h1
      exact ih st1 ht (plan_step_levelsShape E st st1 item htime hS h1) h

theorem get_plan_actions_levelsShape (E : Env) (plan : Plan) (L : Levels)
    (h : get_plan_actions E plan = some L) : LevelsShape L := by
  obtain ⟨st, hf, hL, _, _⟩ := get_plan_actions_state E plan L h
  rw [hL]
  have h0 : LevelsShape (plan_levels (⟨[], ⟨0, []⟩, 0⟩ : PlanLoop)) :=
    ⟨⟨0, []⟩, [], rfl, rfl, fun _ h => absurd h (List.not_mem_nil _)⟩
  exact plan_loop_levelsShape E plan _ st rfl h0 hf

/-! ## The sizes of `pred` and `succ` -/

theorem keys_nodup (L : Levels) (l : List UnitRef)
    (hp : l.Pairwise (fun a b => unit_lt L a b = true)) : (l.map (unit_key L)).Nodup := by
  rw [List.Nodup, List.pairwise_map]
  apply hp.imp
  intro a b hab heq
  rw [unit_lt_eq, heq, string_lt_irrefl] at hab
  exact absurd hab (by simp)

theorem length_eq_dedup (l : List UnitRef) (L : Levels) (K : List String)
    (hp : l.Pairwise (fun a b => unit_lt L a b = true))
    (hk : ∀ k, (∃ y ∈ l, unit_key L y = k) ↔ k ∈ K) : l.length = K.dedup.length := by
  have hperm : (l.map (unit_key L)).Perm K.dedup := by
    apply (List.perm_ext_iff_of_nodup (keys_nodup L l hp) (List.nodup_dedup K)).2
    intro k
    rw [List.mem_dedup, ← hk k, List.mem_map]
  rw [← hperm.length_eq, List.length_map]

theorem mem_producer_keys (L : Levels) (u : UnitRef) (k : String) :
    k ∈ producer_keys L u ↔
      ∃ q ∈ (unit_at L u).reqs, ∃ e ∈ q.effect_connections, unit_key L e.action = k := by
  unfold producer_keys
  simp only [List.mem_flatMap, List.mem_map]

theorem mem_consumer_keys (L : Levels) (u : UnitRef) (k : String) :
    k ∈ consumer_keys L u ↔
      ∃ x ∈ (unit_at L u).effects, ∃ r ∈ x.requirement_connections,
        unit_key L r.action = k := by
  unfold consumer_keys
  simp only [List.mem_flatMap, List.mem_map]

/-! ## The direction of the causal edges -/

theorem valid_of_pred_ne_nil (L : Levels) (u p : UnitRef) (hp : p ∈ pred L u) :
    (get_unit L u).isSome = true := by
  obtain ⟨q, hq, _⟩ := pred_mem L u p hp
  cases h : get_unit L u with
  | some x => rfl
  | none =>
    rw [unit_at_of_none h] at hq
    exact absurd hq (List.not_mem_nil _)

theorem valid_of_succ_ne_nil (L : Levels) (u s : UnitRef) (hs : s ∈ succ L u) :
    (get_unit L u).isSome = true := by
  obtain ⟨x, hx, _⟩ := succ_mem L u s hs
  cases h : get_unit L u with
  | some x => rfl
  | none =>
    rw [unit_at_of_none h] at hx
    exact absurd hx (List.not_mem_nil _)

theorem final_time_lt (E : Env) (L : Levels) (hF : Final E L) (p u : UnitRef)
    (hp : (get_unit L p).isSome = true) (hu : (get_unit L u).isSome = true)
    (hlt : p.level < u.level) : (unit_at L p).time < (unit_at L u).time := by
  obtain ⟨L0, hB, _, hS, _, _, _⟩ := final_lists E L hF
  rw [(unit_at_congr hS p).2, (unit_at_congr hS u).2]
  rw [get_unit_isSome_congr hS] at hp hu
  obtain ⟨x, hx⟩ := Option.isSome_iff_exists.1 hp
  obtain ⟨y, hy⟩ := Option.isSome_iff_exists.1 hu
  obtain ⟨lv, hl, hm, _⟩ := mem_all_units_of_get_unit hx
  obtain ⟨lv', hl', hm', _⟩ := mem_all_units_of_get_unit hy
  rw [unit_at_of_get_unit hx, unit_at_of_get_unit hy,
    (make_action_unit_action E _ _ x (hB.1 _ lv hl x hm)).2.1,
    (make_action_unit_action E _ _ y (hB.1 _ lv' hl' y hm')).2.1]
  have h1 : p.level < L0.length := by
    by_contra hc
    rw [List.getElem?_eq_none (not_lt.1 hc)] at hl
    exact absurd hl (by simp)
  have h2 : u.level < L0.length := by
    by_contra hc
    rw [List.getElem?_eq_none (not_lt.1 hc)] at hl'
    exact absurd hl' (by simp)
  have := List.pairwise_iff_getElem.1 hB.2 p.level u.level h1 h2 hlt
  rw [List.getElem?_eq_getElem h1] at hl
  rw [List.getElem?_eq_getElem h2] at hl'
  simp only [Option.some.injEq] at hl hl'
  rw [← hl, ← hl']
  exact this

theorem final_path_level (E : Env) (L : Levels) (hF : Final E L) (u v : UnitRef)
    (h : Relation.TransGen (fun a b => a ∈ pred L b) u v) : u.level < v.level := by
  induction h with
  | single hab => exact (final_pred_valid E L hF _ _ hab).2
  | tail _ hbc ih => exact lt_trans ih (final_pred_valid E L hF _ _ hbc).2

/-! ## The kinds of the linked conditions -/

theorem resolve_cases (E : Env) (plan : Plan) (L : Levels) (log : List TreeNode)
    (h : resolve E plan = some (L, log)) :
    ∃ L0 Ls, get_plan_actions E plan = some L0 ∧ sweep E L0 = some Ls ∧
      L = (fallback E Ls).1 ∧ log = (fallback E Ls).2 := by
  rw [resolve_eq] at h
  cases h0 : get_plan_actions E plan with
  | none => simp [h0] at h
  | some L0 =>
    cases hs : sweep E L0 with
    | none => simp [h0, hs] at h
    | some Ls =>
      simp only [h0, hs, Option.some_bind, Option.map_some', Option.some.injEq] at h
      exact ⟨L0, Ls, rfl, hs, by rw [h], by rw [h]⟩

theorem resolve_satisfied (E : Env) (plan : Plan) (L0 Ls : Levels)
    (hplan : get_plan_actions E plan = some L0) (hs : sweep E L0 = some Ls) (r : ReqRef)
    (q : RequirementConnection) (hq : get_req (fallback E Ls).1 r = some q) :
    (q.effect_connections ≠ [] → q.satisfied = true) ∧
      (q.effect_connections = [] → q.satisfied = (E.check q.requirement).1) := by
  rw [get_req_fallback] at hq
  have hF := fresh_of_built E L0 (get_plan_actions_spec E plan L0 hplan).1
  have hR := sweep_resolved E L0 Ls hF hs
  rw [hR.req r] at hq
  cases hq0 : get_req L0 r with
  | none => simp [hq0] at hq
  | some q0 =>
    simp only [hq0, Option.map_some', Option.some.injEq] at hq
    subst hq
    unfold fallback_req
    cases hn : nearest E L0 r with
    | nil => simp
    | cons a l => simp

theorem connects_of_linked (E : Env) (L : Levels) (r : ReqRef) (e : EffRef)
    (h : linked E L r e = true) :
    ∃ q x, get_req L r = some q ∧ get_effect L e = some x ∧
      connects E q.requirement x.effect = some true := by
  unfold linked links req_node effect_node at h
  cases hq : get_req L r with
  | none => simp [hq] at h
  | some q =>
    cases hx : get_effect L e with
    | none => simp [hq, hx] at h
    | some x =>
      simp only [hq, hx, Option.map_some'] at h
      refine ⟨q, x, rfl, rfl, ?_⟩
      cases hc : connects E q.requirement x.effect with
      | none => simp [hc] at h
      | some b =>
        simp only [hc] at h
        rw [h]

theorem connects_kinds (E : Env) (R Ef : TreeNode) (h : connects E R Ef = some true) :
    (R.type_ = NodeType.EXPRESSION ∧ Ef.type_ = NodeType.FUNCTION_MODIFIER) ∨
      (R.type_ = NodeType.PREDICATE ∧ Ef.type_ = NodeType.PREDICATE) := by
  unfold connects at h
  by_cases h1 : R.type_ = NodeType.EXPRESSION ∧ Ef.type_ = NodeType.FUNCTION_MODIFIER
  · exact Or.inl h1
  · by_cases h2 : R.type_ = NodeType.PREDICATE ∧ Ef.type_ = NodeType.PREDICATE
    · exact Or.inr h2
    · simp [h1, h2] at h

theorem connects_false_of_kinds (E : Env) (R Ef : TreeNode)
    (h : ¬ ((R.type_ = NodeType.EXPRESSION ∧ Ef.type_ = NodeType.FUNCTION_MODIFIER) ∨
      (R.type_ = NodeType.PREDICATE ∧ Ef.type_ = NodeType.PREDICATE))) :
    connects E R Ef = some false := by
  unfold connects
  rw [not_or] at h
  rw [if_neg h.1, if_neg h.2]

/-- Every link of the resolved levels joins a requirement and an effect on which the test of
`check_connections` answers true. -/
theorem resolve_link_connects (E : Env) (plan : Plan) (L0 Ls : Levels)
    (hplan : get_plan_actions E plan = some L0) (hs : sweep E L0 = some Ls) (r : ReqRef)
    (e : EffRef) (he : e ∈ nearest E L0 r) :
    ∃ q x, get_req (fallback E Ls).1 r = some q ∧ get_effect (fallback E Ls).1 e = some x ∧
      connects E q.requirement x.effect = some true := by
  obtain ⟨_, _, hS, _, _⟩ := resolve_lists E plan L0 Ls hplan hs
  obtain ⟨_, _, hl, _⟩ := mem_nearest_valid E L0 r e he
  rw [← linked_congr E hS] at hl
  exact connects_of_linked E _ r e hl

/-! ## What the text depends on -/

theorem connects_env (E E' : Env) (hp : E.predicate_eq = E'.predicate_eq)
    (hf : E.function_eq = E'.function_eq) : connects E = connects E' := by
  funext R Ef
  unfold connects
  rw [hp, hf]

theorem check_connections_env (E E' : Env) (hp : E.predicate_eq = E'.predicate_eq)
    (hf : E.function_eq = E'.function_eq) : check_connections E = check_connections E' := by
  funext L up down
  unfold check_connections check_down_unit check_req check_up_unit check_effect
  rw [connects_env E E' hp hf]

theorem sweep_level_env (E E' : Env) (hp : E.predicate_eq = E'.predicate_eq)
    (hf : E.function_eq = E'.function_eq) (i c : Nat) (L : Levels) :
    sweep_level E i c L = sweep_level E' i c L := by
  induction c generalizing L with
  | zero => rfl
  | succ c ih =>
    simp only [sweep_level, check_connections_env E E' hp hf]
    cases L[i]? with
    | none => rfl
    | some lv =>
      simp only
      split
      · cases check_connections E' L c i with
        | none => rfl
        | some L1 => exact ih L1
      · rfl

theorem sweep_env (E E' : Env) (hp : E.predicate_eq = E'.predicate_eq)
    (hf : E.function_eq = E'.function_eq) (L : Levels) : sweep E L = sweep E' L := by
  unfold sweep
  have : (fun (L : Levels) (k : Nat) => sweep_level E (k + 1) (k + 1) L) =
      (fun (L : Levels) (k : Nat) => sweep_level E' (k + 1) (k + 1) L) := by
    funext L k
    exact sweep_level_env E E' hp hf (k + 1) (k + 1) L
  rw [this]

theorem make_action_unit_env (E E' : Env) (item item' : PlanItem) (T : Int)
    (ha : item.action = item'.action)
    (he : E.get_action_from_string item.action = E'.get_action_from_string item.action) :
    make_action_unit E item T = make_action_unit E' item' T := by
  unfold make_action_unit
  rw [← ha, he]

theorem plan_step_env (E E' : Env) (st : PlanLoop) (item item' : PlanItem)
    (ha : item.action = item'.action)
    (ht : static_cast_int item.time = static_cast_int item'.time)
    (he : E.get_action_from_string item.action = E'.get_action_from_string item.action) :
    plan_step E st item = plan_step E' st item' := by
  unfold plan_step
  rw [← ht]
  simp only [make_action_unit_env E E' item item' _ ha he]

theorem plan_loop_env (E E' : Env) (plan plan' : Plan) (st : PlanLoop)
    (hexp : ∀ item ∈ plan,
      E.get_action_from_string item.action = E'.get_action_from_string item.action)
    (hplan : plan.map (fun item => (item.action, static_cast_int item.time)) =
      plan'.map (fun item => (item.action, static_cast_int item.time))) :
    plan.foldlM (plan_step E) st = plan'.foldlM (plan_step E') st := by
  induction plan generalizing plan' st with
  | nil =>
    cases plan' with
    | nil => rfl
    | cons b bs => simp at hplan
  | cons a as ih =>
    cases plan' with
    | nil => simp at hplan
    | cons b bs =>
      simp only [List.map_cons, List.cons.injEq, Prod.mk.injEq] at hplan
      simp only [List.foldlM_cons]
      rw [plan_step_env E E' st a b hplan.1.1 hplan.1.2 (hexp a (List.mem_cons_self _ _))]
      cases plan_step E' st b with
      | none => rfl
      | some st1 =>
        exact ih bs st1 (fun item hi => hexp item (List.mem_cons_of_mem _ hi)) hplan.2

theorem get_plan_actions_env (E E' : Env) (plan plan' : Plan)
    (hexp : ∀ item ∈ plan,
      E.get_action_from_string item.action = E'.get_action_from_string item.action)
    (hplan : plan.map (fun item => (item.action, static_cast_int item.time)) =
      plan'.map (fun item => (item.action, static_cast_int item.time))) :
    get_plan_actions E plan = get_plan_actions E' plan' := by
  unfold get_plan_actions
  rw [plan_loop_env E E' plan plan' _ hexp hplan]

theorem flow_tree_congr (L L' : Levels) (hP : pred L = pred L') (hS : succ L = succ L')
    (hK : ∀ u, (unit_at L u).action = (unit_at L' u).action ∧
      (unit_at L u).time = (unit_at L' u).time) :
    get_flow_tree L = get_flow_tree L' := by
  have hin : in_cardinality L = in_cardinality L' := by
    funext u; unfold in_cardinality; rw [hP]
  have hout : out_cardinality L = out_cardinality L' := by
    funext u; unfold out_cardinality; rw [hS]
  have hkey : unit_key L = unit_key L' := by
    funext u; unfold unit_key; rw [(hK u).1, (hK u).2]
  have hlt : unit_lt L = unit_lt L' := by
    funext a b; rw [unit_lt_eq, unit_lt_eq, hkey]
  have hopen : spec_sequence_open L = spec_sequence_open L' := by
    funext n l; unfold spec_sequence_open; rw [hkey]
  have hwait : spec_wait_lines L = spec_wait_lines L' := by
    funext ps l; unfold spec_wait_lines; rw [hkey]
  have hhead : flow_head L = flow_head L' := by
    funext n l; unfold flow_head; rw [hopen, hwait, hin, hP, (hK n).1, (hK n).2]
  funext fuel
  induction fuel with
  | zero => rfl
  | succ fuel ih =>
    funext n used l
    rcases Nat.lt_trichotomy (out_cardinality L n) 1 with h0 | h1 | h2
    · have h0' : out_cardinality L n = 0 := by omega
      rw [flow_zero L fuel n used l h0', flow_zero L' fuel n used l (by rw [← hout]; exact h0'),
        hin, hopen, hwait, hP, hlt, (hK n).1, (hK n).2]
    · obtain ⟨s, hs, hf⟩ := flow_one L fuel n used l h1
      obtain ⟨s', hs', hf'⟩ := flow_one L' fuel n used l (by rw [← hout]; exact h1)
      have hss : s = s' := by
        rw [hS, hs'] at hs
        simpa using hs.symm
      subst hss
      rw [hf, hf', ih, hin, hopen, hwait, hP, hlt, (hK n).1, (hK n).2]
    · rw [flow_many L fuel n used l h2, flow_many L' fuel n used l (by rw [← hout]; exact h2),
        ih, hhead, hS, hlt]

theorem build_tree_congr (L L' : Levels) (hP : pred L = pred L') (hS : succ L = succ L')
    (hK : ∀ u, (unit_at L u).action = (unit_at L' u).action ∧
      (unit_at L u).time = (unit_at L' u).time)
    (hU : unit_refs L = unit_refs L') (hlen : L.length = L'.length) :
    build_tree L = build_tree L' := by
  have hin : in_cardinality L = in_cardinality L' := by
    funext u; unfold in_cardinality; rw [hP]
  unfold build_tree root_counters flow_roots
  rw [flow_tree_congr L L' hP hS hK, hin, hU, hlen]

/-- The text does not depend on the fallback pass. -/
theorem build_tree_fallback (E : Env) (L : Levels) :
    build_tree (fallback E L).1 = build_tree L := by
  have hS := sameShape_fallback E L
  apply build_tree_congr
  · funext u; exact pred_fallback E L u
  · funext u; exact succ_fallback E L u
  · intro u; exact unit_at_congr hS u
  · exact unit_refs_congr hS
  · exact hS.length.symm

theorem get_tree_eq (E : Env) (plan : Plan) :
    get_tree E plan = ((get_plan_actions E plan).bind (sweep E)).bind build_tree := by
  unfold get_tree
  rw [resolve_eq]
  cases (get_plan_actions E plan).bind (sweep E) with
  | none => rfl
  | some Ls => exact build_tree_fallback E Ls

/-! ## The knowledge source and the units -/

theorem copy_ops_conj (tree : PredicateTree) (out : List TreeNode)
    (h : is_conjunction tree = true) :
    copy_ops (and_node_ops tree) out = out ++ tree_conditions tree := by
  unfold copy_ops and_node_ops tree_conditions
  unfold is_conjunction at h
  cases hr : tree.root_ with
  | none => simp
  | some n =>
    rw [hr] at h
    cases n <;> simp at h ⊢

theorem make_action_unit_conj (E : Env) (item : PlanItem) (T : Int) (da : DurativeAction)
    (x : ActionUnit) (hda : E.get_action_from_string item.action = some da)
    (hx : make_action_unit E item T = some x)
    (h1 : is_conjunction da.at_start_requirements = true)
    (h2 : is_conjunction da.over_all_requirements = true)
    (h3 : is_conjunction da.at_end_requirements = true)
    (h4 : is_conjunction da.at_start_effects = true)
    (h5 : is_conjunction da.at_end_effects = true) :
    x.reqs.map (fun q => q.requirement) =
        tree_conditions da.at_start_requirements ++ tree_conditions da.over_all_requirements ++
          tree_conditions da.at_end_requirements ∧
      x.effects.map (fun y => y.effect) =
        tree_conditions da.at_start_effects ++ tree_conditions da.at_end_effects := by
  unfold make_action_unit at hx
  simp only [hda, Option.some.injEq] at hx
  subst hx
  simp only [copy_ops_conj _ _ h1, copy_ops_conj _ _ h2, copy_ops_conj _ _ h3,
    copy_ops_conj _ _ h4, copy_ops_conj _ _ h5, List.map_map, List.nil_append]
  constructor
  · exact List.map_id' _
  · exact List.map_id' _

/-! ## The pairs linked by one call of `check_connections` -/

theorem added_producers_check (E : Env) (L L' : Levels) (up down : Nat) (hup : up < L.length)
    (hdown : down < L.length) (h : check_connections E L up down = some L') (r : ReqRef) :
    added_producers L L' r =
      if r ∈ req_refs L down ∧ unsat L r = true then level_links E L r up else [] := by
  obtain ⟨_, hreq, _⟩ := check_connections_spec E L L' up down hup hdown h
  unfold added_producers
  rw [hreq r]
  cases hq : get_req L r with
  | none =>
    have : unsat L r = false := by simp [unsat, hq]
    simp [this]
  | some q =>
    simp only [Option.map_some']
    have hu : unsat L r = !q.satisfied := by simp [unsat, hq]
    by_cases hc : r ∈ req_refs L down ∧ q.satisfied = false
    · rw [if_pos hc, if_pos ⟨hc.1, by rw [hu, hc.2]; rfl⟩]
      simp
    · rw [if_neg hc, if_neg]
      · simp
      · rintro ⟨h1, h2⟩
        apply hc
        refine ⟨h1, ?_⟩
        rw [hu] at h2
        simpa using h2

theorem added_consumers_check (E : Env) (L L' : Levels) (up down : Nat) (hup : up < L.length)
    (hdown : down < L.length) (h : check_connections E L up down = some L') (e : EffRef) :
    added_consumers L L' e =
      if (get_effect L e).isSome = true then
        (req_refs L down).filter (fun r => unsat L r && decide (e ∈ level_links E L r up))
      else [] := by
  obtain ⟨_, _, heff⟩ := check_connections_spec E L L' up down hup hdown h
  unfold added_consumers
  rw [heff e]
  cases hx : get_effect L e with
  | none => simp
  | some x => simp

theorem mem_added_producers (E : Env) (L L' : Levels) (up down : Nat) (hup : up < L.length)
    (hdown : down < L.length) (h : check_connections E L up down = some L') (r : ReqRef)
    (e : EffRef) :
    e ∈ added_producers L L' r ↔
      r ∈ req_refs L down ∧ unsat L r = true ∧ e ∈ eff_refs L up ∧ linked E L r e = true := by
  rw [added_producers_check E L L' up down hup hdown h r]
  by_cases hc : r ∈ req_refs L down ∧ unsat L r = true
  · rw [if_pos hc, mem_level_links]
    exact ⟨fun hm => ⟨hc.1, hc.2, hm.1, hm.2⟩, fun hm => ⟨hm.2.2.1, hm.2.2.2⟩⟩
  · rw [if_neg hc]
    simp only [List.not_mem_nil, false_iff]
    rintro ⟨h1, h2, _⟩
    exact hc ⟨h1, h2⟩

theorem mem_added_consumers (E : Env) (L L' : Levels) (up down : Nat) (hup : up < L.length)
    (hdown : down < L.length) (h : check_connections E L up down = some L') (r : ReqRef)
    (e : EffRef) :
    r ∈ added_consumers L L' e ↔ e ∈ added_producers L L' r := by
  rw [mem_added_producers E L L' up down hup hdown h, added_consumers_check E L L' up down hup
    hdown h e]
  by_cases hx : (get_effect L e).isSome = true
  · rw [if_pos hx]
    simp only [List.mem_filter, Bool.and_eq_true, decide_eq_true_eq, mem_level_links]
  · rw [if_neg hx]
    simp only [List.not_mem_nil, false_iff]
    rintro ⟨_, _, h3, _⟩
    exact hx ((mem_eff_refs_iff L e up).mp h3).2

theorem nodup_added_producers (E : Env) (L L' : Levels) (up down : Nat) (hup : up < L.length)
    (hdown : down < L.length) (h : check_connections E L up down = some L') (r : ReqRef) :
    (added_producers L L' r).Nodup := by
  rw [added_producers_check E L L' up down hup hdown h r]
  split
  · exact nodup_level_links E L r up
  · exact List.nodup_nil

theorem nodup_added_consumers (E : Env) (L L' : Levels) (up down : Nat) (hup : up < L.length)
    (hdown : down < L.length) (h : check_connections E L up down = some L') (e : EffRef) :
    (added_consumers L L' e).Nodup := by
  rw [added_consumers_check E L L' up down hup hdown h e]
  split
  · exact (nodup_req_refs L down).filter _
  · exact List.nodup_nil

theorem conn_pairs_isSome_iff (E : Env) (L : Levels) (up : Nat) (rs : List ReqRef)
    (hrs : ∀ r ∈ rs, (get_req L r).isSome = true) :
    (conn_pairs E L up rs).isSome = true ↔
      ∀ r ∈ rs, unsat L r = true → ∀ e ∈ eff_refs L up, (links E L r e).isSome = true := by
  induction rs with
  | nil => simp [conn_pairs]
  | cons r rs ih =>
    have hr := hrs r (List.mem_cons_self _ _)
    have ih' := ih (fun r' hr' => hrs r' (List.mem_cons_of_mem _ hr'))
    simp only [conn_pairs, List.mem_cons, forall_eq_or_imp]
    cases hq : get_req L r with
    | none => rw [hq] at hr; exact absurd hr (by simp)
    | some q =>
      simp only
      cases hsat : q.satisfied with
      | true =>
        have hu : unsat L r = false := by simp [unsat, hq, hsat]
        simp only [if_true, hu, Bool.false_eq_true, false_implies, true_and]
        exact ih'
      | false =>
        have hu : unsat L r = true := by simp [unsat, hq, hsat]
        simp only [Bool.false_eq_true, if_false, hu, true_implies]
        rw [← ih', ← select_links_isSome_iff]
        cases select_links E L r (eff_refs L up) <;> cases conn_pairs E L up rs <;> simp

theorem check_connections_isSome_iff (E : Env) (L : Levels) (up down : Nat)
    (hup : up < L.length) (hdown : down < L.length) :
    (check_connections E L up down).isSome = true ↔
      ∀ r ∈ req_refs L down, unsat L r = true →
        ∀ e ∈ eff_refs L up, (links E L r e).isSome = true := by
  rw [check_connections_eq E L up down hup hdown]
  have hm : ∀ o : Option (List (ReqRef × EffRef)),
      (o.map (connect_all L)).isSome = o.isSome := fun o => by cases o <;> rfl
  rw [hm]
  apply conn_pairs_isSome_iff
  intro r hr
  obtain ⟨q, hq⟩ := get_req_some_of_mem hr
  simp [hq]

namespace Rearranged

theorem mem_req {L1 L2 : Levels} {up down : Nat} {ρ : ReqRef → ReqRef} {ε : EffRef → EffRef}
    (hR : Rearranged L1 L2 up down ρ ε) (r2 : ReqRef) :
    r2 ∈ req_refs L2 down ↔ ∃ r ∈ req_refs L1 down, ρ r = r2 := by
  rw [← hR.reqs.mem_iff, List.mem_map]

theorem mem_effect {L1 L2 : Levels} {up down : Nat} {ρ : ReqRef → ReqRef}
    {ε : EffRef → EffRef} (hR : Rearranged L1 L2 up down ρ ε) (e2 : EffRef) :
    e2 ∈ eff_refs L2 up ↔ ∃ e ∈ eff_refs L1 up, ε e = e2 := by
  rw [← hR.effects.mem_iff, List.mem_map]

theorem links_eq {L1 L2 : Levels} {up down : Nat} {ρ : ReqRef → ReqRef} {ε : EffRef → EffRef}
    (hR : Rearranged L1 L2 up down ρ ε) (E : Env) (r : ReqRef) (hr : r ∈ req_refs L1 down)
    (e : EffRef) (he : e ∈ eff_refs L1 up) : links E L2 (ρ r) (ε e) = links E L1 r e := by
  unfold links
  rw [hR.req_node r hr, hR.effect_node e he]

theorem linked_eq {L1 L2 : Levels} {up down : Nat} {ρ : ReqRef → ReqRef}
    {ε : EffRef → EffRef} (hR : Rearranged L1 L2 up down ρ ε) (E : Env) (r : ReqRef)
    (hr : r ∈ req_refs L1 down) (e : EffRef) (he : e ∈ eff_refs L1 up) :
    linked E L2 (ρ r) (ε e) = linked E L1 r e := by
  unfold linked
  rw [hR.links_eq E r hr e he]

theorem req_inj {L1 L2 : Levels} {up down : Nat} {ρ : ReqRef → ReqRef} {ε : EffRef → EffRef}
    (hR : Rearranged L1 L2 up down ρ ε) :
    ∀ r ∈ req_refs L1 down, ∀ r' ∈ req_refs L1 down, ρ r = ρ r' → r = r' := by
  have hnd : ((req_refs L1 down).map ρ).Nodup := hR.reqs.nodup_iff.mpr (nodup_req_refs L2 down)
  intro r hr r' hr' h
  exact List.inj_on_of_nodup_map hnd hr hr' h

theorem effect_inj {L1 L2 : Levels} {up down : Nat} {ρ : ReqRef → ReqRef}
    {ε : EffRef → EffRef} (hR : Rearranged L1 L2 up down ρ ε) :
    ∀ e ∈ eff_refs L1 up, ∀ e' ∈ eff_refs L1 up, ε e = ε e' → e = e' := by
  have hnd : ((eff_refs L1 up).map ε).Nodup :=
    hR.effects.nodup_iff.mpr (nodup_eff_refs L2 up)
  intro e he e' he' h
  exact List.inj_on_of_nodup_map hnd he he' h

theorem check_isSome {L1 L2 : Levels} {up down : Nat} {ρ : ReqRef → ReqRef}
    {ε : EffRef → EffRef} (hR : Rearranged L1 L2 up down ρ ε) (E : Env)
    (hup : up < L1.length) (hdown : down < L1.length)
    (h : (check_connections E L1 up down).isSome = true) :
    (check_connections E L2 up down).isSome = true := by
  rw [check_connections_isSome_iff E L2 up down (hR.length ▸ hup) (hR.length ▸ hdown)]
  rw [check_connections_isSome_iff E L1 up down hup hdown] at h
  intro r2 hr2 hu2 e2 he2
  obtain ⟨r, hr, rfl⟩ := (hR.mem_req r2).mp hr2
  obtain ⟨e, he, rfl⟩ := (hR.mem_effect e2).mp he2
  rw [hR.links_eq E r hr e he]
  exact h r hr (by rw [← hR.req_unsat r hr]; exact hu2) e he

end Rearranged

/-- The pairs linked by `check_connections` on a rearranged level vector are the images of the
pairs linked on the original one. -/
theorem rearranged_pairs {L1 L2 L1' L2' : Levels} {up down : Nat} {ρ : ReqRef → ReqRef}
    {ε : EffRef → EffRef} (hR : Rearranged L1 L2 up down ρ ε) (E : Env)
    (hup : up < L1.length) (hdown : down < L1.length)
    (h1 : check_connections E L1 up down = some L1')
    (h2 : check_connections E L2 up down = some L2') :
    (∀ r ∈ req_refs L1 down, ∀ e ∈ eff_refs L1 up,
      (e ∈ added_producers L1 L1' r ↔ ε e ∈ added_producers L2 L2' (ρ r))) ∧
    (∀ r2 e2, e2 ∈ added_producers L2 L2' r2 →
      ∃ r e, ρ r = r2 ∧ ε e = e2 ∧ e ∈ added_producers L1 L1' r) := by
  have hup2 : up < L2.length := hR.length ▸ hup
  have hdown2 : down < L2.length := hR.length ▸ hdown
  have key : ∀ r ∈ req_refs L1 down, ∀ e ∈ eff_refs L1 up,
      (e ∈ added_producers L1 L1' r ↔ ε e ∈ added_producers L2 L2' (ρ r)) := by
    intro r hr e he
    rw [mem_added_producers E L1 L1' up down hup hdown h1,
      mem_added_producers E L2 L2' up down hup2 hdown2 h2, hR.req_unsat r hr,
      hR.linked_eq E r hr e he]
    have h3 : ρ r ∈ req_refs L2 down := (hR.mem_req _).mpr ⟨r, hr, rfl⟩
    have h4 : ε e ∈ eff_refs L2 up := (hR.mem_effect _).mpr ⟨e, he, rfl⟩
    tauto
  refine ⟨key, ?_⟩
  intro r2 e2 hm
  have hm' := (mem_added_producers E L2 L2' up down hup2 hdown2 h2 r2 e2).mp hm
  obtain ⟨r, hr, rfl⟩ := (hR.mem_req r2).mp hm'.1
  obtain ⟨e, he, rfl⟩ := (hR.mem_effect e2).mp hm'.2.2.1
  exact ⟨r, e, rfl, rfl, (key r hr e he).mpr hm⟩

/-- The lists written by `check_connections` on a rearranged level vector hold the images of
the elements written on the original one, possibly in another order. -/
theorem rearranged_lists {L1 L2 L1' L2' : Levels} {up down : Nat} {ρ : ReqRef → ReqRef}
    {ε : EffRef → EffRef} (hR : Rearranged L1 L2 up down ρ ε) (E : Env)
    (hup : up < L1.length) (hdown : down < L1.length)
    (h1 : check_connections E L1 up down = some L1')
    (h2 : check_connections E L2 up down = some L2') :
    (∀ r ∈ req_refs L1 down,
      ((added_producers L1 L1' r).map ε).Perm (added_producers L2 L2' (ρ r))) ∧
    (∀ e ∈ eff_refs L1 up,
      ((added_consumers L1 L1' e).map ρ).Perm (added_consumers L2 L2' (ε e))) := by
  have hup2 : up < L2.length := hR.length ▸ hup
  have hdown2 : down < L2.length := hR.length ▸ hdown
  obtain ⟨key, back⟩ := rearranged_pairs hR E hup hdown h1 h2
  constructor
  · intro r hr
    have hsub : ∀ e ∈ added_producers L1 L1' r, e ∈ eff_refs L1 up := fun e hm =>
      ((mem_added_producers E L1 L1' up down hup hdown h1 r e).mp hm).2.2.1
    rw [List.perm_ext_iff_of_nodup
      ((nodup_added_producers E L1 L1' up down hup hdown h1 r).map_on
        (fun e he e' he' => hR.effect_inj e (hsub e he) e' (hsub e' he')))
      (nodup_added_producers E L2 L2' up down hup2 hdown2 h2 _)]
    intro e2
    rw [List.mem_map]
    constructor
    · rintro ⟨e, hm, rfl⟩
      exact (key r hr e (hsub e hm)).mp hm
    · intro hm
      have hm' := (mem_added_producers E L2 L2' up down hup2 hdown2 h2 _ e2).mp hm
      obtain ⟨e, he, rfl⟩ := (hR.mem_effect e2).mp hm'.2.2.1
      exact ⟨e, (key r hr e he).mpr hm, rfl⟩
  · intro e he
    have hsub : ∀ r ∈ added_consumers L1 L1' e, r ∈ req_refs L1 down := fun r hm =>
      ((mem_added_producers E L1 L1' up down hup hdown h1 r e).mp
        ((mem_added_consumers E L1 L1' up down hup hdown h1 r e).mp hm)).1
    rw [List.perm_ext_iff_of_nodup
      ((nodup_added_consumers E L1 L1' up down hup hdown h1 e).map_on
        (fun r hr r' hr' => hR.req_inj r (hsub r hr) r' (hsub r' hr')))
      (nodup_added_consumers E L2 L2' up down hup2 hdown2 h2 _)]
    intro r2
    rw [List.mem_map]
    constructor
    · rintro ⟨r, hm, rfl⟩
      rw [mem_added_consumers E L2 L2' up down hup2 hdown2 h2]
      rw [mem_added_consumers E L1 L1' up down hup hdown h1] at hm
      exact (key r (hsub r ((mem_added_consumers E L1 L1' up down hup hdown h1 r e).mpr hm))
        e he).mp hm
    · intro hm
      rw [mem_added_consumers E L2 L2' up down hup2 hdown2 h2] at hm
      have hm' := (mem_added_producers E L2 L2' up down hup2 hdown2 h2 r2 _).mp hm
      obtain ⟨r, hr, rfl⟩ := (hR.mem_req r2).mp hm'.1
      exact ⟨r, (mem_added_consumers E L1 L1' up down hup hdown h1 r e).mpr
        ((key r hr e he).mpr hm), rfl⟩

theorem fork_rearranged : Rearranged fork_fresh fork_exchanged 0 1 exchange_units
    exchange_entries := by
  have hr : req_refs fork_fresh 1 = [⟨⟨1, 0⟩, 0⟩, ⟨⟨1, 1⟩, 0⟩] := by decide
  have he : eff_refs fork_fresh 0 = [⟨⟨0, 0⟩, 0⟩, ⟨⟨0, 0⟩, 1⟩] := by decide
  refine ⟨rfl, by decide, by decide, ?_, ?_, ?_⟩
  · intro r h
    rw [hr] at h
    simp only [List.mem_cons, List.mem_singleton, List.not_mem_nil, or_false] at h
    rcases h with rfl | rfl <;> rfl
  · intro r h
    rw [hr] at h
    simp only [List.mem_cons, List.mem_singleton, List.not_mem_nil, or_false] at h
    rcases h with rfl | rfl <;> rfl
  · intro e h
    rw [he] at h
    simp only [List.mem_cons, List.mem_singleton, List.not_mem_nil, or_false] at h
    rcases h with rfl | rfl <;> rfl

/-- In the resolved levels of a plan, an effect of the level `i` that matches a requirement of
the level `i + 1` is among its producers, and the requirement among its consumers. -/
theorem adjacent_linked (E : Env) (plan : Plan) (L0 Ls : Levels) (log : List TreeNode)
    (hplan : get_plan_actions E plan = some L0) (hres : resolve E plan = some (Ls, log))
    (i : Nat) (r : ReqRef) (e : EffRef) (hr : r ∈ req_refs L0 (i + 1))
    (he : e ∈ eff_refs L0 i) (hl : linked E L0 r e = true) :
    ∃ q x, get_req Ls r = some q ∧ e ∈ q.effect_connections ∧
      get_effect Ls e = some x ∧ r ∈ x.requirement_connections := by
  obtain ⟨L0', Lw, hplan', hs, rfl, _⟩ := resolve_cases E plan Ls log hres
  rw [hplan] at hplan'
  cases hplan'
  obtain ⟨_, _, hsh, hprod, hcons⟩ := resolve_lists E plan L0 Lw hplan hs
  have hlev : r.action.level = i + 1 := (mem_req_refs.mp hr).1
  have hmem : e ∈ level_links E L0 r i := mem_level_links.mpr ⟨he, hl⟩
  have hne : e ∈ nearest E L0 r := by
    unfold nearest
    rw [hlev]
    unfold nearest_from
    rw [if_neg (Nat.not_lt_zero i)]
    have : (level_links E L0 r i).isEmpty = false := by
      cases hll : level_links E L0 r i with
      | nil => rw [hll] at hmem; exact absurd hmem (List.not_mem_nil _)
      | cons a l => rfl
    rw [this]
    exact hmem
  obtain ⟨q0, hq0⟩ := get_req_some_of_mem hr
  obtain ⟨x0, hx0⟩ := get_effect_some_of_mem he
  have hq : (get_req (fallback E Lw).1 r).isSome = true := by
    rw [get_req_isSome_congr hsh, hq0]; rfl
  have hx : (get_effect (fallback E Lw).1 e).isSome = true := by
    rw [get_effect_isSome_congr hsh, hx0]; rfl
  obtain ⟨q, hq⟩ := Option.isSome_iff_exists.mp hq
  obtain ⟨x, hx⟩ := Option.isSome_iff_exists.mp hx
  refine ⟨q, x, hq, ?_, hx, ?_⟩
  · rw [hprod r q hq]; exact hne
  · rw [hcons e x hx, mem_consumers_of]
    exact ⟨by simp [hq0], hne⟩

/-! ## Nesting of the text -/

theorem string_join_nil : String.join [] = "" := rfl

theorem string_join_append (a b : List String) :
    String.join (a ++ b) = String.join a ++ String.join b := by
  induction a with
  | nil => rw [List.nil_append, string_join_nil, string_empty_append]
  | cons x a ih => rw [List.cons_append, string_join_cons, string_join_cons, ih,
      String.append_assoc]

theorem string_join_singleton (s : String) : String.join [s] = s := by
  rw [string_join_cons, string_join_nil, string_append_empty]

theorem element_leaf {K : String → Prop} (d : Nat) (tag k lit : String)
    (hlit : "<" ++ tag ++ " action=\"" = lit) (htag : tag ∈ leaf_tags) (hk : K k) :
    Element K d (spec_line d (lit ++ k ++ "\"/>")) := by
  subst hlit
  exact Element.leaf d tag k htag hk

theorem element_parallel {K : String → Prop} (d n : Nat) (gap lit : String)
    (children : List String)
    (hlit : "<Parallel success_threshold=\"" ++ to_string (n : Nat) ++ "\"" ++ gap ++
      "failure_threshold=\"1\">" = lit)
    (hgap : gap = " " ∨ gap = "  ") (h : ∀ c ∈ children, Element K (d + 1) c) :
    Element K d (spec_line d lit ++ String.join children ++ spec_line d "</Parallel>") := by
  subst hlit
  exact Element.parallel d n gap children hgap h

theorem execution_block_children (a : String) (T : Int) (l : Nat) :
    execution_block a T l =
      spec_line l ("<Sequence name=\"" ++ spec_key a T ++ "\">") ++
        String.join
    [spec_line (l + 1) ("<WaitAtStartReq action=\"" ++ spec_key a T ++ "\"/>"),
      spec_line (l + 1) ("<ApplyAtStartEffect action=\"" ++ spec_key a T ++ "\"/>"),
      spec_line (l + 1) "<Parallel success_threshold=\"2\" failure_threshold=\"1\">" ++
        String.join
          [spec_line (l + 2) ("<CheckOverAllReq action=\"" ++ spec_key a T ++ "\"/>"),
            spec_line (l + 2) ("<ExecuteAction action=\"" ++ spec_key a T ++ "\"/>")] ++
        spec_line (l + 1) "</Parallel>",
      spec_line (l + 1) ("<CheckAtEndReq action=\"" ++ spec_key a T ++ "\"/>"),
      spec_line (l + 1) ("<ApplyAtEndEffect action=\"" ++ spec_key a T ++ "\"/>")] ++
        spec_line l "</Sequence>" := by
  rw [execution_block_eq_spec]
  unfold spec_execution_block
  simp only [string_join_cons, string_join_nil, string_append_empty, String.append_assoc]

theorem element_block {K : String → Prop} (a : String) (T : Int) (l : Nat)
    (hk : K (spec_key a T)) : Element K l (execution_block a T l) := by
  have hpar : Element K (l + 1)
      (spec_line (l + 1) "<Parallel success_threshold=\"2\" failure_threshold=\"1\">" ++
        String.join
          [spec_line (l + 2) ("<CheckOverAllReq action=\"" ++ spec_key a T ++ "\"/>"),
            spec_line (l + 2) ("<ExecuteAction action=\"" ++ spec_key a T ++ "\"/>")] ++
        spec_line (l + 1) "</Parallel>") := by
    apply element_parallel (l + 1) 2 " " _ _ (by decide) (Or.inl rfl)
    intro c hc
    simp only [List.mem_cons, List.mem_singleton, List.not_mem_nil, or_false] at hc
    rcases hc with rfl | rfl
    · exact element_leaf _ "CheckOverAllReq" _ _ (by decide) (by decide) hk
    · exact element_leaf _ "ExecuteAction" _ _ (by decide) (by decide) hk
  have h := Element.sequence l (spec_key a T)
    [spec_line (l + 1) ("<WaitAtStartReq action=\"" ++ spec_key a T ++ "\"/>"),
      spec_line (l + 1) ("<ApplyAtStartEffect action=\"" ++ spec_key a T ++ "\"/>"),
      spec_line (l + 1) "<Parallel success_threshold=\"2\" failure_threshold=\"1\">" ++
        String.join
          [spec_line (l + 2) ("<CheckOverAllReq action=\"" ++ spec_key a T ++ "\"/>"),
            spec_line (l + 2) ("<ExecuteAction action=\"" ++ spec_key a T ++ "\"/>")] ++
        spec_line (l + 1) "</Parallel>",
      spec_line (l + 1) ("<CheckAtEndReq action=\"" ++ spec_key a T ++ "\"/>"),
      spec_line (l + 1) ("<ApplyAtEndEffect action=\"" ++ spec_key a T ++ "\"/>")] hk
    (by
      intro c hc
      simp only [List.mem_cons, List.mem_singleton, List.not_mem_nil, or_false] at hc
      rcases hc with rfl | rfl | rfl | rfl | rfl
      · exact element_leaf _ "WaitAtStartReq" _ _ (by decide) (by decide) hk
      · exact element_leaf _ "ApplyAtStartEffect" _ _ (by decide) (by decide) hk
      · exact hpar
      · exact element_leaf _ "CheckAtEndReq" _ _ (by decide) (by decide) hk
      · exact element_leaf _ "ApplyAtEndEffect" _ _ (by decide) (by decide) hk)
  rw [execution_block_children]
  exact h

theorem mapM_some_mem {α β : Type} (g : α → Option β) (xs : List α) (ys : List β)
    (h : xs.mapM g = some ys) : ∀ y ∈ ys, ∃ x ∈ xs, g x = some y := by
  induction xs generalizing ys with
  | nil =>
    rw [List.mapM_nil] at h
    cases h
    intro y hy
    exact absurd hy (List.not_mem_nil _)
  | cons x xs ih =>
    rw [List.mapM_cons] at h
    cases hx : g x with
    | none =>
      rw [hx] at h
      exact absurd h (by simp)
    | some y0 =>
      cases hxs : List.mapM g xs with
      | none =>
        rw [hx, hxs] at h
        exact absurd h (by simp)
      | some ys0 =>
        rw [hx, hxs] at h
        simp only [Option.bind_eq_bind, Option.some_bind, Option.pure_def,
          Option.some.injEq] at h
        subst h
        intro y hy
        rcases List.mem_cons.mp hy with rfl | hy
        · exact ⟨x, List.mem_cons_self _ _, hx⟩
        · obtain ⟨x', hx', hg⟩ := ih ys0 hxs y hy
          exact ⟨x', List.mem_cons_of_mem _ hx', hg⟩

theorem element_wait_lines {K : String → Prop} (L : Levels) (preds : List UnitRef) (l : Nat)
    (hk : ∀ p ∈ preds, K (unit_key L p)) :
    ∀ c ∈ preds.map
        (fun p => spec_line l ("<WaitAction action=\"" ++ unit_key L p ++ "\"/>")),
      Element K l c := by
  intro c hc
  obtain ⟨p, hp, rfl⟩ := List.mem_map.mp hc
  exact element_leaf _ "WaitAction" _ _ (by decide) (by decide) (hk p hp)

/-- The children that a unit emits before the texts of its successors: the `WaitAction` lines
when the fan-in exceeds 1, then the execution block. -/
theorem flow_head_children (L : Levels) (n : UnitRef) (l : Nat) :
    flow_head L n l =
      spec_line l ("<Sequence name=\"" ++ unit_key L n ++ "\">") ++
        String.join
          ((if in_cardinality L n > 1 then
              (pred L n).map
                (fun p => spec_line (l + 1) ("<WaitAction action=\"" ++ unit_key L p ++ "\"/>"))
            else []) ++
            [execution_block (unit_at L n).action (unit_at L n).time (l + 1)]) := by
  unfold flow_head spec_sequence_open spec_wait_lines
  rw [string_join_append, string_join_singleton]
  by_cases h : in_cardinality L n > 1
  · simp only [h, if_true, String.append_assoc]
  · simp only [h, if_false, string_join_nil, String.append_assoc]

theorem element_head_children {K : String → Prop} (L : Levels) (n : UnitRef) (l : Nat)
    (hn : K (unit_key L n)) (hp : ∀ p ∈ pred L n, K (unit_key L p)) :
    ∀ c ∈ (if in_cardinality L n > 1 then
          (pred L n).map
            (fun p => spec_line (l + 1) ("<WaitAction action=\"" ++ unit_key L p ++ "\"/>"))
        else []) ++ [execution_block (unit_at L n).action (unit_at L n).time (l + 1)],
      Element K (l + 1) c := by
  intro c hc
  rcases List.mem_append.mp hc with hc | hc
  · by_cases h : in_cardinality L n > 1
    · rw [if_pos h] at hc
      exact element_wait_lines L _ _ hp c hc
    · rw [if_neg h] at hc
      exact absurd hc (List.not_mem_nil _)
  · rw [List.mem_singleton] at hc
    subst hc
    exact element_block _ _ _ hn

theorem successors_open_eq (N l : Nat) :
    successors_open N l =
      spec_line l ("<Parallel success_threshold=\"" ++ to_string (N : Nat) ++ "\"" ++ "  " ++
        "failure_threshold=\"1\">") := by
  unfold successors_open spec_line
  rw [t_eq_spec_indent]
  simp only [String.append_assoc]
  rfl

/-- Every text of `get_flow_tree` at the depth `l` is one element at the depth `l`. -/
theorem flow_element {K : String → Prop} (L : Levels)
    (hkey : ∀ u, (get_unit L u).isSome = true → K (unit_key L u))
    (hpred : ∀ u p, p ∈ pred L u → (get_unit L p).isSome = true)
    (hsucc : ∀ u s, s ∈ succ L u → (get_unit L s).isSome = true) :
    ∀ fuel n l sub, (get_unit L n).isSome = true → flow_text L fuel n l = some sub →
      Element K l sub := by
  intro fuel
  induction fuel with
  | zero =>
    intro n l sub _ h
    simp [flow_text, get_flow_tree] at h
  | succ fuel ih =>
    intro n l sub hv h
    have hn : K (unit_key L n) := hkey n hv
    have hp : ∀ p ∈ pred L n, K (unit_key L p) := fun p hp => hkey p (hpred n p hp)
    have hhead := element_head_children L n l hn hp
    cases hs : succ L n with
    | nil =>
      by_cases hin : in_cardinality L n ≤ 1
      · rw [flow_text_zero L fuel n l hs hin] at h
        have h' := Option.some.inj h
        subst h'
        exact element_block _ _ _ hn
      · rw [flow_text_join L fuel n l hs (by omega)] at h
        have h' := Option.some.inj h
        subst h'
        have hgt : in_cardinality L n > 1 := by omega
        have hch := element_wait_lines L (pred L n) (l + 1) hp
        have hall : ∀ c ∈ (pred L n).map
            (fun p => spec_line (l + 1) ("<WaitAction action=\"" ++ unit_key L p ++ "\"/>")) ++
            [execution_block (unit_at L n).action (unit_at L n).time (l + 1)],
            Element K (l + 1) c := by
          intro c hc
          rcases List.mem_append.mp hc with hc | hc
          · exact hch c hc
          · rw [List.mem_singleton] at hc
            subst hc
            exact element_block _ _ _ hn
        have hE := Element.sequence l (unit_key L n) _ hn hall
        rw [string_join_append, string_join_singleton] at hE
        unfold spec_sequence_open spec_wait_lines
        simpa only [String.append_assoc] using hE
    | cons s rest =>
      cases rest with
      | nil =>
        rw [flow_text_one L fuel n s l hs] at h
        cases hsub : flow_text L fuel s (l + 1) with
        | none =>
          rw [hsub] at h
          exact absurd h (by simp)
        | some sub' =>
          rw [hsub] at h
          have h' := Option.some.inj h
          subst h'
          have hsv := hsucc n s (by rw [hs]; exact List.mem_singleton_self _)
          have hE' := ih s (l + 1) sub' hsv hsub
          have hall : ∀ c ∈ ((if in_cardinality L n > 1 then
                (pred L n).map
                  (fun p =>
                    spec_line (l + 1) ("<WaitAction action=\"" ++ unit_key L p ++ "\"/>"))
              else []) ++ [execution_block (unit_at L n).action (unit_at L n).time (l + 1)]) ++
              [sub'], Element K (l + 1) c := by
            intro c hc
            rcases List.mem_append.mp hc with hc | hc
            · exact hhead c hc
            · rw [List.mem_singleton] at hc
              subst hc
              exact hE'
          have hE := Element.sequence l (unit_key L n) _ hn hall
          rw [string_join_append, string_join_singleton] at hE
          rw [flow_head_children]
          simpa only [String.append_assoc] using hE
      | cons s2 rest =>
        have hout : out_cardinality L n > 1 := by
          unfold out_cardinality
          rw [hs]
          simp
        rw [flow_text_many L fuel n l hout] at h
        cases hsubs : (succ L n).mapM (fun s => flow_text L fuel s (l + 2)) with
        | none =>
          rw [hsubs] at h
          exact absurd h (by simp)
        | some subs =>
          rw [hsubs] at h
          have h' := Option.some.inj h
          subst h'
          have hsubE : ∀ c ∈ subs, Element K (l + 1 + 1) c := by
            intro c hc
            obtain ⟨x, hx, hg⟩ := mapM_some_mem _ _ _ hsubs c hc
            exact ih x (l + 2) c (hsucc n x hx) hg
          have hpar := element_parallel (l + 1) (succ L n).length "  " _ subs rfl
            (Or.inr rfl) hsubE
          have hall : ∀ c ∈ ((if in_cardinality L n > 1 then
                (pred L n).map
                  (fun p =>
                    spec_line (l + 1) ("<WaitAction action=\"" ++ unit_key L p ++ "\"/>"))
              else []) ++ [execution_block (unit_at L n).action (unit_at L n).time (l + 1)]) ++
              [spec_line (l + 1) ("<Parallel success_threshold=\"" ++
                to_string ((succ L n).length : Nat) ++ "\"" ++ "  " ++
                "failure_threshold=\"1\">") ++ String.join subs ++
                spec_line (l + 1) "</Parallel>"], Element K (l + 1) c := by
            intro c hc
            rcases List.mem_append.mp hc with hc | hc
            · exact hhead c hc
            · rw [List.mem_singleton] at hc
              subst hc
              exact hpar
          have hE := Element.sequence l (unit_key L n) _ hn hall
          rw [string_join_append, string_join_singleton] at hE
          rw [flow_head_children, successors_open_eq]
          simpa only [String.append_assoc] using hE

theorem forall2_mem_right {α β : Type} {R : α → β → Prop} {xs : List α} {ys : List β}
    (h : List.Forall₂ R xs ys) : ∀ y ∈ ys, ∃ x ∈ xs, R x y := by
  induction h with
  | nil => intro y hy; exact absurd hy (List.not_mem_nil _)
  | cons hhead _ ih =>
    intro y hy
    rcases List.mem_cons.mp hy with rfl | hm
    · exact ⟨_, List.mem_cons_self _ _, hhead⟩
    · obtain ⟨x, hx, hr⟩ := ih y hm
      exact ⟨x, List.mem_cons_of_mem _ hx, hr⟩

theorem spec_document_nested {K : String → Prop} (N : Nat) (subs : List String)
    (h : ∀ sub ∈ subs, Element K (root_depth N) sub) : WellNested K (spec_document N subs) := by
  unfold root_depth at h
  unfold spec_document
  by_cases hN : N > 1
  · simp only [hN, if_true] at h ⊢
    refine ⟨[spec_line 2 ("<Parallel success_threshold=\"" ++ to_string (N : Nat) ++
      "\" failure_threshold=\"1\">") ++ String.join subs ++ spec_line 2 "</Parallel>"], ?_, ?_⟩
    · intro c hc
      rw [List.mem_singleton] at hc
      subst hc
      refine element_parallel 2 N " " _ subs ?_ (Or.inl rfl) h
      simp only [String.append_assoc]
      rfl
    · rw [string_join_singleton]
  · simp only [hN, if_false] at h ⊢
    exact ⟨subs, h, rfl⟩

theorem resolved_plan_key (E : Env) (plan : Plan) (L : Levels) (log : List TreeNode)
    (h : resolve E plan = some (L, log)) (u : UnitRef) (hu : (get_unit L u).isSome = true) :
    plan_key plan (unit_key L u) := by
  obtain ⟨L0, Lw, hplan, hs, rfl, _⟩ := resolve_cases E plan L log h
  obtain ⟨_, _, hsh, _, _⟩ := resolve_lists E plan L0 Lw hplan hs
  obtain ⟨x, hx⟩ := Option.isSome_iff_exists.mp hu
  have hshape := hsh.unit u
  unfold unit_shape at hshape
  rw [hx] at hshape
  cases hx0 : get_unit L0 u with
  | none => rw [hx0] at hshape; exact absurd hshape (by simp)
  | some x0 =>
    rw [hx0] at hshape
    simp only [Option.map_some', Option.some.injEq, Prod.mk.injEq] at hshape
    obtain ⟨_, _, _, hmem⟩ := mem_all_units_of_get_unit hx0
    obtain ⟨hlen, hk⟩ := get_plan_actions_units E plan L0 hplan
    obtain ⟨k, hlt, hget⟩ := List.getElem_of_mem hmem
    have hkp : k < plan.length := by rw [← hlen]; exact hlt
    have h1 := hk k hkp
    rw [List.getElem?_eq_getElem hlt, hget] at h1
    have hact := (make_action_unit_action E _ _ x0 h1.symm).1
    refine ⟨plan[k], List.getElem_mem _, x.time, ?_⟩
    unfold unit_key
    rw [unit_at_of_get_unit hx, ← hshape.1, hact]

theorem digitChar_ne_newline (k : Nat) (hk : k < 10) : Nat.digitChar k ≠ '\n' := by
  interval_cases k <;> decide

theorem to_string_line (T : Int) : '\n' ∉ (to_string T).data := by
  have hrepr : ∀ n : Nat, '\n' ∉ (Nat.repr n).data := by
    intro n hc
    have hc' : '\n' ∈ Nat.toDigits 10 n := hc
    rcases toDigitsCore_chars _ _ _ _ hc' with h | ⟨k, hk, h⟩
    · exact absurd h (List.not_mem_nil _)
    · exact digitChar_ne_newline k hk h.symm
  cases T with
  | ofNat n => exact hrepr n
  | negSucc n =>
    intro hc
    have hc' : '\n' ∈ ("-" ++ Nat.repr (n + 1)).data := hc
    rw [String.data_append, List.mem_append] at hc'
    rcases hc' with h | h
    · exact absurd h (by decide)
    · exact hrepr _ h

theorem plan_key_line (plan : Plan) (hplan : ∀ item ∈ plan, '\n' ∉ item.action.data)
    (k : String) (hk : plan_key plan k) : '\n' ∉ k.data := by
  obtain ⟨item, hitem, T, rfl⟩ := hk
  unfold spec_key
  rw [String.data_append, String.data_append, List.mem_append, List.mem_append]
  rintro ((h | h) | h)
  · exact hplan item hitem h
  · exact absurd h (by decide)
  · exact to_string_line T h

/-- The text of `get_tree` is a well nested document over the identities of the plan, and its
root subtrees are elements at the depth of the roots. -/
theorem get_tree_nested (E : Env) (plan : Plan) (text : String)
    (h : get_tree E plan = some text) :
    WellNested (plan_key plan) text ∧
      ∃ L log subs, resolve E plan = some (L, log) ∧
        List.Forall₂
          (fun r sub => flow_text L L.length r (root_depth (roots L).length) = some sub)
          (roots L) subs ∧
        (∀ sub ∈ subs, Element (plan_key plan) (root_depth (roots L).length) sub) ∧
        text = spec_document (roots L).length subs := by
  cases hres : resolve E plan with
  | none =>
    unfold get_tree at h
    rw [hres] at h
    exact absurd h (by simp)
  | some res =>
    obtain ⟨L, log⟩ := res
    have hF := resolve_final E plan L log hres
    obtain ⟨subs, hsubs⟩ := roots_text E L hF (root_depth (roots L).length)
    have htext := get_tree_of_resolve E plan L log subs hres hsubs
    rw [h] at htext
    have htext' := Option.some.inj htext
    have hel : ∀ sub ∈ subs, Element (plan_key plan) (root_depth (roots L).length) sub := by
      intro sub hsub
      obtain ⟨r, hr, hflow⟩ := forall2_mem_right hsubs sub hsub
      exact flow_element L (resolved_plan_key E plan L log hres)
        (fun u p hp => (final_pred_valid E L hF u p hp).1)
        (fun u s hs => (final_succ_valid E L hF u s hs).1) _ r _ sub
        ((mem_roots L r).1 hr).1 hflow
    refine ⟨?_, L, log, subs, rfl, hsubs, hel, htext'⟩
    rw [htext']
    exact spec_document_nested _ subs hel

/-! ## The key of a unit and the nearest producers -/

theorem key_eq_iff (x y : ActionUnit) :
    x.key = y.key ↔ x.action = y.action ∧ x.time = y.time := by
  constructor
  · intro h
    exact spec_key_injective _ _ _ _ h
  · rintro ⟨h1, h2⟩
    unfold ActionUnit.key
    rw [h1, h2]

theorem unit_equiv_iff (L : Levels) (u v : UnitRef) :
    (unit_lt L u v = false ∧ unit_lt L v u = false) ↔
      ((unit_at L u).action = (unit_at L v).action ∧
        (unit_at L u).time = (unit_at L v).time) := by
  constructor
  · rintro ⟨h1, h2⟩
    have h := unit_key_eq_of_not_lt L u v h1 h2
    have := spec_key_injective _ _ _ _ h
    exact ⟨this.1.symm, this.2.symm⟩
  · rintro ⟨h1, h2⟩
    have hk : unit_key L u = unit_key L v := by
      unfold unit_key
      rw [h1, h2]
    rw [unit_lt_eq, unit_lt_eq, hk]
    exact ⟨string_lt_irrefl _, string_lt_irrefl _⟩

theorem string_lt_asymm (a b : String) (h : string_lt a b = true) : string_lt b a = false := by
  cases hb : string_lt b a with
  | false => rfl
  | true =>
    have := string_lt_trans a b a h hb
    rw [string_lt_irrefl] at this
    exact absurd this (by simp)

/-- A set that holds a unit keeps one element per key: inserting a unit with the key of an
element changes nothing. -/
theorem set_insert_same_key (L : Levels) (s : List UnitRef) (u v : UnitRef)
    (hs : s.Pairwise (fun a b => unit_lt L a b = true)) (hu : u ∈ s)
    (hk : unit_key L v = unit_key L u) : set_insert (unit_lt L) s v = s := by
  induction s with
  | nil => exact absurd hu (List.not_mem_nil _)
  | cons z s ih =>
    rw [List.pairwise_cons] at hs
    simp only [set_insert]
    rcases List.mem_cons.mp hu with rfl | hmem
    · have h1 : unit_lt L v u = false := by
        rw [unit_lt_eq, hk]; exact string_lt_irrefl _
      have h2 : unit_lt L u v = false := by
        rw [unit_lt_eq, hk]; exact string_lt_irrefl _
      simp [h1, h2]
    · have hzu : unit_lt L z u = true := hs.1 u hmem
      have hzv : unit_lt L z v = true := by
        rw [unit_lt_eq, hk, ← unit_lt_eq]; exact hzu
      have hvz : unit_lt L v z = false := by
        rw [unit_lt_eq] at hzv ⊢
        exact string_lt_asymm _ _ hzv
      simp only [hvz, Bool.false_eq_true, if_false, hzv, if_true]
      rw [ih hs.2 hmem]

theorem nearest_from_cases (E : Env) (L : Levels) (r : ReqRef) (k : Nat) :
    (nearest_from E L r 0 k = [] ∧ ∀ j, j < k → level_links E L r j = []) ∨
      ∃ j, j < k ∧ level_links E L r j ≠ [] ∧
        (∀ j', j < j' → j' < k → level_links E L r j' = []) ∧
        nearest_from E L r 0 k = level_links E L r j := by
  induction k with
  | zero => exact Or.inl ⟨rfl, fun j hj => absurd hj (Nat.not_lt_zero j)⟩
  | succ k ih =>
    unfold nearest_from
    rw [if_neg (Nat.not_lt_zero k)]
    cases hl : level_links E L r k with
    | nil =>
      simp only [List.isEmpty_nil, if_true]
      rcases ih with ⟨h1, h2⟩ | ⟨j, hj, hne, hgap, heq⟩
      · left
        refine ⟨h1, ?_⟩
        intro j hj
        rcases Nat.lt_succ_iff_lt_or_eq.mp hj with h | h
        · exact h2 j h
        · rw [h]; exact hl
      · right
        refine ⟨j, Nat.lt_succ_of_lt hj, hne, ?_, heq⟩
        intro j' h1 h2
        rcases Nat.lt_succ_iff_lt_or_eq.mp h2 with h | h
        · exact hgap j' h1 h
        · rw [h]; exact hl
    | cons a l =>
      simp only [List.isEmpty_cons, Bool.false_eq_true, if_false]
      right
      refine ⟨k, Nat.lt_succ_self k, ?_, ?_, hl.symm⟩
      · rw [hl]; exact List.cons_ne_nil _ _
      · intro j' h1 h2
        omega

/-- The producers of a requirement in the resolved levels of a plan: the matching effects of
the nearest earlier level that has one. -/
theorem resolve_nearest (E : Env) (plan : Plan) (L : Levels) (log : List TreeNode)
    (h : resolve E plan = some (L, log)) (r : ReqRef) (q : RequirementConnection)
    (hq : get_req L r = some q) :
    (q.effect_connections = [] ∧ ∀ j, j < r.action.level → level_links E L r j = []) ∨
      ∃ j, j < r.action.level ∧ level_links E L r j ≠ [] ∧
        (∀ j', j < j' → j' < r.action.level → level_links E L r j' = []) ∧
        q.effect_connections = level_links E L r j := by
  obtain ⟨L0, Lw, hplan, hs, rfl, _⟩ := resolve_cases E plan L log h
  obtain ⟨_, _, hsh, hprod, _⟩ := resolve_lists E plan L0 Lw hplan hs
  rw [hprod r q hq]
  have hc := nearest_from_cases E L0 r r.action.level
  simp only [level_links_congr E hsh]
  exact hc

/-! ## Operands of the numeric conditions -/

theorem first_function_isSome (ops : List TreeNode) (h : starts_with_function ops = true) :
    (first_function ops).isSome = true := by
  unfold first_function
  cases ops with
  | nil => simp [starts_with_function] at h
  | cons a l =>
    cases a <;> simp [starts_with_function] at h ⊢

theorem connects_isSome (E : Env) (R Ef : TreeNode) (hR : requirement_operand_ok R = true)
    (hE : effect_operand_ok Ef = true) : (connects E R Ef).isSome = true := by
  unfold connects
  by_cases h1 : R.type_ = NodeType.EXPRESSION ∧ Ef.type_ = NodeType.FUNCTION_MODIFIER
  · rw [if_pos h1]
    cases R with
    | ExpressionNode et rops =>
      cases Ef with
      | FunctionModifierNode mt eops =>
        have h3 := first_function_isSome rops hR
        have h4 := first_function_isSome eops hE
        obtain ⟨f, hf⟩ := Option.isSome_iff_exists.mp h3
        obtain ⟨g, hg⟩ := Option.isSome_iff_exists.mp h4
        simp [as_expression_node, as_function_modifier_node, hf, hg]
      | _ => simp [TreeNode.type_] at h1
    | _ => simp [TreeNode.type_] at h1
  · rw [if_neg h1]
    by_cases h2 : R.type_ = NodeType.PREDICATE ∧ Ef.type_ = NodeType.PREDICATE
    · rw [if_pos h2]
      cases R with
      | PredicateNode p =>
        cases Ef with
        | PredicateNode p' => simp [as_predicate_node]
        | _ => simp [TreeNode.type_] at h2
      | _ => simp [TreeNode.type_] at h2
    · rw [if_neg h2]
      rfl

theorem operands_present_req (L : Levels) (h : operands_present L = true) (r : ReqRef)
    (q : RequirementConnection) (hq : get_req L r = some q) :
    requirement_operand_ok q.requirement = true := by
  obtain ⟨lv, x, hlv, hx, hr, _⟩ := get_req_decompose hq
  unfold operands_present at h
  rw [List.all_eq_true] at h
  have h1 := h lv (List.getElem?_mem hlv)
  rw [List.all_eq_true] at h1
  have h2 := h1 x (List.getElem?_mem hx)
  rw [Bool.and_eq_true, List.all_eq_true, List.all_eq_true] at h2
  exact h2.1 q (List.getElem?_mem hr)

theorem operands_present_effect (L : Levels) (h : operands_present L = true) (e : EffRef)
    (y : EffectConnection) (hy : get_effect L e = some y) :
    effect_operand_ok y.effect = true := by
  obtain ⟨lv, x, hlv, hx, he, _⟩ := get_effect_decompose hy
  unfold operands_present at h
  rw [List.all_eq_true] at h
  have h1 := h lv (List.getElem?_mem hlv)
  rw [List.all_eq_true] at h1
  have h2 := h1 x (List.getElem?_mem hx)
  rw [Bool.and_eq_true, List.all_eq_true, List.all_eq_true] at h2
  exact h2.2 y (List.getElem?_mem he)

theorem defined_of_operands (E : Env) (L : Levels) (h : operands_present L = true) :
    Defined E L := by
  intro r e hr he
  obtain ⟨q, hq⟩ := Option.isSome_iff_exists.mp hr
  obtain ⟨y, hy⟩ := Option.isSome_iff_exists.mp he
  unfold links req_node effect_node
  rw [hq, hy]
  exact connects_isSome E _ _ (operands_present_req L h r q hq)
    (operands_present_effect L h e y hy)

/-! ## Termination of the emission and existence of a root -/

theorem foldlM_some_mono {α β : Type} (g g' : β → α → Option β)
    (hg : ∀ b a b', g b a = some b' → g' b a = some b') (xs : List α) (b r : β)
    (h : xs.foldlM g b = some r) : xs.foldlM g' b = some r := by
  induction xs generalizing b with
  | nil => exact h
  | cons x xs ih =>
    rw [List.foldlM_cons] at h ⊢
    cases hx : g b x with
    | none =>
      rw [hx] at h
      exact absurd h (by simp)
    | some b1 =>
      rw [hx] at h
      rw [hg b x b1 hx]
      exact ih b1 h

/-- More fuel does not change a result of `get_flow_tree`. -/
theorem flow_fuel_succ (L : Levels) :
    ∀ fuel n used l res, get_flow_tree L fuel n used l = some res →
      get_flow_tree L (fuel + 1) n used l = some res := by
  intro fuel
  induction fuel with
  | zero =>
    intro n used l res h
    simp [get_flow_tree] at h
  | succ fuel ih =>
    intro n used l res h
    rcases Nat.lt_trichotomy (out_cardinality L n) 1 with h0 | h1 | h2
    · rw [flow_zero L fuel n used l (by omega)] at h
      rw [flow_zero L (fuel + 1) n used l (by omega)]
      exact h
    · obtain ⟨s, hs, hf⟩ := flow_one L fuel n used l h1
      obtain ⟨s', hs', hf'⟩ := flow_one L (fuel + 1) n used l h1
      have hss : s' = s := by
        rw [hs] at hs'
        simpa using hs'.symm
      subst hss
      rw [hf] at h
      rw [hf']
      cases hsub : get_flow_tree L fuel s' (set_insert (unit_lt L) used n) (l + 1) with
      | none =>
        rw [hsub] at h
        exact absurd h (by simp)
      | some sub =>
        rw [hsub] at h
        rw [ih _ _ _ _ hsub]
        exact h
    · rw [flow_many L fuel n used l h2] at h
      rw [flow_many L (fuel + 1) n used l h2]
      cases hfold : (succ L n).foldlM
          (fun (acc : String × List UnitRef) s =>
            (get_flow_tree L fuel s acc.2 (l + 2)).map (fun sub => (acc.1 ++ sub.1, sub.2)))
          (flow_head L n l ++ successors_open (succ L n).length (l + 1),
            set_insert (unit_lt L) used n) with
      | none =>
        rw [hfold] at h
        exact absurd h (by simp)
      | some acc =>
        rw [hfold] at h
        rw [foldlM_some_mono _
          (fun (acc : String × List UnitRef) s =>
            (get_flow_tree L (fuel + 1) s acc.2 (l + 2)).map
              (fun sub => (acc.1 ++ sub.1, sub.2))) ?_ _ _ _ hfold]
        · exact h
        · intro b a b' hb
          cases hsub : get_flow_tree L fuel a b.2 (l + 2) with
          | none =>
            rw [hsub] at hb
            exact absurd hb (by simp)
          | some sub =>
            rw [hsub] at hb
            show (get_flow_tree L (fuel + 1) a b.2 (l + 2)).map
              (fun sub => (b.1 ++ sub.1, sub.2)) = some b'
            rw [ih _ _ _ _ hsub]
            exact hb

theorem flow_fuel_le (L : Levels) (fuel fuel' : Nat) (n : UnitRef) (used : List UnitRef)
    (l : Nat) (res : String × List UnitRef) (h : get_flow_tree L fuel n used l = some res)
    (hle : fuel ≤ fuel') : get_flow_tree L fuel' n used l = some res := by
  induction hle with
  | refl => exact h
  | step _ ih => exact flow_fuel_succ L _ n used l res ih

theorem valid_level_lt {L : Levels} {u : UnitRef} (h : (get_unit L u).isSome = true) :
    u.level < L.length := by
  by_contra hc
  unfold get_unit at h
  rw [List.getElem?_eq_none (not_lt.1 hc)] at h
  exact absurd h (by simp)

theorem resolve_text (E : Env) (plan : Plan) (L : Levels) (log : List TreeNode)
    (h : resolve E plan = some (L, log)) :
    ∃ subs, subs.length = (roots L).length ∧
      List.Forall₂ (fun r sub => flow_text L L.length r (root_depth (roots L).length) =
        some sub) (roots L) subs ∧
      get_tree E plan = some (spec_document (roots L).length subs) := by
  have hF := resolve_final E plan L log h
  obtain ⟨subs, hsubs⟩ := roots_text E L hF (root_depth (roots L).length)
  exact ⟨subs, hsubs.length_eq.symm, hsubs, get_tree_of_resolve E plan L log subs h hsubs⟩

theorem resolve_isSome (E : Env) (plan : Plan)
    (hexp : ∀ item ∈ plan, (E.get_action_from_string item.action).isSome = true)
    (hdef : ∀ L0, get_plan_actions E plan = some L0 → operands_present L0 = true) :
    ∃ L log, resolve E plan = some (L, log) := by
  obtain ⟨L0, hL0⟩ := get_plan_actions_isSome E plan hexp
  obtain ⟨Lw, hLw⟩ := sweep_isSome E L0 (defined_of_operands E L0 (hdef L0 hL0))
  refine ⟨(fallback E Lw).1, (fallback E Lw).2, ?_⟩
  unfold resolve
  rw [hL0]
  simp only [hLw]

theorem no_pred_of_first_level (E : Env) (L : Levels) (hF : Final E L) (u : UnitRef)
    (hfirst : ∀ p : UnitRef, p.level < u.level → get_unit L p = none) :
    in_cardinality L u = 0 := by
  unfold in_cardinality
  cases hp : pred L u with
  | nil => rfl
  | cons p ps =>
    obtain ⟨hv, hlt⟩ := final_pred_valid E L hF u p (by rw [hp]; exact List.mem_cons_self _ _)
    rw [hfirst p hlt] at hv
    exact absurd hv (by simp)

theorem exists_first_unit (L : Levels) (u0 : UnitRef) (h0 : (get_unit L u0).isSome = true) :
    ∃ u, (get_unit L u).isSome = true ∧ ∀ p : UnitRef, p.level < u.level → get_unit L p = none := by
  classical
  have hex : ∃ i, ∃ u : UnitRef, u.level = i ∧ (get_unit L u).isSome = true :=
    ⟨u0.level, u0, rfl, h0⟩
  obtain ⟨u, hu, hv⟩ := Nat.find_spec hex
  refine ⟨u, hv, ?_⟩
  intro p hp
  cases hg : get_unit L p with
  | none => rfl
  | some x =>
    exfalso
    exact Nat.find_min hex (hu ▸ hp) ⟨p, rfl, by rw [hg]; rfl⟩

theorem resolve_valid_unit (E : Env) (plan : Plan) (L : Levels) (log : List TreeNode)
    (hne : plan ≠ []) (h : resolve E plan = some (L, log)) :
    ∃ u, (get_unit L u).isSome = true := by
  obtain ⟨L0, Lw, hplan, hs, rfl, _⟩ := resolve_cases E plan L log h
  obtain ⟨_, _, hsh, _, _⟩ := resolve_lists E plan L0 Lw hplan hs
  have hlen := unit_refs_length E plan L0 hplan
  cases hr : unit_refs L0 with
  | nil =>
    rw [hr] at hlen
    exact absurd (List.length_eq_zero.mp hlen.symm) hne
  | cons u us =>
    have hu : u ∈ unit_refs L0 := by rw [hr]; exact List.mem_cons_self _ _
    exact ⟨u, by rw [get_unit_isSome_congr hsh]; exact (mem_unit_refs L0 u).1 hu⟩

/-! ## The collectors of `Tree.h` -/

mutual
theorem getPredicates_flag : ∀ (node : TreeNode) (predicates : List Predicate),
    node.getPredicates predicates true = node.getPredicates predicates false
  | .AndNode ops, predicates => by
    simp only [TreeNode.getPredicates]
    exact getPredicates_loop_flag ops predicates
  | .OrNode ops, predicates => by
    simp only [TreeNode.getPredicates]
    exact getPredicates_loop_flag ops predicates
  | .NotNode op, predicates => by
    simp only [TreeNode.getPredicates]
    exact getPredicates_flag op predicates
  | .ActionNode pre eff, predicates => by
    simp only [TreeNode.getPredicates]
    rw [getPredicates_loop_flag pre predicates]
    exact getPredicates_loop_flag eff _
  | .PredicateNode _, _ => by simp only [TreeNode.getPredicates]
  | .FunctionNode _, _ => by simp only [TreeNode.getPredicates]
  | .ExpressionNode _ _, _ => by simp only [TreeNode.getPredicates]
  | .FunctionModifierNode _ _, _ => by simp only [TreeNode.getPredicates]
  | .NumberNode _, _ => by simp only [TreeNode.getPredicates]
theorem getPredicates_loop_flag : ∀ (ops : List TreeNode) (predicates : List Predicate),
    getPredicates_loop ops predicates true = getPredicates_loop ops predicates false
  | [], _ => by simp only [getPredicates_loop]
  | op :: ops, predicates => by
    simp only [getPredicates_loop]
    rw [getPredicates_flag op predicates]
    exact getPredicates_loop_flag ops _
end

mutual
theorem getPredicates_append : ∀ (node : TreeNode) (predicates : List Predicate) (b : Bool),
    node.getPredicates predicates b = predicates ++ node.getPredicates [] b
  | .AndNode ops, predicates, b => by
    simp only [TreeNode.getPredicates]
    exact getPredicates_loop_append ops predicates b
  | .OrNode ops, predicates, b => by
    simp only [TreeNode.getPredicates]
    exact getPredicates_loop_append ops predicates b
  | .NotNode op, predicates, b => by
    simp only [TreeNode.getPredicates]
    exact getPredicates_append op predicates b
  | .ActionNode pre eff, predicates, b => by
    simp only [TreeNode.getPredicates]
    rw [getPredicates_loop_append eff (getPredicates_loop pre predicates b) b,
      getPredicates_loop_append pre predicates b,
      getPredicates_loop_append eff (getPredicates_loop pre [] b) b, List.append_assoc]
  | .PredicateNode _, _, _ => by simp only [TreeNode.getPredicates, List.nil_append]
  | .FunctionNode _, _, _ => by simp only [TreeNode.getPredicates, List.append_nil]
  | .ExpressionNode _ _, _, _ => by simp only [TreeNode.getPredicates, List.append_nil]
  | .FunctionModifierNode _ _, _, _ => by simp only [TreeNode.getPredicates, List.append_nil]
  | .NumberNode _, _, _ => by simp only [TreeNode.getPredicates, List.append_nil]
theorem getPredicates_loop_append : ∀ (ops : List TreeNode) (predicates : List Predicate)
    (b : Bool), getPredicates_loop ops predicates b = predicates ++ getPredicates_loop ops [] b
  | [], _, _ => by simp only [getPredicates_loop, List.append_nil]
  | op :: ops, predicates, b => by
    simp only [getPredicates_loop]
    rw [getPredicates_loop_append ops (op.getPredicates predicates b) b,
      getPredicates_loop_append ops (op.getPredicates [] b) b,
      getPredicates_append op predicates b, List.append_assoc]
end

theorem getPredicates_loop_flatMap (ops : List TreeNode) (b : Bool) :
    getPredicates_loop ops [] b = ops.flatMap (fun op => op.getPredicates [] b) := by
  induction ops with
  | nil => simp only [getPredicates_loop, List.flatMap_nil]
  | cons op ops ih =>
    simp only [getPredicates_loop, List.flatMap_cons]
    rw [getPredicates_loop_append, ih]

/-! ## The thresholds of the parallel blocks -/

theorem mapM_some_length {α β : Type} (g : α → Option β) (xs : List α) (ys : List β)
    (h : xs.mapM g = some ys) : ys.length = xs.length := by
  induction xs generalizing ys with
  | nil =>
    rw [List.mapM_nil] at h
    cases h
    rfl
  | cons x xs ih =>
    rw [List.mapM_cons] at h
    cases hx : g x with
    | none =>
      rw [hx] at h
      exact absurd h (by simp)
    | some y0 =>
      cases hxs : List.mapM g xs with
      | none =>
        rw [hx, hxs] at h
        exact absurd h (by simp)
      | some ys0 =>
        rw [hx, hxs] at h
        simp only [Option.bind_eq_bind, Option.some_bind, Option.pure_def,
          Option.some.injEq] at h
        subst h
        rw [List.length_cons, List.length_cons, ih ys0 hxs]

theorem mapM_some_forall2 {α β : Type} (g : α → Option β) (xs : List α) (ys : List β)
    (h : xs.mapM g = some ys) : List.Forall₂ (fun x y => g x = some y) xs ys := by
  induction xs generalizing ys with
  | nil =>
    rw [List.mapM_nil] at h
    cases h
    exact List.Forall₂.nil
  | cons x xs ih =>
    rw [List.mapM_cons] at h
    cases hx : g x with
    | none =>
      rw [hx] at h
      exact absurd h (by simp)
    | some y0 =>
      cases hxs : List.mapM g xs with
      | none =>
        rw [hx, hxs] at h
        exact absurd h (by simp)
      | some ys0 =>
        rw [hx, hxs] at h
        simp only [Option.bind_eq_bind, Option.some_bind, Option.pure_def,
          Option.some.injEq] at h
        subst h
        exact List.Forall₂.cons hx (ih ys0 hxs)

theorem counted_leaf {K : String → Prop} (d : Nat) (tag k lit : String)
    (hlit : "<" ++ tag ++ " action=\"" = lit) (htag : tag ∈ leaf_tags) (hk : K k) :
    Counted K d (spec_line d (lit ++ k ++ "\"/>")) := by
  subst hlit
  exact Counted.leaf d tag k htag hk

theorem counted_parallel {K : String → Prop} (d n : Nat) (gap lit : String)
    (children : List String) (hn : children.length = n)
    (hlit : "<Parallel success_threshold=\"" ++ to_string (n : Nat) ++ "\"" ++ gap ++
      "failure_threshold=\"1\">" = lit)
    (hgap : gap = " " ∨ gap = "  ") (h : ∀ c ∈ children, Counted K (d + 1) c) :
    Counted K d (spec_line d lit ++ String.join children ++ spec_line d "</Parallel>") := by
  subst hlit
  subst hn
  exact Counted.parallel d gap children hgap h

theorem counted_block {K : String → Prop} (a : String) (T : Int) (l : Nat)
    (hk : K (spec_key a T)) : Counted K l (execution_block a T l) := by
  have hpar : Counted K (l + 1)
      (spec_line (l + 1) "<Parallel success_threshold=\"2\" failure_threshold=\"1\">" ++
        String.join
          [spec_line (l + 2) ("<CheckOverAllReq action=\"" ++ spec_key a T ++ "\"/>"),
            spec_line (l + 2) ("<ExecuteAction action=\"" ++ spec_key a T ++ "\"/>")] ++
        spec_line (l + 1) "</Parallel>") := by
    apply counted_parallel (l + 1) 2 " " _
      [spec_line (l + 2) ("<CheckOverAllReq action=\"" ++ spec_key a T ++ "\"/>"),
        spec_line (l + 2) ("<ExecuteAction action=\"" ++ spec_key a T ++ "\"/>")]
      rfl (by decide) (Or.inl rfl)
    intro c hc
    simp only [List.mem_cons, List.mem_singleton, List.not_mem_nil, or_false] at hc
    rcases hc with rfl | rfl
    · exact counted_leaf _ "CheckOverAllReq" _ _ (by decide) (by decide) hk
    · exact counted_leaf _ "ExecuteAction" _ _ (by decide) (by decide) hk
  have h := Counted.sequence l (spec_key a T)
    [spec_line (l + 1) ("<WaitAtStartReq action=\"" ++ spec_key a T ++ "\"/>"),
      spec_line (l + 1) ("<ApplyAtStartEffect action=\"" ++ spec_key a T ++ "\"/>"),
      spec_line (l + 1) "<Parallel success_threshold=\"2\" failure_threshold=\"1\">" ++
        String.join
          [spec_line (l + 2) ("<CheckOverAllReq action=\"" ++ spec_key a T ++ "\"/>"),
            spec_line (l + 2) ("<ExecuteAction action=\"" ++ spec_key a T ++ "\"/>")] ++
        spec_line (l + 1) "</Parallel>",
      spec_line (l + 1) ("<CheckAtEndReq action=\"" ++ spec_key a T ++ "\"/>"),
      spec_line (l + 1) ("<ApplyAtEndEffect action=\"" ++ spec_key a T ++ "\"/>")] hk
    (by
      intro c hc
      simp only [List.mem_cons, List.mem_singleton, List.not_mem_nil, or_false] at hc
      rcases hc with rfl | rfl | rfl | rfl | rfl
      · exact counted_leaf _ "WaitAtStartReq" _ _ (by decide) (by decide) hk
      · exact counted_leaf _ "ApplyAtStartEffect" _ _ (by decide) (by decide) hk
      · exact hpar
      · exact counted_leaf _ "CheckAtEndReq" _ _ (by decide) (by decide) hk
      · exact counted_leaf _ "ApplyAtEndEffect" _ _ (by decide) (by decide) hk)
  rw [execution_block_children]
  exact h

theorem counted_wait_lines {K : String → Prop} (L : Levels) (preds : List UnitRef) (l : Nat)
    (hk : ∀ p ∈ preds, K (unit_key L p)) :
    ∀ c ∈ preds.map
        (fun p => spec_line l ("<WaitAction action=\"" ++ unit_key L p ++ "\"/>")),
      Counted K l c := by
  intro c hc
  obtain ⟨p, hp, rfl⟩ := List.mem_map.mp hc
  exact counted_leaf _ "WaitAction" _ _ (by decide) (by decide) (hk p hp)

theorem counted_head_children {K : String → Prop} (L : Levels) (n : UnitRef) (l : Nat)
    (hn : K (unit_key L n)) (hp : ∀ p ∈ pred L n, K (unit_key L p)) :
    ∀ c ∈ (if in_cardinality L n > 1 then
          (pred L n).map
            (fun p => spec_line (l + 1) ("<WaitAction action=\"" ++ unit_key L p ++ "\"/>"))
        else []) ++ [execution_block (unit_at L n).action (unit_at L n).time (l + 1)],
      Counted K (l + 1) c := by
  intro c hc
  rcases List.mem_append.mp hc with hc | hc
  · by_cases h : in_cardinality L n > 1
    · rw [if_pos h] at hc
      exact counted_wait_lines L _ _ hp c hc
    · rw [if_neg h] at hc
      exact absurd hc (List.not_mem_nil _)
  · rw [List.mem_singleton] at hc
    subst hc
    exact counted_block _ _ _ hn

/-- Every text of `get_flow_tree` at the depth `l` is one element at the depth `l` in which
every `Parallel` block announces the number of its children. -/
theorem flow_counted {K : String → Prop} (L : Levels)
    (hkey : ∀ u, (get_unit L u).isSome = true → K (unit_key L u))
    (hpred : ∀ u p, p ∈ pred L u → (get_unit L p).isSome = true)
    (hsucc : ∀ u s, s ∈ succ L u → (get_unit L s).isSome = true) :
    ∀ fuel n l sub, (get_unit L n).isSome = true → flow_text L fuel n l = some sub →
      Counted K l sub := by
  intro fuel
  induction fuel with
  | zero =>
    intro n l sub _ h
    simp [flow_text, get_flow_tree] at h
  | succ fuel ih =>
    intro n l sub hv h
    have hn : K (unit_key L n) := hkey n hv
    have hp : ∀ p ∈ pred L n, K (unit_key L p) := fun p hp => hkey p (hpred n p hp)
    have hhead := counted_head_children L n l hn hp
    cases hs : succ L n with
    | nil =>
      by_cases hin : in_cardinality L n ≤ 1
      · rw [flow_text_zero L fuel n l hs hin] at h
        have h' := Option.some.inj h
        subst h'
        exact counted_block _ _ _ hn
      · rw [flow_text_join L fuel n l hs (by omega)] at h
        have h' := Option.some.inj h
        subst h'
        have hgt : in_cardinality L n > 1 := by omega
        have hch := counted_wait_lines L (pred L n) (l + 1) hp
        have hall : ∀ c ∈ (pred L n).map
            (fun p => spec_line (l + 1) ("<WaitAction action=\"" ++ unit_key L p ++ "\"/>")) ++
            [execution_block (unit_at L n).action (unit_at L n).time (l + 1)],
            Counted K (l + 1) c := by
          intro c hc
          rcases List.mem_append.mp hc with hc | hc
          · exact hch c hc
          · rw [List.mem_singleton] at hc
            subst hc
            exact counted_block _ _ _ hn
        have hE := Counted.sequence l (unit_key L n) _ hn hall
        rw [string_join_append, string_join_singleton] at hE
        unfold spec_sequence_open spec_wait_lines
        simpa only [String.append_assoc] using hE
    | cons s rest =>
      cases rest with
      | nil =>
        rw [flow_text_one L fuel n s l hs] at h
        cases hsub : flow_text L fuel s (l + 1) with
        | none =>
          rw [hsub] at h
          exact absurd h (by simp)
        | some sub' =>
          rw [hsub] at h
          have h' := Option.some.inj h
          subst h'
          have hsv := hsucc n s (by rw [hs]; exact List.mem_singleton_self _)
          have hE' := ih s (l + 1) sub' hsv hsub
          have hall : ∀ c ∈ ((if in_cardinality L n > 1 then
                (pred L n).map
                  (fun p =>
                    spec_line (l + 1) ("<WaitAction action=\"" ++ unit_key L p ++ "\"/>"))
              else []) ++ [execution_block (unit_at L n).action (unit_at L n).time (l + 1)]) ++
              [sub'], Counted K (l + 1) c := by
            intro c hc
            rcases List.mem_append.mp hc with hc | hc
            · exact hhead c hc
            · rw [List.mem_singleton] at hc
              subst hc
              exact hE'
          have hE := Counted.sequence l (unit_key L n) _ hn hall
          rw [string_join_append, string_join_singleton] at hE
          rw [flow_head_children]
          simpa only [String.append_assoc] using hE
      | cons s2 rest =>
        have hout : out_cardinality L n > 1 := by
          unfold out_cardinality
          rw [hs]
          simp
        rw [flow_text_many L fuel n l hout] at h
        cases hsubs : (succ L n).mapM (fun s => flow_text L fuel s (l + 2)) with
        | none =>
          rw [hsubs] at h
          exact absurd h (by simp)
        | some subs =>
          rw [hsubs] at h
          have h' := Option.some.inj h
          subst h'
          have hsubE : ∀ c ∈ subs, Counted K (l + 1 + 1) c := by
            intro c hc
            obtain ⟨x, hx, hg⟩ := mapM_some_mem _ _ _ hsubs c hc
            exact ih x (l + 2) c (hsucc n x hx) hg
          have hpar := counted_parallel (l + 1) (succ L n).length "  " _ subs
            (mapM_some_length _ _ _ hsubs) rfl (Or.inr rfl) hsubE
          have hall : ∀ c ∈ ((if in_cardinality L n > 1 then
                (pred L n).map
                  (fun p =>
                    spec_line (l + 1) ("<WaitAction action=\"" ++ unit_key L p ++ "\"/>"))
              else []) ++ [execution_block (unit_at L n).action (unit_at L n).time (l + 1)]) ++
              [spec_line (l + 1) ("<Parallel success_threshold=\"" ++
                to_string ((succ L n).length : Nat) ++ "\"" ++ "  " ++
                "failure_threshold=\"1\">") ++ String.join subs ++
                spec_line (l + 1) "</Parallel>"], Counted K (l + 1) c := by
            intro c hc
            rcases List.mem_append.mp hc with hc | hc
            · exact hhead c hc
            · rw [List.mem_singleton] at hc
              subst hc
              exact hpar
          have hE := Counted.sequence l (unit_key L n) _ hn hall
          rw [string_join_append, string_join_singleton] at hE
          rw [flow_head_children, successors_open_eq]
          simpa only [String.append_assoc] using hE

theorem spec_document_counted {K : String → Prop} (N : Nat) (subs : List String)
    (hN0 : subs.length = N) (h : ∀ sub ∈ subs, Counted K (root_depth N) sub) : WellCounted K (spec_document N subs) := by
  unfold root_depth at h
  unfold spec_document
  by_cases hN : N > 1
  · simp only [hN, if_true] at h ⊢
    refine ⟨[spec_line 2 ("<Parallel success_threshold=\"" ++ to_string (N : Nat) ++
      "\" failure_threshold=\"1\">") ++ String.join subs ++ spec_line 2 "</Parallel>"], ?_, ?_⟩
    · intro c hc
      rw [List.mem_singleton] at hc
      subst hc
      refine counted_parallel 2 N " " _ subs hN0 ?_ (Or.inl rfl) h
      simp only [String.append_assoc]
      rfl
    · rw [string_join_singleton]
  · simp only [hN, if_false] at h ⊢
    exact ⟨subs, h, rfl⟩

/-- The text of `get_tree` is a document in which every `Parallel` block announces the number
of its children; its root subtrees are as many as the roots. -/
theorem get_tree_counted (E : Env) (plan : Plan) (text : String)
    (h : get_tree E plan = some text) :
    WellCounted (plan_key plan) text ∧
      ∃ L log subs, resolve E plan = some (L, log) ∧
        List.Forall₂
          (fun r sub => flow_text L L.length r (root_depth (roots L).length) = some sub)
          (roots L) subs ∧
        (∀ sub ∈ subs, Counted (plan_key plan) (root_depth (roots L).length) sub) ∧
        text = spec_document (roots L).length subs := by
  cases hres : resolve E plan with
  | none =>
    unfold get_tree at h
    rw [hres] at h
    exact absurd h (by simp)
  | some res =>
    obtain ⟨L, log⟩ := res
    have hF := resolve_final E plan L log hres
    obtain ⟨subs, hsubs⟩ := roots_text E L hF (root_depth (roots L).length)
    have htext := get_tree_of_resolve E plan L log subs hres hsubs
    rw [h] at htext
    have htext' := Option.some.inj htext
    have hel : ∀ sub ∈ subs, Counted (plan_key plan) (root_depth (roots L).length) sub := by
      intro sub hsub
      obtain ⟨r, hr, hflow⟩ := forall2_mem_right hsubs sub hsub
      exact flow_counted L (resolved_plan_key E plan L log hres)
        (fun u p hp => (final_pred_valid E L hF u p hp).1)
        (fun u s hs => (final_succ_valid E L hF u s hs).1) _ r _ sub
        ((mem_roots L r).1 hr).1 hflow
    refine ⟨?_, L, log, subs, rfl, hsubs, hel, htext'⟩
    rw [htext']
    exact spec_document_counted _ subs hsubs.length_eq.symm hel

/-! ## Every execution block comes after its producers -/

theorem mem_producer_keys_iff_pred (L : Levels) (u : UnitRef) (k : String) :
    k ∈ producer_keys L u ↔ ∃ p ∈ pred L u, unit_key L p = k := by
  rw [mem_producer_keys, pred_keys]

theorem spec_wait_lines_eq (L : Levels) (preds : List UnitRef) (l : Nat) :
    spec_wait_lines L preds l = wait_lines (preds.map (unit_key L)) l := by
  unfold spec_wait_lines wait_lines
  rw [List.map_map]
  rfl

theorem flow_head_waits (L : Levels) (n : UnitRef) (l : Nat) :
    flow_head L n l =
      spec_sequence_open L n l ++
        wait_lines (if in_cardinality L n > 1 then (pred L n).map (unit_key L) else []) (l + 1) ++
        execution_block (unit_at L n).action (unit_at L n).time (l + 1) := by
  unfold flow_head
  by_cases h : in_cardinality L n > 1
  · rw [if_pos h, if_pos h, spec_wait_lines_eq]
  · rw [if_neg h, if_neg h]
    rfl

theorem cover_of_pred (L : Levels) (n : UnitRef) (done : List String)
    (hcov : in_cardinality L n ≤ 1 → ∀ k ∈ producer_keys L n, k ∈ done) :
    ∀ k ∈ producer_keys L n, k ∈ done ∨
      k ∈ (if in_cardinality L n > 1 then (pred L n).map (unit_key L) else []) := by
  intro k hk
  by_cases h : in_cardinality L n > 1
  · right
    rw [if_pos h]
    obtain ⟨p, hp, rfl⟩ := (mem_producer_keys_iff_pred L n k).mp hk
    exact List.mem_map_of_mem _ hp
  · left
    exact hcov (by omega) k hk

/-- A successor with at most one predecessor has no producer but its caller. -/
theorem successor_cover (E : Env) (L : Levels) (hF : Final E L) (n s : UnitRef)
    (hn : (get_unit L n).isSome = true) (hs : s ∈ succ L n) (done : List String)
    (hin : in_cardinality L s ≤ 1) : ∀ k ∈ producer_keys L s, k ∈ unit_key L n :: done := by
  intro k hk
  obtain ⟨y, hy, rfl⟩ := (mem_producer_keys_iff_pred L s k).mp hk
  have hsv := (final_succ_valid E L hF n s hs).1
  obtain ⟨p, hp, hpk⟩ := (pred_succ_final E L hF n s hn hsv).mpr ⟨s, hs, rfl⟩
  unfold in_cardinality at hin
  have hyp : y = p := by
    cases hl : pred L s with
    | nil => rw [hl] at hy; exact absurd hy (List.not_mem_nil _)
    | cons a rest =>
      rw [hl] at hy hp hin
      cases rest with
      | nil =>
        rw [List.mem_singleton] at hy hp
        rw [hy, hp]
      | cons b rest' =>
        simp at hin
  rw [hyp, hpk]
  exact List.mem_cons_self _ _

theorem flow_guarded (E : Env) (L : Levels) (hF : Final E L) :
    ∀ fuel n l sub done, (get_unit L n).isSome = true →
      (in_cardinality L n ≤ 1 → ∀ k ∈ producer_keys L n, k ∈ done) →
      flow_text L fuel n l = some sub → Guarded L done l sub := by
  intro fuel
  induction fuel with
  | zero =>
    intro n l sub done _ _ h
    simp [flow_text, get_flow_tree] at h
  | succ fuel ih =>
    intro n l sub done hv hcov h
    have hcover := cover_of_pred L n done hcov
    cases hs : succ L n with
    | nil =>
      by_cases hin : in_cardinality L n ≤ 1
      · rw [flow_text_zero L fuel n l hs hin] at h
        have h' := Option.some.inj h
        subst h'
        exact Guarded.bare done n l (hcov hin)
      · rw [flow_text_join L fuel n l hs (by omega)] at h
        have h' := Option.some.inj h
        subst h'
        have hgt : in_cardinality L n > 1 := by omega
        rw [if_pos hgt] at hcover
        rw [spec_wait_lines_eq]
        exact Guarded.last done n l _ hcover
    | cons s rest =>
      cases rest with
      | nil =>
        rw [flow_text_one L fuel n s l hs] at h
        cases hsub : flow_text L fuel s (l + 1) with
        | none =>
          rw [hsub] at h
          exact absurd h (by simp)
        | some sub' =>
          rw [hsub] at h
          have h' := Option.some.inj h
          subst h'
          have hmem : s ∈ succ L n := by rw [hs]; exact List.mem_singleton_self _
          have hsv := (final_succ_valid E L hF n s hmem).1
          have hE := ih s (l + 1) sub' (unit_key L n :: done) hsv
            (successor_cover E L hF n s hv hmem done) hsub
          rw [flow_head_waits]
          exact Guarded.one done n l _ sub' hcover hE
      | cons s2 rest =>
        have hout : out_cardinality L n > 1 := by
          unfold out_cardinality
          rw [hs]
          simp
        rw [flow_text_many L fuel n l hout] at h
        cases hsubs : (succ L n).mapM (fun s => flow_text L fuel s (l + 2)) with
        | none =>
          rw [hsubs] at h
          exact absurd h (by simp)
        | some subs =>
          rw [hsubs] at h
          have h' := Option.some.inj h
          subst h'
          have hsubE : ∀ c ∈ subs, Guarded L (unit_key L n :: done) (l + 2) c := by
            intro c hc
            obtain ⟨x, hx, hg⟩ := mapM_some_mem _ _ _ hsubs c hc
            exact ih x (l + 2) c (unit_key L n :: done) (final_succ_valid E L hF n x hx).1
              (successor_cover E L hF n x hv hx done) hg
          rw [flow_head_waits]
          exact Guarded.many done n l _ _ subs hcover hsubE

theorem resolve_guarded (E : Env) (plan : Plan) (L : Levels) (log : List TreeNode)
    (h : resolve E plan = some (L, log)) :
    ∃ subs,
      List.Forall₂ (fun r sub => flow_text L L.length r (root_depth (roots L).length) =
        some sub) (roots L) subs ∧
      get_tree E plan = some (spec_document (roots L).length subs) ∧
      ∀ sub ∈ subs, Guarded L [] (root_depth (roots L).length) sub := by
  have hF := resolve_final E plan L log h
  obtain ⟨subs, _, hsubs, ht⟩ := resolve_text E plan L log h
  refine ⟨subs, hsubs, ht, ?_⟩
  intro sub hsub
  obtain ⟨r, hr, hflow⟩ := forall2_mem_right hsubs sub hsub
  obtain ⟨hv, h0⟩ := (mem_roots L r).1 hr
  refine flow_guarded E L hF _ r _ sub [] hv ?_ hflow
  intro _ k hk
  obtain ⟨p, hp, _⟩ := (mem_producer_keys_iff_pred L r k).mp hk
  unfold in_cardinality at h0
  rw [List.length_eq_zero.mp h0] at hp
  exact absurd hp (List.not_mem_nil _)

/-! ## The text of a predicate -/

theorem split_spaces_ne_nil (l : List Char) : split_spaces l ≠ [] := by
  cases l with
  | nil => simp [split_spaces]
  | cons c cs =>
    simp only [split_spaces]
    split
    · exact List.cons_ne_nil _ _
    · split <;> exact List.cons_ne_nil _ _

theorem find_char_split (l : List Char) :
    (find_char ' ' l = none ∧ split_spaces l = [l]) ∨
      ∃ i, find_char ' ' l = some i ∧ i < l.length ∧
        split_spaces l = l.take i :: split_spaces (l.drop (i + 1)) := by
  induction l with
  | nil => exact Or.inl ⟨rfl, rfl⟩
  | cons c cs ih =>
    by_cases hc : c = ' '
    · right
      refine ⟨0, ?_, Nat.succ_pos _, ?_⟩
      · simp [find_char, hc]
      · simp [split_spaces, hc]
    · rcases ih with ⟨h1, h2⟩ | ⟨i, h1, h2, h3⟩
      · left
        constructor
        · simp [find_char, hc, h1]
        · simp [split_spaces, hc, h2]
      · right
        refine ⟨i + 1, ?_, Nat.succ_lt_succ h2, ?_⟩
        · simp [find_char, hc, h1]
        · simp [split_spaces, hc, h3]

theorem fromString_loop_eq (s : List Char) :
    ∀ fuel start tokens, start ≤ s.length → s.length < fuel + start →
      fromString_loop s fuel start tokens = some (tokens ++ split_spaces (s.drop start)) := by
  intro fuel
  induction fuel with
  | zero => intro start tokens h1 h2; omega
  | succ fuel ih =>
    intro start tokens h1 h2
    unfold fromString_loop find
    rcases find_char_split (s.drop start) with ⟨hn, hsp⟩ | ⟨i, hi, hlt, hsp⟩
    · rw [hn, hsp]
      rfl
    · rw [hi, hsp]
      rw [List.length_drop] at hlt
      simp only [Option.map_some']
      rw [ih (start + i + 1) _ (by omega) (by omega)]
      rw [List.drop_drop, Nat.add_sub_cancel_left, List.append_assoc]
      rfl

theorem split_no_space (tok : List Char) (h : ' ' ∉ tok) : split_spaces tok = [tok] := by
  induction tok with
  | nil => rfl
  | cons c cs ih =>
    have hc : c ≠ ' ' := fun hc => h (by rw [hc]; exact List.mem_cons_self _ _)
    have hcs : ' ' ∉ cs := fun hm => h (List.mem_cons_of_mem _ hm)
    simp [split_spaces, hc, ih hcs]

theorem split_append (tok rest : List Char) (h : ' ' ∉ tok) :
    split_spaces (tok ++ ' ' :: rest) = tok :: split_spaces rest := by
  induction tok with
  | nil => simp [split_spaces]
  | cons c cs ih =>
    have hc : c ≠ ' ' := fun hc => h (by rw [hc]; exact List.mem_cons_self _ _)
    have hcs : ' ' ∉ cs := fun hm => h (List.mem_cons_of_mem _ hm)
    simp [split_spaces, hc, ih hcs]

theorem pop_back_last_cons (x : List Char) (T : List (List Char)) (hT : T ≠ []) :
    pop_back_last (x :: T) = (pop_back_last T).map (fun rest => x :: rest) := by
  cases T with
  | nil => exact absurd rfl hT
  | cons y ys => rfl

/-- The text after the name of a predicate: each parameter name after a space, then the closing
parenthesis. -/
theorem pop_back_split (ns : List (List Char)) (hns : ∀ n ∈ ns, ' ' ∉ n) :
    ∀ tok : List Char, ' ' ∉ tok →
      pop_back_last (split_spaces (tok ++ (ns.flatMap (fun n => ' ' :: n) ++ [')']))) =
        some (tok :: ns) := by
  induction ns with
  | nil =>
    intro tok htok
    have hno : ' ' ∉ tok ++ [')'] := by
      intro hm
      rcases List.mem_append.mp hm with hm | hm
      · exact htok hm
      · simp at hm
    simp only [List.flatMap_nil, List.nil_append]
    rw [split_no_space _ hno]
    simp [pop_back_last]
  | cons n ns ih =>
    intro tok htok
    have hn : ' ' ∉ n := hns n (List.mem_cons_self _ _)
    have hns' : ∀ m ∈ ns, ' ' ∉ m := fun m hm => hns m (List.mem_cons_of_mem _ hm)
    simp only [List.flatMap_cons, List.cons_append, List.append_assoc]
    rw [split_append tok _ htok, pop_back_last_cons _ _ (split_spaces_ne_nil _), ih hns' n hn]
    rfl

theorem toString_data (p : Predicate) :
    p.toString.data =
      ('(' :: p.name.data) ++
        ((p.parameters.map (fun q => q.name.data)).flatMap (fun n => ' ' :: n) ++ [')']) := by
  unfold Predicate.toString
  have : ∀ (ps : List Param) (r : String),
      (ps.foldl (fun ret param => ret ++ (" " ++ param.name)) r).data =
        r.data ++ (ps.map (fun q => q.name.data)).flatMap (fun n => ' ' :: n) := by
    intro ps
    induction ps with
    | nil => intro r; simp
    | cons q ps ih =>
      intro r
      rw [List.foldl_cons, ih]
      simp [String.data_append]
  simp only [String.data_append, this]
  simp

theorem string_mk_data (s : String) : String.mk s.data = s := rfl

/-- The result of parsing back the text of a predicate whose name and parameter names hold no
space: with a parameter the predicate comes back without its types; without any, the name comes
back with the closing parenthesis. -/
theorem ofString_toString (p : Predicate) (hname : ' ' ∉ p.name.data)
    (hparams : ∀ q ∈ p.parameters, ' ' ∉ q.name.data) :
    Predicate.ofString p.toString =
      some (if p.parameters = [] then { name := p.name ++ ")", parameters := [] }
        else untyped p) := by
  unfold Predicate.ofString Predicate.fromString
  rw [fromString_loop_eq _ _ 0 [] (Nat.zero_le _) (by omega), List.drop_zero, List.nil_append,
    toString_data]
  have hns : ∀ n ∈ p.parameters.map (fun q => q.name.data), ' ' ∉ n := by
    intro n hn
    obtain ⟨q, hq, rfl⟩ := List.mem_map.mp hn
    exact hparams q hq
  have hopen : ' ' ∉ '(' :: p.name.data := by
    intro hm
    rcases List.mem_cons.mp hm with hm | hm
    · exact absurd hm (by decide)
    · exact hname hm
  cases hps : p.parameters with
  | nil =>
    have hno : ' ' ∉ ('(' :: p.name.data) ++ [')'] := by
      intro hm
      rcases List.mem_append.mp hm with hm | hm
      · exact hopen hm
      · simp at hm
    simp only [List.map_nil, List.flatMap_nil, List.nil_append]
    rw [split_no_space _ hno]
    simp [pop_back_last]
    apply String.ext
    simp [String.data_append]
  | cons q qs =>
    rw [hps] at hns
    simp only [List.map_cons, List.flatMap_cons, List.cons_append, List.append_assoc] at hns ⊢
    have hq : ' ' ∉ q.name.data := hns _ (List.mem_cons_self _ _)
    have hqs : ∀ n ∈ qs.map (fun q => q.name.data), ' ' ∉ n :=
      fun n hn => hns n (List.mem_cons_of_mem _ hn)
    have hsp := split_append ('(' :: p.name.data) (q.name.data ++
      ((qs.map (fun q => q.name.data)).flatMap (fun n => ' ' :: n) ++ [')'])) hopen
    simp only [List.cons_append] at hsp
    rw [hsp]
    simp only [List.drop_succ_cons, List.drop_zero]
    rw [pop_back_last_cons _ _ (split_spaces_ne_nil _), pop_back_split _ hqs _ hq]
    simp only [Option.map_some', List.drop_succ_cons, List.drop_zero, List.nil_append,
      List.map_cons, List.map_map, if_neg (List.cons_ne_nil _ _)]
    unfold untyped
    rw [hps]
    rfl

/-! ## The claims -/

/-- Claim C2: for every action name, integer time and depth, `execution_block` is exactly the
ten lines of the specification, each ended by a newline and indented by two spaces per depth,
and all six leaves carry the identity `action:time` with the time as a plain integer. -/
theorem C2_execution_block_format (a : String) (T : Int) (l : Nat) :
    execution_block a T l = spec_execution_block a T l :=
  execution_block_eq_spec a T l

/-- Claim C4: with the comparison operators modelled from the spec, the test made by
`check_connections` links a requirement and an effect exactly when the requirement is a numeric
comparison and the effect a function modifier, or both are predicates, and both have the same
key (function name, respectively predicate name); predicates with the same name and different
arguments are linked. -/
theorem C4_matching_rule (g : String → Option DurativeAction) (c : TreeNode → Bool × ℚ) :
    (∀ R Ef : TreeNode,
      connects (key_env g c) R Ef = some true ↔
        (R.type_ = NodeType.EXPRESSION ∧ Ef.type_ = NodeType.FUNCTION_MODIFIER ∧
          ∃ k, node_key R = some k ∧ node_key Ef = some k) ∨
        (R.type_ = NodeType.PREDICATE ∧ Ef.type_ = NodeType.PREDICATE ∧
          ∃ k, node_key R = some k ∧ node_key Ef = some k)) ∧
    (∀ (name : String) (args1 args2 : List Param),
      connects (key_env g c) (TreeNode.PredicateNode ⟨name, args1⟩)
        (TreeNode.PredicateNode ⟨name, args2⟩) = some true) := by
  constructor
  · intro R Ef
    cases R <;> cases Ef <;>
      simp [connects, TreeNode.type_, node_key, as_expression_node, as_function_modifier_node,
        as_predicate_node, key_env, predicate_key_eq, function_key_eq]
    case PredicateNode.PredicateNode p q => exact eq_comm
    case ExpressionNode.FunctionModifierNode t1 ops1 t2 ops2 =>
      cases h1 : first_function ops1 <;> cases h2 : first_function ops2 <;> simp
      exact eq_comm
  · intro name args1 args2
    simp [connects, TreeNode.type_, as_predicate_node, key_env, predicate_key_eq]

/-- Claim C9: for a unit without successor, `get_flow_tree` is the execution block alone when
the fan-in is at most 1; otherwise it is the opening `Sequence` line, one `WaitAction` line per
element of `pred` (as many as the fan-in, in increasing order of the units), the execution
block one level deeper and the closing line. -/
theorem C9_flow_tree_without_successor (L : Levels) (fuel : Nat) (n : UnitRef)
    (used : List UnitRef) (l : Nat) (hout : out_cardinality L n = 0) :
    get_flow_tree L (fuel + 1) n used l =
      some
        (if in_cardinality L n ≤ 1 then execution_block (unit_at L n).action (unit_at L n).time l
          else
            spec_sequence_open L n l ++ spec_wait_lines L (pred L n) (l + 1) ++
              execution_block (unit_at L n).action (unit_at L n).time (l + 1) ++
              spec_line l "</Sequence>",
          set_insert (unit_lt L) used n) ∧
      (pred L n).length = in_cardinality L n ∧
      (pred L n).Pairwise (fun p p' => unit_lt L p p' = true) := by
  refine ⟨?_, rfl, pred_pairwise L n⟩
  rw [get_flow_tree]
  simp only [hout, if_true, Nat.zero_ne_one, if_false, Nat.lt_irrefl, gt_iff_lt, Nat.not_lt_zero]
  by_cases hin : in_cardinality L n ≤ 1
  · have : ¬ 1 < in_cardinality L n := by omega
    simp [hin, this]
  · have : 1 < in_cardinality L n := by omega
    simp only [hin, this, if_true, if_false, wait_actions_eq, sequence_open_eq]
    simp only [String.append_assoc, sequence_close_eq]

set_option maxRecDepth 100000 in
/-- Witness of C9: the unit `b` of `example_chain` has no successor and fan-in 1. -/
theorem C9_flow_tree_without_successor_witness :
    out_cardinality example_chain ⟨1, 0⟩ = 0 ∧
      get_flow_tree example_chain 1 ⟨1, 0⟩ [] 2 =
        some (execution_block "b" 1 2, [⟨1, 0⟩]) :=
  ⟨by decide,
    (C9_flow_tree_without_successor example_chain 0 ⟨1, 0⟩ [] 2 (by decide)).1.trans
      (by decide)⟩

/-- Claim C10: for a unit with exactly one successor `s`, `get_flow_tree` is the opening
`Sequence` line, the `WaitAction` lines of the predecessors only when the fan-in exceeds 1, the
execution block one level deeper, the text of `get_flow_tree` for `s` one level deeper and the
closing line. -/
theorem C10_flow_tree_single_successor (L : Levels) (fuel : Nat) (n : UnitRef)
    (used : List UnitRef) (l : Nat) (hout : out_cardinality L n = 1) :
    ∃ s, succ L n = [s] ∧
      get_flow_tree L (fuel + 1) n used l =
        (get_flow_tree L fuel s (set_insert (unit_lt L) used n) (l + 1)).map
          (fun sub =>
            (spec_sequence_open L n l ++
              (if in_cardinality L n > 1 then spec_wait_lines L (pred L n) (l + 1) else "") ++
              execution_block (unit_at L n).action (unit_at L n).time (l + 1) ++
              sub.1 ++ spec_line l "</Sequence>", sub.2)) := by
  have hlen : (succ L n).length = 1 := hout
  obtain ⟨s, hs⟩ := List.length_eq_one.mp hlen
  refine ⟨s, hs, ?_⟩
  rw [get_flow_tree]
  simp only [hout, Nat.one_ne_zero, if_false, if_true, Nat.lt_irrefl, gt_iff_lt, hs,
    List.head?_cons]
  cases hsub : get_flow_tree L fuel s (set_insert (unit_lt L) used n) (l + 1) with
  | none => rfl
  | some sub =>
    simp only [Option.map_some', Option.some.injEq, Prod.mk.injEq, and_true]
    by_cases hin : 1 < in_cardinality L n
    · simp only [hin, if_true, wait_actions_eq, sequence_open_eq]
      simp only [String.append_assoc, sequence_close_eq]
    · simp only [hin, if_false, sequence_open_eq, string_append_empty]
      simp only [String.append_assoc, sequence_close_eq]

set_option maxRecDepth 100000 in
/-- Witness of C10: the unit `a` of `example_chain` has the single successor `b`. -/
theorem C10_flow_tree_single_successor_witness :
    out_cardinality example_chain ⟨0, 0⟩ = 1 ∧
      ∃ s, succ example_chain ⟨0, 0⟩ = [s] ∧
        get_flow_tree example_chain 2 ⟨0, 0⟩ [] 2 =
          (get_flow_tree example_chain 1 s (set_insert (unit_lt example_chain) [] ⟨0, 0⟩) 3).map
            (fun sub =>
              (spec_sequence_open example_chain ⟨0, 0⟩ 2 ++
                (if in_cardinality example_chain ⟨0, 0⟩ > 1 then
                  spec_wait_lines example_chain (pred example_chain ⟨0, 0⟩) 3 else "") ++
                execution_block (unit_at example_chain ⟨0, 0⟩).action
                  (unit_at example_chain ⟨0, 0⟩).time 3 ++
                sub.1 ++ spec_line 2 "</Sequence>", sub.2)) :=
  ⟨by decide, C10_flow_tree_single_successor example_chain 1 ⟨0, 0⟩ [] 2 (by decide)⟩

/-- Claim C5: after the level sweep, a requirement has a producer link exactly when some
effect of some earlier level matches it, and it is satisfied exactly when it has a producer
link; the sweep returns whenever every test it can make has a result. -/
theorem C5_sweep_connects_satisfiable (E : Env) (plan : Plan) (L0 : Levels)
    (hplan : get_plan_actions E plan = some L0) :
    (Defined E L0 → ∃ L, sweep E L0 = some L) ∧
    ∀ L, sweep E L0 = some L → ∀ r q, get_req L r = some q →
      ((q.effect_connections ≠ [] ↔
        ∃ e, e.action.level < r.action.level ∧ (get_effect L e).isSome = true ∧
          linked E L r e = true) ∧
      (q.satisfied = true ↔ q.effect_connections ≠ [])) := by
  refine ⟨sweep_isSome E L0, ?_⟩
  intro L hL r q hq
  have hF := fresh_of_built E L0 (get_plan_actions_spec E plan L0 hplan).1
  have hR := sweep_resolved E L0 L hF hL
  have hq' := hR.req r
  rw [hq] at hq'
  cases hq0 : get_req L0 r with
  | none => rw [hq0] at hq'; simp at hq'
  | some q0 =>
    rw [hq0] at hq'
    simp only [Option.map_some', Option.some.injEq] at hq'
    subst hq'
    simp only
    constructor
    · rw [nearest_ne_nil_iff]
      constructor
      · rintro ⟨e, h1, h2, h3⟩
        exact ⟨e, h1, by rw [get_effect_isSome_congr hR.shape]; exact h2,
          by rw [linked_congr E hR.shape]; exact h3⟩
      · rintro ⟨e, h1, h2, h3⟩
        exact ⟨e, h1, by rw [← get_effect_isSome_congr hR.shape]; exact h2,
          by rw [← linked_congr E hR.shape]; exact h3⟩
    · cases nearest E L0 r <;> simp

/-- Witness of C5: the plan `a` at 0, `b` at 1 of the examples. -/
theorem C5_sweep_connects_satisfiable_witness :
    get_plan_actions example_env example_plan = some example_fresh ∧
      ∀ L, sweep example_env example_fresh = some L → ∀ r q, get_req L r = some q →
        (q.satisfied = true ↔ q.effect_connections ≠ []) :=
  ⟨rfl, fun L hL r q hq =>
    ((C5_sweep_connects_satisfiable example_env example_plan example_fresh rfl).2
      L hL r q hq).2⟩

/-- Claim C7: at the end of the two resolution passes a requirement with a producer link is
satisfied and one without has the flag returned by `check` on its condition; `check` is asked
exactly about the requirements the sweep left unsatisfied; whether the passes return does not
depend on the answers of `check`. -/
theorem C7_fallback_sets_satisfied (E : Env) (plan : Plan) :
    (∀ L log, resolve E plan = some (L, log) →
      (∀ r q, get_req L r = some q →
        (q.effect_connections ≠ [] → q.satisfied = true) ∧
        (q.effect_connections = [] → q.satisfied = (E.check q.requirement).1)) ∧
      ∃ L0 Ls, get_plan_actions E plan = some L0 ∧ sweep E L0 = some Ls ∧
        log = unsatisfied_conditions Ls) ∧
    (∀ check' : TreeNode → Bool × ℚ,
      (resolve { E with check := check' } plan).isSome = (resolve E plan).isSome) := by
  constructor
  · intro L log h
    rw [resolve_eq] at h
    cases h0 : get_plan_actions E plan with
    | none => simp [h0] at h
    | some L0 =>
      cases hs : sweep E L0 with
      | none => simp [h0, hs] at h
      | some Ls =>
        simp only [h0, hs, Option.some_bind, Option.map_some', Option.some.injEq] at h
        have hL : L = (fallback E Ls).1 := by rw [h]
        have hlog : log = (fallback E Ls).2 := by rw [h]
        refine ⟨?_, L0, Ls, rfl, hs, by rw [hlog, fallback_snd]⟩
        intro r q hq
        rw [hL, get_req_fallback] at hq
        have hF := fresh_of_built E L0 (get_plan_actions_spec E plan L0 h0).1
        have hR := sweep_resolved E L0 Ls hF hs
        rw [hR.req r] at hq
        cases hq0 : get_req L0 r with
        | none => simp [hq0] at hq
        | some q0 =>
          simp only [hq0, Option.map_some', Option.some.injEq] at hq
          subst hq
          unfold fallback_req
          cases hn : nearest E L0 r with
          | nil => simp
          | cons a l => simp
  · intro check'
    rw [resolve_eq, resolve_eq, get_plan_actions_check]
    cases get_plan_actions E plan with
    | none => rfl
    | some L0 =>
      simp only [Option.some_bind, sweep_check]
      cases sweep E L0 <;> rfl

/-- Claim C8: the fallback pass keeps every producer and consumer list, hence `pred`, `succ`,
fan-in and fan-out of every unit; a requirement without producer for which `check` answers true
ends satisfied with an empty producer list, and its unit has fan-in 0 when none of its
requirements has a producer. -/
theorem C8_fallback_frame (E : Env) (L : Levels) :
    SameShape L (fallback E L).1 ∧
    (∀ r, (get_req (fallback E L).1 r).map (fun q => q.effect_connections) =
      (get_req L r).map (fun q => q.effect_connections)) ∧
    (∀ e, get_effect (fallback E L).1 e = get_effect L e) ∧
    (∀ u, pred (fallback E L).1 u = pred L u ∧ succ (fallback E L).1 u = succ L u ∧
      in_cardinality (fallback E L).1 u = in_cardinality L u ∧
      out_cardinality (fallback E L).1 u = out_cardinality L u) ∧
    (∀ r q, get_req L r = some q → q.satisfied = false → q.effect_connections = [] →
      (E.check q.requirement).1 = true →
      (∀ q' ∈ (unit_at L r.action).reqs, q'.effect_connections = []) →
      ∃ q', get_req (fallback E L).1 r = some q' ∧ q'.satisfied = true ∧
        q'.effect_connections = [] ∧ in_cardinality (fallback E L).1 r.action = 0) := by
  refine ⟨sameShape_fallback E L, ?_, get_effect_fallback E L, ?_, ?_⟩
  · intro r
    rw [get_req_fallback]
    cases get_req L r with
    | none => rfl
    | some q => simp [(fallback_req_requirement E q).2]
  · intro u
    refine ⟨pred_fallback E L u, succ_fallback E L u, ?_, ?_⟩
    · unfold in_cardinality; rw [pred_fallback]
    · unfold out_cardinality; rw [succ_fallback]
  · intro r q hq hs hec hc hall
    refine ⟨(fallback_req E q).1, by rw [get_req_fallback, hq]; rfl, ?_, ?_, ?_⟩
    · simp [fallback_req, hs, hc]
    · rw [(fallback_req_requirement E q).2, hec]
    · unfold in_cardinality
      rw [pred_fallback, pred_eq_nil_of_no_producer L r.action hall]
      rfl

/-- Claim C6: edge symmetry holds for a fresh level vector, is kept by every call of
`check_connections` (together with the fact that an unsatisfied requirement has no producer),
and holds at the end of the resolution: an effect occurs in the producer list of a requirement
as often as the requirement occurs in its consumer list, at most once.  Consequently, for units
`A` and `B` of the resolved vector, `pred(B)` holds `A` exactly when `succ(A)` holds `B`. -/
theorem C6_edge_symmetry (E : Env) :
    (∀ L, Fresh L → EdgeSymmetric L ∧ UnsatisfiedUnlinked L) ∧
    (∀ L L' up down, up < L.length → down < L.length → EdgeSymmetric L →
      UnsatisfiedUnlinked L → check_connections E L up down = some L' →
      EdgeSymmetric L' ∧ UnsatisfiedUnlinked L') ∧
    (∀ plan L log, resolve E plan = some (L, log) →
      EdgeSymmetric L ∧
      ∀ A B, (get_unit L A).isSome = true → (get_unit L B).isSome = true →
        (in_set L A (pred L B) ↔ in_set L B (succ L A))) := by
  refine ⟨edgeSymmetric_of_fresh, ?_, ?_⟩
  · intro L L' up down hup hdown hS hU h
    exact edgeSymmetric_check_connections E L L' up down hup hdown hS hU h
  · intro plan L log h
    have hF := resolve_final E plan L log h
    exact ⟨edgeSymmetric_final E L hF, pred_succ_final E L hF⟩

/-- Claim C3: with `K` the number of units of fan-in 0 at the end of the resolution (the value
of the counter `root_counters`), `get_tree` returns the two header lines, the texts of
`get_flow_tree` for the `K` units of fan-in 0 in level order and then in the order of each
level, and the closing lines; when `K > 1` the subtrees are at depth 3 inside one `Parallel`
line pair at depth 2 with success threshold `K`, otherwise they are at depth 2 with no
wrapping block. -/
theorem C3_top_level_branches (E : Env) (plan : Plan) (L : Levels) (log : List TreeNode)
    (h : resolve E plan = some (L, log)) :
    root_counters L = (roots L).length ∧
      ∃ subs : List String,
        subs.length = (roots L).length ∧
        List.Forall₂
          (fun r sub => flow_text L L.length r (if (roots L).length > 1 then 3 else 2) = some sub)
          (roots L) subs ∧
        get_tree E plan = some (spec_document (roots L).length subs) := by
  have hF := resolve_final E plan L log h
  obtain ⟨subs, hsubs⟩ := roots_text E L hF (root_depth (roots L).length)
  refine ⟨root_counters_eq L, subs, hsubs.length_eq.symm, hsubs, ?_⟩
  unfold get_tree
  rw [h]
  exact build_tree_eq L subs hsubs

/-- Witness of C3: the plan `a` at 0, `b` at 1 of the examples resolves to the chain of the
examples, which has one root. -/
theorem C3_top_level_branches_witness :
    resolve example_env example_plan = some (example_chain, []) ∧
      root_counters example_chain = 1 ∧
      ∃ subs : List String,
        subs.length = (roots example_chain).length ∧
        List.Forall₂
          (fun r sub => flow_text example_chain example_chain.length r
            (if (roots example_chain).length > 1 then 3 else 2) = some sub)
          (roots example_chain) subs ∧
        get_tree example_env example_plan =
          some (spec_document (roots example_chain).length subs) :=
  ⟨rfl, by decide,
    (C3_top_level_branches example_env example_plan example_chain [] rfl).2⟩

/-- Claim C1: for every plan whose levels are built, whenever `get_tree` returns a text, each
item of the plan has a unit in a level whose time is the running maximum of the truncated item
times, and the text has a line `<ExecuteAction action="a:T"/>` with the action name `a` of the
item and the time `T` of that level; and `get_tree` does return a text when the matching rule
is defined on all conditions of the plan. -/
theorem C1_every_action_emitted (E : Env) (plan : Plan) (L0 : Levels)
    (hplan : get_plan_actions E plan = some L0) :
    (Defined E L0 → ∃ text, get_tree E plan = some text) ∧
      ∀ text, get_tree E plan = some text → ∀ k (hk : k < plan.length),
        ∃ (i : Nat) (lv : ExecutionLevel), L0[i]? = some lv ∧ lv.time = run_time 0 plan k ∧
          (∃ x : ActionUnit, x ∈ lv.action_units ∧ x.action = plan[k].action) ∧
          HasExec text (spec_key plan[k].action lv.time) := by
  have key : ∀ Ls, sweep E L0 = some Ls →
      ∃ subs, List.Forall₂ (fun r sub => flow_text (fallback E Ls).1 (fallback E Ls).1.length r
          (root_depth (roots (fallback E Ls).1).length) = some sub)
          (roots (fallback E Ls).1) subs ∧
        get_tree E plan = some (spec_document (roots (fallback E Ls).1).length subs) ∧
        Final E (fallback E Ls).1 := by
    intro Ls hs
    have hres : resolve E plan = some ((fallback E Ls).1, (fallback E Ls).2) := by
      unfold resolve
      rw [hplan]
      simp only [hs]
    have hF := resolve_final E plan _ _ hres
    obtain ⟨subs, hsubs⟩ := roots_text E _ hF (root_depth (roots (fallback E Ls).1).length)
    refine ⟨subs, hsubs, ?_, hF⟩
    unfold get_tree
    rw [hres]
    exact build_tree_eq _ subs hsubs
  constructor
  · intro hD
    obtain ⟨Ls, hs⟩ := sweep_isSome E L0 hD
    obtain ⟨subs, _, ht, _⟩ := key Ls hs
    exact ⟨_, ht⟩
  · intro text ht k hk
    cases hs : sweep E L0 with
    | none =>
      unfold get_tree resolve at ht
      rw [hplan] at ht
      simp [hs] at ht
    | some Ls =>
      obtain ⟨subs, hsubs, ht', hF⟩ := key Ls hs
      rw [ht'] at ht
      simp only [Option.some.injEq] at ht
      subst ht
      obtain ⟨hB, _, hitems⟩ := get_plan_actions_spec E plan L0 hplan
      obtain ⟨u, x, hu, hx⟩ := hitems k hk
      obtain ⟨hxa, hxt, _, _⟩ := make_action_unit_action E _ _ x hx
      have hS : SameShape L0 (fallback E Ls).1 :=
        (sweep_sameShape E L0 Ls hs).trans (sameShape_fallback E Ls)
      have hshape := hS.unit u
      unfold unit_shape at hshape
      rw [hu] at hshape
      cases hu' : get_unit (fallback E Ls).1 u with
      | none => simp [hu'] at hshape
      | some x' =>
        simp only [hu', Option.map_some', Option.some.injEq, Prod.mk.injEq] at hshape
        have hkey : unit_key (fallback E Ls).1 u = spec_key plan[k].action (run_time 0 plan k) := by
          rw [unit_key_of_get_unit hu', ← hshape.1, ← hshape.2.1, hxa, hxt]
        obtain ⟨r, hr, hreach⟩ := reach_root E _ hF (u.level + 1) u (Nat.lt_succ_self _)
          (by simp [hu'])
        rw [hkey] at hreach
        obtain ⟨sub, hsub, hin⟩ := forall2_sub _ _ _ hsubs
          (fun x sub hx => by
            unfold flow_text at hx
            obtain ⟨res, hres, rfl⟩ := Option.map_eq_some'.1 hx
            exact flow_lineEnd _ _ _ _ _ res hres) r hr
        unfold flow_text at hsub
        obtain ⟨res, hres, rfl⟩ := Option.map_eq_some'.1 hsub
        have hexec := hasExec_of_reaches _ r _ hreach _ _ _ res hres
        obtain ⟨i, j⟩ := u
        unfold get_unit at hu
        cases hl : L0[i]? with
        | none => simp [hl] at hu
        | some lv =>
          simp only [hl] at hu
          have hmem : x ∈ lv.action_units := List.getElem?_mem hu
          have htime : lv.time = run_time 0 plan k := by
            have := (make_action_unit_action E _ _ x (hB.1 i lv hl x hmem)).2.1
            rw [← this, hxt]
          refine ⟨i, lv, hl, htime, ⟨x, hmem, hxa⟩, ?_⟩
          rw [htime]
          refine hasExec_of_sub hexec (sub_trans hin ?_)
          unfold spec_document
          split
          · refine sub_trans (sub_trans (sub_trans (sub_right _ _ (lineEnd_spec_line _ _))
              (sub_left _ _)) (sub_right _ _ ?_)) (sub_trans (sub_left _ _) (sub_left _ _))
            exact lineEnd_append (lineEnd_spec_line _ _) (lineEnd_spec_line _ _)
          · refine sub_trans (sub_right _ _ ?_) (sub_trans (sub_left _ _) (sub_left _ _))
            exact lineEnd_append (lineEnd_spec_line _ _) (lineEnd_spec_line _ _)

/-- Witness of C1: for the plan `a` at 0, `b` at 1 of the examples `get_tree` returns a text,
and the text has the line of `b:1`. -/
theorem C1_every_action_emitted_witness :
    get_plan_actions example_env example_plan = some example_fresh ∧
      (get_tree example_env example_plan).isSome = true ∧
      ∀ text, get_tree example_env example_plan = some text → HasExec text (spec_key "b" 1) :=
  ⟨rfl, rfl, fun text ht => by
    obtain ⟨i, lv, _, htime, _, hexec⟩ :=
      (C1_every_action_emitted example_env example_plan example_fresh rfl).2 text ht 1
        (by decide)
    rw [htime] at hexec
    exact hexec⟩

/-- Claim C11: for a unit with more than one successor the text of `get_flow_tree` is the
opening `Sequence` line, the `WaitAction` lines of the predecessors only when the fan-in exceeds
1, the execution block one level deeper, a `Parallel` line one level deeper whose success
threshold is the number of elements of `succ` and whose failure threshold is 1, the texts of
`get_flow_tree` two levels deeper for the successors in increasing order of their identity
`action:time`, and the two closing lines.  The text of a successor does not depend on the set of
visited units. -/
theorem C11_flow_tree_many_successors (L : Levels) (fuel : Nat) (n : UnitRef)
    (used : List UnitRef) (l : Nat) (hout : out_cardinality L n > 1) :
    (get_flow_tree L (fuel + 1) n used l).map Prod.fst =
      ((succ L n).mapM (fun s => flow_text L fuel s (l + 2))).map
        (fun subs =>
          spec_sequence_open L n l ++
            (if in_cardinality L n > 1 then spec_wait_lines L (pred L n) (l + 1) else "") ++
            execution_block (unit_at L n).action (unit_at L n).time (l + 1) ++
            (t (l + 1) ++ "<Parallel success_threshold=\"" ++
              to_string ((succ L n).length : Nat) ++ "\"  failure_threshold=\"1\">\n") ++
            String.join subs ++
            spec_line (l + 1) "</Parallel>" ++ spec_line l "</Sequence>") ∧
      (∀ s used' d, (get_flow_tree L fuel s used' d).map Prod.fst = flow_text L fuel s d) ∧
      (succ L n).length = out_cardinality L n ∧
      (succ L n).Pairwise (fun s s' => string_lt (unit_key L s) (unit_key L s') = true) := by
  refine ⟨?_, fun s used' d => flow_text_indep L fuel s used' d, rfl, ?_⟩
  · rw [flow_many_text L fuel n used l hout]
    rfl
  · have h := succ_pairwise L n
    simpa only [unit_lt_eq] using h

/-- Witness of C11: in the fork `a` at 0, `b` and `c` at 1, the unit `a` has the two successors
`b` and `c`, in this order. -/
theorem C11_flow_tree_many_successors_witness :
    out_cardinality (diamond_levels fork_plan) ⟨0, 0⟩ > 1 ∧
      succ (diamond_levels fork_plan) ⟨0, 0⟩ = [⟨1, 0⟩, ⟨1, 1⟩] ∧
      (succ (diamond_levels fork_plan) ⟨0, 0⟩).Pairwise
        (fun s s' => string_lt (unit_key (diamond_levels fork_plan) s)
          (unit_key (diamond_levels fork_plan) s') = true) :=
  ⟨by decide, by decide,
    (C11_flow_tree_many_successors (diamond_levels fork_plan) 1 ⟨0, 0⟩ [] 2 (by decide)).2.2.2⟩

/-- Claim C12, evaluated on the code: the text of `get_flow_tree` does not depend on the set of
visited units, which is written and never read; for the diamond `a` at 0, `b` and `c` at 1, `d`
at 2, `get_tree` emits the `Sequence` of `d` with its execution block twice, once under `b` and
once under `c`. -/
theorem C12_visited_set_never_read :
    (∀ (L : Levels) (fuel : Nat) (n : UnitRef) (used : List UnitRef) (l : Nat),
      (get_flow_tree L fuel n used l).map Prod.fst =
        (get_flow_tree L fuel n [] l).map Prod.fst) ∧
    get_tree diamond_env diamond_plan =
      some (spec_document 1
        [ spec_line 2 "<Sequence name=\"a:0\">" ++
            execution_block "a" 0 3 ++
            spec_line 3 "<Parallel success_threshold=\"2\"  failure_threshold=\"1\">" ++
            (spec_line 4 "<Sequence name=\"b:1\">" ++ execution_block "b" 1 5 ++
              diamond_join ++ spec_line 4 "</Sequence>") ++
            (spec_line 4 "<Sequence name=\"c:1\">" ++ execution_block "c" 1 5 ++
              diamond_join ++ spec_line 4 "</Sequence>") ++
            spec_line 3 "</Parallel>" ++
            spec_line 2 "</Sequence>" ]) := by
  refine ⟨fun L fuel n used l => flow_text_indep L fuel n used l, ?_⟩
  obtain ⟨log, hlog⟩ := diamond_resolve diamond_plan (by decide)
  refine get_tree_single_root diamond_env diamond_plan _ log ⟨0, 0⟩ _ hlog (by decide) ?_
  rw [show (diamond_levels diamond_plan).length = 3 by decide]
  exact diamond_flow_a

/-- Claim C13, evaluated on the code: for the fork `a` at 0, `b` and `c` at 1, the `Parallel`
line that `get_flow_tree` writes for the successors of `a` has two spaces before
`failure_threshold`, unlike the line of the same block inside every execution block. -/
theorem C13_successor_parallel_spacing :
    get_tree diamond_env fork_plan =
      some (spec_document 1
        [ spec_line 2 "<Sequence name=\"a:0\">" ++
            execution_block "a" 0 3 ++
            spec_line 3 "<Parallel success_threshold=\"2\"  failure_threshold=\"1\">" ++
            execution_block "b" 1 4 ++
            execution_block "c" 1 4 ++
            spec_line 3 "</Parallel>" ++
            spec_line 2 "</Sequence>" ]) ∧
    spec_line 3 "<Parallel success_threshold=\"2\"  failure_threshold=\"1\">" ≠
      spec_line 3 "<Parallel success_threshold=\"2\" failure_threshold=\"1\">" := by
  refine ⟨?_, by decide⟩
  obtain ⟨log, hlog⟩ := diamond_resolve fork_plan (by decide)
  refine get_tree_single_root diamond_env fork_plan _ log ⟨0, 0⟩ _ hlog (by decide) ?_
  rw [show (diamond_levels fork_plan).length = 2 by decide]
  exact fork_flow_a

/-- Claim C18: for the empty plan `get_tree` returns the document with one root element and one
behavior tree without children, whatever the knowledge source: the level builder returns one
empty level without a lookup, and the resolution asks for no evaluation. -/
theorem C18_empty_plan (E : Env) :
    get_tree E [] =
      some ("<root main_tree_to_execute=\"MainTree\">\n" ++
        "  <BehaviorTree ID=\"MainTree\">\n" ++
        "  </BehaviorTree>\n" ++
        "</root>\n") ∧
    get_plan_actions E [] = some [⟨0, []⟩] ∧
    resolve E [] = some ([⟨0, []⟩], []) :=
  ⟨rfl, rfl, rfl⟩

/-- Claim C19: when the knowledge source knows the action of every item, `get_plan_actions`
returns levels whose units, taken level by level, are as many as the items of the plan, and
the unit at the position `k` carries the action name of the item `k`. -/
theorem C19_one_unit_per_item (E : Env) (plan : Plan)
    (hexp : ∀ item ∈ plan, (E.get_action_from_string item.action).isSome) :
    ∃ L, get_plan_actions E plan = some L ∧
      (all_units L).length = plan.length ∧
      ∀ k (hk : k < plan.length),
        ∃ x : ActionUnit, (all_units L)[k]? = some x ∧ x.action = plan[k].action := by
  obtain ⟨L, hL⟩ := get_plan_actions_isSome E plan hexp
  obtain ⟨hlen, hk⟩ := get_plan_actions_units E plan L hL
  refine ⟨L, hL, hlen, ?_⟩
  intro k hk'
  have h1 := hk k hk'
  have hlt : k < (all_units L).length := by rw [hlen]; exact hk'
  rw [List.getElem?_eq_getElem hlt] at h1
  exact ⟨_, List.getElem?_eq_getElem hlt, (make_action_unit_action E _ _ _ h1.symm).1⟩

/-- Witness of C19: the plan `a` at 0, `b` at 1 of the examples. -/
theorem C19_one_unit_per_item_witness :
    ∃ L, get_plan_actions example_env example_plan = some L ∧
      (all_units L).length = 2 :=
  (C19_one_unit_per_item example_env example_plan (by decide)).imp
    (fun _ h => ⟨h.1, h.2.1⟩)

/-- Claim C17: for a plan of at least two items that all fall in the level of the first one
(no later truncated time exceeds the running maximum after the first item) and whose actions
the knowledge source knows, the resolved levels have no causal edge, every unit has fan-in 0 and
fan-out 0, and `get_tree` returns the header, the `Parallel` line at depth 2 with the number of
items as success threshold, the execution blocks of the items in plan order at depth 3 and at
the time of the level, the closing `Parallel` line and the footer. -/
theorem C17_same_level (E : Env) (first : PlanItem) (rest : List PlanItem)
    (hexp : ∀ item ∈ first :: rest, (E.get_action_from_string item.action).isSome)
    (hn : rest ≠ [])
    (hsame : ∀ item ∈ rest,
      static_cast_int item.time ≤ max 0 (static_cast_int first.time)) :
    ∃ L log, resolve E (first :: rest) = some (L, log) ∧
      (∀ u, pred L u = [] ∧ succ L u = [] ∧ in_cardinality L u = 0 ∧ out_cardinality L u = 0) ∧
      (∀ (r : ReqRef) (q : RequirementConnection), get_req L r = some q →
        q.effect_connections = []) ∧
      get_tree E (first :: rest) =
        some ("<root main_tree_to_execute=\"MainTree\">\n" ++
          "  <BehaviorTree ID=\"MainTree\">\n" ++
          ("    <Parallel success_threshold=\"" ++ to_string ((first :: rest).length : Nat) ++
            "\" failure_threshold=\"1\">\n") ++
          String.join ((first :: rest).map (fun item =>
            execution_block item.action (max 0 (static_cast_int first.time)) 3)) ++
          "    </Parallel>\n" ++
          "  </BehaviorTree>\n" ++
          "</root>\n") := by
  have hT := run_time_of_le first rest hsame
  obtain ⟨L0, hplan⟩ := get_plan_actions_isSome E (first :: rest) hexp
  obtain ⟨hD, hN⟩ := flat_of_time E _ L0 _ hplan hT
  obtain ⟨Ls, hs, hno, ht⟩ := get_tree_isolated E _ L0 hplan hD hN
  obtain ⟨hres, _, _, hR, _⟩ := resolve_lists E _ L0 Ls hplan hs
  have hlen : (first :: rest).length > 1 := by
    cases rest with
    | nil => exact absurd rfl hn
    | cons a as => simp
  refine ⟨(fallback E Ls).1, (fallback E Ls).2, hres, ?_, ?_, ?_⟩
  · intro u
    refine ⟨(hno u).1, (hno u).2, ?_, ?_⟩
    · unfold in_cardinality
      rw [(hno u).1]
      rfl
    · unfold out_cardinality
      rw [(hno u).2]
      rfl
  · intro r q hq
    rw [hR r q hq]
    exact nearest_eq_nil_of_noLinks E L0 hN r
  · rw [ht, blocks_of_time E _ L0 _ _ hplan hT, document_many _ hlen]
    have : root_depth (first :: rest).length = 3 := by
      unfold root_depth
      rw [if_pos hlen]
    rw [this]

/-- Witness of C17: the actions `a` and `b` of the examples, both at the time 0: `b` requires
what `a` produces, and no edge is created. -/
theorem C17_same_level_witness :
    get_tree example_env [⟨0, "a", 1⟩, ⟨0, "b", 1⟩] =
      some ("<root main_tree_to_execute=\"MainTree\">\n" ++
        "  <BehaviorTree ID=\"MainTree\">\n" ++
        ("    <Parallel success_threshold=\"" ++ to_string (2 : Nat) ++
          "\" failure_threshold=\"1\">\n") ++
        String.join [execution_block "a" 0 3, execution_block "b" 0 3] ++
        "    </Parallel>\n" ++
        "  </BehaviorTree>\n" ++
        "</root>\n") :=
  (C17_same_level example_env ⟨0, "a", 1⟩ [⟨0, "b", 1⟩] (by decide)
    (List.cons_ne_nil _ _) (by decide)).elim (fun _ h => h.elim (fun _ h' => h'.2.2.2))

/-- Claim C14: for the plan of an action `a1` at the time 0 and an action `a2` at the time 1,
both known to the knowledge source, such that some requirement of `a2` matches some effect of
`a1` (the tests between them having a result), the unit of `a1` is the only one with fan-in 0,
its fan-out is 1, the fan-in of the unit of `a2` is 1, and `get_tree` returns the header, the
line `<Sequence name="a1:0">` at depth 2, the execution blocks of `a1` at the time 0 and of `a2`
at the time 1, both at depth 3, the closing `Sequence` line and the footer. -/
theorem C14_two_action_chain (E : Env) (a1 a2 : String) (d1 d2 : ℚ) (x1 x2 : ActionUnit)
    (hx1 : make_action_unit E ⟨0, a1, d1⟩ 0 = some x1)
    (hx2 : make_action_unit E ⟨1, a2, d2⟩ 1 = some x2)
    (hdef : ∀ q ∈ x2.reqs, ∀ y ∈ x1.effects, (connects E q.requirement y.effect).isSome)
    (hmatch : ∃ q ∈ x2.reqs, ∃ y ∈ x1.effects, connects E q.requirement y.effect = some true) :
    ∃ L log, resolve E [⟨0, a1, d1⟩, ⟨1, a2, d2⟩] = some (L, log) ∧
      roots L = [⟨0, 0⟩] ∧
      (unit_at L ⟨0, 0⟩).action = a1 ∧ (unit_at L ⟨1, 0⟩).action = a2 ∧
      out_cardinality L ⟨0, 0⟩ = 1 ∧ in_cardinality L ⟨1, 0⟩ = 1 ∧
      get_tree E [⟨0, a1, d1⟩, ⟨1, a2, d2⟩] =
        some ("<root main_tree_to_execute=\"MainTree\">\n" ++
          "  <BehaviorTree ID=\"MainTree\">\n" ++
          (spec_line 2 ("<Sequence name=\"" ++ spec_key a1 0 ++ "\">") ++
            execution_block a1 0 3 ++
            execution_block a2 1 3 ++
            spec_line 2 "</Sequence>") ++
          "  </BehaviorTree>\n" ++
          "</root>\n") := by
  have hplan := get_plan_actions_pair E a1 a2 d1 d2 x1 x2 hx1 hx2
  obtain ⟨Ls, hs⟩ := sweep_isSome_below E _ (pair_definedBelow E 0 1 x1 x2 hdef)
  obtain ⟨hp0, hp1, hs0, hs1⟩ := pair_edges E _ 0 1 x1 x2 Ls hplan hs hmatch
  obtain ⟨hres, hF, hS, _, _⟩ := resolve_lists E _ _ Ls hplan hs
  have hu0 : unit_at [⟨0, [x1]⟩, ⟨1, [x2]⟩] ⟨0, 0⟩ = x1 := rfl
  have hu1 : unit_at [⟨0, [x1]⟩, ⟨1, [x2]⟩] ⟨1, 0⟩ = x2 := rfl
  obtain ⟨ha1, ht1, _, _⟩ := make_action_unit_action E _ _ x1 hx1
  obtain ⟨ha2, ht2, _, _⟩ := make_action_unit_action E _ _ x2 hx2
  simp only at ha1 ha2
  have hA0 : (unit_at (fallback E Ls).1 ⟨0, 0⟩).action = a1 := by
    rw [(unit_at_congr hS _).1, hu0, ha1]
  have hT0 : (unit_at (fallback E Ls).1 ⟨0, 0⟩).time = 0 := by
    rw [(unit_at_congr hS _).2, hu0, ht1]
  have hA1 : (unit_at (fallback E Ls).1 ⟨1, 0⟩).action = a2 := by
    rw [(unit_at_congr hS _).1, hu1, ha2]
  have hT1 : (unit_at (fallback E Ls).1 ⟨1, 0⟩).time = 1 := by
    rw [(unit_at_congr hS _).2, hu1, ht2]
  have hin0 : in_cardinality (fallback E Ls).1 ⟨0, 0⟩ = 0 := by
    unfold in_cardinality; rw [hp0]; rfl
  have hin1 : in_cardinality (fallback E Ls).1 ⟨1, 0⟩ = 1 := by
    unfold in_cardinality; rw [hp1]; rfl
  have hroots : roots (fallback E Ls).1 = [⟨0, 0⟩] := by
    unfold roots
    rw [unit_refs_congr hS]
    have : unit_refs [⟨0, [x1]⟩, ⟨1, [x2]⟩] = [⟨0, 0⟩, ⟨1, 0⟩] := rfl
    rw [this]
    simp [hin0, hin1]
  have hlen : (fallback E Ls).1.length = 2 := hS.length.symm
  have hflow1 : flow_text (fallback E Ls).1 1 ⟨1, 0⟩ 3 = some (execution_block a2 1 3) := by
    rw [flow_text_zero _ 0 ⟨1, 0⟩ 3 hs1 (by rw [hin1]), hA1, hT1]
  have hflow0 : flow_text (fallback E Ls).1 2 ⟨0, 0⟩ 2 =
      some (spec_line 2 ("<Sequence name=\"" ++ spec_key a1 0 ++ "\">") ++
        execution_block a1 0 3 ++ execution_block a2 1 3 ++ spec_line 2 "</Sequence>") := by
    rw [flow_text_one _ 1 ⟨0, 0⟩ ⟨1, 0⟩ 2 hs0, hflow1]
    unfold flow_head spec_sequence_open unit_key
    rw [hA0, hT0, hin0]
    simp only [Option.map_some', gt_iff_lt, Nat.not_lt_zero, if_false, string_append_empty]
  refine ⟨(fallback E Ls).1, (fallback E Ls).2, hres, hroots, hA0, hA1, ?_, hin1, ?_⟩
  · unfold out_cardinality; rw [hs0]; rfl
  · rw [get_tree_single_root E _ _ (fallback E Ls).2 ⟨0, 0⟩ _ hres hroots
      (by rw [hlen]; exact hflow0)]
    exact congrArg some (document_one _)

/-- Witness of C14: the plan `a` at 0, `b` at 1 of the examples, where `b` requires the
predicate that `a` produces. -/
theorem C14_two_action_chain_witness :
    get_tree example_env [⟨0, "a", 1⟩, ⟨1, "b", 1⟩] =
      some ("<root main_tree_to_execute=\"MainTree\">\n" ++
        "  <BehaviorTree ID=\"MainTree\">\n" ++
        (spec_line 2 ("<Sequence name=\"" ++ spec_key "a" 0 ++ "\">") ++
          execution_block "a" 0 3 ++
          execution_block "b" 1 3 ++
          spec_line 2 "</Sequence>") ++
        "  </BehaviorTree>\n" ++
        "</root>\n") :=
  (C14_two_action_chain example_env "a" "b" 1 1 (unit_at example_fresh ⟨0, 0⟩)
    (unit_at example_fresh ⟨1, 0⟩) rfl rfl (by decide) (by decide)).elim
    (fun _ h => h.elim (fun _ h' => h'.2.2.2.2.2.2))

/-- Claim C15: for a unit whose set `pred` has exactly two elements, the units `a1` and `a2`
having different identities, the text of `get_flow_tree` starts with the opening `Sequence`
line, then exactly two `WaitAction` lines one level deeper, for `a1` and for `a2` in increasing
order of the identities `action:time`, then the execution block of the unit one level deeper;
what follows is the closing line, preceded by the texts of the successors when there are
some. -/
theorem C15_two_predecessors (L : Levels) (n a1 a2 : UnitRef)
    (hcard : in_cardinality L n = 2)
    (h1 : in_set L a1 (pred L n)) (h2 : in_set L a2 (pred L n))
    (hne : unit_key L a1 ≠ unit_key L a2) :
    ∃ p q, pred L n = [p, q] ∧
      string_lt (unit_key L p) (unit_key L q) = true ∧
      ((unit_key L p = unit_key L a1 ∧ unit_key L q = unit_key L a2) ∨
        (unit_key L p = unit_key L a2 ∧ unit_key L q = unit_key L a1)) ∧
      ∀ fuel used l,
        (out_cardinality L n = 0 →
          (get_flow_tree L (fuel + 1) n used l).map Prod.fst =
            some (join_head L n p q l ++ spec_line l "</Sequence>")) ∧
        (out_cardinality L n = 1 →
          ∃ s, succ L n = [s] ∧
            (get_flow_tree L (fuel + 1) n used l).map Prod.fst =
              (flow_text L fuel s (l + 1)).map
                (fun sub => join_head L n p q l ++ sub ++ spec_line l "</Sequence>")) ∧
        (out_cardinality L n > 1 →
          (get_flow_tree L (fuel + 1) n used l).map Prod.fst =
            ((succ L n).mapM (fun s => flow_text L fuel s (l + 2))).map
              (fun subs =>
                join_head L n p q l ++ successors_open (succ L n).length (l + 1) ++
                  String.join subs ++
                  spec_line (l + 1) "</Parallel>" ++ spec_line l "</Sequence>")) := by
  obtain ⟨p, q, hp, hlt, hkeys⟩ := pred_pair L n a1 a2 hcard h1 h2 hne
  refine ⟨p, q, hp, hlt, hkeys, ?_⟩
  intro fuel used l
  rw [flow_text_indep L (fuel + 1) n used l, ← flow_head_pair L n p q l hp]
  refine ⟨?_, ?_, ?_⟩
  · intro h0
    have hs : succ L n = [] := List.length_eq_zero.1 h0
    rw [flow_text_join L fuel n l hs (by omega)]
    unfold flow_head
    have : in_cardinality L n > 1 := by omega
    simp only [this, if_true]
  · intro h1'
    obtain ⟨s, hs⟩ := List.length_eq_one.1 h1'
    exact ⟨s, hs, flow_text_one L fuel n s l hs⟩
  · intro hgt
    exact flow_text_many L fuel n l hgt

/-- Witness of C15: in the diamond the unit `d` has the two predecessors `b` and `c`, and its
`WaitAction` lines are for `b:1` and `c:1` in this order. -/
theorem C15_two_predecessors_witness :
    in_cardinality (diamond_levels diamond_plan) ⟨2, 0⟩ = 2 ∧
      unit_key (diamond_levels diamond_plan) ⟨1, 0⟩ = "b:1" ∧
      unit_key (diamond_levels diamond_plan) ⟨1, 1⟩ = "c:1" ∧
      ∃ p q, pred (diamond_levels diamond_plan) ⟨2, 0⟩ = [p, q] ∧
        string_lt (unit_key (diamond_levels diamond_plan) p)
          (unit_key (diamond_levels diamond_plan) q) = true :=
  ⟨by decide, by decide, by decide,
    (C15_two_predecessors (diamond_levels diamond_plan) ⟨2, 0⟩ ⟨1, 0⟩ ⟨1, 1⟩ (by decide)
      ⟨⟨1, 0⟩, by decide, rfl⟩ ⟨⟨1, 1⟩, by decide, rfl⟩ (by decide)).imp
      (fun _ h => h.imp (fun _ h' => ⟨h'.1, h'.2.1⟩))⟩

/-- Claim C21: for every plan whose actions the knowledge source knows, sorted by time or not,
`get_plan_actions` returns a level list that is not empty, whose first level has the time 0,
whose level times increase strictly along the list, and whose levels other than the first hold
at least one unit each. -/
theorem C21_levels_ordered (E : Env) (plan : Plan)
    (hexp : ∀ item ∈ plan, (E.get_action_from_string item.action).isSome) :
    ∃ L, get_plan_actions E plan = some L ∧
      ∃ first rest, L = first :: rest ∧ first.time = 0 ∧
        (first :: rest).Pairwise (fun a b => a.time < b.time) ∧
        ∀ lv ∈ rest, lv.action_units ≠ [] := by
  obtain ⟨L, hL⟩ := get_plan_actions_isSome E plan hexp
  obtain ⟨first, rest, hfr, h0, hne⟩ := get_plan_actions_levelsShape E plan L hL
  refine ⟨L, hL, first, rest, hfr, h0, ?_, hne⟩
  rw [← hfr]
  exact (get_plan_actions_spec E plan L hL).1.2

/-- Witness of C21: the plan `b` at 1, `a` at 0, which is not sorted by time. -/
theorem C21_levels_ordered_witness :
    ∃ L, get_plan_actions example_env [⟨1, "b", 1⟩, ⟨0, "a", 1⟩] = some L ∧
      ∃ first rest, L = first :: rest ∧ first.time = 0 ∧
        (first :: rest).Pairwise (fun a b => a.time < b.time) ∧
        ∀ lv ∈ rest, lv.action_units ≠ [] :=
  C21_levels_ordered example_env [⟨1, "b", 1⟩, ⟨0, "a", 1⟩] (by decide)

/-- Claim C23: the elements of `pred(u)` are units that own an effect of the producer list of
some requirement of `u`, every such unit has an element of the same identity `action:time` in
`pred(u)`, the identities of the elements increase strictly (no two are equal), and
`in_cardinality(u)` is the number of distinct identities among the producers; the same holds for
`succ(u)`, the consumer lists of the effects of `u` and `out_cardinality(u)`. -/
theorem C23_pred_succ_sets (L : Levels) (u : UnitRef) :
    ((∀ y ∈ pred L u, ∃ q ∈ (unit_at L u).reqs, ∃ e ∈ q.effect_connections, y = e.action) ∧
      (∀ q ∈ (unit_at L u).reqs, ∀ e ∈ q.effect_connections, in_set L e.action (pred L u)) ∧
      (pred L u).Pairwise (fun a b => string_lt (unit_key L a) (unit_key L b) = true) ∧
      in_cardinality L u = (pred L u).length ∧
      in_cardinality L u = (producer_keys L u).dedup.length) ∧
    ((∀ y ∈ succ L u, ∃ x ∈ (unit_at L u).effects, ∃ r ∈ x.requirement_connections,
        y = r.action) ∧
      (∀ x ∈ (unit_at L u).effects, ∀ r ∈ x.requirement_connections,
        in_set L r.action (succ L u)) ∧
      (succ L u).Pairwise (fun a b => string_lt (unit_key L a) (unit_key L b) = true) ∧
      out_cardinality L u = (succ L u).length ∧
      out_cardinality L u = (consumer_keys L u).dedup.length) := by
  refine ⟨⟨pred_mem L u, ?_, ?_, rfl, ?_⟩, ⟨succ_mem L u, ?_, ?_, rfl, ?_⟩⟩
  · intro q hq e he
    exact (pred_keys L u _).2 ⟨q, hq, e, he, rfl⟩
  · simpa only [unit_lt_eq] using pred_pairwise L u
  · exact length_eq_dedup _ L _ (pred_pairwise L u) (fun k => by
      rw [mem_producer_keys, pred_keys])
  · intro x hx r hr
    exact (succ_keys L u _).2 ⟨x, hx, r, hr, rfl⟩
  · simpa only [unit_lt_eq] using succ_pairwise L u
  · exact length_eq_dedup _ L _ (succ_pairwise L u) (fun k => by
      rw [mem_consumer_keys, succ_keys])

/-- Claim C24: `operator<` on action units is the lexicographic comparison of the strings
`name + ":" + decimal(time)`; it is irreflexive, transitive and total on different strings, and
it is not the numeric order of the times: of two units with the action `a`, the one with the
time 10 is less than the one with the time 2. -/
theorem C24_unit_order :
    (∀ L a b, unit_lt L a b = true ↔
      ((unit_at L a).action ++ ":" ++ to_string (unit_at L a).time).data <
        ((unit_at L b).action ++ ":" ++ to_string (unit_at L b).time).data) ∧
    (∀ L a, unit_lt L a a = false) ∧
    (∀ L a b c, unit_lt L a b = true → unit_lt L b c = true → unit_lt L a c = true) ∧
    (∀ L a b, unit_key L a ≠ unit_key L b → unit_lt L a b = true ∨ unit_lt L b a = true) ∧
    (unit_key example_times ⟨0, 0⟩ = "a:2" ∧ unit_key example_times ⟨1, 0⟩ = "a:10" ∧
      unit_lt example_times ⟨1, 0⟩ ⟨0, 0⟩ = true ∧ unit_lt example_times ⟨0, 0⟩ ⟨1, 0⟩ = false ∧
      (unit_at example_times ⟨0, 0⟩).time < (unit_at example_times ⟨1, 0⟩).time) := by
  refine ⟨?_, ?_, unit_lt_trans, ?_, by decide, by decide, by decide, by decide, by decide⟩
  · intro L a b
    unfold unit_lt string_lt
    simp only [decide_eq_true_eq]
  · intro L a
    rw [unit_lt_eq]
    exact string_lt_irrefl _
  · intro L a b hne
    by_contra hc
    simp only [not_or, Bool.not_eq_true] at hc
    exact hne (unit_key_eq_of_not_lt L a b hc.1 hc.2).symm

/-- Claim C25: in the resolved levels of every plan, every link joins an effect of a level to a
requirement of a later level; an element of `pred(u)` lies in an earlier level than `u` and has
a smaller time, an element of `succ(u)` lies in a later level and has a larger time; no unit is
an element of its own `pred` or `succ`, also up to the identity `action:time`; every chain of
predecessors goes to strictly earlier levels, so that no chain comes back to its start. -/
theorem C25_edges_forward (E : Env) (plan : Plan) (L : Levels) (log : List TreeNode)
    (h : resolve E plan = some (L, log)) :
    (∀ r q e, get_req L r = some q → e ∈ q.effect_connections →
      e.action.level < r.action.level) ∧
    (∀ e x r, get_effect L e = some x → r ∈ x.requirement_connections →
      e.action.level < r.action.level) ∧
    (∀ u p, p ∈ pred L u → p.level < u.level ∧ (unit_at L p).time < (unit_at L u).time) ∧
    (∀ u s, s ∈ succ L u → u.level < s.level ∧ (unit_at L u).time < (unit_at L s).time) ∧
    (∀ u, u ∉ pred L u ∧ u ∉ succ L u ∧ ¬ in_set L u (pred L u) ∧ ¬ in_set L u (succ L u)) ∧
    (∀ u v, Relation.TransGen (fun a b => a ∈ pred L b) u v → u.level < v.level) ∧
    (∀ u, ¬ Relation.TransGen (fun a b => a ∈ pred L b) u u) := by
  have hF := resolve_final E plan L log h
  obtain ⟨L0, _, _, _, hR, hC, _⟩ := final_lists E L hF
  refine ⟨?_, ?_, ?_, ?_, ?_, final_path_level E L hF, ?_⟩
  · intro r q e hq he
    rw [hR r q hq] at he
    exact (mem_nearest_valid E L0 r e he).2.1
  · intro e x r hx hr
    rw [hC e x hx] at hr
    exact (mem_nearest_valid E L0 r e ((mem_consumers_of E L0 e r).1 hr).2).2.1
  · intro u p hp
    obtain ⟨hv, hlt⟩ := final_pred_valid E L hF u p hp
    exact ⟨hlt, final_time_lt E L hF p u hv (valid_of_pred_ne_nil L u p hp) hlt⟩
  · intro u s hs
    obtain ⟨hv, hlt⟩ := final_succ_valid E L hF u s hs
    exact ⟨hlt, final_time_lt E L hF u s (valid_of_succ_ne_nil L u s hs) hv hlt⟩
  · intro u
    refine ⟨?_, ?_, ?_, ?_⟩
    · intro hu
      exact absurd (final_pred_valid E L hF u u hu).2 (lt_irrefl _)
    · intro hu
      exact absurd (final_succ_valid E L hF u u hu).2 (lt_irrefl _)
    · rintro ⟨a, ha, hk⟩
      obtain ⟨hv, hlt⟩ := final_pred_valid E L hF u a ha
      have := (final_twin E L hF a u hv (valid_of_pred_ne_nil L u a ha) hk).1
      omega
    · rintro ⟨a, ha, hk⟩
      obtain ⟨hv, hlt⟩ := final_succ_valid E L hF u a ha
      have := (final_twin E L hF a u hv (valid_of_succ_ne_nil L u a ha) hk).1
      omega
  · intro u hu
    exact absurd (final_path_level E L hF u u hu) (lt_irrefl _)

/-- Witness of C25: in the chain of the examples the unit `a` of the level 0 is the
predecessor of the unit `b` of the level 1. -/
theorem C25_edges_forward_witness :
    resolve example_env example_plan = some (example_chain, []) ∧
      pred example_chain ⟨1, 0⟩ = [⟨0, 0⟩] ∧
      ∀ u, ¬ Relation.TransGen (fun a b => a ∈ pred example_chain b) u u :=
  ⟨rfl, by decide,
    (C25_edges_forward example_env example_plan example_chain [] rfl).2.2.2.2.2.2⟩

/-- Claim C26: in the resolved levels of every plan, every link joins a numeric comparison to a
function modifier or a predicate to a predicate, on which the test of `check_connections`
answers true.  A requirement that is neither a predicate nor a numeric comparison has an empty
producer list and the flag `satisfied` that `check` returns for it; an effect that is neither a
predicate nor a function modifier has an empty consumer list; and the test answers false on
every pair of other kinds, mixed kinds included. -/
theorem C26_unmatchable_kinds (E : Env) (plan : Plan) (L : Levels) (log : List TreeNode)
    (h : resolve E plan = some (L, log)) :
    (∀ r q e, get_req L r = some q → e ∈ q.effect_connections →
      ∃ x, get_effect L e = some x ∧ connects E q.requirement x.effect = some true ∧
        ((q.requirement.type_ = NodeType.EXPRESSION ∧
            x.effect.type_ = NodeType.FUNCTION_MODIFIER) ∨
          (q.requirement.type_ = NodeType.PREDICATE ∧ x.effect.type_ = NodeType.PREDICATE))) ∧
    (∀ r q, get_req L r = some q → q.requirement.type_ ≠ NodeType.PREDICATE →
      q.requirement.type_ ≠ NodeType.EXPRESSION →
      q.effect_connections = [] ∧ q.satisfied = (E.check q.requirement).1) ∧
    (∀ e x, get_effect L e = some x → x.effect.type_ ≠ NodeType.PREDICATE →
      x.effect.type_ ≠ NodeType.FUNCTION_MODIFIER → x.requirement_connections = []) ∧
    (∀ R Ef : TreeNode,
      ¬ ((R.type_ = NodeType.EXPRESSION ∧ Ef.type_ = NodeType.FUNCTION_MODIFIER) ∨
        (R.type_ = NodeType.PREDICATE ∧ Ef.type_ = NodeType.PREDICATE)) →
      connects E R Ef = some false) := by
  obtain ⟨L0, Ls, hplan, hs, rfl, rfl⟩ := resolve_cases E plan L log h
  obtain ⟨_, _, _, hR, hC⟩ := resolve_lists E plan L0 Ls hplan hs
  have key : ∀ r q e, get_req (fallback E Ls).1 r = some q → e ∈ q.effect_connections →
      ∃ x, get_effect (fallback E Ls).1 e = some x ∧
        connects E q.requirement x.effect = some true := by
    intro r q e hq he
    rw [hR r q hq] at he
    obtain ⟨q', x, hq', hx, hc⟩ := resolve_link_connects E plan L0 Ls hplan hs r e he
    rw [hq] at hq'
    simp only [Option.some.injEq] at hq'
    subst hq'
    exact ⟨x, hx, hc⟩
  refine ⟨?_, ?_, ?_, connects_false_of_kinds E⟩
  · intro r q e hq he
    obtain ⟨x, hx, hc⟩ := key r q e hq he
    exact ⟨x, hx, hc, connects_kinds E _ _ hc⟩
  · intro r q hq h1 h2
    have hnil : q.effect_connections = [] := by
      apply List.eq_nil_iff_forall_not_mem.2
      intro e he
      obtain ⟨x, _, hc⟩ := key r q e hq he
      rcases connects_kinds E _ _ hc with hk | hk
      · exact h2 hk.1
      · exact h1 hk.1
    exact ⟨hnil, (resolve_satisfied E plan L0 Ls hplan hs r q hq).2 hnil⟩
  · intro e x hx h1 h2
    apply List.eq_nil_iff_forall_not_mem.2
    intro r hr
    rw [hC e x hx] at hr
    have he := ((mem_consumers_of E L0 e r).1 hr).2
    obtain ⟨q', x', _, hx', hc⟩ := resolve_link_connects E plan L0 Ls hplan hs r e he
    rw [hx] at hx'
    simp only [Option.some.injEq] at hx'
    subst hx'
    rcases connects_kinds E _ _ hc with hk | hk
    · exact h2 hk.2
    · exact h1 hk.2

/-- Witness of C26: the action `n` at 1 requires the negation of the predicate `p` that the
action `a` at 0 produces; the requirement stays without producer and `check` is asked for
it. -/
theorem C26_unmatchable_kinds_witness :
    resolve negation_env [⟨0, "a", 1⟩, ⟨1, "n", 1⟩] =
        some (negation_levels, [TreeNode.NotNode (TreeNode.PredicateNode ⟨"p", []⟩)]) ∧
      ∀ r q, get_req negation_levels r = some q →
        q.requirement.type_ ≠ NodeType.PREDICATE → q.requirement.type_ ≠ NodeType.EXPRESSION →
        q.effect_connections = [] ∧ q.satisfied = (negation_env.check q.requirement).1 :=
  ⟨rfl, (C26_unmatchable_kinds negation_env [⟨0, "a", 1⟩, ⟨1, "n", 1⟩] negation_levels
    [TreeNode.NotNode (TreeNode.PredicateNode ⟨"p", []⟩)] rfl).2.1⟩

/-- Claim C27: `get_tree` is a function of its arguments, and its text depends only on the
sequence of the action names and truncated times of the plan, on the answers of
`get_action_from_string` for these names and on the comparison operators: two calls that agree
on these return the same result, whatever the durations, the fractions of the times, and the
answers of `check`. -/
theorem C27_text_dependencies (E E' : Env) (plan plan' : Plan)
    (hp : E.predicate_eq = E'.predicate_eq) (hf : E.function_eq = E'.function_eq)
    (hexp : ∀ item ∈ plan,
      E.get_action_from_string item.action = E'.get_action_from_string item.action)
    (hplan : plan.map (fun item => (item.action, static_cast_int item.time)) =
      plan'.map (fun item => (item.action, static_cast_int item.time))) :
    get_tree E plan = get_tree E' plan' := by
  have hs : sweep E = sweep E' := funext (sweep_env E E' hp hf)
  rw [get_tree_eq, get_tree_eq, get_plan_actions_env E E' plan plan' hexp hplan, hs]

/-- Witness of C27: the plan of the examples, and the same actions at the times 0.5 and 1.5
with other durations and a knowledge source in which every requirement holds. -/
theorem C27_text_dependencies_witness :
    get_tree example_env [⟨0, "a", 1⟩, ⟨1, "b", 1⟩] =
      get_tree { example_env with check := fun _ => (true, 1) }
        [⟨mkRat 1 2, "a", 5⟩, ⟨mkRat 3 2, "b", 7⟩] :=
  C27_text_dependencies example_env { example_env with check := fun _ => (true, 1) }
    [⟨0, "a", 1⟩, ⟨1, "b", 1⟩] [⟨mkRat 1 2, "a", 5⟩, ⟨mkRat 3 2, "b", 7⟩] rfl rfl
    (fun _ _ => rfl) (by decide)

/-- Counterexample to C22 as stated: the knowledge source returns for the action `s` one
at-start condition, the predicate `p` that is not wrapped in a conjunction, and the unit that
`get_plan_actions` builds for `s` has no requirement. -/
theorem C22_single_predicate_dropped :
    single_env.get_action_from_string "s" = some single_action ∧
      tree_conditions single_action.at_start_requirements =
        [TreeNode.PredicateNode ⟨"p", []⟩] ∧
      get_plan_actions single_env [⟨0, "s", 1⟩] =
        some [⟨0, [{ action := "s", time := 0, reqs := [], effects := [] }]⟩] :=
  ⟨rfl, rfl, rfl⟩

/-- Claim C22, amended: for a plan item whose five condition trees are empty or have a
conjunction at the root, the requirements of its unit are the at-start, the over-all and the
at-end conditions, in this order and in source order, and its effects are the at-start and the
at-end effects; the numbers of entries are the total numbers of conditions and of effects. -/
theorem C22_conjunction_operands (E : Env) (plan : Plan) (L : Levels) (k : Nat)
    (da : DurativeAction) (hplan : get_plan_actions E plan = some L) (hk : k < plan.length)
    (hda : E.get_action_from_string plan[k].action = some da)
    (h1 : is_conjunction da.at_start_requirements = true)
    (h2 : is_conjunction da.over_all_requirements = true)
    (h3 : is_conjunction da.at_end_requirements = true)
    (h4 : is_conjunction da.at_start_effects = true)
    (h5 : is_conjunction da.at_end_effects = true) :
    ∃ x : ActionUnit, (all_units L)[k]? = some x ∧ x.action = plan[k].action ∧
      x.reqs.map (fun q => q.requirement) =
        tree_conditions da.at_start_requirements ++ tree_conditions da.over_all_requirements ++
          tree_conditions da.at_end_requirements ∧
      x.effects.map (fun y => y.effect) =
        tree_conditions da.at_start_effects ++ tree_conditions da.at_end_effects ∧
      x.reqs.length =
        (tree_conditions da.at_start_requirements).length +
          (tree_conditions da.over_all_requirements).length +
          (tree_conditions da.at_end_requirements).length ∧
      x.effects.length =
        (tree_conditions da.at_start_effects).length +
          (tree_conditions da.at_end_effects).length := by
  obtain ⟨hlen, hunits⟩ := get_plan_actions_units E plan L hplan
  have h := hunits k hk
  have hlt : k < (all_units L).length := by rw [hlen]; exact hk
  rw [List.getElem?_eq_getElem hlt] at h
  obtain ⟨hr, he⟩ := make_action_unit_conj E _ _ da _ hda h.symm h1 h2 h3 h4 h5
  refine ⟨_, List.getElem?_eq_getElem hlt, (make_action_unit_action E _ _ _ h.symm).1, hr, he,
    ?_, ?_⟩
  · have := congrArg List.length hr
    simpa [List.length_append, Nat.add_assoc] using this
  · have := congrArg List.length he
    simpa [List.length_append] using this

/-- Witness of C22, amended: the item `b` of the plan of the examples, whose trees are
conjunctions or empty. -/
theorem C22_conjunction_operands_witness :
    ∃ x : ActionUnit, (all_units example_fresh)[1]? = some x ∧ x.action = "b" ∧
      x.reqs.map (fun q => q.requirement) = [TreeNode.PredicateNode ⟨"p", []⟩] :=
  (C22_conjunction_operands example_env example_plan example_fresh 1
    (example_action [TreeNode.PredicateNode ⟨"p", []⟩] []) rfl (by decide) rfl rfl rfl rfl rfl
    rfl).imp (fun _ h => ⟨h.1, h.2.1, h.2.2.1⟩)

/-- Claim C29: the pairs linked by one call `check_connections(levels[up], levels[down])` do not
depend on positions.  A pair is linked exactly when the requirement is a not yet satisfied
requirement of the lower level, the effect is an effect of the upper level, and the test of
`check_connections` on their two conditions says so; the consumer lists record the same pairs.
On a level vector that holds the same requirements and effects in another arrangement (units
permuted inside a level, entries permuted inside a unit) the call returns too and links the
images of the same pairs: only the order inside the lists written can differ.  In particular,
in the resolved levels of a plan every effect of the level `i` that matches a requirement of the
level `i + 1` is linked to it. -/
theorem C29_matching_position_free (E : Env) (L1 L2 L1' : Levels) (up down : Nat)
    (ρ : ReqRef → ReqRef) (ε : EffRef → EffRef) (hup : up < L1.length)
    (hdown : down < L1.length) (hR : Rearranged L1 L2 up down ρ ε)
    (h1 : check_connections E L1 up down = some L1') :
    (∀ r e, e ∈ added_producers L1 L1' r ↔
      r ∈ req_refs L1 down ∧ unsat L1 r = true ∧ e ∈ eff_refs L1 up ∧
        linked E L1 r e = true) ∧
    (∀ r e, r ∈ added_consumers L1 L1' e ↔ e ∈ added_producers L1 L1' r) ∧
    (∃ L2', check_connections E L2 up down = some L2' ∧
      (∀ r ∈ req_refs L1 down, ∀ e ∈ eff_refs L1 up,
        (e ∈ added_producers L1 L1' r ↔ ε e ∈ added_producers L2 L2' (ρ r))) ∧
      (∀ r2 e2, e2 ∈ added_producers L2 L2' r2 →
        ∃ r e, ρ r = r2 ∧ ε e = e2 ∧ e ∈ added_producers L1 L1' r) ∧
      (∀ r ∈ req_refs L1 down,
        ((added_producers L1 L1' r).map ε).Perm (added_producers L2 L2' (ρ r))) ∧
      (∀ e ∈ eff_refs L1 up,
        ((added_consumers L1 L1' e).map ρ).Perm (added_consumers L2 L2' (ε e)))) ∧
    (∀ (plan : Plan) (L0 Ls : Levels) (log : List TreeNode) (i : Nat) (r : ReqRef)
      (e : EffRef), get_plan_actions E plan = some L0 → resolve E plan = some (Ls, log) →
      r ∈ req_refs L0 (i + 1) → e ∈ eff_refs L0 i → linked E L0 r e = true →
      ∃ q x, get_req Ls r = some q ∧ e ∈ q.effect_connections ∧
        get_effect Ls e = some x ∧ r ∈ x.requirement_connections) := by
  refine ⟨mem_added_producers E L1 L1' up down hup hdown h1,
    mem_added_consumers E L1 L1' up down hup hdown h1, ?_, ?_⟩
  · have hsome := hR.check_isSome E hup hdown (by rw [h1]; rfl)
    obtain ⟨L2', h2⟩ := Option.isSome_iff_exists.mp hsome
    obtain ⟨k1, k2⟩ := rearranged_pairs hR E hup hdown h1 h2
    obtain ⟨k3, k4⟩ := rearranged_lists hR E hup hdown h1 h2
    exact ⟨L2', h2, k1, k2, k3, k4⟩
  · intro plan L0 Ls log i r e hplan hres hr he hl
    exact adjacent_linked E plan L0 Ls log hplan hres i r e hr he hl

/-- Witness of C29: the fork `a`, then `b` and `c`, and the same levels with the two effects of
`a` exchanged and `b` and `c` exchanged: in both, the call links the requirement of `b` to the
effect `p1` of `a`; and in the resolved levels of the plan the requirement of `c` has the effect
`p2` of `a` among its producers. -/
theorem C29_matching_position_free_witness :
    (∃ L2', check_connections diamond_env fork_exchanged 0 1 = some L2' ∧
      (⟨⟨0, 0⟩, 1⟩ : EffRef) ∈ added_producers fork_exchanged L2' ⟨⟨1, 1⟩, 0⟩) ∧
    (∃ q, get_req (diamond_levels fork_plan) ⟨⟨1, 1⟩, 0⟩ = some q ∧
      (⟨⟨0, 0⟩, 1⟩ : EffRef) ∈ q.effect_connections) := by
  have h := C29_matching_position_free diamond_env fork_fresh fork_exchanged fork_linked 0 1
    exchange_units exchange_entries (by decide) (by decide) fork_rearranged rfl
  obtain ⟨hchar, _, ⟨L2', h2, key, _⟩, hadj⟩ := h
  constructor
  · refine ⟨L2', h2, ?_⟩
    have hm : (⟨⟨0, 0⟩, 0⟩ : EffRef) ∈ added_producers fork_fresh fork_linked ⟨⟨1, 0⟩, 0⟩ :=
      (hchar _ _).mpr ⟨by decide, by decide, by decide, by decide⟩
    exact (key ⟨⟨1, 0⟩, 0⟩ (by decide) ⟨⟨0, 0⟩, 0⟩ (by decide)).mp hm
  · have hres : resolve diamond_env fork_plan =
        some ((diamond_levels fork_plan), ((resolve diamond_env fork_plan).getD ([], [])).2) :=
      by rfl
    obtain ⟨q, x, hq, hmem, _⟩ := hadj fork_plan fork_fresh _ _ 0 ⟨⟨1, 1⟩, 0⟩ ⟨⟨0, 0⟩, 1⟩ rfl
      hres (by decide) (by decide) (by decide)
    exact ⟨q, hq, hmem⟩

/-- Claim C28: every text returned by `get_tree` is well nested and indented by nesting depth.
The `root` block at the depth 0 holds the `BehaviorTree` block at the depth 1, which holds
elements at the depth 2; an element at the depth `d` is a self-closing leaf line, or the opening
line of a `Sequence` or `Parallel`, elements at the depth `d + 1`, and the closing line of the
same tag, so blocks close in the reverse order of their opening; every line starts with `2 * d`
spaces.  The subtrees of the roots are elements at the depth 2 when there is at most one root
and at the depth 3, inside one `Parallel` element, when there are more.  The indentation `t n`
is the string of `2 * n` spaces, and when no action name of the plan has a line break, no
identity written in a line has one. -/
theorem C28_well_nested (E : Env) (plan : Plan) (text : String)
    (h : get_tree E plan = some text) :
    WellNested (plan_key plan) text ∧
      (∃ L log subs, resolve E plan = some (L, log) ∧
        List.Forall₂
          (fun r sub => flow_text L L.length r (root_depth (roots L).length) = some sub)
          (roots L) subs ∧
        (∀ sub ∈ subs, Element (plan_key plan) (root_depth (roots L).length) sub) ∧
        text = spec_document (roots L).length subs) ∧
      (∀ n, t n = String.mk (List.replicate (2 * n) ' ')) ∧
      ((∀ item ∈ plan, '\n' ∉ item.action.data) →
        ∀ k, plan_key plan k → '\n' ∉ k.data) :=
  ⟨(get_tree_nested E plan text h).1, (get_tree_nested E plan text h).2,
    t_eq_spec_indent, plan_key_line plan⟩

/-- Witness of C28: the plan `a` at 0, `b` at 1 of the examples has a text, and it is well
nested. -/
theorem C28_well_nested_witness :
    ∃ text, get_tree example_env example_plan = some text ∧
      WellNested (plan_key example_plan) text := by
  obtain ⟨text, h⟩ := Option.isSome_iff_exists.mp
    (rfl : (get_tree example_env example_plan).isSome = true)
  exact ⟨text, h, (C28_well_nested example_env example_plan text h).1⟩

/-- Claim C38: the key `name + ":" + decimal(time)` determines the name and the time, for every
name (also one that holds the character `:`) and every integer time.  Two units are equivalent
under `operator<` (neither is less than the other) exactly when they have the same name and the
same time, and a set that holds one of two such units is not changed by inserting the other. -/
theorem C38_key_injective :
    (∀ (a a' : String) (T T' : Int), spec_key a T = spec_key a' T' ↔ a = a' ∧ T = T') ∧
    (∀ x y : ActionUnit, x.key = y.key ↔ x.action = y.action ∧ x.time = y.time) ∧
    (∀ (L : Levels) (u v : UnitRef),
      (unit_lt L u v = false ∧ unit_lt L v u = false) ↔
        ((unit_at L u).action = (unit_at L v).action ∧
          (unit_at L u).time = (unit_at L v).time)) ∧
    (∀ (L : Levels) (s : List UnitRef) (u v : UnitRef),
      s.Pairwise (fun a b => unit_lt L a b = true) → u ∈ s →
      (unit_at L v).action = (unit_at L u).action → (unit_at L v).time = (unit_at L u).time →
      set_insert (unit_lt L) s v = s) ∧
    (spec_key "a:1" 2 = "a:1:2" ∧ spec_key "a" 12 = "a:12" ∧ spec_key "a:" (-3) = "a::-3") := by
  refine ⟨?_, key_eq_iff, unit_equiv_iff, ?_, by decide, by decide, by decide⟩
  · intro a a' T T'
    constructor
    · exact spec_key_injective a a' T T'
    · rintro ⟨rfl, rfl⟩; rfl
  · intro L s u v hs hu h1 h2
    apply set_insert_same_key L s u v hs hu
    unfold unit_key
    rw [h1, h2]

/-- Claim C33: in the resolved levels of a plan, the producers of a requirement of the level
`i` are either none, and then no earlier level holds an effect that matches it, or they are
exactly the matching effects of one level `j < i`, in the order of the level (unit by unit,
effect by effect), where `j` is the greatest index below `i` of a level that holds a matching
effect; all producers belong to units of the level `j`, and no effect of a level below `j` is
a producer. -/
theorem C33_nearest_producer (E : Env) (plan : Plan) (L : Levels) (log : List TreeNode)
    (h : resolve E plan = some (L, log)) (r : ReqRef) (q : RequirementConnection)
    (hq : get_req L r = some q) :
    (q.effect_connections = [] ∧ ∀ j, j < r.action.level → level_links E L r j = []) ∨
      ∃ j, j < r.action.level ∧ level_links E L r j ≠ [] ∧
        (∀ j', j < j' → j' < r.action.level → level_links E L r j' = []) ∧
        q.effect_connections = (eff_refs L j).filter (linked E L r) ∧
        (∀ e ∈ q.effect_connections, e.action.level = j) ∧
        (∀ e : EffRef, e.action.level < j → e ∉ q.effect_connections) := by
  rcases resolve_nearest E plan L log h r q hq with h0 | ⟨j, hj, hne, hgap, heq⟩
  · exact Or.inl h0
  · right
    have hlev : ∀ e ∈ q.effect_connections, e.action.level = j := by
      intro e he
      rw [heq] at he
      exact (mem_eff_refs.mp (mem_level_links.mp he).1).1
    refine ⟨j, hj, hne, hgap, heq, hlev, ?_⟩
    intro e hlt hmem
    have := hlev e hmem
    omega

/-- Claim C39: when every numeric-expression requirement and every function-modifier effect of
the level vector has a function node as its first operand, every test that `check_connections`
can make on a requirement and an effect has a result (no missing operand is read, no failed
cast is used), so `check_connections` returns on every pair of levels and the whole sweep
returns.  Without the precondition the test has no result on an expression without operand. -/
theorem C39_operands_defined (E : Env) (L : Levels) (h : operands_present L = true) :
    (∀ r e q y, get_req L r = some q → get_effect L e = some y →
      (connects E q.requirement y.effect).isSome = true) ∧
    (∀ up down, up < L.length → down < L.length →
      ∃ L', check_connections E L up down = some L') ∧
    (∃ L', sweep E L = some L') ∧
    connects E (TreeNode.ExpressionNode ExprType.COMP_GE [])
      (TreeNode.FunctionModifierNode FunModType.INCREASE
        [TreeNode.FunctionNode ⟨"battery", [], 0⟩]) = none := by
  refine ⟨?_, ?_, sweep_isSome E L (defined_of_operands E L h), rfl⟩
  · intro r e q y hq hy
    exact connects_isSome E _ _ (operands_present_req L h r q hq)
      (operands_present_effect L h e y hy)
  · intro up down hup hdown
    exact check_connections_isSome E L up down (defined_of_operands E L h) hup hdown

/-- Witness of C39: two levels with a numeric requirement and a function modifier on the same
function. -/
theorem C39_operands_defined_witness :
    ∃ L', check_connections example_env numeric_levels 0 1 = some L' :=
  (C39_operands_defined example_env numeric_levels rfl).2.1 0 1 (by decide) (by decide)

/-- Witness of C33: in the plan `a` at 0, `a` at 1, `b` at 2 the effect `p1` of the first `a`
matches the requirement of `b`, whose producers are the matching effects of the level 1. -/
theorem C33_nearest_producer_witness :
    linked diamond_env (diamond_levels repeated_plan) ⟨⟨2, 0⟩, 0⟩ ⟨⟨0, 0⟩, 0⟩ = true ∧
    ∃ j, j < 2 ∧
      ([⟨⟨1, 0⟩, 0⟩] : List EffRef) =
        (eff_refs (diamond_levels repeated_plan) j).filter
          (linked diamond_env (diamond_levels repeated_plan) ⟨⟨2, 0⟩, 0⟩) := by
  refine ⟨by decide, ?_⟩
  have hres : resolve diamond_env repeated_plan =
      some (diamond_levels repeated_plan, ((resolve diamond_env repeated_plan).getD ([], [])).2) :=
    by rfl
  rcases C33_nearest_producer diamond_env repeated_plan (diamond_levels repeated_plan) _ hres
    ⟨⟨2, 0⟩, 0⟩ ⟨TreeNode.PredicateNode ⟨"p1", []⟩, true, [⟨⟨1, 0⟩, 0⟩]⟩ rfl with
    h0 | ⟨j, hj, _, _, heq, _⟩
  · exact absurd h0.1 (List.cons_ne_nil _ _)
  · exact ⟨j, hj, heq⟩

/-- Claim C34: on the resolved levels of a plan every successor of a unit lies in a strictly
later level, so `get_flow_tree` returns on every unit and for every visited set as soon as the
fuel covers the levels from the unit on, more fuel never changes its result, and `get_tree`
returns.  The resolution itself returns when the knowledge source knows every action of the
plan and the numeric conditions have their operands; so `get_tree` returns for such a plan. -/
theorem C34_flow_terminates (E : Env) (plan : Plan) :
    (∀ L log, resolve E plan = some (L, log) →
      (∀ u s, s ∈ succ L u → u.level < s.level ∧ s.level < L.length) ∧
      (∀ fuel u used l, 1 ≤ fuel → L.length ≤ fuel + u.level →
        (get_flow_tree L fuel u used l).isSome = true) ∧
      (∀ fuel fuel' u used l res, get_flow_tree L fuel u used l = some res → fuel ≤ fuel' →
        get_flow_tree L fuel' u used l = some res) ∧
      ∃ text, get_tree E plan = some text) ∧
    ((∀ item ∈ plan, (E.get_action_from_string item.action).isSome = true) →
      (∀ L0, get_plan_actions E plan = some L0 → operands_present L0 = true) →
      ∃ L log text, resolve E plan = some (L, log) ∧ get_tree E plan = some text) := by
  have key : ∀ L log, resolve E plan = some (L, log) → ∃ text, get_tree E plan = some text := by
    intro L log h
    obtain ⟨subs, _, _, ht⟩ := resolve_text E plan L log h
    exact ⟨_, ht⟩
  refine ⟨?_, ?_⟩
  · intro L log h
    have hF := resolve_final E plan L log h
    refine ⟨?_, ?_, ?_, key L log h⟩
    · intro u s hs
      obtain ⟨hv, hlt⟩ := final_succ_valid E L hF u s hs
      exact ⟨hlt, valid_level_lt hv⟩
    · intro fuel u used l h1 h2
      exact flow_isSome E L hF fuel u used l h1 h2
    · intro fuel fuel' u used l res hres hle
      exact flow_fuel_le L fuel fuel' u used l res hres hle
  · intro hexp hdef
    obtain ⟨L, log, h⟩ := resolve_isSome E plan hexp hdef
    obtain ⟨text, ht⟩ := key L log h
    exact ⟨L, log, text, h, ht⟩

/-- Witness of C34: the diamond `a`, then `b` and `c`, then `d`, in which `d` is reached along
two paths: `get_tree` returns. -/
theorem C34_flow_terminates_witness :
    ∃ L log text, resolve diamond_env diamond_plan = some (L, log) ∧
      get_tree diamond_env diamond_plan = some text :=
  (C34_flow_terminates diamond_env diamond_plan).2
    (by
      intro item hitem
      simp only [diamond_plan, List.mem_cons, List.mem_singleton, List.not_mem_nil,
        or_false] at hitem
      rcases hitem with rfl | rfl | rfl | rfl <;> rfl)
    (by
      intro L0 h0
      have h1 : get_plan_actions diamond_env diamond_plan =
          some ((get_plan_actions diamond_env diamond_plan).getD []) := by rfl
      rw [h1] at h0
      rw [← Option.some.inj h0]
      rfl)

/-- Claim C35: in the resolved levels of a non-empty plan, a unit with no unit in any earlier
level has fan-in 0 (in particular every unit of the level 0), such a unit exists, so the list of
the roots is not empty; and the text of `get_tree` holds one subtree per root inside the
`BehaviorTree` block, at least one. -/
theorem C35_nonempty_plan_has_root (E : Env) (plan : Plan) (L : Levels) (log : List TreeNode)
    (hne : plan ≠ []) (h : resolve E plan = some (L, log)) :
    (∀ u : UnitRef, (∀ p : UnitRef, p.level < u.level → get_unit L p = none) →
      in_cardinality L u = 0) ∧
    (∀ u : UnitRef, u.level = 0 → in_cardinality L u = 0) ∧
    (∃ u, (get_unit L u).isSome = true ∧
      (∀ p : UnitRef, p.level < u.level → get_unit L p = none) ∧ u ∈ roots L) ∧
    roots L ≠ [] ∧
    ∃ subs, subs ≠ [] ∧ subs.length = (roots L).length ∧
      List.Forall₂ (fun r sub => flow_text L L.length r (root_depth (roots L).length) =
        some sub) (roots L) subs ∧
      get_tree E plan = some (spec_document (roots L).length subs) := by
  have hF := resolve_final E plan L log h
  obtain ⟨u0, hu0⟩ := resolve_valid_unit E plan L log hne h
  obtain ⟨u, hu, hfirst⟩ := exists_first_unit L u0 hu0
  have hroot : u ∈ roots L :=
    (mem_roots L u).2 ⟨hu, no_pred_of_first_level E L hF u hfirst⟩
  have hrne : roots L ≠ [] := List.ne_nil_of_mem hroot
  obtain ⟨subs, hlen, hsubs, ht⟩ := resolve_text E plan L log h
  refine ⟨no_pred_of_first_level E L hF, ?_, ⟨u, hu, hfirst, hroot⟩, hrne, subs, ?_, hlen,
    hsubs, ht⟩
  · intro v hv
    apply no_pred_of_first_level E L hF
    intro p hp
    omega
  · intro hc
    rw [hc] at hlen
    exact hrne (List.length_eq_zero.mp hlen.symm)

/-- Witness of C35: the plan of the single action `a` at the time 5: the level 0 is empty and
the unit of the level 1 is the root. -/
theorem C35_nonempty_plan_has_root_witness :
    roots ((resolve example_env [⟨5, "a", 1⟩]).getD ([], [])).1 ≠ [] :=
  (C35_nonempty_plan_has_root example_env [⟨5, "a", 1⟩]
    ((resolve example_env [⟨5, "a", 1⟩]).getD ([], [])).1
    ((resolve example_env [⟨5, "a", 1⟩]).getD ([], [])).2 (List.cons_ne_nil _ _) rfl).2.2.2.1

/-- Claim C37: the flag `only_positives` of `getPredicates` has no effect.  For every node and
every tree the call with `true` leaves the vector as the call with `false` does; the call
appends to the vector, in the order of the operands from left to right, what the operands
append; and the predicate under a `Not` node is appended whatever the flag. -/
theorem C37_only_positives_ignored :
    (∀ (node : TreeNode) (predicates : List Predicate),
      node.getPredicates predicates true = node.getPredicates predicates false) ∧
    (∀ (tree : PredicateTree) (predicates : List Predicate),
      tree.getPredicates predicates true = tree.getPredicates predicates false) ∧
    (∀ (node : TreeNode) (predicates : List Predicate) (b : Bool),
      node.getPredicates predicates b = predicates ++ node.getPredicates [] false) ∧
    (∀ (ops : List TreeNode) (b : Bool),
      (TreeNode.AndNode ops).getPredicates [] b =
          ops.flatMap (fun op => op.getPredicates [] false) ∧
        (TreeNode.OrNode ops).getPredicates [] b =
          ops.flatMap (fun op => op.getPredicates [] false)) ∧
    (∀ (p : Predicate) (predicates : List Predicate) (b : Bool),
      (TreeNode.NotNode (TreeNode.PredicateNode p)).getPredicates predicates b =
        predicates ++ [p]) ∧
    (TreeNode.AndNode
        [TreeNode.NotNode (TreeNode.PredicateNode ⟨"p", []⟩),
          TreeNode.ExpressionNode ExprType.COMP_GE [TreeNode.FunctionNode ⟨"f", [], 0⟩],
          TreeNode.OrNode [TreeNode.PredicateNode ⟨"q", []⟩]]).getPredicates [] true =
      [⟨"p", []⟩, ⟨"q", []⟩] := by
  have hflag : ∀ (node : TreeNode) (ps : List Predicate) (b : Bool),
      node.getPredicates ps b = node.getPredicates ps false := by
    intro node ps b
    cases b with
    | false => rfl
    | true => exact getPredicates_flag node ps
  refine ⟨getPredicates_flag, ?_, ?_, ?_, ?_, by decide⟩
  · intro tree ps
    unfold PredicateTree.getPredicates
    cases tree.root_ with
    | none => rfl
    | some root => exact getPredicates_flag root ps
  · intro node ps b
    rw [getPredicates_append node ps b, hflag node [] b]
  · intro ops b
    have hl : getPredicates_loop ops [] b = ops.flatMap (fun op => op.getPredicates [] false) := by
      rw [getPredicates_loop_flatMap]
      apply List.flatMap_congr
      intro op _
      exact hflag op [] b
    constructor
    · simp only [TreeNode.getPredicates]
      exact hl
    · simp only [TreeNode.getPredicates]
      exact hl
  · intro p ps b
    simp only [TreeNode.getPredicates]

/-- Claim C36: in every text returned by `get_tree` the attribute `success_threshold` of each
`Parallel` block is the number of its direct child elements.  The text is a document of the
grammar `Counted`, in which a `Parallel` line announces the number of the elements up to its
closing line; the subtrees of the roots are as many as the roots, one element each, and they
are the children of the top-level `Parallel` when there are several roots; the successors of a
unit are pairwise different in their identities and each contributes one element; the block
inside an execution block announces 2 and holds two leaves. -/
theorem C36_parallel_thresholds (E : Env) (plan : Plan) (text : String)
    (h : get_tree E plan = some text) :
    WellCounted (plan_key plan) text ∧
      (∃ L log subs, resolve E plan = some (L, log) ∧
        subs.length = (roots L).length ∧
        (∀ sub ∈ subs, Counted (plan_key plan) (root_depth (roots L).length) sub) ∧
        text = spec_document (roots L).length subs ∧
        (∀ n, (succ L n).Pairwise (fun a b => unit_lt L a b = true)) ∧
        (∀ n fuel l sub, out_cardinality L n > 1 → flow_text L (fuel + 1) n l = some sub →
          ∃ children : List String, children.length = out_cardinality L n ∧
            List.Forall₂ (fun s c => flow_text L fuel s (l + 2) = some c) (succ L n)
              children ∧
            sub = flow_head L n l ++ successors_open (out_cardinality L n) (l + 1) ++
              String.join children ++ spec_line (l + 1) "</Parallel>" ++
              spec_line l "</Sequence>")) ∧
      (∀ (a : String) (T : Int) (l : Nat),
        execution_block a T l =
          spec_line l ("<Sequence name=\"" ++ spec_key a T ++ "\">") ++
            String.join
              [spec_line (l + 1) ("<WaitAtStartReq action=\"" ++ spec_key a T ++ "\"/>"),
                spec_line (l + 1) ("<ApplyAtStartEffect action=\"" ++ spec_key a T ++ "\"/>"),
                spec_line (l + 1)
                    "<Parallel success_threshold=\"2\" failure_threshold=\"1\">" ++
                  String.join
                    [spec_line (l + 2)
                        ("<CheckOverAllReq action=\"" ++ spec_key a T ++ "\"/>"),
                      spec_line (l + 2)
                        ("<ExecuteAction action=\"" ++ spec_key a T ++ "\"/>")] ++
                  spec_line (l + 1) "</Parallel>",
                spec_line (l + 1) ("<CheckAtEndReq action=\"" ++ spec_key a T ++ "\"/>"),
                spec_line (l + 1) ("<ApplyAtEndEffect action=\"" ++ spec_key a T ++ "\"/>")] ++
            spec_line l "</Sequence>") := by
  obtain ⟨hw, L, log, subs, hres, hsubs, hel, htext⟩ := get_tree_counted E plan text h
  refine ⟨hw, ⟨L, log, subs, hres, hsubs.length_eq.symm, hel, htext, succ_pairwise L, ?_⟩,
    execution_block_children⟩
  intro n fuel l sub hout hflow
  rw [flow_text_many L fuel n l hout] at hflow
  cases hm : (succ L n).mapM (fun s => flow_text L fuel s (l + 2)) with
  | none =>
    rw [hm] at hflow
    exact absurd hflow (by simp)
  | some children =>
    rw [hm] at hflow
    have h' := Option.some.inj hflow
    refine ⟨children, mapM_some_length _ _ _ hm, mapM_some_forall2 _ _ _ hm, ?_⟩
    rw [← h']
    rfl

/-- Witness of C36: the fork `a`, then `b` and `c`, whose text has a `Parallel` block of the
two successors of `a`. -/
theorem C36_parallel_thresholds_witness :
    ∃ text, get_tree diamond_env fork_plan = some text ∧
      WellCounted (plan_key fork_plan) text := by
  obtain ⟨text, h⟩ := Option.isSome_iff_exists.mp
    (rfl : (get_tree diamond_env fork_plan).isSome = true)
  exact ⟨text, h, (C36_parallel_thresholds diamond_env fork_plan text h).1⟩

/-- Claim C32: in the text of `get_tree` every execution block comes after its producers.  The
subtree of every root is guarded with no identity before it: wherever the execution block of a
unit occurs, the identity of each unit that owns a producer of one of its requirements is the
identity of a unit whose execution block comes before it in an enclosing `Sequence` (the unit
is emitted as a successor of that unit) or stands in a `WaitAction` line before the block in
the same `Sequence`.  The identities of the producers of a unit are those of the elements of
`pred`. -/
theorem C32_causal_soundness (E : Env) (plan : Plan) (L : Levels) (log : List TreeNode)
    (h : resolve E plan = some (L, log)) :
    (∃ subs,
      List.Forall₂ (fun r sub => flow_text L L.length r (root_depth (roots L).length) =
        some sub) (roots L) subs ∧
      get_tree E plan = some (spec_document (roots L).length subs) ∧
      ∀ sub ∈ subs, Guarded L [] (root_depth (roots L).length) sub) ∧
    (∀ u k, k ∈ producer_keys L u ↔ ∃ p ∈ pred L u, unit_key L p = k) ∧
    (∀ fuel n l sub done, (get_unit L n).isSome = true →
      (in_cardinality L n ≤ 1 → ∀ k ∈ producer_keys L n, k ∈ done) →
      flow_text L fuel n l = some sub → Guarded L done l sub) ∧
    (∀ n s, (get_unit L n).isSome = true → s ∈ succ L n → in_cardinality L s ≤ 1 →
      ∀ k ∈ producer_keys L s, k = unit_key L n) :=
  ⟨resolve_guarded E plan L log h, mem_producer_keys_iff_pred L,
    flow_guarded E L (resolve_final E plan L log h),
    fun n s hn hs hin k hk => by
      have := successor_cover E L (resolve_final E plan L log h) n s hn hs [] hin k hk
      simpa using this⟩

/-- Witness of C32: the diamond `a`, then `b` and `c`, then `d`, whose unit `d` has the two
producers `b` and `c`. -/
theorem C32_causal_soundness_witness :
    producer_keys (diamond_levels diamond_plan) ⟨2, 0⟩ = ["b:1", "c:1"] ∧
    ∃ subs, get_tree diamond_env diamond_plan =
        some (spec_document (roots (diamond_levels diamond_plan)).length subs) ∧
      ∀ sub ∈ subs, Guarded (diamond_levels diamond_plan) []
        (root_depth (roots (diamond_levels diamond_plan)).length) sub := by
  refine ⟨by decide, ?_⟩
  have hres : resolve diamond_env diamond_plan =
      some (diamond_levels diamond_plan, ((resolve diamond_env diamond_plan).getD ([], [])).2) :=
    by rfl
  obtain ⟨subs, _, ht, hg⟩ := (C32_causal_soundness diamond_env diamond_plan _ _ hres).1
  exact ⟨subs, ht, hg⟩

/-- Claim C31, evaluated on the code: for a predicate whose name and parameter names hold no
space, `toString` is the opening parenthesis, the name, each parameter name after one space, and
the closing parenthesis.  Parsing the text back gives the name and the parameter names with
empty types when there is at least one parameter; when there is none, `fromString` copies the
name before it removes the closing parenthesis, so the name comes back with the parenthesis
appended: `Predicate("(p)")` has the name `p)` and its text is `(p))`. -/
theorem C31_predicate_round_trip :
    (∀ p : Predicate, p.toString.data =
      ('(' :: p.name.data) ++
        ((p.parameters.map (fun q => q.name.data)).flatMap (fun n => ' ' :: n) ++ [')'])) ∧
    (∀ p : Predicate, ' ' ∉ p.name.data → (∀ q ∈ p.parameters, ' ' ∉ q.name.data) →
      p.parameters ≠ [] →
      Predicate.ofString p.toString = some (untyped p) ∧
        (Predicate.ofString p.toString).map Predicate.toString = some p.toString) ∧
    (∀ name : String, ' ' ∉ name.data →
      Predicate.ofString (Predicate.toString ⟨name, []⟩) = some ⟨name ++ ")", []⟩) ∧
    Predicate.ofString "(p)" = some ⟨"p)", []⟩ ∧
    (Predicate.ofString "(p)").map Predicate.toString = some "(p))" ∧
    Predicate.ofString "(robot_at robot1 assembly_zone)" =
      some ⟨"robot_at", [⟨"robot1", "", []⟩, ⟨"assembly_zone", "", []⟩]⟩ ∧
    (Predicate.ofString "(charger_at wp3)").map Predicate.toString =
      some "(charger_at wp3)" := by
  refine ⟨toString_data, ?_, ?_, by decide, by decide, by decide, by decide⟩
  · intro p hname hparams hne
    have h := ofString_toString p hname hparams
    rw [if_neg hne] at h
    refine ⟨h, ?_⟩
    rw [h]
    simp only [Option.map_some', Option.some.injEq]
    apply String.ext
    rw [toString_data, toString_data]
    have hm : (untyped p).parameters.map (fun q => q.name.data) =
        p.parameters.map (fun q => q.name.data) := by
      unfold untyped
      rw [List.map_map]
      rfl
    rw [hm]
    rfl
  · intro name hname
    have h := ofString_toString ⟨name, []⟩ hname (fun q hq => absurd hq (List.not_mem_nil _))
    simpa using h

end plansys2
